import Mathlib

/-!
# jsEngine: a shallow embedding of the lexer, the parser and the tree-walking VM

The C++ sources (`lexer.cpp`, `parser.cpp`, `value.h`, `value.cpp`, `vm.cpp`) are
translated function by function.  Conventions of the embedding:

* `std::string` is a Lean `String`; indexing goes through its list of characters.
  `s[i]` with `i = s.length()` reads the terminating NUL, a read beyond that is
  undefined behaviour and is reported as such.
* `ValuePtr` (a `std::shared_ptr<Value>`) is an optional address into a heap of
  value cells, `none` being the null pointer.  The static singletons live at fixed
  addresses.
* `Scope*` is an optional index into the table of scopes the parser allocates.
* C++ loops are recursions on an explicit fuel argument.
* A thrown `ParseError` / `ExecError` and a dereferenced null pointer are distinct
  results; the text of the messages and the lines written to `std::cout` are not
  modelled.
-/

namespace cl

/-! ## common.h -/

structure Position where
  line_ : Nat
  col_ : Nat
deriving DecidableEq, Repr, Inhabited

structure PositionRange where
  begin_ : Position
  end_ : Position
deriving DecidableEq, Repr, Inhabited

/-! ## lexer.h -/

def KEYWORDS : List String := [
  "abstract", "arguments", "boolean", "break", "byte",
  "case", "catch", "char", "class", "const", "continue",
  "debugger", "default", "delete", "do", "double", "else",
  "enum", "eval", "export", "extends", "false", "final",
  "finally", "float", "for", "function", "goto", "if",
  "implements", "import", "in", "instanceof", "int",
  "interface", "let", "long", "native", "new", "null",
  "package", "private", "protected", "public", "return",
  "short", "static", "super", "switch", "synchronized",
  "this", "throw", "throws", "transient", "true", "try",
  "typeof", "var", "void", "volatile", "while", "with",
  "yield"]

inductive TokenType where
  | COMMA | COLON | QUESTION | SEMICOLON | DOT
  | LPAREN | RPAREN | LBRACKET | RBRACKET | LBRACE | RBRACE
  | OPERATOR
  | IDENTIFIER | NUMBER | STRING | REGULAR
  | KEYWORD
  | END_OF_LINE | END_OF_FILE
deriving DecidableEq, Repr, Inhabited

structure Token where
  type_ : TokenType
  data_ : String
  range_ : PositionRange
deriving DecidableEq, Repr, Inhabited

def TOKEN_MAP : List (String × TokenType) := [
  (",", .COMMA), (";", .SEMICOLON), (":", .COLON), ("?", .QUESTION), (".", .DOT),
  ("(", .LPAREN), (")", .RPAREN), ("[", .LBRACKET), ("]", .RBRACKET),
  ("\x7b", .LBRACE), ("\x7d", .RBRACE),
  ("+", .OPERATOR), ("-", .OPERATOR), ("*", .OPERATOR), ("/", .OPERATOR),
  ("%", .OPERATOR), ("++", .OPERATOR), ("--", .OPERATOR),
  ("&", .OPERATOR), ("|", .OPERATOR), ("~", .OPERATOR), ("^", .OPERATOR),
  ("<<", .OPERATOR), (">>", .OPERATOR),
  ("=", .OPERATOR), ("+=", .OPERATOR), ("-=", .OPERATOR), ("*=", .OPERATOR),
  ("/=", .OPERATOR), ("%=", .OPERATOR), ("&=", .OPERATOR), ("|=", .OPERATOR),
  ("~=", .OPERATOR), ("^=", .OPERATOR), ("<<=", .OPERATOR), (">>=", .OPERATOR),
  (">", .OPERATOR), (">=", .OPERATOR), ("<", .OPERATOR), ("<=", .OPERATOR),
  ("==", .OPERATOR), ("!=", .OPERATOR), ("===", .OPERATOR), ("!==", .OPERATOR),
  ("&&", .OPERATOR), ("||", .OPERATOR), ("!", .OPERATOR)]

/-- The lookup `m.find(key)` of a `std::unordered_map` with string keys, on the
association list that lists its entries. -/
def mapFind {α : Type} (m : List (String × α)) (key : String) : Option α :=
  match m with
  | [] => none
  | (k, v) :: rest => if k = key then some v else mapFind rest key

/-! ## lexer.cpp -/

/-- The read `s[i]` of a `std::string`: the character at `i`, the NUL terminator at
`i = s.length()`, and `none` (undefined behaviour) beyond. -/
def charAt (s : List Char) (i : Nat) : Option Char :=
  if i < s.length then s[i]?
  else if i = s.length then some (Char.ofNat 0)
  else none

/-- The call `s.substr(pos, n)` for `pos ≤ s.length()`. -/
def substr (s : List Char) (pos n : Nat) : List Char :=
  (s.drop pos).take n

def isDigit (c : Char) (base : Nat := 10) : Bool :=
  if base ≤ 10 then
    decide ('0'.toNat ≤ c.toNat) && decide (c.toNat + 1 ≤ '0'.toNat + base)
  else
    (decide ('0'.toNat ≤ c.toNat) && decide (c.toNat ≤ '9'.toNat))
    || (decide ('a'.toNat ≤ c.toNat) && decide (c.toNat + 10 < 'a'.toNat + base))
    || (decide ('A'.toNat ≤ c.toNat) && decide (c.toNat + 10 < 'A'.toNat + base))

def isUpperLetter (c : Char) : Bool :=
  decide ('A'.toNat ≤ c.toNat) && decide (c.toNat ≤ 'Z'.toNat)

def isLowerLetter (c : Char) : Bool :=
  decide ('a'.toNat ≤ c.toNat) && decide (c.toNat ≤ 'z'.toNat)

def isLetter (c : Char) : Bool :=
  isUpperLetter c || isLowerLetter c

def isIdentifierFirst (c : Char) : Bool :=
  isLetter c || c == '_' || c == '$'

def isIdentifier (c : Char) : Bool :=
  isLetter c || isDigit c || c == '_' || c == '$'

/-- The body of the `for` loop of `escape`: `i` and `p` advance together, a
recognised escape sequence advances `i` once more, an unrecognised one writes
nothing at `p`. -/
def escapeLoop (s : List Char) (n : Nat) : Nat → Nat → Nat → List Char → List Char
  | 0, _, _, ret => ret
  | fuel + 1, i, p, ret =>
    if i < n then
      if i + 1 < n && s.getD i (Char.ofNat 0) == '\\' then
        match s.getD (i + 1) (Char.ofNat 0) with
        | '\'' => escapeLoop s n fuel (i + 2) (p + 1) (ret.set p '\'')
        | '\"' => escapeLoop s n fuel (i + 2) (p + 1) (ret.set p '\"')
        | '\\' => escapeLoop s n fuel (i + 2) (p + 1) (ret.set p '\\')
        | 'n' => escapeLoop s n fuel (i + 2) (p + 1) (ret.set p '\n')
        | 'r' => escapeLoop s n fuel (i + 2) (p + 1) (ret.set p '\r')
        | 't' => escapeLoop s n fuel (i + 2) (p + 1) (ret.set p '\t')
        | 'b' => escapeLoop s n fuel (i + 2) (p + 1) (ret.set p (Char.ofNat 8))
        | 'f' => escapeLoop s n fuel (i + 2) (p + 1) (ret.set p (Char.ofNat 12))
        | _ => escapeLoop s n fuel (i + 1) (p + 1) ret
      else
        escapeLoop s n fuel (i + 1) (p + 1) (ret.set p (s.getD i (Char.ofNat 0)))
    else ret

/-- The function `escape`: the result keeps the length of `s` (it is resized to `n`
NUL characters first and never shrunk). -/
def escape (s : List Char) : List Char :=
  escapeLoop s s.length s.length 0 0 (List.replicate s.length (Char.ofNat 0))

/-- The local variables of `Lexer::process` together with `tokens_`. -/
structure LexState where
  cur : Nat
  forward : Nat
  line : Nat
  col : Nat
  tokens_ : List Token
deriving Repr

/-- What `Lexer::process` ends in. -/
inductive LexResult where
  | tokens (ts : List Token)
  | outOfBounds
  | fuelOut
deriving Repr, DecidableEq

/-- The loop `while (forward < end && isIdentifier(source[forward]))`. -/
def scanIdentifier (src : List Char) (end_ : Nat) : Nat → Nat → Nat → Nat × Nat
  | 0, forward, col => (forward, col)
  | fuel + 1, forward, col =>
    if forward < end_ && isIdentifier (src.getD forward (Char.ofNat 0)) then
      scanIdentifier src end_ fuel (forward + 1) (col + 1)
    else (forward, col)

/-- The loop `while (forward < end && source[forward] != c)` of the string and the
regular-expression branches; it returns `forward`, `line` and `col`. -/
def scanQuoted (src : List Char) (end_ : Nat) (c : Char) :
    Nat → Nat → Nat → Nat → Nat × Nat × Nat
  | 0, forward, line, col => (forward, line, col)
  | fuel + 1, forward, line, col =>
    if forward < end_ && src.getD forward (Char.ofNat 0) != c then
      let ch := src.getD forward (Char.ofNat 0)
      let line1 := if ch == '\n' then line + 1 else line
      let col1 := if ch == '\n' then 1 else col + 1
      let forward1 := if ch == '\\' then forward + 1 else forward
      scanQuoted src end_ c fuel (forward1 + 1) line1 col1
    else (forward, line, col)

/-- The unguarded loop `while (isLetter(source[forward])) ++forward;` after a
regular-expression literal; `none` when it reads beyond the terminator. -/
def scanFlags (src : List Char) : Nat → Nat → Option Nat
  | 0, _ => none
  | fuel + 1, forward =>
    match charAt src forward with
    | none => none
    | some ch => if isLetter ch then scanFlags src fuel (forward + 1) else some forward

/-- The loop `while (forward < end && source[forward] != '\n')` of a line comment. -/
def scanLineComment (src : List Char) (end_ : Nat) : Nat → Nat → Nat → Nat × Nat
  | 0, forward, col => (forward, col)
  | fuel + 1, forward, col =>
    if forward < end_ && src.getD forward (Char.ofNat 0) != '\n' then
      scanLineComment src end_ fuel (forward + 1) (col + 1)
    else (forward, col)

/-- The loop `while (forward < end)` of a block comment; it returns `forward`,
`line` and `col`. -/
def scanBlockComment (src : List Char) (end_ : Nat) :
    Nat → Nat → Nat → Nat → Nat × Nat × Nat
  | 0, forward, line, col => (forward, line, col)
  | fuel + 1, forward, line, col =>
    if forward < end_ then
      let ch := src.getD forward (Char.ofNat 0)
      if ch == '\n' then
        scanBlockComment src end_ fuel (forward + 1) (line + 1) 1
      else if ch == '*' then
        if forward + 1 < end_ && src.getD (forward + 1) (Char.ofNat 0) == '/' then
          (forward + 2, line, col)
        else scanBlockComment src end_ fuel (forward + 1) line col
      else scanBlockComment src end_ fuel (forward + 1) line col
    else (forward, line, col)

/-- The unguarded loop `while (isDigit(source[forward], base)) ++forward;`. -/
def scanDigits (src : List Char) (base : Nat) : Nat → Nat → Option Nat
  | 0, _ => none
  | fuel + 1, forward =>
    match charAt src forward with
    | none => none
    | some ch =>
      if isDigit ch base then scanDigits src base fuel (forward + 1) else some forward

/-- The loop extending an operator while the longer lexeme is still in `TOKEN_MAP`. -/
def scanOperator (src : List Char) (end_ cur : Nat) : Nat → Nat → Nat → Nat × Nat
  | 0, forward, col => (forward, col)
  | fuel + 1, forward, col =>
    if forward < end_
        && (mapFind TOKEN_MAP (String.mk (substr src cur (forward - cur + 1)))).isSome then
      scanOperator src end_ cur fuel (forward + 1) (col + 1)
    else (forward, col)

/-- The number branch of `Lexer::process` from the choice of the base on: it returns
the final `forward`, or `none` on a read beyond the terminator. -/
def scanNumber (src : List Char) (c : Char) (forward0 : Nat) : Option Nat :=
  let fuel := src.length + 2
  let pre : Option (Nat × Nat) :=
    if c == '0' then
      match charAt src forward0 with
      | none => none
      | some d =>
        if d == 'X' || d == 'x' then some (16, forward0 + 1)
        else if d == 'B' || d == 'b' then some (2, forward0 + 1)
        else if d == 'O' || d == 'o' || (decide ('0'.toNat ≤ d.toNat) && decide (d.toNat ≤ '7'.toNat))
          then some (8, forward0 + 1)
        else some (10, forward0 - 1 + 1)
    else some (10, forward0)
  match pre with
  | none => none
  | some (base, f0) =>
    match scanDigits src base fuel f0 with
    | none => none
    | some f1 =>
      let afterDot : Option Nat :=
        match charAt src f1 with
        | none => none
        | some d => if d == '.' then scanDigits src base fuel (f1 + 1) else some f1
      match afterDot with
      | none => none
      | some f2 =>
        match charAt src f2 with
        | none => none
        | some d =>
          if d == 'e' || d == 'E' then
            match charAt src (f2 + 1) with
            | none => none
            | some s =>
              if s == '+' || s == '-' then scanDigits src base fuel (f2 + 1)
              else some (f2 + 1)
          else some f2

/-- Whether the last emitted token allows a regular-expression literal to start:
the test on `tokens_.size()` and `tokens_.rbegin()` in `Lexer::process`. -/
def regexAllowed (tokens_ : List Token) : Bool :=
  match tokens_.getLast? with
  | none => true
  | some t =>
    t.type_ != .IDENTIFIER && t.type_ != .NUMBER && t.type_ != .STRING
      && t.type_ != .REGULAR && t.type_ != .KEYWORD && t.data_ != ")"

/-- One iteration of the `while (cur < end)` loop of `Lexer::process`, from the
state at the top of the loop to the state after `cur = forward`. -/
def processStep (src : List Char) (st : LexState) : Option LexState :=
  let end_ := src.length
  let cur := st.cur
  let c := src.getD cur (Char.ofNat 0)
  let begin : Position := ⟨st.line, st.col⟩
  let forward := cur + 1
  let line := st.line
  let col := st.col + 1
  let next := src.getD forward (Char.ofNat 0)
  if isIdentifierFirst c then
    let (forward1, col1) := scanIdentifier src end_ end_ forward col
    let data := String.mk (substr src cur (forward1 - cur))
    let type := if data ∈ KEYWORDS then TokenType.KEYWORD else TokenType.IDENTIFIER
    some ⟨forward1, forward1, line, col1, st.tokens_ ++ [⟨type, data, ⟨begin, ⟨line, col1⟩⟩⟩]⟩
  else if c == '"' || c == '\'' then
    let (forward1, line1, col1) := scanQuoted src end_ c end_ forward line col
    let data := String.mk (escape (substr src cur (forward1 - cur + 1)))
    some ⟨forward1 + 1, forward1 + 1, line1, col1,
      st.tokens_ ++ [⟨.STRING, data, ⟨begin, ⟨line1, col1⟩⟩⟩]⟩
  else if c == '/' && next != '/' && next != '*' && regexAllowed st.tokens_ then
    let (forward1, line1, col1) := scanQuoted src end_ c end_ forward line col
    let data := String.mk (substr src cur (forward1 - cur + 1))
    match scanFlags src (end_ + 2) (forward1 + 1) with
    | none => none
    | some forward2 =>
      some ⟨forward2, forward2, line1, col1,
        st.tokens_ ++ [⟨.REGULAR, data, ⟨begin, ⟨line1, col1⟩⟩⟩]⟩
  else if c == '/' && next == '/' then
    let (forward1, col1) := scanLineComment src end_ end_ forward col
    some ⟨forward1, forward1, line, col1, st.tokens_⟩
  else if c == '/' && next == '*' then
    let (forward1, line1, col1) := scanBlockComment src end_ end_ (forward + 1) line (col + 1)
    some ⟨forward1, forward1, line1, col1, st.tokens_⟩
  else if isDigit c then
    match scanNumber src c forward with
    | none => none
    | some forward1 =>
      let data := String.mk (substr src cur (forward1 - cur))
      some ⟨forward1, forward1, line, col,
        st.tokens_ ++ [⟨.NUMBER, data, ⟨begin, ⟨line, col⟩⟩⟩]⟩
  else if c == '\n' then
    some ⟨forward, forward, line + 1, 1, st.tokens_⟩
  else if (mapFind TOKEN_MAP (String.mk (substr src cur 1))).isSome then
    let (forward1, col1) := scanOperator src end_ cur end_ forward col
    let data := String.mk (substr src cur (forward1 - cur))
    match mapFind TOKEN_MAP data with
    | none => none
    | some type =>
      some ⟨forward1, forward1, line, col1, st.tokens_ ++ [⟨type, data, ⟨begin, ⟨line, col1⟩⟩⟩]⟩
  else
    some ⟨forward, forward, line, col, st.tokens_⟩

/-- The loop `while (cur < end)` of `Lexer::process` followed by the push of the
end-of-file token. -/
def processLoop (src : List Char) : Nat → LexState → LexResult
  | 0, st =>
    if st.cur < src.length then .fuelOut
    else .tokens (st.tokens_ ++ [⟨.END_OF_FILE, "", ⟨⟨st.line, st.col⟩, ⟨st.line, st.col⟩⟩⟩])
  | fuel + 1, st =>
    if st.cur < src.length then
      match processStep src st with
      | none => .outOfBounds
      | some st1 => processLoop src fuel st1
    else .tokens (st.tokens_ ++ [⟨.END_OF_FILE, "", ⟨⟨st.line, st.col⟩, ⟨st.line, st.col⟩⟩⟩])

/-- The function `Lexer::process`: the tokens of a source.  The source is the list of its
characters: an index and a column count one for each character, where the code counts
bytes; the two agree on a source of ASCII characters. -/
def process (source : String) : LexResult :=
  processLoop source.data source.data.length ⟨0, 0, 1, 1, []⟩

/-- The class `Lexer` after its constructor and `restart()`: the token list with the
cursor `iter_` at its first element.  `get` and `peek` on an exhausted list
dereference `tokens_.end()`. -/
def Lexer (source : String) : LexResult := process source

/-! ## ast.h -/

/-- The class `Identifier` (it is also the type of `Function::id_`,
`Function::args_` and `Declaration::id_`). -/
structure Identifier where
  range_ : PositionRange
  scope_ : Option Nat
  name_ : String
deriving DecidableEq, Repr, Inhabited

mutual
/-- The class hierarchy below `AST`; the constructor is the `type_` tag, `range_`
and `scope_` are the members of the base class (`scope_` is `none` until a parser
function assigns it). -/
inductive AST where
  | Identifier (id : Identifier)
  | Program (range_ : PositionRange) (scope_ : Option Nat) (stmts_ : List AST)
  | Function (range_ : PositionRange) (scope_ : Option Nat) (id_ : Option Identifier)
      (args_ : List Identifier) (stmts_ : List AST)
  | Empty (range_ : PositionRange) (scope_ : Option Nat)
  | Var (range_ : PositionRange) (scope_ : Option Nat) (vlist_ : List Declaration)
  | Block (range_ : PositionRange) (scope_ : Option Nat) (stmts_ : List AST)
  | Condition (range_ : PositionRange) (scope_ : Option Nat) (cond_ : AST) (yes_ : AST)
      (no_ : Option AST)
  | Switch (range_ : PositionRange) (scope_ : Option Nat) (expr_ : AST) (branches_ : List AST)
  | Case (range_ : PositionRange) (scope_ : Option Nat) (expr_ : Option AST)
  | DoLoop (range_ : PositionRange) (scope_ : Option Nat) (blk_ : AST) (cond_ : AST)
  | Loop (range_ : PositionRange) (scope_ : Option Nat) (cond_ : AST) (stmt_ : AST)
  | ForLoop (range_ : PositionRange) (scope_ : Option Nat) (init_ : Option AST)
      (cond_ : Option AST) (iter_ : Option AST) (stmt_ : AST)
  | ForInLoop (range_ : PositionRange) (scope_ : Option Nat) (key_ : AST) (target_ : AST)
      (stmt_ : AST)
  | Return (range_ : PositionRange) (scope_ : Option Nat) (expr_ : Option AST)
  | Break (range_ : PositionRange) (scope_ : Option Nat)
  | Continue (range_ : PositionRange) (scope_ : Option Nat)
  | With (range_ : PositionRange) (scope_ : Option Nat) (expr_ : AST) (stmt_ : AST)
  | Try (range_ : PositionRange) (scope_ : Option Nat) (tryblk_ : AST)
      (catches_ : List (AST × AST)) (finblk_ : Option AST)
  | Throw (range_ : PositionRange) (scope_ : Option Nat) (expr_ : AST)
  | GroupExpression (range_ : PositionRange) (scope_ : Option Nat) (elist_ : List AST)
  | UniExpression (range_ : PositionRange) (scope_ : Option Nat) (op_ : String) (expr_ : AST)
      (pre_ : Bool)
  | BiExpression (range_ : PositionRange) (scope_ : Option Nat) (left_ : AST) (op_ : String)
      (right_ : AST)
  | TriExpression (range_ : PositionRange) (scope_ : Option Nat) (cond_ : AST) (yes_ : AST)
      (no_ : AST)
  | Constructor (range_ : PositionRange) (scope_ : Option Nat) (ctor_ : AST)
  | ArrayMember (range_ : PositionRange) (scope_ : Option Nat) (base_ : AST) (attr_ : AST)
  | ObjectMember (range_ : PositionRange) (scope_ : Option Nat) (base_ : AST) (attr_ : AST)
  | Call (range_ : PositionRange) (scope_ : Option Nat) (func_ : AST) (args_ : List AST)
  | LiteralBool (range_ : PositionRange) (scope_ : Option Nat) (b_ : Bool)
  | LiteralNumber (range_ : PositionRange) (scope_ : Option Nat) (data_ : String)
  | LiteralString (range_ : PositionRange) (scope_ : Option Nat) (str_ : String)
  | LiteralNull (range_ : PositionRange) (scope_ : Option Nat)
  | Keyword (range_ : PositionRange) (scope_ : Option Nat) (data_ : String)
  | Array (range_ : PositionRange) (scope_ : Option Nat) (elem_ : List AST)
  | Object (range_ : PositionRange) (scope_ : Option Nat) (kv_ : List (AST × AST))
  | LiteralRegular (range_ : PositionRange) (scope_ : Option Nat) (re_ : String)
/-- The class `Declaration`, the element type of `Var::vlist_`. -/
inductive Declaration where
  | mk (range_ : PositionRange) (scope_ : Option Nat) (id_ : Identifier) (init_ : Option AST)
end

instance : Inhabited AST := ⟨.Empty default none⟩

/-- The member `scope_` of a node. -/
def AST.scope_ : AST → Option Nat
  | .Identifier id => id.scope_
  | .Program _ s _ | .Function _ s _ _ _ | .Empty _ s | .Var _ s _ | .Block _ s _
  | .Condition _ s _ _ _ | .Switch _ s _ _ | .Case _ s _ | .DoLoop _ s _ _ | .Loop _ s _ _
  | .ForLoop _ s _ _ _ _ | .ForInLoop _ s _ _ _ | .Return _ s _ | .Break _ s | .Continue _ s
  | .With _ s _ _ | .Try _ s _ _ _ | .Throw _ s _ | .GroupExpression _ s _
  | .UniExpression _ s _ _ _ | .BiExpression _ s _ _ _ | .TriExpression _ s _ _ _
  | .Constructor _ s _ | .ArrayMember _ s _ _ | .ObjectMember _ s _ _ | .Call _ s _ _
  | .LiteralBool _ s _ | .LiteralNumber _ s _ | .LiteralString _ s _ | .LiteralNull _ s
  | .Keyword _ s _ | .Array _ s _ | .Object _ s _ | .LiteralRegular _ s _ => s

/-- The member `range_` of a node. -/
def AST.range_ : AST → PositionRange
  | .Identifier id => id.range_
  | .Program r _ _ | .Function r _ _ _ _ | .Empty r _ | .Var r _ _ | .Block r _ _
  | .Condition r _ _ _ _ | .Switch r _ _ _ | .Case r _ _ | .DoLoop r _ _ _ | .Loop r _ _ _
  | .ForLoop r _ _ _ _ _ | .ForInLoop r _ _ _ _ | .Return r _ _ | .Break r _ | .Continue r _
  | .With r _ _ _ | .Try r _ _ _ _ | .Throw r _ _ | .GroupExpression r _ _
  | .UniExpression r _ _ _ _ | .BiExpression r _ _ _ _ | .TriExpression r _ _ _ _
  | .Constructor r _ _ | .ArrayMember r _ _ _ | .ObjectMember r _ _ _ | .Call r _ _ _
  | .LiteralBool r _ _ | .LiteralNumber r _ _ | .LiteralString r _ _ | .LiteralNull r _
  | .Keyword r _ _ | .Array r _ _ | .Object r _ _ | .LiteralRegular r _ _ => r

/-- The constructor `LiteralString(Token s)`: `s.data_.substr(1, s.data_.length()-2)`;
for a one-character lexeme the unsigned count wraps and the rest of the string is
taken. -/
def LiteralString.ofToken (s : Token) : AST :=
  let d := s.data_.data
  let n := if 2 ≤ d.length then d.length - 2 else d.length
  .LiteralString s.range_ none (String.mk (substr d 1 n))

/-! ## parser.h -/

def PRIORITY : List (String × Nat) := [
  ("?", 1),
  ("+", 10), ("-", 10), ("*", 11), ("/", 11), ("%", 11), ("++", 15), ("--", 15),
  ("&", 6), ("|", 4), ("~", 15), ("^", 5), ("<<", 9), (">>", 9),
  ("=", 0), ("+=", 0), ("-=", 0), ("*=", 0), ("/=", 0), ("%=", 0), ("&=", 0), ("|=", 0),
  ("~=", 0), ("^=", 0), ("<<=", 0), (">>=", 0),
  (">", 8), (">=", 8), ("<", 8), ("<=", 8), ("instanceof", 8), ("in", 8),
  ("==", 7), ("!=", 7), ("===", 7), ("!==", 7), ("&&", 3), ("||", 2), ("!", 15)]

/-- The state a `Parser` works on: the tokens from the cursor of `lex_` on, and the
`parent_` pointer of every `Scope` allocated so far (a scope is named by its index
in this list, in allocation order). -/
structure ParserState where
  toks : List Token
  scopes : List (Option Nat)
deriving Repr, DecidableEq

/-- What a parser function ends in: a value and the next state, a thrown
`ParseError`, a dereference of the end of the token list, or exhausted fuel. -/
inductive ParseResult (α : Type) where
  | ok (a : α) (st : ParserState)
  | parseError
  | undefinedBehaviour
  | fuelOut

abbrev ParserM (α : Type) := ParserState → ParseResult α

def ParserM.bind {α β : Type} (m : ParserM α) (f : α → ParserM β) : ParserM β :=
  fun st =>
    match m st with
    | .ok a st1 => f a st1
    | .parseError => .parseError
    | .undefinedBehaviour => .undefinedBehaviour
    | .fuelOut => .fuelOut

instance : Monad ParserM where
  pure a := fun st => .ok a st
  bind := ParserM.bind

/-! ## parser.cpp -/

namespace Parser

/-- The expression `throw ParseError(...)`. -/
def throwParseError {α : Type} : ParserM α := fun _ => .parseError

/-- The call `lex_->peek()`. -/
def peek : ParserM Token := fun st =>
  match st.toks with
  | [] => .undefinedBehaviour
  | t :: _ => .ok t st

/-- The call `lex_->get()`. -/
def get : ParserM Token := fun st =>
  match st.toks with
  | [] => .undefinedBehaviour
  | t :: rest => .ok t { st with toks := rest }

/-- The expression `new Scope(p)`. -/
def newScope (p : Option Nat) : ParserM (Option Nat) := fun st =>
  .ok (some st.scopes.length) { st with scopes := st.scopes ++ [p] }

/-- The overload `Parser::match(std::string)`. -/
def matchStr (s : String) : ParserM Token := do
  let tok ← get
  if tok.data_ ≠ s then throwParseError else pure tok

/-- The overload `Parser::match(Token::Type)`. -/
def matchType (type : TokenType) : ParserM Token := do
  let tok ← get
  if tok.type_ ≠ type then throwParseError else pure tok

/-- The overload `Parser::expect(std::string)`. -/
def expectStr (s : String) : ParserM Bool := do
  let tok ← peek
  pure (tok.data_ == s)

/-- The overload `Parser::expect(Token::Type)`. -/
def expectType (type : TokenType) : ParserM Bool := do
  let tok ← peek
  pure (tok.type_ == type)

/-- The position `lex_->peek().range_.begin_`. -/
def peekBegin : ParserM Position := do
  let tok ← peek
  pure tok.range_.begin_

def expectOperator (pri : Nat) : ParserM Bool := do
  let tok ← peek
  pure (mapFind PRIORITY tok.data_ == some pri)

def opteol : ParserM Unit := do
  if ← expectStr ";" then
    let _ ← matchStr ";"
  pure ()

def identifier (s : Option Nat) : ParserM Identifier := do
  let id ← matchType .IDENTIFIER
  pure ⟨id.range_, s, id.data_⟩

/-- The loop `while (expect(","))` of `parameterList`. -/
def parameterListLoop (ps : Option Nat) : Nat → List Identifier → ParserM (List Identifier)
  | 0, _ => fun _ => .fuelOut
  | fuel + 1, ret => do
    if ← expectStr "," then
      let _ ← matchStr ","
      let id ← identifier ps
      parameterListLoop ps fuel (ret ++ [id])
    else pure ret

def parameterList (fuel : Nat) (ps : Option Nat) : ParserM (List Identifier) := do
  if ← expectType .IDENTIFIER then
    let id ← identifier ps
    parameterListLoop ps fuel [id]
  else pure []

def emptyStatement : ParserM AST := do
  let begin ← peekBegin
  let _ ← matchStr ";"
  let end_ ← peekBegin
  pure (.Empty ⟨begin, end_⟩ none)

def breakStatement : ParserM AST := do
  let begin ← peekBegin
  let _ ← matchStr "break"
  let end_ ← peekBegin
  pure (.Break ⟨begin, end_⟩ none)

def continueStatement : ParserM AST := do
  let begin ← peekBegin
  let _ ← matchStr "continue"
  let end_ ← peekBegin
  pure (.Continue ⟨begin, end_⟩ none)

/-- The assignment `blk->scope_ = s` of `tryStatement`. -/
def setBlockScope (blk : AST) (s : Option Nat) : AST :=
  match blk with
  | .Block r _ stmts => .Block r s stmts
  | other => other

mutual

/-- The loop of `topStatements`. -/
def topStatementsLoop : Nat → Option Nat → List AST → ParserM (List AST)
  | 0, _, _ => fun _ => .fuelOut
  | fuel + 1, ps, ret => do
    if !(← expectType .END_OF_FILE) && !(← expectStr "\x7d") then
      let tmp ← topStatement fuel ps
      topStatementsLoop fuel ps (ret ++ [tmp])
    else pure ret
termination_by structural fuel => fuel

def topStatements : Nat → Option Nat → ParserM (List AST)
  | 0, _ => fun _ => .fuelOut
  | fuel + 1, ps => topStatementsLoop fuel ps []
termination_by structural fuel => fuel

def topStatement : Nat → Option Nat → ParserM AST
  | 0, _ => fun _ => .fuelOut
  | fuel + 1, ps => do
    if ← expectStr "function" then namedFunction fuel ps
    else statement fuel ps
termination_by structural fuel => fuel

def namedFunction : Nat → Option Nat → ParserM AST
  | 0, _ => fun _ => .fuelOut
  | fuel + 1, ps => do
    let begin ← peekBegin
    let s ← newScope ps
    let _ ← matchStr "function"
    let name ← identifier ps
    let _ ← matchStr "("
    let plist ← parameterList fuel s
    let _ ← matchStr ")"
    let _ ← matchStr "\x7b"
    let stmts ← topStatements fuel s
    let _ ← matchStr "\x7d"
    let end_ ← peekBegin
    pure (.Function ⟨begin, end_⟩ s (some name) plist stmts)
termination_by structural fuel => fuel

def statement : Nat → Option Nat → ParserM AST
  | 0, _ => fun _ => .fuelOut
  | fuel + 1, ps => do
    if ← expectStr ";" then emptyStatement
    else if ← expectStr "var" then
      let ret ← varStatement fuel ps
      opteol
      pure ret
    else if ← expectStr "\x7b" then
      let ret ← block fuel ps
      opteol
      pure ret
    else if ← expectStr "if" then ifStatement fuel ps
    else if ← expectStr "switch" then switchStatement fuel ps
    else if ← expectStr "do" then
      let ret ← doStatement fuel ps
      opteol
      pure ret
    else if ← expectStr "while" then whileStatement fuel ps
    else if ← expectStr "for" then forStatement fuel ps
    else if ← expectStr "with" then withStatement fuel ps
    else if ← expectStr "continue" then
      let ret ← continueStatement
      opteol
      pure ret
    else if ← expectStr "break" then
      let ret ← breakStatement
      opteol
      pure ret
    else if ← expectStr "return" then
      let ret ← returnStatement fuel ps
      opteol
      pure ret
    else if ← expectStr "try" then tryStatement fuel ps
    else if ← expectStr "throw" then
      let ret ← throwStatement fuel ps
      opteol
      pure ret
    else
      let ret ← expressionPri fuel 0 ps
      opteol
      pure ret
termination_by structural fuel => fuel

/-- The loop `while (expect(","))` of `varStatement`. -/
def varStatementLoop : Nat → Option Nat → List Declaration → ParserM (List Declaration)
  | 0, _, _ => fun _ => .fuelOut
  | fuel + 1, ps, vlist => do
    if ← expectStr "," then
      let _ ← matchStr ","
      let decl ← declare fuel ps
      varStatementLoop fuel ps (vlist ++ [decl])
    else pure vlist
termination_by structural fuel => fuel

def varStatement : Nat → Option Nat → ParserM AST
  | 0, _ => fun _ => .fuelOut
  | fuel + 1, ps => do
    let begin ← peekBegin
    let _ ← matchStr "var"
    let decl ← declare fuel ps
    let vlist ← varStatementLoop fuel ps [decl]
    let end_ ← peekBegin
    pure (.Var ⟨begin, end_⟩ ps vlist)
termination_by structural fuel => fuel

def declare : Nat → Option Nat → ParserM Declaration
  | 0, _ => fun _ => .fuelOut
  | fuel + 1, ps => do
    let begin ← peekBegin
    let id ← identifier ps
    if ← expectStr "=" then
      let _ ← matchStr "="
      let init ← expressionPri fuel 0 ps
      let end_ ← peekBegin
      pure (.mk ⟨begin, end_⟩ ps id (some init))
    else
      let end_ ← peekBegin
      pure (.mk ⟨begin, end_⟩ ps id none)
termination_by structural fuel => fuel

def block : Nat → Option Nat → ParserM AST
  | 0, _ => fun _ => .fuelOut
  | fuel + 1, ps => do
    let begin ← peekBegin
    let s ← newScope ps
    let _ ← matchStr "\x7b"
    let stmts ← statements fuel s []
    let _ ← matchStr "\x7d"
    let end_ ← peekBegin
    pure (.Block ⟨begin, end_⟩ s stmts)
termination_by structural fuel => fuel

/-- The function `statements`, with the list built so far as an argument. -/
def statements : Nat → Option Nat → List AST → ParserM (List AST)
  | 0, _, _ => fun _ => .fuelOut
  | fuel + 1, ps, ret => do
    if !(← expectStr "\x7d") then
      let stmt ← statement fuel ps
      statements fuel ps (ret ++ [stmt])
    else pure ret
termination_by structural fuel => fuel

def ifStatement : Nat → Option Nat → ParserM AST
  | 0, _ => fun _ => .fuelOut
  | fuel + 1, ps => do
    let begin ← peekBegin
    let s ← newScope ps
    let _ ← matchStr "if"
    let _ ← matchStr "("
    let cond ← expression fuel s
    let _ ← matchStr ")"
    let yes ← statement fuel s
    if ← expectStr "else" then
      let _ ← matchStr "else"
      let no ← statement fuel s
      let end_ ← peekBegin
      pure (.Condition ⟨begin, end_⟩ s cond yes (some no))
    else
      let end_ ← peekBegin
      pure (.Condition ⟨begin, end_⟩ s cond yes none)
termination_by structural fuel => fuel

/-- The loop `while (!expect("\x7d"))` of `switchStatement`. -/
def switchStatementLoop : Nat → Position → Option Nat → List AST → ParserM (List AST)
  | 0, _, _, _ => fun _ => .fuelOut
  | fuel + 1, begin, s, branches => do
    if !(← expectStr "\x7d") then
      if ← expectStr "case" then
        let _ ← matchStr "case"
        let v ← expression fuel s
        let _ ← matchStr ":"
        let end_ ← peekBegin
        switchStatementLoop fuel begin s (branches ++ [.Case ⟨begin, end_⟩ none (some v)])
      else if ← expectStr "default" then
        let _ ← matchStr "default"
        let _ ← matchStr ":"
        let end_ ← peekBegin
        switchStatementLoop fuel begin s (branches ++ [.Case ⟨begin, end_⟩ none none])
      else
        let stmt ← statement fuel s
        switchStatementLoop fuel begin s (branches ++ [stmt])
    else pure branches
termination_by structural fuel => fuel

def switchStatement : Nat → Option Nat → ParserM AST
  | 0, _ => fun _ => .fuelOut
  | fuel + 1, ps => do
    let begin ← peekBegin
    let s ← newScope ps
    let _ ← matchStr "switch"
    let _ ← matchStr "("
    let expr ← expression fuel s
    let _ ← matchStr ")"
    let _ ← matchStr "\x7b"
    let branches ← switchStatementLoop fuel begin s []
    let _ ← matchStr "\x7d"
    let end_ ← peekBegin
    pure (.Switch ⟨begin, end_⟩ s expr branches)
termination_by structural fuel => fuel

def doStatement : Nat → Option Nat → ParserM AST
  | 0, _ => fun _ => .fuelOut
  | fuel + 1, ps => do
    let begin ← peekBegin
    let _ ← matchStr "do"
    let blk ← block fuel ps
    let _ ← matchStr "while"
    let _ ← matchStr "("
    let cond ← statement fuel ps
    let _ ← matchStr ")"
    let end_ ← peekBegin
    pure (.DoLoop ⟨begin, end_⟩ ps blk cond)
termination_by structural fuel => fuel

def whileStatement : Nat → Option Nat → ParserM AST
  | 0, _ => fun _ => .fuelOut
  | fuel + 1, ps => do
    let begin ← peekBegin
    let s ← newScope ps
    let _ ← matchStr "while"
    let _ ← matchStr "("
    let cond ← expression fuel s
    let _ ← matchStr ")"
    let body ← statement fuel s
    let end_ ← peekBegin
    pure (.Loop ⟨begin, end_⟩ s cond body)
termination_by structural fuel => fuel

def forStatement : Nat → Option Nat → ParserM AST
  | 0, _ => fun _ => .fuelOut
  | fuel + 1, ps => do
    let begin ← peekBegin
    let s ← newScope ps
    let _ ← matchStr "for"
    let _ ← matchStr "("
    if ← expectStr "var" then
      let init ← varStatement fuel s
      if ← expectStr ";" then
        let _ ← matchStr ";"
        forloop fuel begin s (some init)
      else
        let _ ← matchStr "in"
        match init with
        | .Var _ _ vlist =>
          if vlist.length ≠ 1 then throwParseError
          else forin fuel begin s init
        | _ => fun _ => .undefinedBehaviour
    else if ← expectStr ";" then
      let _ ← matchStr ";"
      forloop fuel begin s none
    else
      let init ← forbegin fuel s
      if ← expectStr ";" then
        let _ ← matchStr ";"
        forloop fuel begin s (some init)
      else
        let _ ← matchStr "in"
        match init with
        | .GroupExpression _ _ [.Identifier id] => forin fuel begin s (.Identifier id)
        | .GroupExpression _ _ _ => throwParseError
        | _ => fun _ => .undefinedBehaviour
termination_by structural fuel => fuel

/-- The code at the label `forloop:` of `forStatement`. -/
def forloop : Nat → Position → Option Nat → Option AST → ParserM AST
  | 0, _, _, _ => fun _ => .fuelOut
  | fuel + 1, begin, s, init => do
    let cond ← (do
      if !(← expectStr ";") then
        let c ← expression fuel s
        pure (some c)
      else pure none : ParserM (Option AST))
    let _ ← matchStr ";"
    let tail ← (do
      if !(← expectStr ")") then
        let t ← expression fuel s
        pure (some t)
      else pure none : ParserM (Option AST))
    let _ ← matchStr ")"
    let body ← statement fuel s
    let end_ ← peekBegin
    pure (.ForLoop ⟨begin, end_⟩ s init cond tail body)
termination_by structural fuel => fuel

/-- The code at the label `forin:` of `forStatement`. -/
def forin : Nat → Position → Option Nat → AST → ParserM AST
  | 0, _, _, _ => fun _ => .fuelOut
  | fuel + 1, begin, s, init => do
    let expr ← expression fuel s
    let _ ← matchStr ")"
    let body ← statement fuel s
    let end_ ← peekBegin
    pure (.ForInLoop ⟨begin, end_⟩ s init expr body)
termination_by structural fuel => fuel

def returnStatement : Nat → Option Nat → ParserM AST
  | 0, _ => fun _ => .fuelOut
  | fuel + 1, ps => do
    let begin ← peekBegin
    let _ ← matchStr "return"
    if !((← expectStr ";") || (← expectStr "\x7d")
        || decide ((← peekBegin).line_ > begin.line_)) then
      let ret ← expression fuel ps
      let end_ ← peekBegin
      pure (.Return ⟨begin, end_⟩ ps (some ret))
    else
      let end_ ← peekBegin
      pure (.Return ⟨begin, end_⟩ ps none)
termination_by structural fuel => fuel

def withStatement : Nat → Option Nat → ParserM AST
  | 0, _ => fun _ => .fuelOut
  | fuel + 1, ps => do
    let begin ← peekBegin
    let s ← newScope ps
    let _ ← matchStr "with"
    let _ ← matchStr "("
    let expr ← expression fuel s
    let _ ← matchStr ")"
    let stmt ← statement fuel s
    let end_ ← peekBegin
    pure (.With ⟨begin, end_⟩ s expr stmt)
termination_by structural fuel => fuel

def throwStatement : Nat → Option Nat → ParserM AST
  | 0, _ => fun _ => .fuelOut
  | fuel + 1, ps => do
    let begin ← peekBegin
    let _ ← matchStr "throw"
    let expr ← expression fuel ps
    let end_ ← peekBegin
    pure (.Throw ⟨begin, end_⟩ ps expr)
termination_by structural fuel => fuel

/-- The loop `while (expect("catch"))` of `tryStatement`. -/
def tryStatementLoop : Nat → Option Nat → List (AST × AST) → ParserM (List (AST × AST))
  | 0, _, _ => fun _ => .fuelOut
  | fuel + 1, ps, catches => do
    if ← expectStr "catch" then
      let _ ← matchStr "catch"
      let _ ← matchStr "("
      let s ← newScope ps
      let expr ← expression fuel s
      let _ ← matchStr ")"
      let blk ← block fuel s
      tryStatementLoop fuel ps (catches ++ [(expr, setBlockScope blk s)])
    else pure catches
termination_by structural fuel => fuel

def tryStatement : Nat → Option Nat → ParserM AST
  | 0, _ => fun _ => .fuelOut
  | fuel + 1, ps => do
    let begin ← peekBegin
    let _ ← matchStr "try"
    let tryblk ← block fuel ps
    let catches ← tryStatementLoop fuel ps []
    if ← expectStr "finally" then
      let _ ← matchStr "finally"
      let finblk ← block fuel ps
      let end_ ← peekBegin
      pure (.Try ⟨begin, end_⟩ none tryblk catches (some finblk))
    else
      let end_ ← peekBegin
      pure (.Try ⟨begin, end_⟩ none tryblk catches none)
termination_by structural fuel => fuel

/-- The loop `while (expect(","))` of `expression(Scope*)`. -/
def expressionLoop : Nat → Option Nat → List AST → ParserM (List AST)
  | 0, _, _ => fun _ => .fuelOut
  | fuel + 1, ps, exprlist => do
    if ← expectStr "," then
      let _ ← matchStr ","
      let e ← expressionPri fuel 0 ps
      expressionLoop fuel ps (exprlist ++ [e])
    else pure exprlist
termination_by structural fuel => fuel

/-- The overload `Parser::expression(Scope*)`: a comma-separated group. -/
def expression : Nat → Option Nat → ParserM AST
  | 0, _ => fun _ => .fuelOut
  | fuel + 1, ps => do
    let begin ← peekBegin
    let e ← expressionPri fuel 0 ps
    let exprlist ← expressionLoop fuel ps [e]
    let end_ ← peekBegin
    pure (.GroupExpression ⟨begin, end_⟩ ps exprlist)
termination_by structural fuel => fuel

/-- The overload `Parser::expression(int, Scope*)`. -/
def expressionPri : Nat → Nat → Option Nat → ParserM AST
  | 0, _, _ => fun _ => .fuelOut
  | fuel + 1, pri, ps => do
    let begin ← peekBegin
    if pri > 11 then
      if (← expectStr "delete") || (← expectStr "++") || (← expectStr "--") then
        let op ← get
        let expr ← leftExpression fuel ps
        let end_ ← peekBegin
        pure (.UniExpression ⟨begin, end_⟩ ps op.data_ expr true)
      else if (← expectStr "void") || (← expectStr "typeof") || (← expectStr "+")
          || (← expectStr "-") || (← expectStr "~") || (← expectStr "!") then
        let op ← get
        let expr ← expressionPri fuel pri ps
        let end_ ← peekBegin
        pure (.UniExpression ⟨begin, end_⟩ ps op.data_ expr true)
      else
        let expr ← leftExpression fuel ps
        if (← expectStr "++") || (← expectStr "--") then
          let op ← get
          let end_ ← peekBegin
          pure (.UniExpression ⟨begin, end_⟩ ps op.data_ expr false)
        else pure expr
    else
      let left ← expressionPri fuel (pri + 1) ps
      if !(← expectOperator pri) then pure left
      else
        let op ← get
        if pri = 1 then
          let first ← expressionPri fuel pri ps
          let _ ← matchStr ":"
          let second ← expressionPri fuel pri ps
          let end_ ← peekBegin
          pure (.TriExpression ⟨begin, end_⟩ ps left first second)
        else
          let right ← expressionPri fuel pri ps
          let end_ ← peekBegin
          expressionChain fuel pri ps ⟨begin, end_⟩ left
            (.BiExpression ⟨begin, end_⟩ ps left op.data_ right)
termination_by structural fuel => fuel

/-- The loop `while (expectOperator(pri))` that ends `expression(int, Scope*)`. -/
def expressionChain : Nat → Nat → Option Nat → PositionRange → AST → AST → ParserM AST
  | 0, _, _, _, _, _ => fun _ => .fuelOut
  | fuel + 1, pri, ps, range, left, ret => do
    if ← expectOperator pri then
      let op ← get
      let right ← expressionPri fuel (pri + 1) ps
      expressionChain fuel pri ps range left (.BiExpression range ps left op.data_ right)
    else pure ret
termination_by structural fuel => fuel

def leftExpression : Nat → Option Nat → ParserM AST
  | 0, _ => fun _ => .fuelOut
  | fuel + 1, ps => do
    if ← expectStr "new" then constructor fuel ps
    else callExpression fuel ps
termination_by structural fuel => fuel

def constructor : Nat → Option Nat → ParserM AST
  | 0, _ => fun _ => .fuelOut
  | fuel + 1, ps => do
    let begin ← peekBegin
    let _ ← matchStr "new"
    let ctor ← callExpression fuel ps
    match ctor with
    | .Call _ _ _ _ =>
      let end_ ← peekBegin
      pure (.Constructor ⟨begin, end_⟩ ps ctor)
    | _ => throwParseError
termination_by structural fuel => fuel

/-- The loop `for (;;)` of `callExpression`. -/
def callExpressionLoop : Nat → Position → Option Nat → AST → ParserM AST
  | 0, _, _, _ => fun _ => .fuelOut
  | fuel + 1, begin, ps, expr => do
    if ← expectStr "." then
      let _ ← matchStr "."
      let mem ← identifier ps
      let end_ ← peekBegin
      callExpressionLoop fuel begin ps (.ObjectMember ⟨begin, end_⟩ ps expr (.Identifier mem))
    else if ← expectStr "(" then
      let args ← arglist fuel ps
      let end_ ← peekBegin
      callExpressionLoop fuel begin ps (.Call ⟨begin, end_⟩ ps expr args)
    else if ← expectStr "[" then
      let _ ← matchStr "["
      let key ← expressionPri fuel 0 ps
      let _ ← matchStr "]"
      let end_ ← peekBegin
      callExpressionLoop fuel begin ps (.ArrayMember ⟨begin, end_⟩ ps expr key)
    else pure expr
termination_by structural fuel => fuel

def callExpression : Nat → Option Nat → ParserM AST
  | 0, _ => fun _ => .fuelOut
  | fuel + 1, ps => do
    let begin ← peekBegin
    let expr ← primary fuel ps
    callExpressionLoop fuel begin ps expr
termination_by structural fuel => fuel

/-- The loop `for (;;)` of `arglist`. -/
def arglistLoop : Nat → Option Nat → List AST → ParserM (List AST)
  | 0, _, _ => fun _ => .fuelOut
  | fuel + 1, ps, ret => do
    let e ← expressionPri fuel 0 ps
    if ← expectStr "," then
      let _ ← matchStr ","
    if ← expectStr ")" then
      let _ ← matchStr ")"
      pure (ret ++ [e])
    else arglistLoop fuel ps (ret ++ [e])
termination_by structural fuel => fuel

def arglist : Nat → Option Nat → ParserM (List AST)
  | 0, _ => fun _ => .fuelOut
  | fuel + 1, ps => do
    if ← expectStr "(" then
      let _ ← matchStr "("
      if ← expectStr ")" then
        let _ ← matchStr ")"
        pure []
      else arglistLoop fuel ps []
    else pure []
termination_by structural fuel => fuel

def primary : Nat → Option Nat → ParserM AST
  | 0, _ => fun _ => .fuelOut
  | fuel + 1, ps => do
    if ← expectStr "(" then
      let _ ← matchStr "("
      let expr ← expressionPri fuel 0 ps
      let _ ← matchStr ")"
      pure expr
    else if ← expectType .IDENTIFIER then
      let id ← identifier ps
      pure (.Identifier id)
    else if (← expectStr "true") || (← expectStr "false") then
      let b ← get
      pure (.LiteralBool b.range_ none (b.data_ == "true"))
    else if ← expectStr "null" then
      let n ← get
      pure (.LiteralNull n.range_ none)
    else if ← expectType .STRING then
      let s ← get
      pure (LiteralString.ofToken s)
    else if ← expectType .NUMBER then
      let n ← get
      pure (.LiteralNumber n.range_ none n.data_)
    else if (← expectStr "this") || (← expectStr "arguments") then
      let n ← get
      pure (.Keyword n.range_ ps n.data_)
    else if ← expectStr "[" then literalArray fuel ps
    else if ← expectStr "\x7b" then literalObject fuel ps
    else if ← expectStr "function" then function fuel ps
    else if ← expectType .REGULAR then
      let s ← get
      pure (.LiteralRegular s.range_ none s.data_)
    else throwParseError
termination_by structural fuel => fuel

def function : Nat → Option Nat → ParserM AST
  | 0, _ => fun _ => .fuelOut
  | fuel + 1, ps => do
    let begin ← peekBegin
    let _ ← matchStr "function"
    let s ← newScope ps
    let name ← (do
      if ← expectType .IDENTIFIER then
        let id ← identifier ps
        pure (some id)
      else pure none : ParserM (Option Identifier))
    let _ ← matchStr "("
    let plist ← parameterList fuel s
    let _ ← matchStr ")"
    let _ ← matchStr "\x7b"
    let stmts ← topStatements fuel s
    let _ ← matchStr "\x7d"
    let end_ ← peekBegin
    pure (.Function ⟨begin, end_⟩ s name plist stmts)
termination_by structural fuel => fuel

/-- The loop `for (;;)` of `literalArray`. -/
def literalArrayLoop : Nat → Option Nat → List AST → ParserM (List AST)
  | 0, _, _ => fun _ => .fuelOut
  | fuel + 1, ps, elem => do
    let e ← expressionPri fuel 0 ps
    if ← expectStr "," then
      let _ ← matchStr ","
      if ← expectStr "]" then
        let _ ← matchStr "]"
        pure (elem ++ [e])
      else literalArrayLoop fuel ps (elem ++ [e])
    else
      let _ ← matchStr "]"
      pure (elem ++ [e])
termination_by structural fuel => fuel

def literalArray : Nat → Option Nat → ParserM AST
  | 0, _ => fun _ => .fuelOut
  | fuel + 1, ps => do
    let begin ← peekBegin
    let _ ← matchStr "["
    if !(← expectStr "]") then
      let elem ← literalArrayLoop fuel ps []
      let end_ ← peekBegin
      pure (.Array ⟨begin, end_⟩ none elem)
    else
      let _ ← matchStr "]"
      let end_ ← peekBegin
      pure (.Array ⟨begin, end_⟩ none [])
termination_by structural fuel => fuel

/-- The loop `for (;;)` of `literalObject`. -/
def literalObjectLoop : Nat → Option Nat → List (AST × AST) → ParserM (List (AST × AST))
  | 0, _, _ => fun _ => .fuelOut
  | fuel + 1, ps, kv => do
    let key ← primary fuel ps
    let _ ← matchStr ":"
    let val ← expressionPri fuel 0 ps
    if ← expectStr "\x7d" then
      let _ ← matchStr "\x7d"
      pure (kv ++ [(key, val)])
    else
      let _ ← matchStr ","
      if ← expectStr "\x7d" then
        let _ ← matchStr "\x7d"
        pure (kv ++ [(key, val)])
      else literalObjectLoop fuel ps (kv ++ [(key, val)])
termination_by structural fuel => fuel

def literalObject : Nat → Option Nat → ParserM AST
  | 0, _ => fun _ => .fuelOut
  | fuel + 1, ps => do
    let begin ← peekBegin
    let _ ← matchStr "\x7b"
    if ← expectStr "\x7d" then
      let _ ← matchStr "\x7d"
      let end_ ← peekBegin
      pure (.Object ⟨begin, end_⟩ none [])
    else
      let kv ← literalObjectLoop fuel ps []
      let end_ ← peekBegin
      pure (.Object ⟨begin, end_⟩ none kv)
termination_by structural fuel => fuel

/-- The overload `Parser::forbegin(int, Scope*)`.  At `pri > 11` a postfix operator
is consumed and the operand alone returned; at `pri == 1` the ternary node is built
and dropped, and control falls through to the binary case. -/
def forbeginPri : Nat → Nat → Option Nat → ParserM AST
  | 0, _, _ => fun _ => .fuelOut
  | fuel + 1, pri, ps => do
    let begin ← peekBegin
    if pri > 11 then
      if (← expectStr "delete") || (← expectStr "++") || (← expectStr "--") then
        let op ← get
        let expr ← leftExpression fuel ps
        let end_ ← peekBegin
        pure (.UniExpression ⟨begin, end_⟩ ps op.data_ expr true)
      else if (← expectStr "void") || (← expectStr "typeof") || (← expectStr "+")
          || (← expectStr "-") || (← expectStr "~") || (← expectStr "!") then
        let op ← get
        let expr ← expressionPri fuel pri ps
        let end_ ← peekBegin
        pure (.UniExpression ⟨begin, end_⟩ ps op.data_ expr true)
      else
        let expr ← leftExpression fuel ps
        if (← expectStr "++") || (← expectStr "--") then
          let _ ← get
          let _ ← peekBegin
          pure expr
        else pure expr
    else
      let left ← forbeginPri fuel (pri + 1) ps
      if !(← expectOperator pri) || (← expectStr "in") then pure left
      else
        let op ← get
        if pri = 1 then
          let _ ← forbeginPri fuel pri ps
          let _ ← matchStr ":"
          let _ ← forbeginPri fuel pri ps
          let _ ← peekBegin
        let right ← forbeginPri fuel pri ps
        let end_ ← peekBegin
        forbeginChain fuel pri ps ⟨begin, end_⟩ left
          (.BiExpression ⟨begin, end_⟩ ps left op.data_ right)
termination_by structural fuel => fuel

/-- The loop `while (expectOperator(pri))` that ends `forbegin(int, Scope*)`. -/
def forbeginChain : Nat → Nat → Option Nat → PositionRange → AST → AST → ParserM AST
  | 0, _, _, _, _, _ => fun _ => .fuelOut
  | fuel + 1, pri, ps, range, left, ret => do
    if ← expectOperator pri then
      let op ← get
      let right ← forbeginPri fuel (pri + 1) ps
      forbeginChain fuel pri ps range left (.BiExpression range ps left op.data_ right)
    else pure ret
termination_by structural fuel => fuel

/-- The loop `while (expect(","))` of `forbegin(Scope*)`. -/
def forbeginLoop : Nat → Option Nat → List AST → ParserM (List AST)
  | 0, _, _ => fun _ => .fuelOut
  | fuel + 1, ps, exprlist => do
    if ← expectStr "," then
      let _ ← matchStr ","
      let e ← forbeginPri fuel 0 ps
      forbeginLoop fuel ps (exprlist ++ [e])
    else pure exprlist
termination_by structural fuel => fuel

/-- The overload `Parser::forbegin(Scope*)`. -/
def forbegin : Nat → Option Nat → ParserM AST
  | 0, _ => fun _ => .fuelOut
  | fuel + 1, ps => do
    let begin ← peekBegin
    let e ← forbeginPri fuel 0 ps
    let exprlist ← forbeginLoop fuel ps [e]
    let end_ ← peekBegin
    pure (.GroupExpression ⟨begin, end_⟩ ps exprlist)

termination_by structural fuel => fuel
end

def program (fuel : Nat) : ParserM AST := do
  let s ← newScope none
  let begin ← peekBegin
  let stmts ← topStatements fuel s
  let end_ ← peekBegin
  let _ ← matchType .END_OF_FILE
  pure (.Program ⟨begin, end_⟩ s stmts)

end Parser

/-! ## The type `double`

`Number::num_` is an IEEE-754 binary64 value.  A finite value is written
`(-1)^neg * mant * 2^exp` in its canonical form: `mant < 2^53`, `-1074 ≤ exp ≤ 971`,
and `2^52 ≤ mant` unless `exp = -1074`; zero has `mant = 0` and `exp = -1074`.  The
arithmetic operations round the exact result to the nearest value, ties to even.
The sign and payload of a NaN are not modelled. -/

inductive Double where
  | finite (neg : Bool) (mant : Nat) (exp : Int)
  | inf (neg : Bool)
  | nan
deriving DecidableEq, Repr, Inhabited

namespace Double

/-- The position of the highest set bit: `log2Fuel n n = ⌊log₂ n⌋` for `n ≥ 1`. -/
def log2Fuel : Nat → Nat → Nat
  | 0, _ => 0
  | fuel + 1, n => if 2 ≤ n then log2Fuel fuel (n / 2) + 1 else 0

/-- Rounding of the positive rational `num / den` (with the sign `neg`) to the
nearest binary64 value, ties to even, overflowing to infinity. -/
def round (neg : Bool) (num den : Nat) : Double :=
  if num = 0 then .finite neg 0 (-1074)
  else
    let l : Int := (log2Fuel num num : Int) - (log2Fuel den den : Int)
    let e0 : Int := l - 52
    let below : Bool :=
      if 0 ≤ e0 then decide (num < 2 ^ 52 * (den * 2 ^ e0.toNat))
      else decide (num * 2 ^ (-e0).toNat < 2 ^ 52 * den)
    let e1 : Int := if below then e0 - 1 else e0
    let e : Int := if e1 < -1074 then -1074 else e1
    let n1 : Nat := if 0 ≤ e then num else num * 2 ^ (-e).toNat
    let d1 : Nat := if 0 ≤ e then den * 2 ^ e.toNat else den
    let q := n1 / d1
    let r := n1 % d1
    let m := if 2 * r < d1 then q else if d1 < 2 * r then q + 1
      else if q % 2 = 0 then q else q + 1
    let m2 := if m = 2 ^ 53 then 2 ^ 52 else m
    let e2 := if m = 2 ^ 53 then e + 1 else e
    if 971 < e2 then .inf neg else .finite neg m2 e2

/-- The value `(-1)^neg * mant * 2^exp` rounded to a binary64 value. -/
def ofScaled (neg : Bool) (mant : Nat) (exp : Int) : Double :=
  if 0 ≤ exp then round neg (mant * 2 ^ exp.toNat) 1 else round neg mant (2 ^ (-exp).toNat)

/-- The conversion `double(n)` of a 64-bit integer. -/
def ofInt (n : Int) : Double :=
  round (decide (n < 0)) n.natAbs 1

def zero : Double := .finite false 0 (-1074)

def neg : Double → Double
  | .finite s m e => .finite (!s) m e
  | .inf s => .inf (!s)
  | .nan => .nan

def add : Double → Double → Double
  | .nan, _ => .nan
  | _, .nan => .nan
  | .inf s, .inf t => if s = t then .inf s else .nan
  | .inf s, .finite _ _ _ => .inf s
  | .finite _ _ _, .inf t => .inf t
  | .finite s m e, .finite t n f =>
    let g : Int := if e ≤ f then e else f
    let a : Int := (if s then -1 else 1) * ((m * 2 ^ (e - g).toNat : Nat) : Int)
    let b : Int := (if t then -1 else 1) * ((n * 2 ^ (f - g).toNat : Nat) : Int)
    let c := a + b
    if c = 0 then .finite (s && t) 0 (-1074)
    else ofScaled (decide (c < 0)) c.natAbs g

def sub (x y : Double) : Double := add x (neg y)

def mul : Double → Double → Double
  | .nan, _ => .nan
  | _, .nan => .nan
  | .inf s, .inf t => .inf (xor s t)
  | .inf s, .finite t n _ => if n = 0 then .nan else .inf (xor s t)
  | .finite s m _, .inf t => if m = 0 then .nan else .inf (xor s t)
  | .finite s m e, .finite t n f => ofScaled (xor s t) (m * n) (e + f)

def div : Double → Double → Double
  | .nan, _ => .nan
  | _, .nan => .nan
  | .inf _, .inf _ => .nan
  | .inf s, .finite t _ _ => .inf (xor s t)
  | .finite s _ _, .inf t => .finite (xor s t) 0 (-1074)
  | .finite s m e, .finite t n f =>
    if n = 0 then (if m = 0 then .nan else .inf (xor s t))
    else
      let g : Int := e - f
      if 0 ≤ g then round (xor s t) (m * 2 ^ g.toNat) n
      else round (xor s t) m (n * 2 ^ (-g).toNat)

/-- The comparison `x < y`. -/
def lt : Double → Double → Bool
  | .nan, _ => false
  | _, .nan => false
  | .inf s, .inf t => s && !t
  | .inf s, .finite _ _ _ => s
  | .finite _ _ _, .inf t => !t
  | .finite s m e, .finite t n f =>
    let g : Int := if e ≤ f then e else f
    let a : Int := (if s then -1 else 1) * ((m * 2 ^ (e - g).toNat : Nat) : Int)
    let b : Int := (if t then -1 else 1) * ((n * 2 ^ (f - g).toNat : Nat) : Int)
    decide (a < b)

/-- The comparison `x == y` (the two zeros are equal, a NaN equals nothing). -/
def eq : Double → Double → Bool
  | .nan, _ => false
  | _, .nan => false
  | .inf s, .inf t => s == t
  | .inf _, .finite _ _ _ => false
  | .finite _ _ _, .inf _ => false
  | .finite s m e, .finite t n f => (m == 0 && n == 0) || (s == t && m == n && e == f)

def le (x y : Double) : Bool := lt x y || eq x y

def isNaN : Double → Bool
  | .nan => true
  | _ => false

/-- The conversion `int64_t(x)`: truncation toward zero, `none` (undefined
behaviour) when the truncated value is not a 64-bit signed integer. -/
def toInt64 : Double → Option Int
  | .nan => none
  | .inf _ => none
  | .finite s m e =>
    let a : Nat := if 0 ≤ e then m * 2 ^ e.toNat else m / 2 ^ (-e).toNat
    let v : Int := if s then -(a : Int) else (a : Int)
    if -(2 : Int) ^ 63 ≤ v ∧ v < (2 : Int) ^ 63 then some v else none

/-- The decimal digits of `n`, at least `width` of them. -/
def padDigits (width n : Nat) : List Char :=
  let ds := Nat.toDigits 10 n
  List.replicate (width - ds.length) '0' ++ ds

/-- The call `std::to_string(x)`, which formats with `"%f"`: six digits after the
point, the exact value rounded to nearest, ties to even.  Every NaN prints as `nan`: the
sign that `printf` puts before a NaN whose sign bit is set is not kept. -/
def toString : Double → String
  | .nan => "nan"
  | .inf s => if s then "-inf" else "inf"
  | .finite s m e =>
    let num : Nat := if 0 ≤ e then m * 2 ^ e.toNat * 1000000 else m * 1000000
    let den : Nat := if 0 ≤ e then 1 else 2 ^ (-e).toNat
    let q := num / den
    let r := num % den
    let k := if 2 * r < den then q else if den < 2 * r then q + 1
      else if q % 2 = 0 then q else q + 1
    String.mk ((if s then ['-'] else []) ++ Nat.toDigits 10 (k / 1000000) ++ ['.']
      ++ padDigits 6 (k % 1000000))

end Double

/-! ## value.h, value.cpp -/

/-- The enumeration `Value::Type`. -/
inductive ValueType where
  | UNDEFINED | NULLVAL | BOOL | NUMBER | STRING | OBJECT | FUNCTION | SIGNAL
deriving DecidableEq, Repr, Inhabited

/-- The enumeration `Signal::Type`. -/
inductive SignalType where
  | BREAK | CONTINUE | NORMAL | RETURN
deriving DecidableEq, Repr, Inhabited

/-- A `ValuePtr`: the address of a value cell, `none` being the null pointer. -/
abbrev ValuePtr := Option Nat

/-- The dynamic class of a value with the members its class adds (`Signal::pos_` is
used in messages only and is left out). -/
inductive ValueData where
  | Undefined
  | Boolean (b_ : Bool)
  | NotaNumber
  | Number (num_ : Double)
  | StringValue (str_ : String)
  | ObjectValue
  | NullValue
  | FunctionValue (code_ : AST)
  | Signal (sigtype_ : SignalType) (val_ : ValuePtr)

instance : Inhabited ValueData := ⟨.Undefined⟩

/-- A value cell: its class and the member `attr_` of the base class `Value`. -/
structure Value where
  data : ValueData
  attr_ : List (String × ValuePtr)

instance : Inhabited Value := ⟨⟨.Undefined, []⟩⟩

/-- The member `type_`, as each constructor sets it. -/
def Value.type_ (v : Value) : ValueType :=
  match v.data with
  | .Undefined => .UNDEFINED
  | .Boolean _ => .BOOL
  | .NotaNumber => .NUMBER
  | .Number _ => .NUMBER
  | .StringValue _ => .STRING
  | .ObjectValue => .OBJECT
  | .NullValue => .NULLVAL
  | .FunctionValue _ => .FUNCTION
  | .Signal _ _ => .SIGNAL

/-- The virtual function `toString`. -/
def Value.toString (v : Value) : String :=
  match v.data with
  | .Undefined => "undefined"
  | .Boolean b => if b then "true" else "false"
  | .NotaNumber => "NaN"
  | .Number n => n.toString
  | .StringValue s => s
  | .ObjectValue => "[object Object]"
  | .NullValue => ""
  | .FunctionValue _ => "function"
  | .Signal _ _ => "[built-in]"

/-- The virtual function `toBool`. -/
def Value.toBool (v : Value) : Bool :=
  match v.data with
  | .Undefined => false
  | .Boolean b => b
  | .NotaNumber => false
  | .Number n => !(Double.eq n Double.zero)
  | .StringValue s => s != ""
  | .ObjectValue => true
  | .NullValue => false
  | .FunctionValue _ => true
  | .Signal _ _ => false

/-- The virtual function `typeof`. -/
def Value.typeof (v : Value) : String :=
  match v.data with
  | .Undefined => "undefined"
  | .Boolean b => if b then "true" else "false"
  | .NotaNumber => "number"
  | .Number _ => "number"
  | .StringValue _ => "string"
  | .ObjectValue => "object"
  | .NullValue => "object"
  | .FunctionValue _ => "function"
  | .Signal _ _ => "built-in"

/-- The assignment `m[key] = v` on a `std::unordered_map`. -/
def mapSet {α : Type} (m : List (String × α)) (key : String) (v : α) : List (String × α) :=
  match m with
  | [] => [(key, v)]
  | (k, w) :: rest => if k = key then (k, v) :: rest else (k, w) :: mapSet rest key v

/-- The call `m.erase(key)` on a `std::unordered_map`. -/
def mapErase {α : Type} (m : List (String × α)) (key : String) : List (String × α) :=
  match m with
  | [] => []
  | (k, w) :: rest => if k = key then rest else (k, w) :: mapErase rest key

/-- The comparison `a < b` of two `std::string`s (lexicographic on the characters). -/
def strLt : List Char → List Char → Bool
  | [], [] => false
  | [], _ :: _ => true
  | _ :: _, [] => false
  | a :: as, b :: bs => if a.toNat < b.toNat then true else if b.toNat < a.toNat then false
    else strLt as bs

/-- Insertion of a key into a list sorted by `strLt`. -/
def insertKey (k : String) : List String → List String
  | [] => [k]
  | x :: xs => if strLt x.data k.data then x :: insertKey k xs else k :: x :: xs

/-- The call `std::sort(ret.begin(), ret.end())` on the keys of a map (they are
pairwise different, so every sorting algorithm returns the same list). -/
def sortKeys (ks : List String) : List String :=
  ks.foldr insertKey []

/-- The function `Value::getKeys`. -/
def Value.getKeys (v : Value) : List String :=
  sortKeys (v.attr_.map Prod.fst)

/-- The class `Scope`. -/
structure Scope where
  vars_ : List (String × ValuePtr)
  parent_ : Option Nat

instance : Inhabited Scope := ⟨⟨[], none⟩⟩

/-- The loop of `Scope::getVar` from the scope `cur` on. -/
def getVarLoop (scopes : List Scope) (name : String) : Nat → Option Nat → ValuePtr
  | 0, _ => none
  | _ + 1, none => none
  | fuel + 1, some cur =>
    match scopes[cur]? with
    | none => none
    | some sc =>
      match mapFind sc.vars_ name with
      | some r => r
      | none => getVarLoop scopes name fuel sc.parent_

/-- The function `Scope::getVar` called on the scope `this_`. -/
def Scope.getVar (scopes : List Scope) (this_ : Nat) (name : String) : ValuePtr :=
  getVarLoop scopes name (scopes.length + 1) (some this_)

/-- The loop of `Scope::setVar` and `Scope::delVar`: the first scope from `cur` on
whose `vars_` has `name`. -/
def findBinding (scopes : List Scope) (name : String) : Nat → Option Nat → Option Nat
  | 0, _ => none
  | _ + 1, none => none
  | fuel + 1, some cur =>
    match scopes[cur]? with
    | none => none
    | some sc =>
      match mapFind sc.vars_ name with
      | some _ => some cur
      | none => findBinding scopes name fuel sc.parent_

/-- The statement `scopes[i].vars_[name] = val`. -/
def writeVar (scopes : List Scope) (i : Nat) (name : String) (val : ValuePtr) : List Scope :=
  match scopes[i]? with
  | none => scopes
  | some sc => scopes.set i { sc with vars_ := mapSet sc.vars_ name val }

/-- The function `Scope::setVar` called on the scope `this_`: the nearest scope of
the chain that has `name` is overwritten, and when there is none the entry is made
in `this_`. -/
def Scope.setVar (scopes : List Scope) (this_ : Nat) (name : String) (val : ValuePtr) :
    List Scope :=
  match findBinding scopes name (scopes.length + 1) (some this_) with
  | some cur => writeVar scopes cur name val
  | none => writeVar scopes this_ name val

/-- The function `Scope::delVar` called on the scope `this_`. -/
def Scope.delVar (scopes : List Scope) (this_ : Nat) (name : String) : List Scope :=
  match findBinding scopes name (scopes.length + 1) (some this_) with
  | some cur =>
    match scopes[cur]? with
    | none => scopes
    | some sc => scopes.set cur { sc with vars_ := mapErase sc.vars_ name }
  | none => scopes

/-! ## vm.h, vm.cpp -/

/-- The memory a `VM` works on: the value cells, the scopes (created empty by the
parser), the member `global_`, and the function-local static `ret` of
`Signal::sigReturn` (`none` until the first call initialises it). -/
structure VMState where
  heap : List Value
  scopes : List Scope
  global_ : Option Nat
  sigReturnRet : Option Nat

/-- What an evaluator function ends in: a value and the next state, a thrown
`ExecError`, an exception of the standard library (`std::stoll`), undefined
behaviour (a null or mistyped pointer dereferenced, an integer conversion or
division outside its domain), or exhausted fuel. -/
inductive ExecResult (α : Type) where
  | ok (a : α) (st : VMState)
  | execError
  | stdException
  | undefinedBehaviour
  | fuelOut

abbrev VMM (α : Type) := VMState → ExecResult α

def VMM.bind {α β : Type} (m : VMM α) (f : α → VMM β) : VMM β :=
  fun st =>
    match m st with
    | .ok a st1 => f a st1
    | .execError => .execError
    | .stdException => .stdException
    | .undefinedBehaviour => .undefinedBehaviour
    | .fuelOut => .fuelOut

instance : Monad VMM where
  pure a := fun st => .ok a st
  bind := VMM.bind

/-- The addresses of the static singletons: `Undefined::instance()`,
`NotaNumber::instance()`, `NullValue::instance()`, and the statics of
`Signal::sigBreak`, `Signal::sigContinue` and `Signal::sigNormal`. -/
def undefinedAddr : Nat := 0
def nanAddr : Nat := 1
def nullAddr : Nat := 2
def sigBreakAddr : Nat := 3
def sigContinueAddr : Nat := 4
def sigNormalAddr : Nat := 5

/-- The heap that holds the singletons only. -/
def initialHeap : List Value := [
  ⟨.Undefined, []⟩, ⟨.NotaNumber, []⟩, ⟨.NullValue, []⟩,
  ⟨.Signal .BREAK none, []⟩, ⟨.Signal .CONTINUE none, []⟩, ⟨.Signal .NORMAL none, []⟩]

namespace VM

/-- The expression `throw ExecError(...)` (also `throwUnexpectSignal`). -/
def throwExecError {α : Type} : VMM α := fun _ => .execError

def undefinedBehaviour {α : Type} : VMM α := fun _ => .undefinedBehaviour

def getState : VMM VMState := fun st => .ok st st

def setState (st : VMState) : VMM Unit := fun _ => .ok () st

/-- The expression `ValuePtr(new T(...))`. -/
def alloc (d : ValueData) : VMM ValuePtr := fun st =>
  .ok (some st.heap.length) { st with heap := st.heap ++ [⟨d, []⟩] }

/-- The dereference `p->` of a `ValuePtr`. -/
def deref (p : ValuePtr) : VMM Value := fun st =>
  match p with
  | none => .undefinedBehaviour
  | some a =>
    match st.heap[a]? with
    | none => .undefinedBehaviour
    | some v => .ok v st

/-- The dereference of a `Scope*`. -/
def derefScope (s : Option Nat) : VMM Nat := fun st =>
  match s with
  | none => .undefinedBehaviour
  | some i => if i < st.scopes.length then .ok i st else .undefinedBehaviour

/-- The test `CAST(NotaNumber, p) != nullptr`; the cast of a null pointer is null. -/
def isNotaNumber (p : ValuePtr) : VMM Bool := fun st =>
  match p with
  | none => .ok false st
  | some a =>
    match st.heap[a]? with
    | none => .undefinedBehaviour
    | some v => .ok (match v.data with | .NotaNumber => true | _ => false) st

/-- The function `Value::setAttr` called on `p`; it prints `v->toString()`. -/
def setAttr (p : ValuePtr) (key : String) (v : ValuePtr) : VMM Unit := do
  let _ ← deref v
  let cell ← deref p
  let st ← getState
  match p with
  | none => undefinedBehaviour
  | some a =>
    setState { st with heap := st.heap.set a { cell with attr_ := mapSet cell.attr_ key v } }

/-- The function `Value::getAttr` called on `p`. -/
def getAttr (p : ValuePtr) (key : String) : VMM ValuePtr := do
  let cell ← deref p
  match mapFind cell.attr_ key with
  | some v => pure v
  | none => pure (some undefinedAddr)

/-- The function `Value::delAttr` called on `p`. -/
def delAttr (p : ValuePtr) (key : String) : VMM Unit := do
  let cell ← deref p
  let st ← getState
  match p with
  | none => undefinedBehaviour
  | some a =>
    setState { st with heap := st.heap.set a { cell with attr_ := mapErase cell.attr_ key } }

/-- The call `s->getVar(name)` through a `Scope*`. -/
def getVar (s : Option Nat) (name : String) : VMM ValuePtr := do
  let i ← derefScope s
  let st ← getState
  pure (Scope.getVar st.scopes i name)

/-- The call `s->setVar(name, val)` through a `Scope*`. -/
def setVar (s : Option Nat) (name : String) (val : ValuePtr) : VMM Unit := do
  let i ← derefScope s
  let st ← getState
  setState { st with scopes := Scope.setVar st.scopes i name val }

/-- The call `s->delVar(name)` through a `Scope*`. -/
def delVar (s : Option Nat) (name : String) : VMM Unit := do
  let i ← derefScope s
  let st ← getState
  setState { st with scopes := Scope.delVar st.scopes i name }

/-- The statement `s->getValueMap()[name] = val`. -/
def setValueMap (s : Option Nat) (name : String) (val : ValuePtr) : VMM Unit := do
  let i ← derefScope s
  let st ← getState
  setState { st with scopes := writeVar st.scopes i name val }

/-- The function `Signal::sigReturn`: a new signal is made on every call, but the
static `ret` is initialised by the first call only, and `ret` is what is returned. -/
def sigReturn (val : ValuePtr) : VMM ValuePtr := do
  let inst ← alloc (.Signal .RETURN val)
  let st ← getState
  match st.sigReturnRet with
  | some ret => pure (some ret)
  | none =>
    setState { st with sigReturnRet := inst }
    pure inst

/-- The call `std::stoll(data)` for a lexeme that begins with a digit: the value of
its leading decimal digits, `none` when `std::out_of_range` or
`std::invalid_argument` is thrown. -/
def stoll (data : String) : Option Int :=
  let ds := data.data.takeWhile (fun c => isDigit c 10)
  let n := ds.foldl (fun a c => a * 10 + (c.toNat - '0'.toNat)) 0
  if ds.isEmpty then none
  else if n < 2 ^ 63 then some (n : Int) else none

/-- A 64-bit signed integer as the unsigned integer with the same bits. -/
def toU64 (x : Int) : Nat := (x % 2 ^ 64).toNat

/-- The 64-bit signed integer with the bits of `n < 2^64`. -/
def ofU64 (n : Nat) : Int := if n < 2 ^ 63 then (n : Int) else (n : Int) - 2 ^ 64

/-- The shape shared by `minus`, `mul`, `div`, `mod`, `band`, `bor`, `bxor`,
`lshift` and `rshift`: the operation on the payloads when both operands have type
`NUMBER` and neither is the `NotaNumber` singleton, the singleton otherwise.  The
conjunction short-circuits, so `right` is only dereferenced after `left` passed. -/
def arith (op : Double → Double → Option Double) (left right : ValuePtr) : VMM ValuePtr := do
  let l ← deref left
  match l.data with
  | .Number a =>
    let r ← deref right
    match r.data with
    | .Number b =>
      match op a b with
      | some c => alloc (.Number c)
      | none => undefinedBehaviour
    | _ => pure (some nanAddr)
  | .NotaNumber =>
    let _ ← deref right
    pure (some nanAddr)
  | _ => pure (some nanAddr)

/-- An operation on the operands converted with `int64_t(...)`, its result converted
back with `Number(int64_t)`. -/
def int64Op (f : Int → Int → Option Int) (a b : Double) : Option Double :=
  match a.toInt64, b.toInt64 with
  | some x, some y => (f x y).map Double.ofInt
  | _, _ => none

def plus (left right : ValuePtr) : VMM ValuePtr := do
  if (← isNotaNumber left) || (← isNotaNumber right) then pure (some nanAddr)
  else
    let l ← deref left
    let r ← deref right
    match l.data, r.data with
    | .Number a, .Number b => alloc (.Number (Double.add a b))
    | _, _ => alloc (.StringValue (l.toString ++ r.toString))

def minus : ValuePtr → ValuePtr → VMM ValuePtr :=
  arith (fun a b => some (Double.sub a b))

def mul : ValuePtr → ValuePtr → VMM ValuePtr :=
  arith (fun a b => some (Double.mul a b))

def div : ValuePtr → ValuePtr → VMM ValuePtr :=
  arith (fun a b => some (Double.div a b))

/-- The operator `%` on 64-bit integers is undefined for a zero divisor and for
`INT64_MIN % -1`. -/
def mod : ValuePtr → ValuePtr → VMM ValuePtr :=
  arith (int64Op (fun x y =>
    if y = 0 then none else if x = -(2 : Int) ^ 63 ∧ y = -1 then none else some (Int.tmod x y)))

def band : ValuePtr → ValuePtr → VMM ValuePtr :=
  arith (int64Op (fun x y => some (ofU64 (Nat.land (toU64 x) (toU64 y)))))

def bor : ValuePtr → ValuePtr → VMM ValuePtr :=
  arith (int64Op (fun x y => some (ofU64 (Nat.lor (toU64 x) (toU64 y)))))

def bxor : ValuePtr → ValuePtr → VMM ValuePtr :=
  arith (int64Op (fun x y => some (ofU64 (Nat.xor (toU64 x) (toU64 y)))))

def rev (v : ValuePtr) : VMM ValuePtr := do
  let c ← deref v
  match c.data with
  | .Number a =>
    match a.toInt64 with
    | some x => alloc (.Number (Double.ofInt (-x - 1)))
    | none => undefinedBehaviour
  | _ => pure (some nanAddr)

/-- The operator `<<` on 64-bit integers: undefined for a count outside `0..63`;
the bits shifted out are dropped. -/
def lshift : ValuePtr → ValuePtr → VMM ValuePtr :=
  arith (int64Op (fun x y =>
    if 0 ≤ y ∧ y < 64 then some (ofU64 ((toU64 x * 2 ^ y.toNat) % 2 ^ 64)) else none))

/-- The operator `>>` on 64-bit integers: undefined for a count outside `0..63`;
the shift is arithmetic. -/
def rshift : ValuePtr → ValuePtr → VMM ValuePtr :=
  arith (int64Op (fun x y =>
    if 0 ≤ y ∧ y < 64 then some (Int.fdiv x (2 ^ y.toNat)) else none))

/-- The shape shared by `eq`, `neq`, `ls`, `le`, `gt` and `ge`: the comparison of
the payloads when both operands have type `NUMBER` and neither is the `NotaNumber`
singleton, the comparison of the two `toString()` results otherwise. -/
def compare (num : Double → Double → Bool) (str : String → String → Bool)
    (left right : ValuePtr) : VMM ValuePtr := do
  let l ← deref left
  match l.data with
  | .Number a =>
    let r ← deref right
    match r.data with
    | .Number b => alloc (.Boolean (num a b))
    | _ => alloc (.Boolean (str l.toString r.toString))
  | _ =>
    let r ← deref right
    alloc (.Boolean (str l.toString r.toString))

def eq : ValuePtr → ValuePtr → VMM ValuePtr :=
  compare Double.eq (fun a b => a == b)

def neq : ValuePtr → ValuePtr → VMM ValuePtr :=
  compare (fun a b => !(Double.eq a b)) (fun a b => a != b)

def ls : ValuePtr → ValuePtr → VMM ValuePtr :=
  compare Double.lt (fun a b => strLt a.data b.data)

def le : ValuePtr → ValuePtr → VMM ValuePtr :=
  compare Double.le (fun a b => !(strLt b.data a.data))

def gt : ValuePtr → ValuePtr → VMM ValuePtr :=
  compare (fun a b => Double.lt b a) (fun a b => strLt b.data a.data)

def ge : ValuePtr → ValuePtr → VMM ValuePtr :=
  compare (fun a b => Double.le b a) (fun a b => !(strLt a.data b.data))

def teq (left right : ValuePtr) : VMM ValuePtr := do
  let l ← deref left
  let r ← deref right
  if l.type_ ≠ r.type_ then alloc (.Boolean false)
  else compare Double.eq (fun a b => a == b) left right

def nteq (left right : ValuePtr) : VMM ValuePtr := do
  let r ← teq left right
  let c ← deref r
  match c.data with
  | .Boolean b => alloc (.Boolean (!b))
  | _ => undefinedBehaviour

/-- The operators that `exec(BiExpression*)` applies to `lval` and `rval` and
returns. -/
def binaryOperator (op : String) : Option (ValuePtr → ValuePtr → VMM ValuePtr) :=
  if op = "+" then some plus
  else if op = "-" then some minus
  else if op = "*" then some mul
  else if op = "/" then some div
  else if op = "%" then some mod
  else if op = "&" then some band
  else if op = "|" then some bor
  else if op = "^" then some bxor
  else if op = "<<" then some lshift
  else if op = ">>" then some rshift
  else if op = "<" then some ls
  else if op = "<=" then some le
  else if op = ">" then some gt
  else if op = ">=" then some ge
  else if op = "==" then some eq
  else if op = "!=" then some neq
  else if op = "===" then some teq
  else if op = "!==" then some nteq
  else none

/-- The operators whose result `exec(BiExpression*)` assigns to the left operand;
`~=` ignores `lval`. -/
def compoundOperator (op : String) : Option (ValuePtr → ValuePtr → VMM ValuePtr) :=
  if op = "+=" then some plus
  else if op = "-=" then some minus
  else if op = "*=" then some mul
  else if op = "/=" then some div
  else if op = "%=" then some mod
  else if op = "&=" then some band
  else if op = "|=" then some bor
  else if op = "~=" then some (fun _ rval => rev rval)
  else if op = "^=" then some bxor
  else if op = "<<=" then some lshift
  else if op = ">>=" then some rshift
  else none

/-- The in-place update `++num_` / `--num_` of the cell at `p`. -/
def setNum (p : ValuePtr) (d : Double) : VMM Unit := do
  let cell ← deref p
  let st ← getState
  match p with
  | none => undefinedBehaviour
  | some a => setState { st with heap := st.heap.set a { cell with data := .Number d } }

/-- The call `std::to_string(i)` of an `int` counter. -/
def intToString (i : Nat) : String := String.mk (Nat.toDigits 10 i)

/-- The bytes of a `std::string`, each as the character of its code: the range-based
loop `for (auto c : s)` goes through the bytes of the string, so a character outside
ASCII gives one iteration for each byte of its encoding. -/
def stringBytes (s : String) : List Char :=
  (s.data.flatMap String.utf8EncodeChar).map (fun b => Char.ofNat b.toNat)

mutual

/-- The dispatcher `VM::exec(AST*)`; a node of a class without an overload yields
`Signal::sigNormal()`. -/
def exec : Nat → AST → VMM ValuePtr
  | 0, _ => fun _ => .fuelOut
  | fuel + 1, code =>
    match code with
    | .Var _ s vlist => execVar fuel s vlist none
    | .LiteralString _ _ str => alloc (.StringValue str)
    | .LiteralNumber _ _ data =>
      match stoll data with
      | some n => alloc (.Number (Double.ofInt n))
      | none => fun _ => .stdException
    | .LiteralBool _ _ b => alloc (.Boolean b)
    | .LiteralNull _ _ => pure (some nullAddr)
    | .Identifier id => do
      let ret ← getVar id.scope_ id.name_
      match ret with
      | none => pure (some undefinedAddr)
      | some a => pure (some a)
    | .Function _ _ _ _ _ => alloc (.FunctionValue code)
    | .Block _ _ stmts => execBlock fuel stmts
    | .Condition _ _ cond yes no => do
      let r ← exec fuel cond
      let check := (← deref r).toBool
      let r2 ← if check then exec fuel yes else execNullable fuel no
      if (← deref r2).type_ = .SIGNAL then pure r2
      else pure (some sigNormalAddr)
    | .Return _ _ expr =>
      match expr with
      | some e => do
        let v ← exec fuel e
        sigReturn v
      | none => sigReturn (some nullAddr)
    | .BiExpression _ _ left op right => execBiExpression fuel left op right
    | .Break _ _ => pure (some sigBreakAddr)
    | .Continue _ _ => pure (some sigContinueAddr)
    | .GroupExpression _ _ elist => execGroupExpression fuel elist none
    | .Call _ _ func args => execCall fuel func args
    | .ArrayMember _ _ base attr => do
      let a ← exec fuel attr
      let key := (← deref a).toString
      let ref ← exec fuel base
      let t := (← deref ref).type_
      if t = .UNDEFINED ∨ t = .NULLVAL then throwExecError
      else getAttr ref key
    | .ObjectMember _ _ base attr =>
      match attr with
      | .Identifier id => do
        let ref ← exec fuel base
        let t := (← deref ref).type_
        if t = .UNDEFINED ∨ t = .NULLVAL then throwExecError
        else getAttr ref id.name_
      | _ => undefinedBehaviour
    | .Array _ _ elem => do
      let ret ← alloc .ObjectValue
      execArray fuel ret elem 0
    | .Object _ _ kv => do
      let ret ← alloc .ObjectValue
      execObject fuel ret kv
    | .Keyword _ s data => getVar s data
    | .Constructor _ _ ctor =>
      match ctor with
      | .Call _ _ func args => execConstructor fuel func args
      | _ => undefinedBehaviour
    | .Switch _ _ expr branches => do
      let val ← exec fuel expr
      execSwitch fuel val false branches
    | .DoLoop _ _ blk cond => execDoLoop fuel blk cond
    | .Loop _ _ cond stmt => execLoop fuel cond stmt
    | .ForLoop _ _ init cond iter stmt => do
      let _ ← execNullable fuel init
      execForLoop fuel cond iter stmt
    | .ForInLoop _ s key target stmt => execForInLoop fuel s key target stmt
    | .With _ _ expr stmt => do
      let _ ← exec fuel expr
      exec fuel stmt
    | .UniExpression _ s op expr pre => execUniExpression fuel s op expr pre
    | .TriExpression _ _ cond yes no => do
      let c ← exec fuel cond
      let check := (← deref c).toBool
      if check then exec fuel yes else exec fuel no
    | _ => pure (some sigNormalAddr)
termination_by structural fuel => fuel

/-- The dispatcher on a pointer that may be `NULL`: every `dynamic_cast` of a null
pointer fails, so `Signal::sigNormal()` is returned. -/
def execNullable : Nat → Option AST → VMM ValuePtr
  | 0, _ => fun _ => .fuelOut
  | fuel + 1, code =>
    match code with
    | some c => exec fuel c
    | none => pure (some sigNormalAddr)
termination_by structural fuel => fuel

/-- The loop of `exec(Var*)`; `ret` is the local of that name. -/
def execVar : Nat → Option Nat → List Declaration → ValuePtr → VMM ValuePtr
  | 0, _, _, _ => fun _ => .fuelOut
  | _ + 1, _, [], ret => pure ret
  | fuel + 1, s, (.mk _ _ id init) :: rest, _ => do
    let ret ← (match init with
      | some e => exec fuel e
      | none => pure (some undefinedAddr) : VMM ValuePtr)
    setVar s id.name_ ret
    let _ ← deref ret
    execVar fuel s rest ret
termination_by structural fuel => fuel

/-- The loop of `exec(Block*)`: it returns the first value of type `SIGNAL`. -/
def execBlock : Nat → List AST → VMM ValuePtr
  | 0, _ => fun _ => .fuelOut
  | _ + 1, [] => pure (some sigNormalAddr)
  | fuel + 1, i :: rest => do
    let v ← exec fuel i
    if (← deref v).type_ = .SIGNAL then pure v
    else execBlock fuel rest
termination_by structural fuel => fuel

/-- The loop of `exec(GroupExpression*)`. -/
def execGroupExpression : Nat → List AST → ValuePtr → VMM ValuePtr
  | 0, _, _ => fun _ => .fuelOut
  | _ + 1, [], ret => pure ret
  | fuel + 1, i :: rest, _ => do
    let ret ← exec fuel i
    if (← deref ret).type_ = .SIGNAL then throwExecError
    else execGroupExpression fuel rest ret
termination_by structural fuel => fuel

/-- The loop over `func->args_` of `exec(Call*)` and `exec(Constructor*)`; `rarg`
is the list of the actual arguments not yet evaluated. -/
def execArguments : Nat → Option Nat → ValuePtr → List Identifier → List AST → Nat → VMM Unit
  | 0, _, _, _, _, _ => fun _ => .fuelOut
  | _ + 1, _, _, [], _, _ => pure ()
  | _ + 1, _, _, _ :: _, [], _ => pure ()
  | fuel + 1, fscope, arguments, arg :: formals, a :: rarg, i => do
    let v ← exec fuel a
    setVar fscope arg.name_ v
    setAttr arguments (intToString i) v
    execArguments fuel fscope arguments formals rarg (i + 1)
termination_by structural fuel => fuel

/-- The loop over `func->stmts_` of `exec(Call*)`. -/
def execCallBody : Nat → List AST → VMM ValuePtr
  | 0, _ => fun _ => .fuelOut
  | _ + 1, [] => pure (some nullAddr)
  | fuel + 1, stmt :: rest => do
    let ret ← exec fuel stmt
    match (← deref ret).data with
    | .Signal .RETURN val => pure val
    | .Signal .NORMAL _ => execCallBody fuel rest
    | .Signal _ _ => throwExecError
    | _ => execCallBody fuel rest
termination_by structural fuel => fuel

def execCall : Nat → AST → List AST → VMM ValuePtr
  | 0, _, _ => fun _ => .fuelOut
  | fuel + 1, func_, args_ => do
    let fv ← exec fuel func_
    match fv with
    | none => throwExecError
    | some _ =>
      match (← deref fv).data with
      | .FunctionValue (.Function _ fscope _ fargs fstmts) =>
        let arguments ← alloc .ObjectValue
        let me ← alloc .ObjectValue
        execArguments fuel fscope arguments fargs args_ 0
        setValueMap fscope "arguments" arguments
        setValueMap fscope "this" me
        execCallBody fuel fstmts
      | .FunctionValue _ => undefinedBehaviour
      | _ => throwExecError
termination_by structural fuel => fuel

/-- The loop over `func->stmts_` of `exec(Constructor*)`. -/
def execConstructorBody : Nat → List AST → VMM Unit
  | 0, _ => fun _ => .fuelOut
  | _ + 1, [] => pure ()
  | fuel + 1, stmt :: rest => do
    let ret ← exec fuel stmt
    match (← deref ret).data with
    | .Signal .RETURN _ => pure ()
    | .Signal .NORMAL _ => execConstructorBody fuel rest
    | .Signal _ _ => throwExecError
    | _ => execConstructorBody fuel rest
termination_by structural fuel => fuel

def execConstructor : Nat → AST → List AST → VMM ValuePtr
  | 0, _, _ => fun _ => .fuelOut
  | fuel + 1, func_, args_ => do
    let fv ← exec fuel func_
    match fv with
    | none => throwExecError
    | some _ =>
      match (← deref fv).data with
      | .FunctionValue (.Function _ fscope _ fargs fstmts) =>
        let arguments ← alloc .ObjectValue
        let me ← alloc .ObjectValue
        execArguments fuel fscope arguments fargs args_ 0
        setValueMap fscope "arguments" arguments
        setValueMap fscope "this" me
        execConstructorBody fuel fstmts
        pure me
      | .FunctionValue _ => undefinedBehaviour
      | _ => throwExecError
termination_by structural fuel => fuel

/-- The loop of `exec(Array*)`. -/
def execArray : Nat → ValuePtr → List AST → Nat → VMM ValuePtr
  | 0, _, _, _ => fun _ => .fuelOut
  | _ + 1, ret, [], _ => pure ret
  | fuel + 1, ret, e :: rest, i => do
    let v ← exec fuel e
    setAttr ret (intToString i) v
    execArray fuel ret rest (i + 1)
termination_by structural fuel => fuel

/-- The loop of `exec(Object*)`; the key is evaluated before the value (C++ leaves
the order of the two argument evaluations open). -/
def execObject : Nat → ValuePtr → List (AST × AST) → VMM ValuePtr
  | 0, _, _ => fun _ => .fuelOut
  | _ + 1, ret, [] => pure ret
  | fuel + 1, ret, (k, e) :: rest => do
    let kv ← exec fuel k
    let key := (← deref kv).toString
    let v ← exec fuel e
    setAttr ret key v
    execObject fuel ret rest
termination_by structural fuel => fuel

/-- The loop of `exec(Switch*)`; `state` is `true` for `EXECUTE`.  In the condition
`expr_ == NULL || eq(exec(expr_), val)` the `ValuePtr` that `eq` returns is
converted to `bool`, which tests it against the null pointer. -/
def execSwitch : Nat → ValuePtr → Bool → List AST → VMM ValuePtr
  | 0, _, _, _ => fun _ => .fuelOut
  | _ + 1, _, _, [] => pure (some sigNormalAddr)
  | fuel + 1, val, state, stmt :: rest =>
    match stmt with
    | .Case _ _ none => execSwitch fuel val true rest
    | .Case _ _ (some e) => do
      let c ← exec fuel e
      let r ← eq c val
      execSwitch fuel val r.isSome rest
    | _ =>
      if state then do
        let ret ← exec fuel stmt
        match (← deref ret).data with
        | .Signal .BREAK _ => pure (some sigNormalAddr)
        | .Signal _ _ => pure ret
        | _ => execSwitch fuel val state rest
      else execSwitch fuel val state rest
termination_by structural fuel => fuel

def execDoLoop : Nat → AST → AST → VMM ValuePtr
  | 0, _, _ => fun _ => .fuelOut
  | fuel + 1, blk, cond => do
    let ret ← exec fuel blk
    match (← deref ret).data with
    | .Signal .RETURN _ => pure ret
    | .Signal .BREAK _ => pure (some sigNormalAddr)
    | _ =>
      let check ← exec fuel cond
      if (← deref check).toBool then execDoLoop fuel blk cond
      else pure (some sigNormalAddr)
termination_by structural fuel => fuel

def execLoop : Nat → AST → AST → VMM ValuePtr
  | 0, _, _ => fun _ => .fuelOut
  | fuel + 1, cond, stmt => do
    let check ← exec fuel cond
    if (← deref check).toBool then
      let ret ← exec fuel stmt
      match (← deref ret).data with
      | .Signal .RETURN _ => pure ret
      | .Signal .BREAK _ => pure (some sigNormalAddr)
      | _ => execLoop fuel cond stmt
    else pure (some sigNormalAddr)
termination_by structural fuel => fuel

/-- The loop of `exec(ForLoop*)` after `exec(fl->init_)`. -/
def execForLoop : Nat → Option AST → Option AST → AST → VMM ValuePtr
  | 0, _, _, _ => fun _ => .fuelOut
  | fuel + 1, cond, iter, stmt => do
    let check ← execNullable fuel cond
    if (← deref check).toBool then
      let ret ← exec fuel stmt
      match (← deref ret).data with
      | .Signal .RETURN _ => pure ret
      | .Signal .BREAK _ => pure (some sigNormalAddr)
      | _ =>
        let _ ← execNullable fuel iter
        execForLoop fuel cond iter stmt
    else pure (some sigNormalAddr)
termination_by structural fuel => fuel

/-- The loop `for (auto c : s)` of `exec(ForInLoop*)`: the list holds the bytes of the
string, and the loop variable is set to a new `String` of the one byte. -/
def execForInString : Nat → Option Nat → String → AST → List Char → VMM ValuePtr
  | 0, _, _, _, _ => fun _ => .fuelOut
  | _ + 1, _, _, _, [] => pure (some sigNormalAddr)
  | fuel + 1, s, i, stmt, c :: rest => do
    let v ← alloc (.StringValue (String.mk [c]))
    setVar s i v
    let ret ← exec fuel stmt
    match (← deref ret).data with
    | .Signal .RETURN _ => pure ret
    | .Signal .BREAK _ => pure (some sigNormalAddr)
    | _ => execForInString fuel s i stmt rest
termination_by structural fuel => fuel

/-- The loop `for (auto key : keys)` of `exec(ForInLoop*)`: the loop variable is set
to `obj->getAttr(key)`. -/
def execForInKeys : Nat → Option Nat → String → ValuePtr → AST → List String → VMM ValuePtr
  | 0, _, _, _, _, _ => fun _ => .fuelOut
  | _ + 1, _, _, _, _, [] => pure (some sigNormalAddr)
  | fuel + 1, s, i, obj, stmt, key :: rest => do
    let v ← getAttr obj key
    setVar s i v
    let ret ← exec fuel stmt
    match (← deref ret).data with
    | .Signal .RETURN _ => pure ret
    | .Signal .BREAK _ => pure (some sigNormalAddr)
    | _ => execForInKeys fuel s i obj stmt rest
termination_by structural fuel => fuel

def execForInLoop : Nat → Option Nat → AST → AST → AST → VMM ValuePtr
  | 0, _, _, _, _ => fun _ => .fuelOut
  | fuel + 1, s, key, target, stmt => do
    let _ ← exec fuel key
    let name : Option String ← (match key with
      | .Var _ _ ((.mk _ _ id _) :: _) => pure (some id.name_)
      | .Var _ _ [] => undefinedBehaviour
      | .Identifier id => pure (some id.name_)
      | _ => pure none : VMM (Option String))
    match name with
    | none => throwExecError
    | some i =>
      let obj ← exec fuel target
      let cell ← deref obj
      match cell.data with
      | .Signal _ _ => throwExecError
      | .StringValue str => execForInString fuel s i stmt (stringBytes str)
      | _ => execForInKeys fuel s i obj stmt cell.getKeys
termination_by structural fuel => fuel

def execUniExpression : Nat → Option Nat → String → AST → Bool → VMM ValuePtr
  | 0, _, _, _, _ => fun _ => .fuelOut
  | fuel + 1, s, op, expr, pre =>
    if pre && op == "delete" then
      match expr with
      | .Identifier id => do
        delVar s id.name_
        alloc (.Boolean true)
      | .ArrayMember _ _ base attr => do
        let a ← exec fuel attr
        let key := (← deref a).toString
        let ref ← exec fuel base
        delAttr ref key
        alloc (.Boolean true)
      | .ObjectMember _ _ base (.Identifier id) => do
        let ref ← exec fuel base
        delAttr ref id.name_
        alloc (.Boolean true)
      | .ObjectMember _ _ _ _ => undefinedBehaviour
      | _ => alloc (.Boolean false)
    else do
      let v ← exec fuel expr
      if pre then
        if op = "++" then
          match (← deref v).data with
          | .Number n => do
            setNum v (Double.add n (Double.ofInt 1))
            pure v
          | _ => pure (some nanAddr)
        else if op = "--" then
          match (← deref v).data with
          | .Number n => do
            setNum v (Double.sub n (Double.ofInt 1))
            pure v
          | _ => pure (some nanAddr)
        else if op = "+" then pure v
        else if op = "-" then
          match (← deref v).data with
          | .Number n => alloc (.Number (Double.neg n))
          | _ => pure (some nanAddr)
        else if op = "~" then
          match (← deref v).data with
          | .Number n =>
            match n.toInt64 with
            | some x => alloc (.Number (Double.ofInt (-x - 1)))
            | none => undefinedBehaviour
          | _ => alloc (.Number (Double.ofInt (-1)))
        else if op = "!" then do
          let b := (← deref v).toBool
          alloc (.Boolean (!b))
        else if op = "void" then pure v
        else if op = "typeof" then do
          let t := (← deref v).typeof
          alloc (.StringValue t)
        else throwExecError
      else
        if op = "++" then
          match (← deref v).data with
          | .Number n => do
            let ret ← alloc (.Number n)
            setNum v (Double.add n (Double.ofInt 1))
            pure ret
          | _ => pure (some nanAddr)
        else if op = "--" then
          match (← deref v).data with
          | .Number n => do
            let ret ← alloc (.Number n)
            setNum v (Double.sub n (Double.ofInt 1))
            pure ret
          | _ => pure (some nanAddr)
        else throwExecError
termination_by structural fuel => fuel

def assign : Nat → AST → ValuePtr → VMM ValuePtr
  | 0, _, _ => fun _ => .fuelOut
  | fuel + 1, left, v =>
    match left with
    | .Identifier id => do
      if (← getVar id.scope_ id.name_) = none then
        setVar (← getState).global_ id.name_ v
      else
        setVar id.scope_ id.name_ v
      let _ ← deref v
      pure v
    | .ArrayMember _ _ base attr => do
      let a ← exec fuel attr
      let key := (← deref a).toString
      let ref ← exec fuel base
      let t := (← deref ref).type_
      if t = .UNDEFINED ∨ t = .NULLVAL then throwExecError
      else
        setAttr ref key v
        pure v
    | .ObjectMember _ _ base (.Identifier id) => do
      let ref ← exec fuel base
      let t := (← deref ref).type_
      if t = .UNDEFINED ∨ t = .NULLVAL then throwExecError
      else
        setAttr ref id.name_ v
        pure v
    | .ObjectMember _ _ _ _ => undefinedBehaviour
    | _ => throwExecError
termination_by structural fuel => fuel

def execBiExpression : Nat → AST → String → AST → VMM ValuePtr
  | 0, _, _, _ => fun _ => .fuelOut
  | fuel + 1, left, op, right =>
    if op = "&&" then do
      let l ← exec fuel left
      if (← deref l).toBool then
        let r ← exec fuel right
        alloc (.Boolean (← deref r).toBool)
      else alloc (.Boolean false)
    else if op = "||" then do
      let l ← exec fuel left
      if (← deref l).toBool then alloc (.Boolean true)
      else
        let r ← exec fuel right
        alloc (.Boolean (← deref r).toBool)
    else do
      let rval ← exec fuel right
      if op = "=" then assign fuel left rval
      else
        let lval ← exec fuel left
        match compoundOperator op with
        | some f =>
          let r ← f lval rval
          assign fuel left r
        | none =>
          match binaryOperator op with
          | some f => f lval rval
          | none => throwExecError
termination_by structural fuel => fuel

end

/-- The function `VM::loadBuiltin`. -/
def loadBuiltin : VMM Unit := do
  setVar (← getState).global_ "undefined" (some undefinedAddr)

/-- The loop over `prog->stmts_` of `exec(Program*)`. -/
def execStatements (fuel : Nat) : List AST → VMM Unit
  | [] => pure ()
  | i :: rest => do
    let ret ← exec fuel i
    match (← deref ret).data with
    | .Signal .NORMAL _ => execStatements fuel rest
    | .Signal _ _ => throwExecError
    | _ => execStatements fuel rest

/-- The final loop of `exec(Program*)`, which prints `i.second->toString()` for
every binding of the program scope. -/
def printVars : List (String × ValuePtr) → VMM Unit
  | [] => pure ()
  | (_, v) :: rest => do
    let _ ← deref v
    printVars rest

/-- The function `VM::exec(Program*)`. -/
def execProgram (fuel : Nat) (prog : AST) : VMM Unit :=
  match prog with
  | .Program _ scope stmts => do
    setState { (← getState) with global_ := scope }
    loadBuiltin
    execStatements fuel stmts
    let g ← derefScope scope
    printVars ((← getState).scopes.getD g default).vars_
  | _ => undefinedBehaviour

end VM

/-- The function `main` of `test.cpp` from the source text on: `new Lexer(source)`,
`new Parser(lex)`, `vm->exec(ps->getProgram())`.  The result is the memory of the VM
when `exec` returns. -/
inductive RunResult where
  | finished (st : VMState)
  | parseError
  | execError
  | stdException
  | undefinedBehaviour
  | fuelOut

/-- The memory a fresh `VM` starts on after the parser allocated `scopes`. -/
def initialState (scopes : List (Option Nat)) : VMState :=
  ⟨initialHeap, scopes.map (fun p => ⟨[], p⟩), none, none⟩

def run (fuel : Nat) (source : String) : RunResult :=
  match Lexer source with
  | .outOfBounds => .undefinedBehaviour
  | .fuelOut => .fuelOut
  | .tokens ts =>
    match Parser.program fuel ⟨ts, []⟩ with
    | .parseError => .parseError
    | .undefinedBehaviour => .undefinedBehaviour
    | .fuelOut => .fuelOut
    | .ok prog pst =>
      match VM.execProgram fuel prog (initialState pst.scopes) with
      | .ok _ st => .finished st
      | .execError => .execError
      | .stdException => .stdException
      | .undefinedBehaviour => .undefinedBehaviour
      | .fuelOut => .fuelOut

/-! ## Observations

What the statements below read off a result: a value without its property map and
without the code of a function, a binding of one scope, how a run ended, and an AST
without ranges and scopes. -/

/-- The class and payload of a value. -/
inductive Obs where
  | undefined
  | null
  | bool (b : Bool)
  | number (d : Double)
  | nan
  | string (s : String)
  | object
  | function
  | signal (t : SignalType)
deriving DecidableEq, Repr

def Value.obs (v : Value) : Obs :=
  match v.data with
  | .Undefined => .undefined
  | .Boolean b => .bool b
  | .NotaNumber => .nan
  | .Number n => .number n
  | .StringValue s => .string s
  | .ObjectValue => .object
  | .NullValue => .null
  | .FunctionValue _ => .function
  | .Signal t _ => .signal t

/-- The value a pointer leads to. -/
def VMState.obsAt (st : VMState) (p : ValuePtr) : Option Obs :=
  match p with
  | none => none
  | some a => (st.heap[a]?).map Value.obs

/-- The entry for `name` in the map `vars_` of the scope `i` itself (the parent
chain is not followed): `none` when the scope has no such entry. -/
def scopeEntry (scopes : List Scope) (i : Nat) (name : String) : Option ValuePtr :=
  match scopes[i]? with
  | none => none
  | some sc => mapFind sc.vars_ name

def VMState.entry (st : VMState) (scope : Nat) (name : String) : Option ValuePtr :=
  scopeEntry st.scopes scope name

/-- The value bound to `name` in the scope `scope` itself. -/
def VMState.lookup (st : VMState) (scope : Nat) (name : String) : Option Obs :=
  match st.entry scope name with
  | some p => st.obsAt p
  | none => none

/-- How a run ended. -/
inductive Outcome where
  | finished | parseError | execError | stdException | undefinedBehaviour | fuelOut
deriving DecidableEq, Repr

def RunResult.outcome : RunResult → Outcome
  | .finished _ => .finished
  | .parseError => .parseError
  | .execError => .execError
  | .stdException => .stdException
  | .undefinedBehaviour => .undefinedBehaviour
  | .fuelOut => .fuelOut

/-- The value bound to `name` in the scope `scope` when the run finished. -/
def RunResult.lookup (r : RunResult) (scope : Nat) (name : String) : Option Obs :=
  match r with
  | .finished st => st.lookup scope name
  | _ => none

/-- The names bound in the scope `scope` when the run finished. -/
def RunResult.names (r : RunResult) (scope : Nat) : Option (List String) :=
  match r with
  | .finished st => (st.scopes[scope]?).map (fun sc => sc.vars_.map Prod.fst)
  | _ => none

/-- The value an evaluator function returned. -/
def ExecResult.obs (r : ExecResult ValuePtr) : Option Obs :=
  match r with
  | .ok p st => st.obsAt p
  | _ => none

/-- An expression without ranges and scopes: identifiers and literals by their
lexeme, unary, binary and ternary nodes by operator and operands; every other class
of node is `other`. -/
inductive Shape where
  | leaf (lexeme : String)
  | uni (op : String) (e : Shape) (pre : Bool)
  | bi (l : Shape) (op : String) (r : Shape)
  | tri (c : Shape) (y : Shape) (n : Shape)
  | other
deriving DecidableEq, Repr

def AST.shape : AST → Shape
  | .Identifier id => .leaf id.name_
  | .LiteralNumber _ _ data => .leaf data
  | .LiteralString _ _ str => .leaf str
  | .LiteralBool _ _ b => .leaf (if b then "true" else "false")
  | .LiteralNull _ _ => .leaf "null"
  | .Keyword _ _ data => .leaf data
  | .UniExpression _ _ op e pre => .uni op e.shape pre
  | .BiExpression _ _ l op r => .bi l.shape op r.shape
  | .TriExpression _ _ c y n => .tri c.shape y.shape n.shape
  | _ => .other

/-- The statements of the program a source parses to, as shapes. -/
def parseShapes (fuel : Nat) (source : String) : Option (List Shape) :=
  match Lexer source with
  | .tokens ts =>
    match Parser.program fuel ⟨ts, []⟩ with
    | .ok (.Program _ _ stmts) _ => some (stmts.map AST.shape)
    | _ => none
  | _ => none

/-- The scopes that `Scope::getVar`, `setVar` and `delVar` visit from `cur` on,
nearest first. -/
def scopeChain (scopes : List Scope) : Nat → Option Nat → List Nat
  | 0, _ => []
  | _ + 1, none => []
  | fuel + 1, some cur =>
    match scopes[cur]? with
    | none => []
    | some sc => cur :: scopeChain scopes fuel sc.parent_

/-- Whether the map `vars_` of the scope `i` itself has an entry for `name`. -/
def hasVar (scopes : List Scope) (name : String) (i : Nat) : Bool :=
  match scopes[i]? with
  | none => false
  | some sc => (mapFind sc.vars_ name).isSome

/-- The nearest scope of the chain from `s` that has an entry for `name`. -/
def nearestBinding (scopes : List Scope) (s : Nat) (name : String) : Option Nat :=
  (scopeChain scopes (scopes.length + 1) (some s)).find? (hasVar scopes name)

/-- A state with one empty program scope and no value allocated after the
singletons. -/
def witnessState : VMState := ⟨initialHeap, [⟨[], none⟩], some 0, none⟩

/-- A state whose heap has the string `"x"` at address 6, after the singletons. -/
def stringHeapState : VMState := ⟨initialHeap ++ [⟨.StringValue "x", []⟩], [], none, none⟩

/-- A state with an empty program scope, an empty function scope below it, and an
object (the `arguments` of a call) at address 6. -/
def callState : VMState :=
  ⟨initialHeap ++ [⟨.ObjectValue, []⟩], [⟨[], none⟩, ⟨[], some 0⟩], some 0, none⟩

/-- A state whose heap has the number 2 (the head of a switch) at address 6, after
the singletons. -/
def switchState : VMState :=
  ⟨initialHeap ++ [⟨.Number (Double.ofInt 2), []⟩], [⟨[], none⟩], some 0, none⟩

/-- The kinds and lexemes of the tokens of a source. -/
def lexemes (source : String) : Option (List (TokenType × String)) :=
  match Lexer source with
  | .tokens ts => some (ts.map (fun t => (t.type_, t.data_)))
  | _ => none

/-- The condition of the lexer rule on the tokens emitted so far, in the words of the
specification: no token yet, or a last token that is neither an identifier, number,
string, regular-expression or keyword token nor the lexeme `)`. -/
def regexContext (tokens_ : List Token) : Prop :=
  tokens_ = [] ∨ ∃ t, tokens_.getLast? = some t ∧ t.type_ ≠ .IDENTIFIER ∧ t.type_ ≠ .NUMBER
    ∧ t.type_ ≠ .STRING ∧ t.type_ ≠ .REGULAR ∧ t.type_ ≠ .KEYWORD ∧ t.data_ ≠ ")"

/-- An identifier token as the lexer emits it: its lexeme is neither a keyword nor a
key of `TOKEN_MAP`. -/
def isName (t : Token) : Prop :=
  t.type_ = .IDENTIFIER ∧ mapFind TOKEN_MAP t.data_ = none ∧ t.data_ ∉ KEYWORDS

/-- The condition `i < N` of the counting loop, `N` having the lexeme `lexeme`. -/
def countingCond (rg : Nat → PositionRange) (lexeme : String) : AST :=
  .GroupExpression (rg 9) (some 1)
    [.BiExpression (rg 10) (some 1) (.Identifier ⟨rg 11, some 1, "i"⟩) "<"
      (.LiteralNumber (rg 12) none lexeme)]

/-- The tail `i++` of the counting loop. -/
def countingTail (rg : Nat → PositionRange) : AST :=
  .GroupExpression (rg 13) (some 1)
    [.UniExpression (rg 14) (some 1) "++" (.Identifier ⟨rg 15, some 1, "i"⟩) false]

/-- The statements the parser makes of `var i = 0; for (i = 0; i < N; i++) {} i`, `N`
being a number token with the lexeme `lexeme`: scope 0 is the one of the program,
scope 1 the one of the `for` statement and scope 2 the one of its body; `rg` gives
the ranges of the nodes. -/
def countingLoop (rg : Nat → PositionRange) (lexeme : String) : List AST :=
  [.Var (rg 0) (some 0)
      [.mk (rg 1) (some 0) ⟨rg 2, some 0, "i"⟩ (some (.LiteralNumber (rg 3) none "0"))],
   .ForLoop (rg 4) (some 1)
      (some (.GroupExpression (rg 5) (some 1)
        [.BiExpression (rg 6) (some 1) (.Identifier ⟨rg 7, some 1, "i"⟩) "="
          (.LiteralNumber (rg 8) none "0")]))
      (some (countingCond rg lexeme)) (some (countingTail rg)) (.Block (rg 16) (some 2) []),
   .Identifier ⟨rg 17, some 0, "i"⟩]

/-- The scopes of the counting loop once `i` is bound: the global `i` is the value at
address 7. -/
def loopScopes : List Scope :=
  [⟨[("undefined", some 0), ("i", some 7)], none⟩, ⟨[], some 0⟩, ⟨[], some 1⟩]

/-- The heap of the counting loop below the value of `i`: the singletons and the
value of the initialiser of `var i = 0`. -/
def loopPrefix : List Value := initialHeap ++ [⟨.Number (Double.ofInt 0), []⟩]

/-- The program a source parses to, with the parents of the scopes the parser
allocated. -/
def parseProgram (fuel : Nat) (source : String) : Option (AST × List (Option Nat)) :=
  match Lexer source with
  | .tokens ts =>
    match Parser.program fuel ⟨ts, []⟩ with
    | .ok prog pst => some (prog, pst.scopes)
    | _ => none
  | _ => none

/-- The range of an identifier node with the scope `s` and the name `n`. -/
def identifierRange (s : Option Nat) (n : String) : AST → Option PositionRange
  | .Identifier id => if id.scope_ = s ∧ id.name_ = n then some id.range_ else none
  | _ => none

/-- The range and the lexeme of a number literal (whose `scope_` is unset). -/
def numberParts : AST → Option (PositionRange × String)
  | .LiteralNumber r s d => if s = none then some (r, d) else none
  | _ => none

/-- The range and the expression of a group of one expression with the scope `s`. -/
def groupParts (s : Option Nat) : Option AST → Option (PositionRange × AST)
  | some (.GroupExpression r s1 [e]) => if s1 = s then some (r, e) else none
  | _ => none

/-- The range and the operands of a binary expression with the scope `s` and the
operator `op`. -/
def biParts (s : Option Nat) (op : String) : AST → Option (PositionRange × AST × AST)
  | .BiExpression r s1 l o e => if s1 = s ∧ o = op then some (r, l, e) else none
  | _ => none

/-- The range and the operand of a unary expression with the scope `s`, the operator
`op` and the position `pre` of the operator. -/
def uniParts (s : Option Nat) (op : String) (pre : Bool) : AST → Option (PositionRange × AST)
  | .UniExpression r s1 o e p => if s1 = s ∧ o = op ∧ p = pre then some (r, e) else none
  | _ => none

/-- The range and the three statements of a program with the scope `s`. -/
def programParts (s : Option Nat) : AST → Option (PositionRange × AST × AST × AST)
  | .Program r s1 [a, b, c] => if s1 = s then some (r, a, b, c) else none
  | _ => none

/-- The ranges of the statement, the declaration and the identifier, and the
initialiser, of a `var` statement that declares `n` in the scope `s`. -/
def varParts (s : Option Nat) (n : String) :
    AST → Option (PositionRange × PositionRange × PositionRange × AST)
  | .Var r s1 [.mk r1 s2 id (some init)] =>
    if s1 = s ∧ s2 = s ∧ id.scope_ = s ∧ id.name_ = n then some (r, r1, id.range_, init) else none
  | _ => none

/-- The range, the three clauses and the range of the body of a `for` statement with
the scope `s` and an empty block with the scope `b` as its body. -/
def forParts (s b : Option Nat) :
    AST → Option (PositionRange × Option AST × Option AST × Option AST × PositionRange)
  | .ForLoop r s1 i c t (.Block r1 s2 []) =>
    if s1 = s ∧ s2 = b then some (r, i, c, t, r1) else none
  | _ => none

/-- The ranges of the nodes of the clause `(i = 0)` of the counting loop. -/
def initRanges (init : Option AST) : Option (List PositionRange) :=
  (groupParts (some 1) init).bind fun g =>
  (biParts (some 1) "=" g.2).bind fun b =>
  (identifierRange (some 1) "i" b.2.1).bind fun r7 =>
  (numberParts b.2.2).bind fun n =>
  if n.2 = "0" then some [g.1, b.1, r7, n.1] else none

/-- The ranges of the nodes of the clause `(i < N)` of the counting loop, and the
lexeme of `N`. -/
def condRanges (cond : Option AST) : Option (List PositionRange × String) :=
  (groupParts (some 1) cond).bind fun g =>
  (biParts (some 1) "<" g.2).bind fun b =>
  (identifierRange (some 1) "i" b.2.1).bind fun r11 =>
  (numberParts b.2.2).bind fun n =>
  some ([g.1, b.1, r11, n.1], n.2)

/-- The ranges of the nodes of the clause `(i++)` of the counting loop. -/
def tailRanges (tail : Option AST) : Option (List PositionRange) :=
  (groupParts (some 1) tail).bind fun g =>
  (uniParts (some 1) "++" false g.2).bind fun u =>
  (identifierRange (some 1) "i" u.2).bind fun r15 =>
  some [g.1, u.1, r15]

/-- The ranges of the nodes of the statement `var i = 0` of the counting loop. -/
def varRanges (a : AST) : Option (List PositionRange) :=
  (varParts (some 0) "i" a).bind fun v =>
  (numberParts v.2.2.2).bind fun n =>
  if n.2 = "0" then some [v.1, v.2.1, v.2.2.1, n.1] else none

/-- The ranges of the nodes and the lexeme of the bound of a program that has the
statements of the counting loop, in the order of `countingLoop`; `none` for every
other program. -/
def countingRanges (p : AST) : Option (List PositionRange × String) :=
  (programParts (some 0) p).bind fun q =>
  (varRanges q.2.1).bind fun rv =>
  (forParts (some 1) (some 2) q.2.2.1).bind fun f =>
  (initRanges f.2.1).bind fun ri =>
  (condRanges f.2.2.1).bind fun rc =>
  (tailRanges f.2.2.2.1).bind fun rt =>
  (identifierRange (some 0) "i" q.2.2.2).bind fun r17 =>
  some (rv ++ f.1 :: ri ++ rc.1 ++ rt ++ [f.2.2.2.2, r17, q.1], rc.2)

/-- A state whose program scope binds `x` to the number 5 at address 6. -/
def numberState : VMState :=
  ⟨initialHeap ++ [⟨.Number (Double.ofInt 5), []⟩], [⟨[("x", some 6)], none⟩], some 0, none⟩

/-- What a loop evaluator may return: the pointer `Signal::sigNormal()`, or a
pointer to a `Signal` of the type `RETURN`. -/
def isNormalOrReturn (st : VMState) (r : ValuePtr) : Prop :=
  r = some sigNormalAddr
    ∨ ∃ (a : Nat) (v : ValuePtr) (attrs : List (String × ValuePtr)),
        r = some a ∧ st.heap[a]? = some ⟨.Signal .RETURN v, attrs⟩

/-! ## The nodes of a tree and what the parser guarantees of them -/

/-- The enumeration `AST::Type`. -/
inductive ASTType where
  | PROGRAM | FUNCTION | IDENTIFIER | EMPTY | VAR | DECLARATION | BLOCK | CONDITION | SWITCH
  | CASE | DOLOOP | LOOP | FORLOOP | FORINLOOP | RETURN | BREAK | CONTINUE | WITH | TRY | THROW
  | GROUP_EXPR | UNI_EXPR | BIN_EXPR | TRI_EXPR | CONSTRUCTOR | ARRAY_MEMBER | OBJECT_MEMBER
  | CALL | LITERAL_BOOL | LITERAL_NUMBER | LITERAL_STRING | LITERAL_NULL | KEYWORD | ARRAY
  | OBJECT | LITERAL_REGULAR
deriving DecidableEq, Repr

/-- The members of the base class `AST` of one node: `type_`, `range_` and `scope_`. -/
structure Node where
  type_ : ASTType
  range_ : PositionRange
  scope_ : Option Nat
deriving DecidableEq, Repr

/-- The base-class members of an `Identifier`. -/
def Identifier.node (id : Identifier) : Node := ⟨.IDENTIFIER, id.range_, id.scope_⟩

mutual
/-- The nodes of a tree: the node itself, then the nodes of its children. -/
def AST.nodes : AST → List Node
  | .Identifier id => [id.node]
  | .Program r s stmts => ⟨.PROGRAM, r, s⟩ :: AST.nodesList stmts
  | .Function r s id args stmts =>
    ⟨.FUNCTION, r, s⟩ :: (id.toList.map Identifier.node ++ args.map Identifier.node
      ++ AST.nodesList stmts)
  | .Empty r s => [⟨.EMPTY, r, s⟩]
  | .Var r s vlist => ⟨.VAR, r, s⟩ :: Declaration.nodesList vlist
  | .Block r s stmts => ⟨.BLOCK, r, s⟩ :: AST.nodesList stmts
  | .Condition r s cond yes no =>
    ⟨.CONDITION, r, s⟩ :: (cond.nodes ++ yes.nodes ++ AST.nodesOpt no)
  | .Switch r s expr branches => ⟨.SWITCH, r, s⟩ :: (expr.nodes ++ AST.nodesList branches)
  | .Case r s expr => ⟨.CASE, r, s⟩ :: AST.nodesOpt expr
  | .DoLoop r s blk cond => ⟨.DOLOOP, r, s⟩ :: (blk.nodes ++ cond.nodes)
  | .Loop r s cond stmt => ⟨.LOOP, r, s⟩ :: (cond.nodes ++ stmt.nodes)
  | .ForLoop r s init cond iter stmt =>
    ⟨.FORLOOP, r, s⟩ :: (AST.nodesOpt init ++ AST.nodesOpt cond ++ AST.nodesOpt iter
      ++ stmt.nodes)
  | .ForInLoop r s key target stmt =>
    ⟨.FORINLOOP, r, s⟩ :: (key.nodes ++ target.nodes ++ stmt.nodes)
  | .Return r s expr => ⟨.RETURN, r, s⟩ :: AST.nodesOpt expr
  | .Break r s => [⟨.BREAK, r, s⟩]
  | .Continue r s => [⟨.CONTINUE, r, s⟩]
  | .With r s expr stmt => ⟨.WITH, r, s⟩ :: (expr.nodes ++ stmt.nodes)
  | .Try r s tryblk catches finblk =>
    ⟨.TRY, r, s⟩ :: (tryblk.nodes ++ AST.nodesPairs catches ++ AST.nodesOpt finblk)
  | .Throw r s expr => ⟨.THROW, r, s⟩ :: expr.nodes
  | .GroupExpression r s elist => ⟨.GROUP_EXPR, r, s⟩ :: AST.nodesList elist
  | .UniExpression r s _ expr _ => ⟨.UNI_EXPR, r, s⟩ :: expr.nodes
  | .BiExpression r s left _ right => ⟨.BIN_EXPR, r, s⟩ :: (left.nodes ++ right.nodes)
  | .TriExpression r s cond yes no =>
    ⟨.TRI_EXPR, r, s⟩ :: (cond.nodes ++ yes.nodes ++ no.nodes)
  | .Constructor r s ctor => ⟨.CONSTRUCTOR, r, s⟩ :: ctor.nodes
  | .ArrayMember r s base attr => ⟨.ARRAY_MEMBER, r, s⟩ :: (base.nodes ++ attr.nodes)
  | .ObjectMember r s base attr => ⟨.OBJECT_MEMBER, r, s⟩ :: (base.nodes ++ attr.nodes)
  | .Call r s func args => ⟨.CALL, r, s⟩ :: (func.nodes ++ AST.nodesList args)
  | .LiteralBool r s _ => [⟨.LITERAL_BOOL, r, s⟩]
  | .LiteralNumber r s _ => [⟨.LITERAL_NUMBER, r, s⟩]
  | .LiteralString r s _ => [⟨.LITERAL_STRING, r, s⟩]
  | .LiteralNull r s => [⟨.LITERAL_NULL, r, s⟩]
  | .Keyword r s _ => [⟨.KEYWORD, r, s⟩]
  | .Array r s elem => ⟨.ARRAY, r, s⟩ :: AST.nodesList elem
  | .Object r s kv => ⟨.OBJECT, r, s⟩ :: AST.nodesPairs kv
  | .LiteralRegular r s _ => [⟨.LITERAL_REGULAR, r, s⟩]
/-- The nodes of the trees of a `std::list<AST*>`. -/
def AST.nodesList : List AST → List Node
  | [] => []
  | a :: rest => a.nodes ++ AST.nodesList rest
/-- The nodes of a tree that may be `NULL`. -/
def AST.nodesOpt : Option AST → List Node
  | none => []
  | some a => a.nodes
/-- The nodes of the trees of a list of pairs (`Try::catches_`, `Object::kv_`). -/
def AST.nodesPairs : List (AST × AST) → List Node
  | [] => []
  | (a, b) :: rest => a.nodes ++ b.nodes ++ AST.nodesPairs rest
/-- The nodes of a `Declaration`: the node itself, its identifier and its initialiser. -/
def Declaration.nodes : Declaration → List Node
  | .mk r s id init => ⟨.DECLARATION, r, s⟩ :: id.node :: AST.nodesOpt init
/-- The nodes of the declarations of `Var::vlist_`. -/
def Declaration.nodesList : List Declaration → List Node
  | [] => []
  | d :: rest => d.nodes ++ Declaration.nodesList rest
end

/-- The nodes of the program a source parses to, with the parents of the scopes the
parser allocated. -/
def parsedNodes (fuel : Nat) (source : String) : Option (List Node × List (Option Nat)) :=
  (parseProgram fuel source).map fun p => (p.1.nodes, p.2)

/-- The classes of node whose `scope_` no parser function assigns: the constructors
of these classes are called without a `Scope*` at hand, or the result is returned
as it is. -/
def ASTType.unscoped : ASTType → Bool
  | .EMPTY | .CASE | .BREAK | .CONTINUE | .TRY | .LITERAL_BOOL | .LITERAL_NUMBER
  | .LITERAL_STRING | .LITERAL_NULL | .ARRAY | .OBJECT | .LITERAL_REGULAR => true
  | _ => false

/-- The order of positions by line, then column. -/
def Position.le (a b : Position) : Prop :=
  a.line_ < b.line_ ∨ (a.line_ = b.line_ ∧ a.col_ ≤ b.col_)

/-- The strict order of positions by line, then column. -/
def Position.lt (a b : Position) : Prop :=
  a.line_ < b.line_ ∨ (a.line_ = b.line_ ∧ a.col_ < b.col_)

instance (a b : Position) : Decidable (a.le b) := by
  unfold Position.le
  infer_instance

instance (a b : Position) : Decidable (a.lt b) := by
  unfold Position.lt
  infer_instance

/-- The scope without a parent that the parent pointers lead to from the scope `i`. -/
def rootOf (scopes : List (Option Nat)) : Nat → Nat → Option Nat
  | 0, _ => none
  | fuel + 1, i =>
    match scopes[i]? with
    | none => none
    | some none => some i
    | some (some p) => rootOf scopes fuel p

/-- What the lexer guarantees of a token list: every range is ordered, and the begin
positions increase strictly along the list. -/
def TokensOk (ts : List Token) : Prop :=
  (∀ t ∈ ts, t.range_.begin_.le t.range_.end_)
    ∧ ts.Pairwise (fun a b => a.range_.begin_.lt b.range_.begin_)

/-- The scopes the parser has allocated: the first has no parent, every other has
an earlier scope as its parent. -/
def ScopesOk (scopes : List (Option Nat)) : Prop :=
  ∀ (j : Nat) (p : Option Nat), scopes[j]? = some p →
    (j = 0 ∧ p = none) ∨ ∃ q, p = some q ∧ q < j

/-- A node as the parser leaves it when `N` scopes are allocated: the range is
ordered, and `scope_` is null for the classes of `ASTType.unscoped` and one of the
`N` scopes for every other class. -/
def Node.wellFormed (N : Nat) (n : Node) : Prop :=
  n.range_.begin_.le n.range_.end_
    ∧ (n.type_.unscoped = true → n.scope_ = none)
    ∧ (n.type_.unscoped = false → ∃ i, n.scope_ = some i ∧ i < N)

/-- Every node of a list is well formed. -/
def Good (N : Nat) (ns : List Node) : Prop := ∀ n ∈ ns, n.wellFormed N

/-- A parser state during the parse of the token list `T0`: the tokens left are a
suffix of `T0`, and the scopes are well formed. -/
def ParserState.within (T0 : List Token) (st : ParserState) : Prop :=
  st.toks <:+ T0 ∧ ScopesOk st.scopes

/-- The position `b` is not after the begin of any token left. -/
def Low (b : Position) (st : ParserState) : Prop :=
  ∀ t ∈ st.toks, b.le t.range_.begin_

/-- What a parser function guarantees from the state `st` to the state `st1` with
the nodes `ns` it returns: it stays within `T0`, consumes tokens only, allocates
scopes only, and the nodes are well formed. -/
def Post (T0 : List Token) (st st1 : ParserState) (ns : List Node) : Prop :=
  st1.within T0 ∧ st1.toks.length ≤ st.toks.length
    ∧ st.scopes.length ≤ st1.scopes.length ∧ Good st1.scopes.length ns

/-- The guarantee of a parser function that takes a scope and returns a tree. -/
def SpecTree (T0 : List Token) (f : Option Nat → ParserM AST) : Prop :=
  ∀ (i : Nat) (st st1 : ParserState) (a : AST), st.within T0 → i < st.scopes.length →
    f (some i) st = .ok a st1 → Post T0 st st1 a.nodes

/-- The guarantee of a loop that appends trees to the list `ret`. -/
def SpecList (T0 : List Token) (f : Option Nat → List AST → ParserM (List AST)) : Prop :=
  ∀ (i : Nat) (ret : List AST) (st st1 : ParserState) (a : List AST), st.within T0 →
    i < st.scopes.length → Good st.scopes.length (AST.nodesList ret) →
    f (some i) ret st = .ok a st1 → Post T0 st st1 (AST.nodesList a)

/-- The guarantee of a parser function that returns a list of trees. -/
def SpecTrees (T0 : List Token) (f : Option Nat → ParserM (List AST)) : Prop :=
  ∀ (i : Nat) (st st1 : ParserState) (a : List AST), st.within T0 → i < st.scopes.length →
    f (some i) st = .ok a st1 → Post T0 st st1 (AST.nodesList a)

/-- The guarantee of `declare`. -/
def SpecDecl (T0 : List Token) (f : Option Nat → ParserM Declaration) : Prop :=
  ∀ (i : Nat) (st st1 : ParserState) (a : Declaration), st.within T0 → i < st.scopes.length →
    f (some i) st = .ok a st1 → Post T0 st st1 a.nodes

/-- The guarantee of the loop of `varStatement`. -/
def SpecDecls (T0 : List Token)
    (f : Option Nat → List Declaration → ParserM (List Declaration)) : Prop :=
  ∀ (i : Nat) (ret : List Declaration) (st st1 : ParserState) (a : List Declaration),
    st.within T0 → i < st.scopes.length → Good st.scopes.length (Declaration.nodesList ret) →
    f (some i) ret st = .ok a st1 → Post T0 st st1 (Declaration.nodesList a)

/-- The guarantee of a loop that appends pairs of trees to the list `ret`. -/
def SpecPairs (T0 : List Token)
    (f : Option Nat → List (AST × AST) → ParserM (List (AST × AST))) : Prop :=
  ∀ (i : Nat) (ret : List (AST × AST)) (st st1 : ParserState) (a : List (AST × AST)),
    st.within T0 → i < st.scopes.length → Good st.scopes.length (AST.nodesPairs ret) →
    f (some i) ret st = .ok a st1 → Post T0 st st1 (AST.nodesPairs a)

/-- The guarantee of the loop of `switchStatement`, which is given the begin of the
statement. -/
def SpecBranches (T0 : List Token)
    (f : Position → Option Nat → List AST → ParserM (List AST)) : Prop :=
  ∀ (begin : Position) (i : Nat) (ret : List AST) (st st1 : ParserState) (a : List AST),
    st.within T0 → i < st.scopes.length → Low begin st →
    Good st.scopes.length (AST.nodesList ret) →
    f begin (some i) ret st = .ok a st1 → Post T0 st st1 (AST.nodesList a)

/-- The guarantee of a parser function that is given the begin of the node it
builds and a tree built before. -/
def SpecFrom (T0 : List Token) (f : Position → Option Nat → AST → ParserM AST) : Prop :=
  ∀ (begin : Position) (i : Nat) (x : AST) (st st1 : ParserState) (a : AST),
    st.within T0 → i < st.scopes.length → Low begin st → Good st.scopes.length x.nodes →
    f begin (some i) x st = .ok a st1 → Post T0 st st1 a.nodes

/-- The guarantee of the code at the label `forloop:`. -/
def SpecForloop (T0 : List Token)
    (f : Position → Option Nat → Option AST → ParserM AST) : Prop :=
  ∀ (begin : Position) (i : Nat) (x : Option AST) (st st1 : ParserState) (a : AST),
    st.within T0 → i < st.scopes.length → Low begin st →
    Good st.scopes.length (AST.nodesOpt x) →
    f begin (some i) x st = .ok a st1 → Post T0 st st1 a.nodes

/-- The guarantee of the loop that ends `expression(int, Scope*)`. -/
def SpecChain (T0 : List Token)
    (f : Nat → Option Nat → PositionRange → AST → AST → ParserM AST) : Prop :=
  ∀ (pri i : Nat) (range : PositionRange) (left ret : AST) (st st1 : ParserState) (a : AST),
    st.within T0 → i < st.scopes.length → range.begin_.le range.end_ →
    Good st.scopes.length left.nodes → Good st.scopes.length ret.nodes →
    f pri (some i) range left ret st = .ok a st1 → Post T0 st st1 a.nodes

/-- The guarantees of the parser functions at one amount of fuel. -/
structure ParserSpec (T0 : List Token) (fuel : Nat) : Prop where
  topStatementsLoop : SpecList T0 (Parser.topStatementsLoop fuel)
  topStatements : SpecTrees T0 (Parser.topStatements fuel)
  topStatement : SpecTree T0 (Parser.topStatement fuel)
  namedFunction : SpecTree T0 (Parser.namedFunction fuel)
  statement : SpecTree T0 (Parser.statement fuel)
  varStatementLoop : SpecDecls T0 (Parser.varStatementLoop fuel)
  varStatement : SpecTree T0 (Parser.varStatement fuel)
  declare : SpecDecl T0 (Parser.declare fuel)
  block : SpecTree T0 (Parser.block fuel)
  statements : SpecList T0 (Parser.statements fuel)
  ifStatement : SpecTree T0 (Parser.ifStatement fuel)
  switchStatementLoop : SpecBranches T0 (Parser.switchStatementLoop fuel)
  switchStatement : SpecTree T0 (Parser.switchStatement fuel)
  doStatement : SpecTree T0 (Parser.doStatement fuel)
  whileStatement : SpecTree T0 (Parser.whileStatement fuel)
  forStatement : SpecTree T0 (Parser.forStatement fuel)
  forloop : SpecForloop T0 (Parser.forloop fuel)
  forin : SpecFrom T0 (Parser.forin fuel)
  returnStatement : SpecTree T0 (Parser.returnStatement fuel)
  withStatement : SpecTree T0 (Parser.withStatement fuel)
  throwStatement : SpecTree T0 (Parser.throwStatement fuel)
  tryStatementLoop : SpecPairs T0 (Parser.tryStatementLoop fuel)
  tryStatement : SpecTree T0 (Parser.tryStatement fuel)
  expressionLoop : SpecList T0 (Parser.expressionLoop fuel)
  expression : SpecTree T0 (Parser.expression fuel)
  expressionPri : ∀ pri : Nat, SpecTree T0 (Parser.expressionPri fuel pri)
  expressionChain : SpecChain T0 (Parser.expressionChain fuel)
  leftExpression : SpecTree T0 (Parser.leftExpression fuel)
  constructor : SpecTree T0 (Parser.constructor fuel)
  callExpressionLoop : SpecFrom T0 (Parser.callExpressionLoop fuel)
  callExpression : SpecTree T0 (Parser.callExpression fuel)
  arglistLoop : SpecList T0 (Parser.arglistLoop fuel)
  arglist : SpecTrees T0 (Parser.arglist fuel)
  primary : SpecTree T0 (Parser.primary fuel)
  function : SpecTree T0 (Parser.function fuel)
  literalArrayLoop : SpecList T0 (Parser.literalArrayLoop fuel)
  literalArray : SpecTree T0 (Parser.literalArray fuel)
  literalObjectLoop : SpecPairs T0 (Parser.literalObjectLoop fuel)
  literalObject : SpecTree T0 (Parser.literalObject fuel)
  forbeginPri : ∀ pri : Nat, SpecTree T0 (Parser.forbeginPri fuel pri)
  forbeginChain : SpecChain T0 (Parser.forbeginChain fuel)
  forbeginLoop : SpecList T0 (Parser.forbeginLoop fuel)
  forbegin : SpecTree T0 (Parser.forbegin fuel)

/-! ## The pointers that a state holds -/

/-- A pointer that is null, or the address of one of the `n` allocated cells and
outside the set `X`. -/
def ValidPtr (X : Nat → Prop) (n : Nat) (p : ValuePtr) : Prop :=
  ∀ a, p = some a → a < n ∧ ¬ X a

/-- A cell whose properties and signal payload are valid pointers. -/
def CellOk (X : Nat → Prop) (n : Nat) (c : Value) : Prop :=
  (∀ kv ∈ c.attr_, ValidPtr X n kv.2) ∧ (∀ t v, c.data = .Signal t v → ValidPtr X n v)

/-- A state in which no pointer dangles and none leads to a cell of `X`: the
singletons are allocated and outside `X`, the cells of `X` are allocated, and every
pointer held by a scope, by a property map, by a signal or by the static of
`Signal::sigReturn` is valid. -/
structure PtrInv (X : Nat → Prop) (st : VMState) : Prop where
  six : 6 ≤ st.heap.length
  low : ∀ a, a < 6 → ¬ X a
  excl : ∀ a, X a → a < st.heap.length
  vars : ∀ sc ∈ st.scopes, ∀ kv ∈ sc.vars_, ValidPtr X st.heap.length kv.2
  cells : ∀ c ∈ st.heap, CellOk X st.heap.length c
  ret : ValidPtr X st.heap.length st.sigReturnRet

/-- What a step from `st` to `st1` that returns `r` keeps: the invariant, the cells
allocated so far, the content of the cells of `X`, and the validity of `r`. -/
structure Res (X : Nat → Prop) (st st1 : VMState) (r : ValuePtr) : Prop where
  inv : PtrInv X st1
  le : st.heap.length ≤ st1.heap.length
  frame : ∀ a, X a → st1.heap[a]? = st.heap[a]?
  valid : ValidPtr X st1.heap.length r

/-- An evaluator that, given a valid pointer `p`, keeps the invariant and returns a
valid pointer. -/
def Sound (X : Nat → Prop) (p : ValuePtr) (f : VMM ValuePtr) : Prop :=
  ∀ st r st1, PtrInv X st → ValidPtr X st.heap.length p → f st = .ok r st1 → Res X st st1 r

/-- A loop without a result that, given a valid pointer `p`, keeps the invariant. -/
def SoundUnit (X : Nat → Prop) (p : ValuePtr) (f : VMM Unit) : Prop :=
  ∀ st r st1, PtrInv X st → ValidPtr X st.heap.length p → f st = .ok r st1 → Res X st st1 none

/-- The invariant is kept by every function of the evaluator run with `fuel`. -/
structure VMSpec (X : Nat → Prop) (fuel : Nat) : Prop where
  exec : ∀ code, Sound X none (VM.exec fuel code)
  execNullable : ∀ code, Sound X none (VM.execNullable fuel code)
  execVar : ∀ s ds ret, Sound X ret (VM.execVar fuel s ds ret)
  execBlock : ∀ l, Sound X none (VM.execBlock fuel l)
  execGroupExpression : ∀ l ret, Sound X ret (VM.execGroupExpression fuel l ret)
  execArguments : ∀ fscope arguments formals rarg i,
    SoundUnit X arguments (VM.execArguments fuel fscope arguments formals rarg i)
  execCallBody : ∀ l, Sound X none (VM.execCallBody fuel l)
  execCall : ∀ f a, Sound X none (VM.execCall fuel f a)
  execConstructorBody : ∀ l, SoundUnit X none (VM.execConstructorBody fuel l)
  execConstructor : ∀ f a, Sound X none (VM.execConstructor fuel f a)
  execArray : ∀ ret l i, Sound X ret (VM.execArray fuel ret l i)
  execObject : ∀ ret l, Sound X ret (VM.execObject fuel ret l)
  execSwitch : ∀ val state l, Sound X none (VM.execSwitch fuel val state l)
  execDoLoop : ∀ blk cond, Sound X none (VM.execDoLoop fuel blk cond)
  execLoop : ∀ cond stmt, Sound X none (VM.execLoop fuel cond stmt)
  execForLoop : ∀ cond iter stmt, Sound X none (VM.execForLoop fuel cond iter stmt)
  execForInString : ∀ s i stmt cs, Sound X none (VM.execForInString fuel s i stmt cs)
  execForInKeys : ∀ s i obj stmt keys, Sound X none (VM.execForInKeys fuel s i obj stmt keys)
  execForInLoop : ∀ s key target stmt, Sound X none (VM.execForInLoop fuel s key target stmt)
  execUniExpression : ∀ s op expr pre, Sound X none (VM.execUniExpression fuel s op expr pre)
  assign : ∀ left v, Sound X v (VM.assign fuel left v)
  execBiExpression : ∀ left op right, Sound X none (VM.execBiExpression fuel left op right)

/-- The loop over `func->args_` of `exec(Call*)`, returning in addition the list of
the values `v` that it stored, in the order of their evaluation. -/
def VM.execArgumentsValues :
    Nat → Option Nat → ValuePtr → List Identifier → List AST → Nat → VMM (List ValuePtr)
  | 0, _, _, _, _, _ => fun _ => .fuelOut
  | _ + 1, _, _, [], _, _ => pure []
  | _ + 1, _, _, _ :: _, [], _ => pure []
  | fuel + 1, fscope, arguments, arg :: formals, a :: rarg, i => do
    let v ← VM.exec fuel a
    VM.setVar fscope arg.name_ v
    VM.setAttr arguments (VM.intToString i) v
    let vs ← VM.execArgumentsValues fuel fscope arguments formals rarg (i + 1)
    pure (v :: vs)

/-- The property map that holds the values `vs` under the keys `"i"`, `"i+1"`, ... in
this order. -/
def argumentsMap : Nat → List ValuePtr → List (String × ValuePtr)
  | _, [] => []
  | i, v :: vs => (VM.intToString i, v) :: argumentsMap (i + 1) vs

/-- The number that a string of decimal digits stands for, after the digits `acc`. -/
def digitsValue (acc : Nat) (ds : List Char) : Nat :=
  ds.foldl (fun a c => a * 10 + (c.toNat - 48)) acc

/-- A state whose program scope binds `f` to a function of one parameter `a` and an
empty body, with the scope 1 of its own. -/
def functionState : VMState :=
  ⟨initialHeap ++ [⟨.FunctionValue (.Function default (some 1) none [⟨default, some 1, "a"⟩] []),
      []⟩],
    [⟨[("f", some 6)], none⟩, ⟨[], some 0⟩], some 0, none⟩

/-! ## Observers and states for the literals, the equality and the for header -/

/-- The longest leading run of decimal digits of a lexeme. -/
def leadingDigits (data : String) : List Char :=
  data.data.takeWhile (fun c => isDigit c 10)

/-- The double `d` is the natural number `n`, without rounding: its mantissa times
two to its exponent is `n`. -/
def Double.isNat (d : Double) (n : Nat) : Prop :=
  ∃ m t : Nat, (d = .finite false m (-(t : Int)) ∧ m = n * 2 ^ t)
    ∨ (d = .finite false m (t : Int) ∧ n = m * 2 ^ t)

/-- A state whose heap holds, after the singletons, two objects with different
properties (addresses 6 and 7) and the empty string (address 8). -/
def equalityState : VMState :=
  ⟨initialHeap ++ [⟨.ObjectValue, [("x", some 0)]⟩, ⟨.ObjectValue, [("y", some 1)]⟩,
    ⟨.StringValue "", []⟩], [⟨[], none⟩], some 0, none⟩

/-- The tokens of a source, the empty list when the lexer has no defined result. -/
def tokensOf (source : String) : List Token :=
  match Lexer source with
  | .tokens ts => ts
  | _ => []

/-- The elements of the group a parser function returned, as shapes. -/
def ParseResult.shapes : ParseResult AST → Option (List Shape)
  | .ok (.GroupExpression _ _ elist) _ => some (elist.map AST.shape)
  | _ => none

/-- Whether a parser function threw a ParseError. -/
def ParseResult.isParseError {α : Type} : ParseResult α → Bool
  | .parseError => true
  | _ => false

/-- A state whose heap holds, after the singletons, the numbers 1 (address 6) and 0
(address 7). -/
def zeroDivisorState : VMState :=
  ⟨initialHeap ++ [⟨.Number (Double.ofInt 1), []⟩, ⟨.Number (Double.ofInt 0), []⟩],
    [⟨[], none⟩], some 0, none⟩

/-! ## The scan of the lexer, exact doubles and the states of the for-in loop -/

/-- The value bound to `name` in the scope `scope` itself after an evaluation. -/
def ExecResult.lookup {α : Type} (r : ExecResult α) (scope : Nat) (name : String) :
    Option Obs :=
  match r with
  | .ok _ st => st.lookup scope name
  | _ => none

/-- Whether a regular-expression literal starts at the cursor of the state and is not
closed before the end of the source: the test of the regex branch of `Lexer::process`
holds, and its loop `while (forward < end && source[forward] != c)` ends with
`forward` at the end of the source. -/
def unclosedRegexAt (src : List Char) (st : LexState) : Bool :=
  (src.getD st.cur (Char.ofNat 0) == '/'
      && src.getD (st.cur + 1) (Char.ofNat 0) != '/'
      && src.getD (st.cur + 1) (Char.ofNat 0) != '*'
      && regexAllowed st.tokens_)
    && decide (src.length ≤
      (scanQuoted src src.length '/' src.length (st.cur + 1) st.line (st.col + 1)).1)

/-- The states at the top of the iterations of the loop `while (cur < end)` of
`Lexer::process`, from the state `st` on. -/
def scanStates (src : List Char) : Nat → LexState → List LexState
  | 0, _ => []
  | fuel + 1, st =>
    if st.cur < src.length then
      st :: (match processStep src st with
        | none => []
        | some st1 => scanStates src fuel st1)
    else []

/-- The natural number `n` is a 53-bit integer times a power of two: below `2^1024`
these are the natural numbers that are values of a `double`. -/
def Double.representable (n : Nat) : Prop :=
  ∃ K t : Nat, n = K * 2 ^ t ∧ K < 2 ^ 53

/-- A state whose heap holds, after the singletons, an object with the properties `a`
and `b` (address 6) and their values, the numbers 2 and 3; the program scope binds `o`
to the object and `k` to undefined. -/
def forInState : VMState :=
  ⟨initialHeap ++ [⟨.ObjectValue, [("b", some 8), ("a", some 7)]⟩,
      ⟨.Number (Double.ofInt 2), []⟩, ⟨.Number (Double.ofInt 3), []⟩],
    [⟨[("o", some 6), ("k", some 0)], none⟩], some 0, none⟩

/-- The loop `for (k in target) body` of the program scope. -/
def forInOver (target body : AST) : AST :=
  .ForInLoop default (some 0) (.Identifier ⟨default, some 0, "k"⟩) target body

/-- The object literal `{"q": 2, "p": 1}`. -/
def pqObject : AST :=
  .Object default none
    [(.LiteralString default none "q", .LiteralNumber default none "2"),
      (.LiteralString default none "p", .LiteralNumber default none "1")]

/-! ## Lemmas on maps, scopes and the monad of the VM -/

theorem mapFind_mapSet {α : Type} (m : List (String × α)) (k n : String) (v : α) :
    mapFind (mapSet m k v) n = if n = k then some v else mapFind m n := by
  induction m with
  | nil =>
    by_cases h : n = k
    · simp [mapSet, mapFind, h]
    · have h' : ¬ k = n := fun e => h e.symm
      simp [mapSet, mapFind, h, h']
  | cons p rest ih =>
    obtain ⟨k', w⟩ := p
    by_cases hk : k' = k
    · by_cases hn : n = k
      · simp [mapSet, mapFind, hk, hn]
      · have h' : ¬ k = n := fun e => hn e.symm
        simp [mapSet, mapFind, hk, hn, h']
    · by_cases hn : n = k
      · subst hn
        simp [mapSet, mapFind, hk, ih]
      · simp [mapSet, mapFind, hk, hn, ih]

theorem findBinding_eq_find (scopes : List Scope) (name : String) (fuel : Nat) (cur : Option Nat) :
    findBinding scopes name fuel cur = (scopeChain scopes fuel cur).find? (hasVar scopes name) := by
  induction fuel generalizing cur with
  | zero => simp [findBinding, scopeChain]
  | succ n ih =>
    cases cur with
    | none => simp [findBinding, scopeChain]
    | some c =>
      cases hsc : scopes[c]? with
      | none => simp [findBinding, scopeChain, hsc]
      | some sc =>
        cases hm : mapFind sc.vars_ name with
        | none => simp [findBinding, scopeChain, hsc, hm, hasVar, ih]
        | some r => simp [findBinding, scopeChain, hsc, hm, hasVar]

theorem getVarLoop_eq_find (scopes : List Scope) (name : String) (fuel : Nat) (cur : Option Nat) :
    getVarLoop scopes name fuel cur =
      ((scopeChain scopes fuel cur).find? (hasVar scopes name)).bind
        (fun c => (scopeEntry scopes c name).getD none) := by
  induction fuel generalizing cur with
  | zero => simp [getVarLoop, scopeChain]
  | succ n ih =>
    cases cur with
    | none => simp [getVarLoop, scopeChain]
    | some c =>
      cases hsc : scopes[c]? with
      | none => simp [getVarLoop, scopeChain, hsc]
      | some sc =>
        cases hm : mapFind sc.vars_ name with
        | none => simp [getVarLoop, scopeChain, hsc, hm, hasVar, ih]
        | some r => simp [getVarLoop, scopeChain, hsc, hm, hasVar, scopeEntry]

theorem setVar_eq_writeVar (scopes : List Scope) (s : Nat) (name : String) (v : ValuePtr) :
    Scope.setVar scopes s name v = writeVar scopes ((nearestBinding scopes s name).getD s) name v := by
  unfold Scope.setVar nearestBinding
  rw [findBinding_eq_find]
  cases (scopeChain scopes (scopes.length + 1) (some s)).find? (hasVar scopes name) <;> rfl

theorem scopeEntry_writeVar (scopes : List Scope) (c i : Nat) (name n : String) (v : ValuePtr)
    (hc : c < scopes.length) :
    scopeEntry (writeVar scopes c name v) i n =
      if i = c ∧ n = name then some v else scopeEntry scopes i n := by
  unfold writeVar scopeEntry
  have hget : scopes[c]? = some scopes[c] := List.getElem?_eq_getElem hc
  simp only [hget]
  by_cases hi : i = c
  · subst hi
    simp [List.getElem?_set, hc, mapFind_mapSet]
  · have hi' : ¬ c = i := fun e => hi e.symm
    simp [List.getElem?_set, hi, hi']

theorem length_writeVar (scopes : List Scope) (c : Nat) (name : String) (v : ValuePtr) :
    (writeVar scopes c name v).length = scopes.length := by
  unfold writeVar
  cases scopes[c]? <;> simp

theorem find_hasVar_lt (scopes : List Scope) (name : String) (fuel : Nat) (cur : Option Nat) (c : Nat)
    (h : (scopeChain scopes fuel cur).find? (hasVar scopes name) = some c) :
    c < scopes.length ∧ hasVar scopes name c = true := by
  have h2 := List.find?_some h
  refine ⟨?_, h2⟩
  unfold hasVar at h2
  by_contra hlt
  have : scopes[c]? = none := by simp; omega
  simp [this] at h2

theorem nearestBinding_lt (scopes : List Scope) (s c : Nat) (name : String)
    (h : nearestBinding scopes s name = some c) :
    c < scopes.length ∧ hasVar scopes name c = true :=
  find_hasVar_lt scopes name _ _ c h

theorem hasVar_iff_entry (scopes : List Scope) (name : String) (c : Nat) :
    hasVar scopes name c = true ↔ ∃ p, scopeEntry scopes c name = some p := by
  unfold hasVar scopeEntry
  cases scopes[c]? with
  | none => simp
  | some sc => simp [Option.isSome_iff_exists]

theorem getVar_run (st : VMState) (s : Nat) (name : String) (hs : s < st.scopes.length) :
    VM.getVar (some s) name st = .ok (Scope.getVar st.scopes s name) st := by
  simp [VM.getVar, bind, VMM.bind, VM.derefScope, hs, VM.getState, pure]

theorem setVar_run (st : VMState) (s : Nat) (name : String) (v : ValuePtr) (hs : s < st.scopes.length) :
    VM.setVar (some s) name v st = .ok () { st with scopes := Scope.setVar st.scopes s name v } := by
  simp [VM.setVar, bind, VMM.bind, VM.derefScope, hs, VM.getState, VM.setState]

theorem getVar_none_iff (scopes : List Scope) (s : Nat) (name : String)
    (hnn : ∀ c, nearestBinding scopes s name = some c → scopeEntry scopes c name ≠ some none) :
    Scope.getVar scopes s name = none ↔ nearestBinding scopes s name = none := by
  unfold Scope.getVar
  rw [getVarLoop_eq_find]
  unfold nearestBinding at *
  cases h : (scopeChain scopes (scopes.length + 1) (some s)).find? (hasVar scopes name) with
  | none => simp
  | some c =>
    have h1 := hnn c h
    have h2 := (hasVar_iff_entry scopes name c).1 (find_hasVar_lt scopes name _ _ c h).2
    obtain ⟨p, hp⟩ := h2
    cases p with
    | none => exact absurd hp h1
    | some q => simp [hp]

theorem nearestBinding_root (scopes : List Scope) (g : Nat) (name : String)
    (hroot : ∀ sc, scopes[g]? = some sc → sc.parent_ = none) :
    (nearestBinding scopes g name).getD g = g := by
  unfold nearestBinding
  cases hsc : scopes[g]? with
  | none => simp [scopeChain, hsc]
  | some sc =>
    have hp := hroot sc hsc
    by_cases hv : hasVar scopes name g = true
    · cases hl : scopes.length <;> simp [scopeChain, hsc, hp, hv]
    · cases hl : scopes.length <;> simp [scopeChain, hsc, hp, hv]

theorem assign_identifier_run (fuel : Nat) (id : Identifier) (st1 : VMState) (a s g : Nat)
    (ha : a < st1.heap.length)
    (hs : id.scope_ = some s) (hsl : s < st1.scopes.length)
    (hg : st1.global_ = some g) (hgl : g < st1.scopes.length)
    (hroot : ∀ sc, st1.scopes[g]? = some sc → sc.parent_ = none)
    (hnn : ∀ c, nearestBinding st1.scopes s id.name_ = some c →
      scopeEntry st1.scopes c id.name_ ≠ some none) :
    VM.assign (fuel + 1) (.Identifier id) (some a) st1 = .ok (some a)
      { st1 with scopes :=
          (writeVar st1.scopes ((nearestBinding st1.scopes s id.name_).getD g) id.name_ (some a)) } := by
  have h0 : VM.assign (fuel + 1) (.Identifier id) (some a) st1 =
      (do
        if (← VM.getVar id.scope_ id.name_) = none then
          VM.setVar (← VM.getState).global_ id.name_ (some a)
        else
          VM.setVar id.scope_ id.name_ (some a)
        let _ ← VM.deref (some a)
        pure (some a) : VMM ValuePtr) st1 := by rfl
  rw [h0, hs]
  simp only [bind, VMM.bind, getVar_run st1 s id.name_ hsl]
  by_cases hnone : Scope.getVar st1.scopes s id.name_ = none
  · have hnb := (getVar_none_iff st1.scopes s id.name_ hnn).1 hnone
    simp only [hnone, if_true, VMM.bind, VM.getState, hg, setVar_run st1 g id.name_ (some a) hgl]
    rw [setVar_eq_writeVar, nearestBinding_root st1.scopes g id.name_ hroot, hnb]
    simp [VM.deref, VMM.bind, List.getElem?_eq_getElem ha, pure]
  · have hnb : nearestBinding st1.scopes s id.name_ ≠ none :=
      fun e => hnone ((getVar_none_iff st1.scopes s id.name_ hnn).2 e)
    obtain ⟨c, hc⟩ := Option.ne_none_iff_exists'.1 hnb
    simp only [hnone, if_false, VMM.bind, setVar_run st1 s id.name_ (some a) hsl]
    rw [setVar_eq_writeVar, hc]
    simp [VM.deref, VMM.bind, List.getElem?_eq_getElem ha, pure]

theorem entry_writeVar_self (st1 : VMState) (c : Nat) (name : String) (v : ValuePtr)
    (hc : c < st1.scopes.length) (st2 : VMState)
    (h2 : st2.scopes = writeVar st1.scopes c name v) :
    st2.entry c name = some v
    ∧ ∀ i n, (i ≠ c ∨ n ≠ name) → st2.entry i n = st1.entry i n := by
  simp only [VMState.entry, h2]
  refine ⟨?_, ?_⟩
  · rw [scopeEntry_writeVar _ _ _ _ _ _ hc]
    simp
  · intro i n hin
    rw [scopeEntry_writeVar _ _ _ _ _ _ hc]
    have : ¬ (i = c ∧ n = name) := by
      rintro ⟨h1, h2⟩
      cases hin with
      | inl h => exact h h1
      | inr h => exact h h2
    simp [this]

theorem setAttr_run (st : VMState) (p a : Nat) (key : String)
    (hp : p < st.heap.length) (ha : a < st.heap.length) :
    VM.setAttr (some p) key (some a) st = .ok ()
      { st with heap :=
          (st.heap.set p { st.heap[p] with attr_ := mapSet st.heap[p].attr_ key (some a) }) } := by
  simp [VM.setAttr, bind, VMM.bind, VM.deref, List.getElem?_eq_getElem hp,
    List.getElem?_eq_getElem ha, VM.getState, VM.setState]

/-- The chain from a scope does not depend on the fuel once the fuel exceeds the
index of the scope, when every parent was allocated before its children (as the
parser does). -/
theorem scopeChain_fuel (scopes : List Scope)
    (hwf : ∀ (i : Nat) (sc : Scope) (p : Nat), scopes[i]? = some sc → sc.parent_ = some p → p < i) :
    ∀ (s fuel : Nat), s + 1 ≤ fuel →
      scopeChain scopes fuel (some s) = scopeChain scopes (s + 1) (some s) := by
  intro s
  induction s using Nat.strong_induction_on with
  | _ s ih =>
    intro fuel hf
    obtain ⟨k, rfl⟩ : ∃ k, fuel = k + 1 := ⟨fuel - 1, by omega⟩
    cases hsc : scopes[s]? with
    | none => simp [scopeChain, hsc]
    | some sc =>
      cases hp : sc.parent_ with
      | none =>
        cases k with
        | zero => cases s <;> simp [scopeChain, hsc, hp]
        | succ k => cases s <;> simp [scopeChain, hsc, hp]
      | some p =>
        have hlt := hwf s sc p hsc hp
        have h1 := ih p hlt k (by omega)
        have h2 := ih p hlt s (by omega)
        simp only [scopeChain, hsc, hp, h1, h2]

/-- The pointer `eq` returns is never null. -/
theorem eq_returns_nonnull (c val b : ValuePtr) (st1 st2 : VMState)
    (h : VM.eq c val st1 = .ok b st2) : b.isSome = true := by
  unfold VM.eq VM.compare at h
  simp only [bind, VMM.bind] at h
  cases hc : VM.deref c st1 with
  | ok l sa =>
    rw [hc] at h
    simp only at h
    cases hv : VM.deref val sa with
    | ok r sb =>
      cases hl : l.data <;> cases hr : r.data <;>
        simp [hl, hr, hv, VM.alloc, VMM.bind] at h <;>
        (obtain ⟨h1, _⟩ := h; rw [← h1]; rfl)
    | execError => cases hl : l.data <;> simp [hl, hv, VMM.bind] at h
    | stdException => cases hl : l.data <;> simp [hl, hv, VMM.bind] at h
    | undefinedBehaviour => cases hl : l.data <;> simp [hl, hv, VMM.bind] at h
    | fuelOut => cases hl : l.data <;> simp [hl, hv, VMM.bind] at h
  | execError => rw [hc] at h; simp at h
  | stdException => rw [hc] at h; simp at h
  | undefinedBehaviour => rw [hc] at h; simp at h
  | fuelOut => rw [hc] at h; simp at h

theorem sigNormal_cell (extra : List Value) :
    (initialHeap ++ extra)[sigNormalAddr]? = some ⟨.Signal .NORMAL none, []⟩ := by
  simp [initialHeap, sigNormalAddr]

theorem VMM.bind_result {α β : Type} (m : VMM α) (f : α → VMM β) (st st' : VMState) (b : β) :
    VMM.bind m f st = .ok b st' ↔ ∃ a st1, m st = .ok a st1 ∧ f a st1 = .ok b st' := by
  unfold VMM.bind
  cases h : m st with
  | ok a st1 =>
    constructor
    · intro hf; exact ⟨a, st1, rfl, hf⟩
    · rintro ⟨a', st1', he, hf⟩
      cases he
      exact hf
  | execError => simp
  | stdException => simp
  | undefinedBehaviour => simp
  | fuelOut => simp

theorem deref_ok (p : ValuePtr) (st st' : VMState) (v : Value) :
    VM.deref p st = .ok v st' ↔ ∃ a, p = some a ∧ st.heap[a]? = some v ∧ st' = st := by
  unfold VM.deref
  cases p with
  | none => simp
  | some a =>
    cases h : st.heap[a]? with
    | none => simp [h]
    | some w =>
      simp only [h, ExecResult.ok.injEq, Option.some.injEq, exists_eq_left']
      constructor
      · rintro ⟨rfl, rfl⟩; exact ⟨rfl, rfl⟩
      · rintro ⟨rfl, rfl⟩; exact ⟨rfl, rfl⟩

theorem VMM.pure_result {α : Type} (a b : α) (st st' : VMState) :
    (pure a : VMM α) st = .ok b st' ↔ a = b ∧ st = st' := by
  simp [pure]

theorem Char_toNat_inj (a b : Char) (h : a.toNat = b.toNat) : a = b := by
  apply Char.ext
  apply UInt32.ext
  exact h

theorem strLt_irrefl (a : List Char) : strLt a a = false := by
  induction a with
  | nil => rfl
  | cons c cs ih => simp [strLt, ih]

theorem strLt_trans (a b c : List Char) (h1 : strLt a b = true) (h2 : strLt b c = true) :
    strLt a c = true := by
  induction a generalizing b c with
  | nil =>
    cases b with
    | nil => simp [strLt] at h1
    | cons y ys =>
      cases c with
      | nil => simp [strLt] at h2
      | cons z zs => simp [strLt]
  | cons x xs ih =>
    cases b with
    | nil => simp [strLt] at h1
    | cons y ys =>
      cases c with
      | nil => simp [strLt] at h2
      | cons z zs =>
        simp only [strLt] at h1 h2 ⊢
        by_cases hxy : x.toNat < y.toNat
        · by_cases hyz : y.toNat < z.toNat
          · simp [show x.toNat < z.toNat by omega]
          · simp only [hyz, if_false] at h2
            by_cases hzy : z.toNat < y.toNat
            · simp [hzy] at h2
            · simp [show x.toNat < z.toNat by omega]
        · simp only [hxy, if_false] at h1
          by_cases hyx : y.toNat < x.toNat
          · simp [hyx] at h1
          · simp only [hyx, if_false] at h1
            by_cases hyz : y.toNat < z.toNat
            · simp [show x.toNat < z.toNat by omega]
            · simp only [hyz, if_false] at h2
              by_cases hzy : z.toNat < y.toNat
              · simp [hzy] at h2
              · simp only [hzy, if_false] at h2
                have e1 : ¬ x.toNat < z.toNat := by omega
                have e2 : ¬ z.toNat < x.toNat := by omega
                simp only [e1, e2, if_false]
                exact ih ys zs h1 h2

theorem strLt_total (a b : List Char) (h : a ≠ b) : strLt a b = true ∨ strLt b a = true := by
  induction a generalizing b with
  | nil =>
    cases b with
    | nil => exact absurd rfl h
    | cons y ys => left; rfl
  | cons x xs ih =>
    cases b with
    | nil => right; rfl
    | cons y ys =>
      simp only [strLt]
      by_cases hxy : x.toNat < y.toNat
      · left; simp [hxy]
      · by_cases hyx : y.toNat < x.toNat
        · right; simp [hyx]
        · have e : x = y := Char_toNat_inj x y (by omega)
          subst e
          have hne : xs ≠ ys := fun e => h (by rw [e])
          simp only [hxy, if_false]
          exact ih ys hne

theorem insertKey_perm (k : String) (xs : List String) : (insertKey k xs).Perm (k :: xs) := by
  induction xs with
  | nil => exact List.Perm.refl _
  | cons x xs ih =>
    simp only [insertKey]
    split
    · exact (List.Perm.cons x ih).trans (List.Perm.swap k x xs)
    · exact List.Perm.refl _

theorem insertKey_sorted (k : String) (xs : List String)
    (hs : xs.Pairwise (fun a b => strLt a.data b.data = true)) (hk : k ∉ xs) :
    (insertKey k xs).Pairwise (fun a b => strLt a.data b.data = true) := by
  induction xs with
  | nil => simp [insertKey]
  | cons x xs ih =>
    rw [List.pairwise_cons] at hs
    have hkx : k ≠ x := fun e => hk (by simp [e])
    have hkxs : k ∉ xs := fun e => hk (by simp [e])
    simp only [insertKey]
    split
    · rename_i hlt
      rw [List.pairwise_cons]
      refine ⟨?_, ih hs.2 hkxs⟩
      intro y hy
      rcases (List.mem_cons.mp ((insertKey_perm k xs).mem_iff.mp hy)) with e | hm
      · rw [e]; exact hlt
      · exact hs.1 y hm
    · rename_i hlt
      have hd : k.data ≠ x.data := fun e => hkx (String.ext e)
      have hkltx : strLt k.data x.data = true := by
        rcases strLt_total k.data x.data hd with h | h
        · exact h
        · exact absurd h hlt
      rw [List.pairwise_cons]
      refine ⟨?_, List.pairwise_cons.mpr hs⟩
      intro y hy
      rcases List.mem_cons.mp hy with e | hm
      · rw [e]; exact hkltx
      · exact strLt_trans _ _ _ hkltx (hs.1 y hm)

theorem sortKeys_perm (ks : List String) : (sortKeys ks).Perm ks := by
  induction ks with
  | nil => exact List.Perm.refl _
  | cons k ks ih =>
    show (insertKey k (sortKeys ks)).Perm (k :: ks)
    exact (insertKey_perm k _).trans (List.Perm.cons k ih)

theorem sortKeys_sorted (ks : List String) (hnd : ks.Nodup) :
    (sortKeys ks).Pairwise (fun a b => strLt a.data b.data = true) := by
  induction ks with
  | nil => exact List.Pairwise.nil
  | cons k ks ih =>
    rw [List.nodup_cons] at hnd
    show (insertKey k (sortKeys ks)).Pairwise _
    exact insertKey_sorted k _ (ih hnd.2) (fun h => hnd.1 ((sortKeys_perm ks).mem_iff.mp h))

theorem mapSet_keys {α : Type} (m : List (String × α)) (k : String) (v : α) :
    (mapSet m k v).map Prod.fst
      = if k ∈ m.map Prod.fst then m.map Prod.fst else m.map Prod.fst ++ [k] := by
  induction m with
  | nil => simp [mapSet]
  | cons e rest ih =>
    obtain ⟨k1, w⟩ := e
    simp only [mapSet]
    by_cases h : k1 = k
    · simp [h]
    · have h2 : ¬ k = k1 := fun e => h e.symm
      simp only [h, if_false, List.map_cons, ih, List.mem_cons, h2, false_or]
      split <;> simp

theorem mapSet_nodup {α : Type} (m : List (String × α)) (k : String) (v : α)
    (h : (m.map Prod.fst).Nodup) : ((mapSet m k v).map Prod.fst).Nodup := by
  rw [mapSet_keys]
  split
  · exact h
  · rename_i hk
    rw [List.nodup_append]
    refine ⟨h, List.nodup_singleton k, ?_⟩
    intro a ha hb
    simp at hb
    exact hk (hb ▸ ha)

theorem mapErase_sublist {α : Type} (m : List (String × α)) (k : String) :
    ((mapErase m k).map Prod.fst).Sublist (m.map Prod.fst) := by
  induction m with
  | nil => simp [mapErase]
  | cons e rest ih =>
    obtain ⟨k1, w⟩ := e
    simp only [mapErase]
    split
    · simp
    · simpa using ih

theorem mapErase_nodup {α : Type} (m : List (String × α)) (k : String)
    (h : (m.map Prod.fst).Nodup) : ((mapErase m k).map Prod.fst).Nodup :=
  (mapErase_sublist m k).nodup h

/-! ## Lemmas on the lexer -/

theorem scanIdentifier_ge (src : List Char) (e fuel f c : Nat) :
    f ≤ (scanIdentifier src e fuel f c).1 := by
  induction fuel generalizing f c with
  | zero => simp [scanIdentifier]
  | succ k ih =>
    unfold scanIdentifier
    split
    · exact Nat.le_trans (Nat.le_succ f) (ih (f + 1) (c + 1))
    · exact Nat.le_refl f

theorem scanQuoted_ge (src : List Char) (e : Nat) (q : Char) (fuel f l c : Nat) :
    f ≤ (scanQuoted src e q fuel f l c).1 := by
  induction fuel generalizing f l c with
  | zero => simp [scanQuoted]
  | succ k ih =>
    unfold scanQuoted
    split
    · refine Nat.le_trans ?_ (ih _ _ _)
      split <;> omega
    · exact Nat.le_refl f

theorem scanLineComment_ge (src : List Char) (e fuel f c : Nat) :
    f ≤ (scanLineComment src e fuel f c).1 := by
  induction fuel generalizing f c with
  | zero => simp [scanLineComment]
  | succ k ih =>
    unfold scanLineComment
    split
    · exact Nat.le_trans (Nat.le_succ f) (ih (f + 1) (c + 1))
    · exact Nat.le_refl f

theorem scanBlockComment_ge (src : List Char) (e fuel f l c : Nat) :
    f ≤ (scanBlockComment src e fuel f l c).1 := by
  induction fuel generalizing f l c with
  | zero => simp [scanBlockComment]
  | succ k ih =>
    unfold scanBlockComment
    simp only
    split
    · split
      · exact Nat.le_trans (Nat.le_succ f) (ih _ _ _)
      · split
        · split
          · simp
          · exact Nat.le_trans (Nat.le_succ f) (ih _ _ _)
        · exact Nat.le_trans (Nat.le_succ f) (ih _ _ _)
    · exact Nat.le_refl f

theorem scanOperator_ge (src : List Char) (e cur fuel f c : Nat) :
    f ≤ (scanOperator src e cur fuel f c).1 := by
  induction fuel generalizing f c with
  | zero => simp [scanOperator]
  | succ k ih =>
    unfold scanOperator
    split
    · exact Nat.le_trans (Nat.le_succ f) (ih (f + 1) (c + 1))
    · exact Nat.le_refl f

theorem scanFlags_ge (src : List Char) (fuel f r : Nat) (h : scanFlags src fuel f = some r) :
    f ≤ r := by
  induction fuel generalizing f with
  | zero => simp [scanFlags] at h
  | succ k ih =>
    unfold scanFlags at h
    split at h
    · simp at h
    · split at h
      · exact Nat.le_trans (Nat.le_succ f) (ih _ h)
      · simp at h; omega

theorem scanDigits_ge (src : List Char) (base fuel f r : Nat)
    (h : scanDigits src base fuel f = some r) : f ≤ r := by
  induction fuel generalizing f with
  | zero => simp [scanDigits] at h
  | succ k ih =>
    unfold scanDigits at h
    split at h
    · simp at h
    · split at h
      · exact Nat.le_trans (Nat.le_succ f) (ih _ h)
      · simp at h; omega

theorem mapFind_mem {α : Type} (m : List (String × α)) (key : String) (v : α)
    (h : mapFind m key = some v) : (key, v) ∈ m := by
  induction m with
  | nil => simp [mapFind] at h
  | cons p rest ih =>
    obtain ⟨k, w⟩ := p
    unfold mapFind at h
    split at h
    · rename_i hk
      simp at h
      subst hk h
      simp
    · exact List.mem_cons_of_mem _ (ih h)

theorem TOKEN_MAP_no_eof (key : String) (ty : TokenType) (h : mapFind TOKEN_MAP key = some ty) :
    ty ≠ .END_OF_FILE := by
  have hm := mapFind_mem _ _ _ h
  have hall : ∀ p ∈ TOKEN_MAP, p.2 ≠ TokenType.END_OF_FILE := by decide
  exact hall _ hm

theorem scanNumber_ge (src : List Char) (c : Char) (f0 r : Nat) (h0 : 1 ≤ f0)
    (h : scanNumber src c f0 = some r) : f0 ≤ r := by
  unfold scanNumber at h
  simp only at h
  split at h
  · simp at h
  · rename_i base f1 hpre
    have hf1 : f0 ≤ f1 := by
      split at hpre
      · split at hpre
        · simp at hpre
        · split at hpre
          · simp at hpre; omega
          · split at hpre
            · simp at hpre; omega
            · split at hpre
              · simp at hpre; omega
              · simp at hpre; omega
      · simp at hpre; omega
    split at h
    · simp at h
    · rename_i f2 hd
      have hf2 := scanDigits_ge _ _ _ _ _ hd
      split at h
      · simp at h
      · rename_i f3 hdot
        have hf3 : f2 ≤ f3 := by
          split at hdot
          · simp at hdot
          · split at hdot
            · have := scanDigits_ge _ _ _ _ _ hdot; omega
            · simp at hdot; omega
        split at h
        · simp at h
        · split at h
          · split at h
            · simp at h
            · split at h
              · have := scanDigits_ge _ _ _ _ _ h; omega
              · simp at h; omega
          · simp at h; omega

/-- One iteration moves the cursor forward and appends at most one token, never the
end-of-file token. -/
theorem processStep_spec (src : List Char) (st st1 : LexState)
    (h : processStep src st = some st1) :
    st.cur < st1.cur ∧
      (st1.tokens_ = st.tokens_ ∨
        ∃ tok, st1.tokens_ = st.tokens_ ++ [tok] ∧ tok.type_ ≠ .END_OF_FILE) := by
  unfold processStep at h
  simp only at h
  split at h
  · -- identifier
    have hge := scanIdentifier_ge src src.length src.length (st.cur + 1) (st.col + 1)
    simp only [Option.some.injEq] at h
    subst h
    refine ⟨by simp only; omega, Or.inr ⟨_, rfl, ?_⟩⟩
    simp only
    split <;> simp
  · split at h
    · have hge := scanQuoted_ge src src.length (src.getD st.cur (Char.ofNat 0)) src.length
        (st.cur + 1) st.line (st.col + 1)
      simp only [Option.some.injEq] at h
      subst h
      exact ⟨by simp only; omega, Or.inr ⟨_, rfl, by simp⟩⟩
    · split at h
      · split at h
        · simp at h
        · rename_i f2 hfl
          have hge := scanQuoted_ge src src.length (src.getD st.cur (Char.ofNat 0)) src.length
            (st.cur + 1) st.line (st.col + 1)
          have hge2 := scanFlags_ge _ _ _ _ hfl
          simp only [Option.some.injEq] at h
          subst h
          exact ⟨by simp only; omega, Or.inr ⟨_, rfl, by simp⟩⟩
      · split at h
        · have hge := scanLineComment_ge src src.length src.length (st.cur + 1) (st.col + 1)
          simp only [Option.some.injEq] at h
          subst h
          exact ⟨by simp only; omega, Or.inl rfl⟩
        · split at h
          · have hge := scanBlockComment_ge src src.length src.length (st.cur + 1 + 1) st.line
              (st.col + 1 + 1)
            simp only [Option.some.injEq] at h
            subst h
            exact ⟨by simp only; omega, Or.inl rfl⟩
          · split at h
            · split at h
              · simp at h
              · rename_i f1 hnum
                have hge := scanNumber_ge _ _ _ _ (by omega) hnum
                simp only [Option.some.injEq] at h
                subst h
                exact ⟨by simp only; omega, Or.inr ⟨_, rfl, by simp⟩⟩
            · split at h
              · simp only [Option.some.injEq] at h
                subst h
                exact ⟨by simp, Or.inl rfl⟩
              · split at h
                · split at h
                  · simp at h
                  · rename_i ty hty
                    have hge := scanOperator_ge src src.length st.cur src.length (st.cur + 1)
                      (st.col + 1)
                    simp only [Option.some.injEq] at h
                    subst h
                    exact ⟨by simp only; omega, Or.inr ⟨_, rfl, TOKEN_MAP_no_eof _ _ hty⟩⟩
                · simp only [Option.some.injEq] at h
                  subst h
                  exact ⟨by simp, Or.inl rfl⟩

theorem charAt_lt (src : List Char) (i : Nat) (h : i < src.length) :
    charAt src i = some (src.getD i (Char.ofNat 0)) := by
  simp [charAt, h, List.getD, List.getElem?_eq_getElem h]

theorem charAt_length (src : List Char) : charAt src src.length = some (Char.ofNat 0) := by
  simp [charAt]

theorem charAt_gt (src : List Char) (i : Nat) (h : src.length < i) : charAt src i = none := by
  have h1 : ¬ i < src.length := by omega
  have h2 : ¬ i = src.length := by omega
  simp [charAt, h1, h2]

theorem charAt_some_le (src : List Char) (i : Nat) (c : Char) (h : charAt src i = some c) :
    i ≤ src.length := by
  by_contra hn
  rw [charAt_gt src i (by omega)] at h
  simp at h

/-- A character other than NUL that `s[i]` returns was read inside the string. -/
theorem charAt_ne_nul (src : List Char) (i : Nat) (c : Char) (h : charAt src i = some c)
    (hc : c ≠ Char.ofNat 0) : i < src.length := by
  have hle := charAt_some_le src i c h
  by_contra hn
  have : i = src.length := by omega
  subst this
  rw [charAt_length] at h
  simp at h
  exact hc h.symm

theorem isDigit_nul (base : Nat) : isDigit (Char.ofNat 0) base = false := by
  unfold isDigit
  split <;> simp

theorem isLetter_nul : isLetter (Char.ofNat 0) = false := by decide

theorem scanDigits_some (src : List Char) (base fuel f : Nat) (hf : f ≤ src.length)
    (hfuel : src.length - f < fuel) :
    ∃ r, scanDigits src base fuel f = some r ∧ r ≤ src.length := by
  induction fuel generalizing f with
  | zero => omega
  | succ k ih =>
    unfold scanDigits
    rcases Nat.lt_or_ge f src.length with hlt | hge
    · rw [charAt_lt src f hlt]
      simp only
      split
      · exact ih (f + 1) (by omega) (by omega)
      · exact ⟨f, rfl, hf⟩
    · have : f = src.length := by omega
      subst this
      rw [charAt_length]
      simp [isDigit_nul]

theorem scanFlags_some (src : List Char) (fuel f : Nat) (hf : f ≤ src.length)
    (hfuel : src.length - f < fuel) :
    ∃ r, scanFlags src fuel f = some r ∧ r ≤ src.length := by
  induction fuel generalizing f with
  | zero => omega
  | succ k ih =>
    unfold scanFlags
    rcases Nat.lt_or_ge f src.length with hlt | hge
    · rw [charAt_lt src f hlt]
      simp only
      split
      · exact ih (f + 1) (by omega) (by omega)
      · exact ⟨f, rfl, hf⟩
    · have : f = src.length := by omega
      subst this
      rw [charAt_length]
      simp [isLetter_nul]

theorem scanFlags_none (src : List Char) (fuel f : Nat) (hf : src.length < f) :
    scanFlags src fuel f = none := by
  cases fuel with
  | zero => rfl
  | succ k =>
    unfold scanFlags
    rw [charAt_gt src f hf]

theorem charAt_le (src : List Char) (i : Nat) (h : i ≤ src.length) :
    ∃ c, charAt src i = some c := by
  rcases Nat.lt_or_ge i src.length with hlt | hge
  · exact ⟨_, charAt_lt src i hlt⟩
  · have : i = src.length := by omega
    subst this
    exact ⟨_, charAt_length src⟩

/-- The number branch never reads beyond the terminator. -/
theorem scanNumber_some (src : List Char) (c : Char) (f0 : Nat) (h1 : 1 ≤ f0)
    (hf : f0 ≤ src.length) :
    ∃ r, scanNumber src c f0 = some r ∧ r ≤ src.length := by
  unfold scanNumber
  simp only
  split
  · rename_i hpre
    exfalso
    split at hpre
    · obtain ⟨d, hd⟩ := charAt_le src f0 hf
      rw [hd] at hpre
      simp only at hpre
      split at hpre
      · simp at hpre
      · split at hpre
        · simp at hpre
        · split at hpre <;> simp at hpre
    · simp at hpre
  · rename_i base f1 hpre
    have hf1 : f1 ≤ src.length := by
      split at hpre
      · obtain ⟨d, hd⟩ := charAt_le src f0 hf
        rw [hd] at hpre
        simp only at hpre
        split at hpre
        · rename_i hx
          have : f0 < src.length := charAt_ne_nul src f0 d hd (by
            intro h0; subst h0; simp at hx)
          simp at hpre; omega
        · split at hpre
          · rename_i _ hx
            have : f0 < src.length := charAt_ne_nul src f0 d hd (by
              intro h0; subst h0; simp at hx)
            simp at hpre; omega
          · split at hpre
            · rename_i _ _ hx
              have : f0 < src.length := charAt_ne_nul src f0 d hd (by
                intro h0; subst h0; simp at hx)
              simp at hpre; omega
            · simp at hpre; omega
      · simp at hpre; omega
    obtain ⟨f2, hd2, hf2⟩ := scanDigits_some src base (src.length + 2) f1 hf1 (by omega)
    rw [hd2]
    simp only
    obtain ⟨d, hd⟩ := charAt_le src f2 hf2
    rw [hd]
    simp only
    have hdot : ∃ f3, (if (d == '.') = true then scanDigits src base (src.length + 2) (f2 + 1)
        else some f2) = some f3 ∧ f3 ≤ src.length := by
      split
      · rename_i hx
        have : f2 < src.length := charAt_ne_nul src f2 d hd (by
          intro h0; subst h0; simp at hx)
        exact scanDigits_some src base (src.length + 2) (f2 + 1) (by omega) (by omega)
      · exact ⟨f2, rfl, hf2⟩
    obtain ⟨f3, hd3, hf3⟩ := hdot
    rw [hd3]
    simp only
    obtain ⟨d', hd'⟩ := charAt_le src f3 hf3
    rw [hd']
    simp only
    split
    · rename_i hx
      have hlt : f3 < src.length := charAt_ne_nul src f3 d' hd' (by
        intro h0; subst h0; simp at hx)
      obtain ⟨s, hs⟩ := charAt_le src (f3 + 1) (by omega)
      rw [hs]
      simp only
      split
      · exact scanDigits_some src base (src.length + 2) (f3 + 1) (by omega) (by omega)
      · exact ⟨f3 + 1, rfl, by omega⟩
    · exact ⟨f3, rfl, hf3⟩

/-- The lexeme the operator loop stops at is a key of `TOKEN_MAP`. -/
theorem scanOperator_inMap (src : List Char) (e cur fuel f c : Nat) (hcf : cur ≤ f)
    (h : (mapFind TOKEN_MAP (String.mk (substr src cur (f - cur)))).isSome = true) :
    (mapFind TOKEN_MAP
      (String.mk (substr src cur ((scanOperator src e cur fuel f c).1 - cur)))).isSome = true := by
  induction fuel generalizing f c with
  | zero => simpa [scanOperator] using h
  | succ k ih =>
    unfold scanOperator
    split
    · rename_i hc
      simp only [Bool.and_eq_true, decide_eq_true_eq] at hc
      apply ih (f + 1) (c + 1) (by omega)
      have : f + 1 - cur = f - cur + 1 := by omega
      rw [this]
      exact hc.2
    · exact h

/-- One iteration of the scan loop has no result exactly when it is in the
regular-expression branch and the literal is not closed before the end of the
source: the flag loop then starts beyond the terminator. -/
theorem processStep_eq_none_iff (src : List Char) (st : LexState) (hcur : st.cur < src.length) :
    processStep src st = none ↔
      ((src.getD st.cur (Char.ofNat 0) == '/'
          && src.getD (st.cur + 1) (Char.ofNat 0) != '/'
          && src.getD (st.cur + 1) (Char.ofNat 0) != '*'
          && regexAllowed st.tokens_) = true
        ∧ src.length ≤
          (scanQuoted src src.length '/' src.length (st.cur + 1) st.line (st.col + 1)).1) := by
  unfold processStep
  simp only
  split
  · rename_i hid
    constructor
    · intro h; simp at h
    · rintro ⟨h1, _⟩
      exfalso
      simp only [Bool.and_eq_true, beq_iff_eq] at h1
      rw [h1.1.1.1] at hid
      revert hid
      decide
  · split
    · rename_i hq
      constructor
      · intro h; simp at h
      · rintro ⟨h1, _⟩
        exfalso
        simp only [Bool.and_eq_true, beq_iff_eq] at h1
        rw [h1.1.1.1] at hq
        revert hq
        decide
    · split
      · rename_i hre
        have hc : src.getD st.cur (Char.ofNat 0) = '/' := by
          simp only [Bool.and_eq_true, beq_iff_eq] at hre
          exact hre.1.1.1
        have hre2 := hre
        rw [hc] at hre2
        rw [hc]
        rcases Nat.lt_or_ge
          (scanQuoted src src.length '/' src.length (st.cur + 1) st.line (st.col + 1)).1
          src.length with hlt | hge
        · obtain ⟨r, hr, _⟩ := scanFlags_some src (src.length + 2)
            ((scanQuoted src src.length '/' src.length (st.cur + 1) st.line (st.col + 1)).1 + 1)
            (by omega) (by omega)
          rw [hr]
          constructor
          · intro h; simp at h
          · rintro ⟨_, h2⟩; omega
        · rw [scanFlags_none src (src.length + 2) _ (by omega)]
          constructor
          · intro _
            exact ⟨hre2, hge⟩
          · intro _; rfl
      · rename_i hre
        have hno : ¬ ((src.getD st.cur (Char.ofNat 0) == '/'
          && src.getD (st.cur + 1) (Char.ofNat 0) != '/'
          && src.getD (st.cur + 1) (Char.ofNat 0) != '*'
          && regexAllowed st.tokens_) = true
          ∧ src.length ≤
            (scanQuoted src src.length '/' src.length (st.cur + 1) st.line (st.col + 1)).1) :=
          fun h => hre h.1
        have key : ∀ x : LexState, (some x = none ↔
          ((src.getD st.cur (Char.ofNat 0) == '/'
            && src.getD (st.cur + 1) (Char.ofNat 0) != '/'
            && src.getD (st.cur + 1) (Char.ofNat 0) != '*'
            && regexAllowed st.tokens_) = true
          ∧ src.length ≤
            (scanQuoted src src.length '/' src.length (st.cur + 1) st.line (st.col + 1)).1)) :=
          fun x => ⟨fun h => by simp at h, fun h => absurd h hno⟩
        split
        · exact key _
        · split
          · exact key _
          · split
            · obtain ⟨r, hr, _⟩ := scanNumber_some src (src.getD st.cur (Char.ofNat 0))
                (st.cur + 1) (by omega) (by omega)
              rw [hr]
              exact key _
            · split
              · exact key _
              · split
                · rename_i hop
                  have hin := scanOperator_inMap src src.length st.cur src.length (st.cur + 1)
                    (st.col + 1) (by omega) (by simpa using hop)
                  split
                  · rename_i hnone
                    rw [hnone] at hin
                    simp at hin
                  · exact key _
                · exact key _

/-- With fuel for every remaining character the scan loop ends, either in a read
beyond the terminator or in the tokens emitted so far, some more tokens that are not
end-of-file, and one end-of-file token. -/
theorem processLoop_spec (src : List Char) (fuel : Nat) (st : LexState)
    (hfuel : src.length ≤ st.cur + fuel)
    (hne : ∀ t ∈ st.tokens_, t.type_ ≠ .END_OF_FILE) :
    processLoop src fuel st = .outOfBounds ∨
      ∃ ts eof, processLoop src fuel st = .tokens (ts ++ [eof])
        ∧ eof.type_ = .END_OF_FILE ∧ ∀ t ∈ ts, t.type_ ≠ .END_OF_FILE := by
  induction fuel generalizing st with
  | zero =>
    right
    have : ¬ st.cur < src.length := by omega
    exact ⟨st.tokens_, ⟨.END_OF_FILE, "", ⟨⟨st.line, st.col⟩, ⟨st.line, st.col⟩⟩⟩,
      by simp [processLoop, this], rfl, hne⟩
  | succ k ih =>
    unfold processLoop
    split
    · cases hstep : processStep src st with
      | none => left; rfl
      | some st1 =>
        simp only
        obtain ⟨hlt, htok⟩ := processStep_spec src st st1 hstep
        apply ih st1 (by omega)
        rcases htok with h | ⟨tok, h, htok⟩
        · rw [h]; exact hne
        · rw [h]
          intro t ht
          rcases List.mem_append.1 ht with h1 | h1
          · exact hne t h1
          · simp at h1
            rw [h1]; exact htok
    · right
      exact ⟨st.tokens_, ⟨.END_OF_FILE, "", ⟨⟨st.line, st.col⟩, ⟨st.line, st.col⟩⟩⟩,
        rfl, rfl, hne⟩

/-- The scan loop reads beyond the terminator only in a source that has a `/`. -/
theorem processLoop_outOfBounds (src : List Char) (fuel : Nat) (st : LexState)
    (h : processLoop src fuel st = .outOfBounds) : '/' ∈ src := by
  induction fuel generalizing st with
  | zero =>
    unfold processLoop at h
    split at h <;> simp at h
  | succ k ih =>
    unfold processLoop at h
    split at h
    · rename_i hcur
      cases hstep : processStep src st with
      | none =>
        have hc := ((processStep_eq_none_iff src st hcur).1 hstep).1
        simp only [Bool.and_eq_true, beq_iff_eq] at hc
        have hget : src.getD st.cur (Char.ofNat 0) = src[st.cur] := by
          simp [List.getD, List.getElem?_eq_getElem hcur]
        rw [← hc.1.1.1, hget]
        exact List.getElem_mem _
      | some st1 =>
        rw [hstep] at h
        exact ih st1 h
    · simp at h

theorem scanIdentifier_all (src : List Char) (fuel f c : Nat)
    (hall : ∀ i, f ≤ i → i < src.length → isIdentifier (src.getD i (Char.ofNat 0)) = true)
    (hf : f ≤ src.length) (hfuel : src.length - f ≤ fuel) :
    scanIdentifier src src.length fuel f c = (src.length, c + (src.length - f)) := by
  induction fuel generalizing f c with
  | zero =>
    have : f = src.length := by omega
    subst this
    simp [scanIdentifier]
  | succ k ih =>
    unfold scanIdentifier
    rcases Nat.lt_or_ge f src.length with hlt | hge
    · have hid := hall f (Nat.le_refl f) hlt
      simp only [hlt, hid, decide_True, Bool.and_self, if_true]
      rw [ih (f + 1) (c + 1) (fun i hi hil => hall i (by omega) hil) (by omega) (by omega)]
      congr 1
      omega
    · have : f = src.length := by omega
      subst this
      simp

theorem processLoop_done (src : List Char) (fuel : Nat) (st : LexState)
    (h : src.length ≤ st.cur) :
    processLoop src fuel st = .tokens (st.tokens_ ++
      [⟨.END_OF_FILE, "", ⟨⟨st.line, st.col⟩, ⟨st.line, st.col⟩⟩⟩]) := by
  have : ¬ st.cur < src.length := by omega
  cases fuel <;> simp [processLoop, this]

/-- A source that is one word (a letter, `_` or `$`, then letters, digits, `_`, `$`)
lexes to one token with the word as its lexeme, a keyword token when the word is in
`KEYWORDS` and an identifier token otherwise, and the end-of-file token. -/
theorem process_word (K : String) (c0 : Char) (rest : List Char) (hK : K.data = c0 :: rest)
    (h0 : isIdentifierFirst c0 = true) (hall : ∀ c ∈ rest, isIdentifier c = true) :
    process K = .tokens
      [⟨if K ∈ KEYWORDS then .KEYWORD else .IDENTIFIER, K, ⟨⟨1, 1⟩, ⟨1, K.length + 1⟩⟩⟩,
       ⟨.END_OF_FILE, "", ⟨⟨1, K.length + 1⟩, ⟨1, K.length + 1⟩⟩⟩] := by
  have hlen : K.length = rest.length + 1 := by
    show K.data.length = _
    rw [hK]; rfl
  have hallI : ∀ i, 1 ≤ i → i < K.data.length →
      isIdentifier (K.data.getD i (Char.ofNat 0)) = true := by
    intro i hi hil
    rw [hK] at hil ⊢
    obtain ⟨j, rfl⟩ : ∃ j, i = j + 1 := ⟨i - 1, by omega⟩
    have hj : j < rest.length := by simpa using hil
    apply hall
    simp [List.getD, List.getElem?_eq_getElem hj]
  have hscan := scanIdentifier_all K.data K.data.length 1 2 hallI
    (by rw [hK]; simp) (by omega)
  have hstep : processStep K.data ⟨0, 0, 1, 1, []⟩ = some ⟨K.data.length, K.data.length, 1,
      K.length + 1, [⟨if K ∈ KEYWORDS then .KEYWORD else .IDENTIFIER, K,
        ⟨⟨1, 1⟩, ⟨1, K.length + 1⟩⟩⟩]⟩ := by
    have hc : K.data.getD 0 (Char.ofNat 0) = c0 := by rw [hK]; rfl
    have hsub : substr K.data 0 (K.data.length - 0) = K.data := by simp [substr]
    have hcol : 2 + (K.data.length - 1) = K.length + 1 := by
      show 2 + (K.data.length - 1) = K.data.length + 1
      rw [hK]; simp; omega
    unfold processStep
    simp only [hc, h0, if_true, Nat.zero_add, hscan, hsub, hcol, List.nil_append]
  unfold process
  have hl : K.data.length = rest.length + 1 := by rw [hK]; rfl
  rw [hl]
  unfold processLoop
  have h0lt : (0 : Nat) < K.data.length := by omega
  dsimp only
  simp only [h0lt, if_true, hstep]
  rw [processLoop_done _ _ _ (by simp)]
  simp

theorem regexAllowed_iff (toks : List Token) : regexAllowed toks = true ↔ regexContext toks := by
  unfold regexAllowed regexContext
  cases h : toks.getLast? with
  | none =>
    have : toks = [] := List.getLast?_eq_none_iff.1 h
    simp [this]
  | some t =>
    have hne : toks ≠ [] := by
      intro h0; rw [h0] at h; simp at h
    simp [hne, and_assoc]

theorem substr_head (src : List Char) (cur k : Nat) (hcur : cur < src.length) :
    (substr src cur (k + 1)).head? = some (src.getD cur (Char.ofNat 0)) := by
  have hg : src.getD cur (Char.ofNat 0) = src[cur] := by
    simp [List.getD, List.getElem?_eq_getElem hcur]
  unfold substr
  rw [hg, List.drop_eq_getElem_cons hcur]
  rfl

theorem TOKEN_MAP_slash (key : String) (ty : TokenType) (h : mapFind TOKEN_MAP key = some ty)
    (hk : key.data.head? = some '/') : ty = .OPERATOR := by
  have hm := mapFind_mem _ _ _ h
  have hall : ∀ p ∈ TOKEN_MAP, p.1.data.head? = some '/' → p.2 = TokenType.OPERATOR := by decide
  exact hall _ hm hk

/-- The scan for the closing delimiter, when it stops inside the source, stops at the
delimiter. -/
theorem scanQuoted_stop (src : List Char) (e : Nat) (q : Char) (fuel f l c : Nat)
    (hfuel : e ≤ f + fuel) (h : (scanQuoted src e q fuel f l c).1 < e) :
    src.getD (scanQuoted src e q fuel f l c).1 (Char.ofNat 0) = q := by
  induction fuel generalizing f l c with
  | zero =>
    simp only [scanQuoted] at h
    omega
  | succ k ih =>
    unfold scanQuoted at h ⊢
    split
    · rename_i hc
      rw [if_pos hc] at h
      apply ih _ _ _ _ h
      split <;> omega
    · rename_i hc
      rw [if_neg hc] at h
      simp only [Bool.and_eq_true, decide_eq_true_eq, bne_iff_ne, ne_eq, not_and, not_not] at hc
      exact hc h

/-- The flag loop passes letters only and stops at a character that is no letter. -/
theorem scanFlags_spec (src : List Char) (fuel f r : Nat) (h : scanFlags src fuel f = some r) :
    (∀ i, f ≤ i → i < r → isLetter (src.getD i (Char.ofNat 0)) = true)
      ∧ ∃ ch, charAt src r = some ch ∧ isLetter ch = false := by
  induction fuel generalizing f with
  | zero => simp [scanFlags] at h
  | succ k ih =>
    unfold scanFlags at h
    split at h
    · simp at h
    · rename_i ch hch
      split at h
      · rename_i hl
        obtain ⟨h1, h2⟩ := ih _ h
        refine ⟨?_, h2⟩
        intro i hi hir
        rcases Nat.eq_or_lt_of_le hi with heq | hlt
        · subst heq
          have hlt : f < src.length := charAt_ne_nul src f ch hch (by
            intro h0; subst h0; rw [isLetter_nul] at hl; simp at hl)
          rw [charAt_lt src f hlt] at hch
          simp only [Option.some.injEq] at hch
          rw [hch]; exact hl
        · exact h1 i (by omega) hir
      · rename_i hl
        simp only [Option.some.injEq] at h
        subst h
        exact ⟨fun i hi hir => by omega, ch, hch, by simpa using hl⟩

theorem escapeLoop_length (s : List Char) (n fuel i p : Nat) (ret : List Char) :
    (escapeLoop s n fuel i p ret).length = ret.length := by
  induction fuel generalizing i p ret with
  | zero => rfl
  | succ k ih =>
    unfold escapeLoop
    split
    · split
      · split <;> simp [ih]
      · simp [ih]
    · rfl

/-- The function `escape` never shortens its argument. -/
theorem escape_length (s : List Char) : (escape s).length = s.length := by
  simp [escape, escapeLoop_length]

/-! ## Lemmas on the expression parser -/

namespace Parser

theorem expressionPri_pass (fuel pri : Nat) (ps : Option Nat) (st st1 : ParserState) (e : AST)
    (t0 t : Token) (r0 rest : List Token) (hpri : pri ≤ 11)
    (h0 : st.toks = t0 :: r0)
    (h : expressionPri fuel (pri + 1) ps st = .ok e st1)
    (h1 : st1.toks = t :: rest) (hop : mapFind PRIORITY t.data_ ≠ some pri) :
    expressionPri (fuel + 1) pri ps st = .ok e st1 := by
  unfold expressionPri
  have hp : ¬ pri > 11 := by omega
  simp [bind, ParserM.bind, peekBegin, peek, h0, hp, h, expectOperator, h1, hop, pure]

theorem expressionPri_descend (k fuel : Nat) (ps : Option Nat) (st st1 : ParserState) (e : AST)
    (t0 t : Token) (r0 rest : List Token) (h0 : st.toks = t0 :: r0)
    (h1 : st1.toks = t :: rest) :
    ∀ pri, pri + k ≤ 12 →
      expressionPri fuel (pri + k) ps st = .ok e st1 →
      (∀ p, pri ≤ p → p < pri + k → mapFind PRIORITY t.data_ ≠ some p) →
      expressionPri (fuel + k) pri ps st = .ok e st1 := by
  induction k with
  | zero => intro pri _ h _; exact h
  | succ j ih =>
    intro pri hk h hop
    have h2 := ih (pri + 1) (by omega) (by rw [← h]; congr 1; omega)
      (fun p hp1 hp2 => hop p (by omega) (by omega))
    exact expressionPri_pass (fuel + j) pri ps st st1 e t0 t r0 rest (by omega) h0 h2 h1
      (hop pri (Nat.le_refl _) (by omega))

theorem isName_ne (t : Token) (h : isName t) (s : String)
    (hs : s ∈ KEYWORDS ∨ (mapFind TOKEN_MAP s).isSome = true) : t.data_ ≠ s := by
  intro he
  rcases hs with hk | hm
  · exact h.2.2 (he ▸ hk)
  · rw [← he, h.2.1] at hm
    simp at hm

/-- An identifier token followed by a token that is no suffix of a left-expression
and no `++` or `--` is parsed at level 12 into the `Identifier` node of its lexeme. -/
theorem expressionPri_name (fuel : Nat) (ps : Option Nat) (t n : Token) (rest : List Token)
    (scopes : List (Option Nat)) (ht : isName t)
    (hn1 : n.data_ ≠ ".") (hn2 : n.data_ ≠ "(") (hn3 : n.data_ ≠ "[")
    (hn4 : n.data_ ≠ "++") (hn5 : n.data_ ≠ "--") :
    expressionPri (fuel + 4) 12 ps ⟨t :: n :: rest, scopes⟩
      = .ok (.Identifier ⟨t.range_, ps, t.data_⟩) ⟨n :: rest, scopes⟩ := by
  have d1 := isName_ne t ht "delete" (Or.inl (by decide))
  have d2 := isName_ne t ht "++" (Or.inr (by decide))
  have d3 := isName_ne t ht "--" (Or.inr (by decide))
  have d4 := isName_ne t ht "void" (Or.inl (by decide))
  have d5 := isName_ne t ht "typeof" (Or.inl (by decide))
  have d6 := isName_ne t ht "+" (Or.inr (by decide))
  have d7 := isName_ne t ht "-" (Or.inr (by decide))
  have d8 := isName_ne t ht "~" (Or.inr (by decide))
  have d9 := isName_ne t ht "!" (Or.inr (by decide))
  have d10 := isName_ne t ht "new" (Or.inl (by decide))
  have d11 := isName_ne t ht "(" (Or.inr (by decide))
  unfold expressionPri leftExpression callExpression primary callExpressionLoop
  simp [bind, ParserM.bind, peekBegin, peek, expectStr, expectType, pure, identifier, matchType,
    get, d1, d2, d3, d4, d5, d6, d7, d8, d9, d10, d11, ht.1, hn1, hn2, hn3, hn4, hn5]

/-- At a level from 2 to 11, a left operand of the next level, an operator of the
level, and a right operand of the same level after which no operator of the level
follows make one `BiExpression`. -/
theorem expressionPri_binary (fuel pri : Nat) (ps : Option Nat) (st st1 st3 : ParserState)
    (l r : AST) (t0 op n : Token) (r0 toks2 rest3 : List Token)
    (hp1 : 2 ≤ pri) (hp2 : pri ≤ 11)
    (h0 : st.toks = t0 :: r0)
    (hl : expressionPri (fuel + 1) (pri + 1) ps st = .ok l st1)
    (h1 : st1.toks = op :: toks2) (hop : mapFind PRIORITY op.data_ = some pri)
    (hr : expressionPri (fuel + 1) pri ps ⟨toks2, st1.scopes⟩ = .ok r st3)
    (h3 : st3.toks = n :: rest3) (hn : mapFind PRIORITY n.data_ ≠ some pri) :
    expressionPri (fuel + 2) pri ps st
      = .ok (.BiExpression ⟨t0.range_.begin_, n.range_.begin_⟩ ps l op.data_ r) st3 := by
  unfold expressionPri
  have hp : ¬ pri > 11 := by omega
  have hp' : ¬ pri = 1 := by omega
  unfold expressionChain
  simp [bind, ParserM.bind, peekBegin, peek, h0, hp, hp', hl, expectOperator, h1, hop, pure, get,
    hr, h3, hn]

theorem operator_ne (t : Token) (p : Nat) (h : mapFind PRIORITY t.data_ = some p) (hp : p ≤ 11) :
    t.data_ ≠ "." ∧ t.data_ ≠ "(" ∧ t.data_ ≠ "[" ∧ t.data_ ≠ "++" ∧ t.data_ ≠ "--" := by
  have e1 : mapFind PRIORITY "." = none := by decide
  have e2 : mapFind PRIORITY "(" = none := by decide
  have e3 : mapFind PRIORITY "[" = none := by decide
  have e4 : mapFind PRIORITY "++" = some 15 := by decide
  have e5 : mapFind PRIORITY "--" = some 15 := by decide
  refine ⟨?_, ?_, ?_, ?_, ?_⟩ <;> intro he <;> rw [he] at h
  · rw [e1] at h; simp at h
  · rw [e2] at h; simp at h
  · rw [e3] at h; simp at h
  · rw [e4] at h; simp at h; omega
  · rw [e5] at h; simp at h; omega

/-- An identifier token is parsed at every level from 12 down to `pri` into its
`Identifier` node when the token after it is no suffix, no `++` or `--`, and no
operator of a level from `pri` to 11. -/
theorem expressionPri_name_at (k fuel pri : Nat) (ps : Option Nat) (t n : Token)
    (rest : List Token) (scopes : List (Option Nat)) (hk : pri + k = 12) (ht : isName t)
    (hn1 : n.data_ ≠ ".") (hn2 : n.data_ ≠ "(") (hn3 : n.data_ ≠ "[")
    (hn4 : n.data_ ≠ "++") (hn5 : n.data_ ≠ "--")
    (hop : ∀ p, pri ≤ p → p < 12 → mapFind PRIORITY n.data_ ≠ some p) :
    expressionPri (fuel + 4 + k) pri ps ⟨t :: n :: rest, scopes⟩
      = .ok (.Identifier ⟨t.range_, ps, t.data_⟩) ⟨n :: rest, scopes⟩ := by
  apply expressionPri_descend k (fuel + 4) ps _ _ _ t n (n :: rest) rest rfl rfl pri (by omega)
  · rw [hk]
    exact expressionPri_name fuel ps t n rest scopes ht hn1 hn2 hn3 hn4 hn5
  · intro p hp1 hp2
    exact hop p hp1 (by omega)

end Parser

/-! ## Lemmas on the statement parser -/

theorem ParserM.bind_ok {α β : Type} (m : ParserM α) (f : α → ParserM β) (st st' : ParserState)
    (b : β) :
    ParserM.bind m f st = .ok b st' ↔ ∃ a st1, m st = .ok a st1 ∧ f a st1 = .ok b st' := by
  unfold ParserM.bind
  cases h : m st with
  | ok a st1 =>
    constructor
    · intro hf; exact ⟨a, st1, rfl, hf⟩
    · rintro ⟨a', st1', he, hf⟩
      cases he
      exact hf
  | parseError => simp
  | undefinedBehaviour => simp
  | fuelOut => simp

namespace Parser

theorem pure_ok {α : Type} (a b : α) (st st' : ParserState) :
    (pure a : ParserM α) st = .ok b st' ↔ a = b ∧ st = st' := by
  simp [pure]

/-- The function `varStatement` returns a `Var` node of the scope it is given. -/
theorem varStatement_isVar (fuel : Nat) (ps : Option Nat) (st st' : ParserState) (a : AST)
    (h : varStatement fuel ps st = .ok a st') : ∃ rg vlist, a = .Var rg ps vlist := by
  cases fuel with
  | zero => cases h
  | succ f =>
    unfold varStatement at h
    simp only [bind, ParserM.bind_ok, pure_ok] at h
    obtain ⟨b, _, _, _, _, _, d, _, _, vl, _, _, e, _, _, rfl, _⟩ := h
    exact ⟨_, _, rfl⟩

/-- The function `forbegin(Scope*)` returns a `GroupExpression` of the scope it is
given. -/
theorem forbegin_isGroup (fuel : Nat) (ps : Option Nat) (st st' : ParserState) (a : AST)
    (h : forbegin fuel ps st = .ok a st') : ∃ rg elist, a = .GroupExpression rg ps elist := by
  cases fuel with
  | zero => cases h
  | succ f =>
    unfold forbegin at h
    simp only [bind, ParserM.bind_ok, pure_ok] at h
    obtain ⟨b, _, _, e, _, _, el, _, _, en, _, _, rfl, _⟩ := h
    exact ⟨_, _, rfl⟩

/-- The code at the label `forin:` returns a `ForInLoop` with the key it is given. -/
theorem forin_isForIn (fuel : Nat) (begin : Position) (s : Option Nat) (init : AST)
    (st st' : ParserState) (a : AST) (h : forin fuel begin s init st = .ok a st') :
    ∃ end_ expr body, a = .ForInLoop ⟨begin, end_⟩ s init expr body := by
  cases fuel with
  | zero => cases h
  | succ f =>
    unfold forin at h
    simp only [bind, ParserM.bind_ok, pure_ok] at h
    obtain ⟨e, _, _, _, _, _, b, _, _, en, _, _, rfl, _⟩ := h
    exact ⟨_, _, _, rfl⟩

end Parser

/-! ## Lemmas on the nodes the parser builds -/

theorem Position.le_refl (a : Position) : a.le a := Or.inr ⟨rfl, Nat.le_refl _⟩

theorem Position.le_trans {a b c : Position} (h1 : a.le b) (h2 : b.le c) : a.le c := by
  unfold Position.le at *
  omega

theorem Position.le_of_lt {a b : Position} (h : a.lt b) : a.le b := by
  unfold Position.lt at h
  unfold Position.le
  omega

theorem Position.lt_of_lt_of_le {a b c : Position} (h1 : a.lt b) (h2 : b.le c) : a.lt c := by
  unfold Position.lt at *
  unfold Position.le at h2
  omega

theorem good_nil (N : Nat) : Good N [] := by
  intro n hn
  cases hn

theorem good_cons (N : Nat) (n : Node) (ns : List Node) :
    Good N (n :: ns) ↔ n.wellFormed N ∧ Good N ns := by
  unfold Good
  simp

theorem good_append (N : Nat) (a b : List Node) : Good N (a ++ b) ↔ Good N a ∧ Good N b := by
  unfold Good
  constructor
  · intro h
    refine ⟨?_, ?_⟩
    · intro x hx
      exact h x (List.mem_append_left b hx)
    · intro x hx
      exact h x (List.mem_append_right a hx)
  · rintro ⟨ha, hb⟩ x hx
    rcases List.mem_append.1 hx with hx | hx
    · exact ha x hx
    · exact hb x hx

theorem Good.mono {N M : Nat} {ns : List Node} (h : Good N ns) (hle : N ≤ M) : Good M ns := by
  intro n hn
  obtain ⟨h1, h2, h3⟩ := h n hn
  refine ⟨h1, h2, fun hu => ?_⟩
  obtain ⟨i, hi, hlt⟩ := h3 hu
  exact ⟨i, hi, by omega⟩

theorem wf_scoped (t : ASTType) (b e : Position) (i N : Nat) (ht : t.unscoped = false)
    (hbe : b.le e) (hi : i < N) : Node.wellFormed N ⟨t, ⟨b, e⟩, some i⟩ :=
  ⟨hbe, fun hu => by simp [ht] at hu, fun _ => ⟨i, rfl, hi⟩⟩

theorem wf_unscoped (t : ASTType) (b e : Position) (N : Nat) (ht : t.unscoped = true)
    (hbe : b.le e) : Node.wellFormed N ⟨t, ⟨b, e⟩, none⟩ :=
  ⟨hbe, fun _ => rfl, fun hu => by simp [ht] at hu⟩

theorem nodesList_append (a b : List AST) :
    AST.nodesList (a ++ b) = AST.nodesList a ++ AST.nodesList b := by
  induction a with
  | nil => simp [AST.nodesList]
  | cons x xs ih => simp [AST.nodesList, ih]

theorem nodesList_snoc (a : List AST) (x : AST) :
    AST.nodesList (a ++ [x]) = AST.nodesList a ++ x.nodes := by
  rw [nodesList_append]
  simp [AST.nodesList]

theorem declNodesList_snoc (a : List Declaration) (x : Declaration) :
    Declaration.nodesList (a ++ [x]) = Declaration.nodesList a ++ x.nodes := by
  induction a with
  | nil => simp [Declaration.nodesList]
  | cons y ys ih => simp [Declaration.nodesList, ih]

theorem nodesPairs_snoc (a : List (AST × AST)) (x y : AST) :
    AST.nodesPairs (a ++ [(x, y)]) = AST.nodesPairs a ++ (x.nodes ++ y.nodes) := by
  induction a with
  | nil => simp [AST.nodesPairs]
  | cons z zs ih =>
    obtain ⟨z1, z2⟩ := z
    simp [AST.nodesPairs, ih]

/-! ## Lemmas on the primitives of the parser -/

theorem low_of_head (T0 : List Token) (hT : TokensOk T0) (st : ParserState)
    (h : st.toks <:+ T0) (t : Token) (r : List Token) (ht : st.toks = t :: r) :
    Low t.range_.begin_ st := by
  have hp := hT.2.sublist h.sublist
  rw [ht, List.pairwise_cons] at hp
  intro x hx
  rw [ht] at hx
  rcases List.mem_cons.mp hx with e | hm
  · rw [e]; exact Position.le_refl _
  · exact Position.le_of_lt (hp.1 x hm)

theorem low_mono (T0 : List Token) (b : Position) (st st1 : ParserState)
    (h : st.toks <:+ T0) (h1 : st1.toks <:+ T0) (hlen : st1.toks.length ≤ st.toks.length)
    (hl : Low b st) : Low b st1 := by
  have hs : st1.toks <:+ st.toks := List.suffix_of_suffix_length_le h1 h hlen
  intro x hx
  exact hl x (hs.subset hx)

theorem tok_range (T0 : List Token) (hT : TokensOk T0) (st : ParserState)
    (h : st.toks <:+ T0) (t : Token) (ht : t ∈ st.toks) :
    t.range_.begin_.le t.range_.end_ :=
  hT.1 t (h.subset ht)

namespace Parser

theorem peek_ok (st st1 : ParserState) (t : Token) :
    peek st = .ok t st1 ↔ st1 = st ∧ ∃ r, st.toks = t :: r := by
  unfold peek
  cases h : st.toks with
  | nil => simp
  | cons x r =>
    simp only [ParseResult.ok.injEq, List.cons.injEq]
    constructor
    · rintro ⟨rfl, rfl⟩; exact ⟨rfl, r, rfl, rfl⟩
    · rintro ⟨rfl, _, rfl, _⟩; exact ⟨rfl, rfl⟩

theorem expectStr_eq (s : String) (st st1 : ParserState) (b : Bool)
    (h : expectStr s st = .ok b st1) : st1 = st := by
  simp only [expectStr, bind, ParserM.bind_ok, peek_ok, pure_ok] at h
  obtain ⟨_, _, ⟨rfl, _⟩, _, rfl⟩ := h
  rfl

theorem expectType_eq (ty : TokenType) (st st1 : ParserState) (b : Bool)
    (h : expectType ty st = .ok b st1) : st1 = st := by
  simp only [expectType, bind, ParserM.bind_ok, peek_ok, pure_ok] at h
  obtain ⟨_, _, ⟨rfl, _⟩, _, rfl⟩ := h
  rfl

theorem expectOperator_eq (pri : Nat) (st st1 : ParserState) (b : Bool)
    (h : expectOperator pri st = .ok b st1) : st1 = st := by
  simp only [expectOperator, bind, ParserM.bind_ok, peek_ok, pure_ok] at h
  obtain ⟨_, _, ⟨rfl, _⟩, _, rfl⟩ := h
  rfl

theorem peekBegin_ok (st st1 : ParserState) (b : Position) :
    peekBegin st = .ok b st1 ↔ st1 = st ∧ ∃ t r, st.toks = t :: r ∧ b = t.range_.begin_ := by
  simp only [peekBegin, bind, ParserM.bind_ok, peek_ok, pure_ok]
  constructor
  · rintro ⟨t, _, ⟨rfl, r, hr⟩, rfl, rfl⟩
    exact ⟨rfl, t, r, hr, rfl⟩
  · rintro ⟨rfl, t, r, hr, rfl⟩
    exact ⟨t, _, ⟨rfl, r, hr⟩, rfl, rfl⟩

/-- The begin of the next token is not after the begin of any token left. -/
theorem peekBegin_low (T0 : List Token) (hT : TokensOk T0) (st st1 : ParserState) (b : Position)
    (w : st.within T0) (h : peekBegin st = .ok b st1) : st1 = st ∧ Low b st := by
  rw [peekBegin_ok] at h
  obtain ⟨rfl, t, r, hr, rfl⟩ := h
  exact ⟨rfl, low_of_head T0 hT _ w.1 t r hr⟩

/-- A position that was the begin of the next token in an earlier state is not after
the begin of the next token now. -/
theorem peekBegin_le (T0 : List Token) (st0 st st1 : ParserState) (b e : Position)
    (w0 : st0.within T0) (w : st.within T0) (hlen : st.toks.length ≤ st0.toks.length)
    (hl : Low b st0) (h : peekBegin st = .ok e st1) : st1 = st ∧ b.le e := by
  rw [peekBegin_ok] at h
  obtain ⟨rfl, t, r, hr, rfl⟩ := h
  refine ⟨rfl, low_mono T0 b st0 _ w0.1 w.1 hlen hl t ?_⟩
  rw [hr]
  exact List.mem_cons_self _ _

theorem get_ok (st st1 : ParserState) (t : Token) :
    get st = .ok t st1 ↔ st.toks = t :: st1.toks ∧ st1.scopes = st.scopes := by
  unfold get
  obtain ⟨toks, scopes⟩ := st
  obtain ⟨toks1, scopes1⟩ := st1
  cases toks with
  | nil => simp
  | cons x r =>
    simp only [ParseResult.ok.injEq, ParserState.mk.injEq, List.cons.injEq]
    constructor
    · rintro ⟨rfl, rfl, rfl⟩; exact ⟨⟨rfl, rfl⟩, rfl⟩
    · rintro ⟨⟨rfl, rfl⟩, rfl⟩; exact ⟨rfl, rfl, rfl⟩

theorem get_post (T0 : List Token) (st st1 : ParserState) (t : Token)
    (w : st.within T0) (h : get st = .ok t st1) :
    Post T0 st st1 [] ∧ st1.scopes.length = st.scopes.length ∧ t ∈ st.toks := by
  rw [get_ok] at h
  obtain ⟨h1, h2⟩ := h
  refine ⟨⟨⟨?_, ?_⟩, ?_, ?_, good_nil _⟩, by rw [h2], ?_⟩
  · exact List.IsSuffix.trans ⟨[t], by rw [h1]; rfl⟩ w.1
  · rw [h2]; exact w.2
  · rw [h1]; simp
  · rw [h2]
  · rw [h1]; exact List.mem_cons_self _ _

theorem matchStr_post (T0 : List Token) (s : String) (st st1 : ParserState) (t : Token)
    (w : st.within T0) (h : matchStr s st = .ok t st1) :
    Post T0 st st1 [] ∧ st1.scopes.length = st.scopes.length ∧ t ∈ st.toks := by
  simp only [matchStr, bind, ParserM.bind_ok] at h
  obtain ⟨t1, st2, hg, h⟩ := h
  split at h
  · cases h
  · simp only [pure_ok] at h
    obtain ⟨rfl, rfl⟩ := h
    exact get_post T0 st _ _ w hg

theorem matchType_post (T0 : List Token) (ty : TokenType) (st st1 : ParserState) (t : Token)
    (w : st.within T0) (h : matchType ty st = .ok t st1) :
    Post T0 st st1 [] ∧ st1.scopes.length = st.scopes.length ∧ t ∈ st.toks := by
  simp only [matchType, bind, ParserM.bind_ok] at h
  obtain ⟨t1, st2, hg, h⟩ := h
  split at h
  · cases h
  · simp only [pure_ok] at h
    obtain ⟨rfl, rfl⟩ := h
    exact get_post T0 st _ _ w hg

theorem opteol_post (T0 : List Token) (st st1 : ParserState) (u : Unit)
    (w : st.within T0) (h : opteol st = .ok u st1) :
    Post T0 st st1 [] ∧ st1.scopes.length = st.scopes.length := by
  simp only [opteol, bind, ParserM.bind_ok] at h
  obtain ⟨b, st2, he, h⟩ := h
  obtain rfl := expectStr_eq _ _ _ _ he
  cases b with
  | true =>
    simp only [if_true, ParserM.bind_ok, pure_ok] at h
    obtain ⟨t, st3, hm, _, _, ⟨_, rfl⟩, _, rfl⟩ := h
    obtain ⟨p, l, _⟩ := matchStr_post T0 _ _ _ _ w hm
    exact ⟨p, l⟩
  | false =>
    simp only [Bool.false_eq_true, if_false, ParserM.bind_ok, pure_ok] at h
    obtain ⟨_, _, ⟨_, rfl⟩, _, rfl⟩ := h
    exact ⟨⟨w, Nat.le_refl _, Nat.le_refl _, good_nil _⟩, rfl⟩

theorem newScope_post (T0 : List Token) (i : Nat) (st st1 : ParserState) (s : Option Nat)
    (w : st.within T0) (hi : i < st.scopes.length) (h : newScope (some i) st = .ok s st1) :
    s = some st.scopes.length ∧ st1.within T0 ∧ st1.toks.length = st.toks.length
      ∧ st1.scopes.length = st.scopes.length + 1 := by
  unfold newScope at h
  simp only [ParseResult.ok.injEq] at h
  obtain ⟨rfl, rfl⟩ := h
  refine ⟨rfl, ⟨w.1, ?_⟩, rfl, by simp⟩
  intro j p hj
  simp only at hj
  by_cases hlt : j < st.scopes.length
  · rw [List.getElem?_append_left hlt] at hj
    exact w.2 j p hj
  · rw [List.getElem?_append_right (by omega)] at hj
    have hj0 : j - st.scopes.length = 0 := by
      rcases Nat.eq_zero_or_pos (j - st.scopes.length) with h0 | h0
      · exact h0
      · rw [List.getElem?_eq_none (by simp; omega)] at hj
        cases hj
    rw [hj0] at hj
    simp only [List.getElem?_cons_zero, Option.some.injEq] at hj
    exact Or.inr ⟨i, hj.symm, by omega⟩

theorem identifier_post (T0 : List Token) (hT : TokensOk T0) (i : Nat) (st st1 : ParserState)
    (id : Identifier) (w : st.within T0) (hi : i < st.scopes.length)
    (h : identifier (some i) st = .ok id st1) :
    Post T0 st st1 [id.node] ∧ st1.scopes.length = st.scopes.length := by
  simp only [identifier, bind, ParserM.bind_ok, pure_ok] at h
  obtain ⟨t, st2, hm, rfl, rfl⟩ := h
  obtain ⟨⟨w1, r1, l1, _⟩, e1, hmem⟩ := matchType_post T0 _ _ _ _ w hm
  refine ⟨⟨w1, r1, l1, ?_⟩, e1⟩
  rw [good_cons]
  refine ⟨?_, good_nil _⟩
  exact ⟨tok_range T0 hT st w.1 t hmem, fun hu => by simp [Identifier.node, ASTType.unscoped] at hu,
    fun _ => ⟨i, rfl, by omega⟩⟩

theorem parameterListLoop_post (T0 : List Token) (hT : TokensOk T0) (i : Nat) :
    ∀ (fuel : Nat) (ret : List Identifier) (st st1 : ParserState) (a : List Identifier),
      st.within T0 → i < st.scopes.length → Good st.scopes.length (ret.map Identifier.node) →
      parameterListLoop (some i) fuel ret st = .ok a st1 →
      Post T0 st st1 (a.map Identifier.node) := by
  intro fuel
  induction fuel with
  | zero => intro ret st st1 a _ _ _ h; cases h
  | succ f ih =>
    intro ret st st1 a w hi hg h
    unfold parameterListLoop at h
    simp only [bind, ParserM.bind_ok] at h
    obtain ⟨b, st2, he, h⟩ := h
    obtain rfl := expectStr_eq _ _ _ _ he
    cases b with
    | true =>
      simp only [if_true, ParserM.bind_ok] at h
      obtain ⟨_, st3, hm, id, st4, hid, h⟩ := h
      obtain ⟨⟨w3, r3, l3, _⟩, e3, _⟩ := matchStr_post T0 _ _ _ _ w hm
      obtain ⟨⟨w4, r4, l4, g4⟩, e4⟩ := identifier_post T0 hT i _ _ _ w3 (by omega) hid
      obtain ⟨w5, r5, l5, g5⟩ := ih (ret ++ [id]) st4 st1 a w4 (by omega)
        (by rw [List.map_append, good_append]; exact ⟨hg.mono (by omega), g4⟩) h
      exact ⟨w5, by omega, by omega, g5⟩
    | false =>
      simp only [Bool.false_eq_true, if_false, pure_ok] at h
      obtain ⟨rfl, rfl⟩ := h
      exact ⟨w, Nat.le_refl _, Nat.le_refl _, hg⟩

theorem parameterList_post (T0 : List Token) (hT : TokensOk T0) (fuel i : Nat)
    (st st1 : ParserState) (a : List Identifier) (w : st.within T0) (hi : i < st.scopes.length)
    (h : parameterList fuel (some i) st = .ok a st1) :
    Post T0 st st1 (a.map Identifier.node) := by
  simp only [parameterList, bind, ParserM.bind_ok] at h
  obtain ⟨b, st2, he, h⟩ := h
  obtain rfl := expectType_eq _ _ _ _ he
  cases b with
  | true =>
    simp only [if_true, ParserM.bind_ok] at h
    obtain ⟨id, st3, hid, h⟩ := h
    obtain ⟨⟨w3, r3, l3, g3⟩, e3⟩ := identifier_post T0 hT i _ _ _ w hi hid
    obtain ⟨w5, r5, l5, g5⟩ := parameterListLoop_post T0 hT i fuel [id] st3 st1 a w3 (by omega)
      g3 h
    exact ⟨w5, by omega, by omega, g5⟩
  | false =>
    simp only [Bool.false_eq_true, if_false, pure_ok] at h
    obtain ⟨rfl, rfl⟩ := h
    exact ⟨w, Nat.le_refl _, Nat.le_refl _, good_nil _⟩

end Parser

/-! ## The guarantees of the parser functions -/

theorem whileStatement_spec (T0 : List Token) (hT : TokensOk T0) (fuel : Nat)
    (ih : ParserSpec T0 fuel) : SpecTree T0 (Parser.whileStatement (fuel + 1)) := by
  intro i st st1 a w hi h
  unfold Parser.whileStatement at h
  simp only [bind, ParserM.bind_ok, Parser.pure_ok] at h
  obtain ⟨b, s0, hb, s, s1, hs, _, s2, h2, _, s3, h3, cond, s4, h4, _, s5, h5, body, s6, h6,
    e, s7, h7, rfl, rfl⟩ := h
  obtain ⟨rfl, hlow⟩ := Parser.peekBegin_low T0 hT _ _ _ w hb
  obtain ⟨rfl, w1, r1, l1⟩ := Parser.newScope_post T0 i _ _ _ w hi hs
  obtain ⟨⟨w2, r2, l2, _⟩, e2, _⟩ := Parser.matchStr_post T0 _ _ _ _ w1 h2
  obtain ⟨⟨w3, r3, l3, _⟩, e3, _⟩ := Parser.matchStr_post T0 _ _ _ _ w2 h3
  obtain ⟨w4, r4, l4, g4⟩ := ih.expression _ _ _ _ w3 (by omega) h4
  obtain ⟨⟨w5, r5, l5, _⟩, e5, _⟩ := Parser.matchStr_post T0 _ _ _ _ w4 h5
  obtain ⟨w6, r6, l6, g6⟩ := ih.statement _ _ _ _ w5 (by omega) h6
  obtain ⟨rfl, hbe⟩ := Parser.peekBegin_le T0 _ _ _ _ _ w w6 (by omega) hlow h7
  refine ⟨w6, by omega, by omega, ?_⟩
  simp only [AST.nodes, good_cons, good_append]
  exact ⟨wf_scoped _ _ _ _ _ rfl hbe (by omega), g4.mono (by omega), g6⟩

theorem good_nodesList_nil (N : Nat) : Good N (AST.nodesList []) := by
  simp only [AST.nodesList]
  exact good_nil N

theorem good_nodesPairs_nil (N : Nat) : Good N (AST.nodesPairs []) := by
  simp only [AST.nodesPairs]
  exact good_nil N

theorem good_nodesOpt_none (N : Nat) : Good N (AST.nodesOpt none) := by
  simp only [AST.nodesOpt]
  exact good_nil N

theorem withStatement_spec (T0 : List Token) (hT : TokensOk T0) (fuel : Nat)
    (ih : ParserSpec T0 fuel) : SpecTree T0 (Parser.withStatement (fuel + 1)) := by
  intro i st st1 a w hi h
  unfold Parser.withStatement at h
  simp only [bind, ParserM.bind_ok, Parser.pure_ok] at h
  obtain ⟨b, s0, hb, s, s1, hs, _, s2, h2, _, s3, h3, cond, s4, h4, _, s5, h5, body, s6, h6,
    e, s7, h7, rfl, rfl⟩ := h
  obtain ⟨rfl, hlow⟩ := Parser.peekBegin_low T0 hT _ _ _ w hb
  obtain ⟨rfl, w1, r1, l1⟩ := Parser.newScope_post T0 i _ _ _ w hi hs
  obtain ⟨⟨w2, r2, l2, _⟩, e2, _⟩ := Parser.matchStr_post T0 _ _ _ _ w1 h2
  obtain ⟨⟨w3, r3, l3, _⟩, e3, _⟩ := Parser.matchStr_post T0 _ _ _ _ w2 h3
  obtain ⟨w4, r4, l4, g4⟩ := ih.expression _ _ _ _ w3 (by omega) h4
  obtain ⟨⟨w5, r5, l5, _⟩, e5, _⟩ := Parser.matchStr_post T0 _ _ _ _ w4 h5
  obtain ⟨w6, r6, l6, g6⟩ := ih.statement _ _ _ _ w5 (by omega) h6
  obtain ⟨rfl, hbe⟩ := Parser.peekBegin_le T0 _ _ _ _ _ w w6 (by omega) hlow h7
  refine ⟨w6, by omega, by omega, ?_⟩
  simp only [AST.nodes, good_cons, good_append]
  exact ⟨wf_scoped _ _ _ _ _ rfl hbe (by omega), g4.mono (by omega), g6⟩

theorem throwStatement_spec (T0 : List Token) (hT : TokensOk T0) (fuel : Nat)
    (ih : ParserSpec T0 fuel) : SpecTree T0 (Parser.throwStatement (fuel + 1)) := by
  intro i st st1 a w hi h
  unfold Parser.throwStatement at h
  simp only [bind, ParserM.bind_ok, Parser.pure_ok] at h
  obtain ⟨b, s0, hb, _, s1, h1, expr, s2, h2, e, s3, h3, rfl, rfl⟩ := h
  obtain ⟨rfl, hlow⟩ := Parser.peekBegin_low T0 hT _ _ _ w hb
  obtain ⟨⟨w1, r1, l1, _⟩, e1, _⟩ := Parser.matchStr_post T0 _ _ _ _ w h1
  obtain ⟨w2, r2, l2, g2⟩ := ih.expression _ _ _ _ w1 (by omega) h2
  obtain ⟨rfl, hbe⟩ := Parser.peekBegin_le T0 _ _ _ _ _ w w2 (by omega) hlow h3
  refine ⟨w2, by omega, by omega, ?_⟩
  simp only [AST.nodes, good_cons]
  exact ⟨wf_scoped _ _ _ _ _ rfl hbe (by omega), g2⟩

theorem doStatement_spec (T0 : List Token) (hT : TokensOk T0) (fuel : Nat)
    (ih : ParserSpec T0 fuel) : SpecTree T0 (Parser.doStatement (fuel + 1)) := by
  intro i st st1 a w hi h
  unfold Parser.doStatement at h
  simp only [bind, ParserM.bind_ok, Parser.pure_ok] at h
  obtain ⟨b, s0, hb, _, s1, h1, blk, s2, h2, _, s3, h3, _, s4, h4, cond, s5, h5, _, s6, h6,
    e, s7, h7, rfl, rfl⟩ := h
  obtain ⟨rfl, hlow⟩ := Parser.peekBegin_low T0 hT _ _ _ w hb
  obtain ⟨⟨w1, r1, l1, _⟩, e1, _⟩ := Parser.matchStr_post T0 _ _ _ _ w h1
  obtain ⟨w2, r2, l2, g2⟩ := ih.block _ _ _ _ w1 (by omega) h2
  obtain ⟨⟨w3, r3, l3, _⟩, e3, _⟩ := Parser.matchStr_post T0 _ _ _ _ w2 h3
  obtain ⟨⟨w4, r4, l4, _⟩, e4, _⟩ := Parser.matchStr_post T0 _ _ _ _ w3 h4
  obtain ⟨w5, r5, l5, g5⟩ := ih.statement _ _ _ _ w4 (by omega) h5
  obtain ⟨⟨w6, r6, l6, _⟩, e6, _⟩ := Parser.matchStr_post T0 _ _ _ _ w5 h6
  obtain ⟨rfl, hbe⟩ := Parser.peekBegin_le T0 _ _ _ _ _ w w6 (by omega) hlow h7
  refine ⟨w6, by omega, by omega, ?_⟩
  simp only [AST.nodes, good_cons, good_append]
  exact ⟨wf_scoped _ _ _ _ _ rfl hbe (by omega), g2.mono (by omega), g5.mono (by omega)⟩

theorem block_spec (T0 : List Token) (hT : TokensOk T0) (fuel : Nat)
    (ih : ParserSpec T0 fuel) : SpecTree T0 (Parser.block (fuel + 1)) := by
  intro i st st1 a w hi h
  unfold Parser.block at h
  simp only [bind, ParserM.bind_ok, Parser.pure_ok] at h
  obtain ⟨b, s0, hb, s, s1, hs, _, s2, h2, stmts, s3, h3, _, s4, h4, e, s5, h5, rfl, rfl⟩ := h
  obtain ⟨rfl, hlow⟩ := Parser.peekBegin_low T0 hT _ _ _ w hb
  obtain ⟨rfl, w1, r1, l1⟩ := Parser.newScope_post T0 i _ _ _ w hi hs
  obtain ⟨⟨w2, r2, l2, _⟩, e2, _⟩ := Parser.matchStr_post T0 _ _ _ _ w1 h2
  obtain ⟨w3, r3, l3, g3⟩ := ih.statements _ _ _ _ _ w2 (by omega) (good_nodesList_nil _) h3
  obtain ⟨⟨w4, r4, l4, _⟩, e4, _⟩ := Parser.matchStr_post T0 _ _ _ _ w3 h4
  obtain ⟨rfl, hbe⟩ := Parser.peekBegin_le T0 _ _ _ _ _ w w4 (by omega) hlow h5
  refine ⟨w4, by omega, by omega, ?_⟩
  simp only [AST.nodes, good_cons]
  exact ⟨wf_scoped _ _ _ _ _ rfl hbe (by omega), g3.mono (by omega)⟩

theorem ifStatement_spec (T0 : List Token) (hT : TokensOk T0) (fuel : Nat)
    (ih : ParserSpec T0 fuel) : SpecTree T0 (Parser.ifStatement (fuel + 1)) := by
  intro i st st1 a w hi h
  unfold Parser.ifStatement at h
  simp only [bind, ParserM.bind_ok, Parser.pure_ok] at h
  obtain ⟨b, s0, hb, s, s1, hs, _, s2, h2, _, s3, h3, cond, s4, h4, _, s5, h5, yes, s6, h6,
    c, s7, hc, h⟩ := h
  obtain ⟨rfl, hlow⟩ := Parser.peekBegin_low T0 hT _ _ _ w hb
  obtain ⟨rfl, w1, r1, l1⟩ := Parser.newScope_post T0 i _ _ _ w hi hs
  obtain ⟨⟨w2, r2, l2, _⟩, e2, _⟩ := Parser.matchStr_post T0 _ _ _ _ w1 h2
  obtain ⟨⟨w3, r3, l3, _⟩, e3, _⟩ := Parser.matchStr_post T0 _ _ _ _ w2 h3
  obtain ⟨w4, r4, l4, g4⟩ := ih.expression _ _ _ _ w3 (by omega) h4
  obtain ⟨⟨w5, r5, l5, _⟩, e5, _⟩ := Parser.matchStr_post T0 _ _ _ _ w4 h5
  obtain ⟨w6, r6, l6, g6⟩ := ih.statement _ _ _ _ w5 (by omega) h6
  obtain rfl := Parser.expectStr_eq _ _ _ _ hc
  cases c with
  | true =>
    simp only [if_true, ParserM.bind_ok, Parser.pure_ok] at h
    obtain ⟨_, s8, h8, no, s9, h9, e, s10, h10, rfl, rfl⟩ := h
    obtain ⟨⟨w8, r8, l8, _⟩, e8, _⟩ := Parser.matchStr_post T0 _ _ _ _ w6 h8
    obtain ⟨w9, r9, l9, g9⟩ := ih.statement _ _ _ _ w8 (by omega) h9
    obtain ⟨rfl, hbe⟩ := Parser.peekBegin_le T0 _ _ _ _ _ w w9 (by omega) hlow h10
    refine ⟨w9, by omega, by omega, ?_⟩
    simp only [AST.nodes, AST.nodesOpt, good_cons, good_append]
    exact ⟨wf_scoped _ _ _ _ _ rfl hbe (by omega), ⟨g4.mono (by omega), g6.mono (by omega)⟩, g9⟩
  | false =>
    simp only [Bool.false_eq_true, if_false, ParserM.bind_ok, Parser.pure_ok] at h
    obtain ⟨e, s10, h10, rfl, rfl⟩ := h
    obtain ⟨rfl, hbe⟩ := Parser.peekBegin_le T0 _ _ _ _ _ w w6 (by omega) hlow h10
    refine ⟨w6, by omega, by omega, ?_⟩
    simp only [AST.nodes, AST.nodesOpt, good_cons, good_append]
    exact ⟨wf_scoped _ _ _ _ _ rfl hbe (by omega), ⟨g4.mono (by omega), g6⟩, good_nil _⟩

theorem switchStatement_spec (T0 : List Token) (hT : TokensOk T0) (fuel : Nat)
    (ih : ParserSpec T0 fuel) : SpecTree T0 (Parser.switchStatement (fuel + 1)) := by
  intro i st st1 a w hi h
  unfold Parser.switchStatement at h
  simp only [bind, ParserM.bind_ok, Parser.pure_ok] at h
  obtain ⟨b, s0, hb, s, s1, hs, _, s2, h2, _, s3, h3, expr, s4, h4, _, s5, h5, _, s6, h6,
    branches, s7, h7, _, s8, h8, e, s9, h9, rfl, rfl⟩ := h
  obtain ⟨rfl, hlow⟩ := Parser.peekBegin_low T0 hT _ _ _ w hb
  obtain ⟨rfl, w1, r1, l1⟩ := Parser.newScope_post T0 i _ _ _ w hi hs
  obtain ⟨⟨w2, r2, l2, _⟩, e2, _⟩ := Parser.matchStr_post T0 _ _ _ _ w1 h2
  obtain ⟨⟨w3, r3, l3, _⟩, e3, _⟩ := Parser.matchStr_post T0 _ _ _ _ w2 h3
  obtain ⟨w4, r4, l4, g4⟩ := ih.expression _ _ _ _ w3 (by omega) h4
  obtain ⟨⟨w5, r5, l5, _⟩, e5, _⟩ := Parser.matchStr_post T0 _ _ _ _ w4 h5
  obtain ⟨⟨w6, r6, l6, _⟩, e6, _⟩ := Parser.matchStr_post T0 _ _ _ _ w5 h6
  obtain ⟨w7, r7, l7, g7⟩ := ih.switchStatementLoop _ _ _ _ _ _ w6 (by omega)
    (low_mono T0 _ _ _ w.1 w6.1 (by omega) hlow) (good_nodesList_nil _) h7
  obtain ⟨⟨w8, r8, l8, _⟩, e8, _⟩ := Parser.matchStr_post T0 _ _ _ _ w7 h8
  obtain ⟨rfl, hbe⟩ := Parser.peekBegin_le T0 _ _ _ _ _ w w8 (by omega) hlow h9
  refine ⟨w8, by omega, by omega, ?_⟩
  simp only [AST.nodes, good_cons, good_append]
  exact ⟨wf_scoped _ _ _ _ _ rfl hbe (by omega), g4.mono (by omega), g7.mono (by omega)⟩

theorem varStatement_spec (T0 : List Token) (hT : TokensOk T0) (fuel : Nat)
    (ih : ParserSpec T0 fuel) : SpecTree T0 (Parser.varStatement (fuel + 1)) := by
  intro i st st1 a w hi h
  unfold Parser.varStatement at h
  simp only [bind, ParserM.bind_ok, Parser.pure_ok] at h
  obtain ⟨b, s0, hb, _, s1, h1, decl, s2, h2, vlist, s3, h3, e, s4, h4, rfl, rfl⟩ := h
  obtain ⟨rfl, hlow⟩ := Parser.peekBegin_low T0 hT _ _ _ w hb
  obtain ⟨⟨w1, r1, l1, _⟩, e1, _⟩ := Parser.matchStr_post T0 _ _ _ _ w h1
  obtain ⟨w2, r2, l2, g2⟩ := ih.declare _ _ _ _ w1 (by omega) h2
  obtain ⟨w3, r3, l3, g3⟩ := ih.varStatementLoop _ _ _ _ _ w2 (by omega)
    (by simp only [Declaration.nodesList, List.append_nil]; exact g2) h3
  obtain ⟨rfl, hbe⟩ := Parser.peekBegin_le T0 _ _ _ _ _ w w3 (by omega) hlow h4
  refine ⟨w3, by omega, by omega, ?_⟩
  simp only [AST.nodes, good_cons]
  exact ⟨wf_scoped _ _ _ _ _ rfl hbe (by omega), g3⟩

theorem declare_spec (T0 : List Token) (hT : TokensOk T0) (fuel : Nat)
    (ih : ParserSpec T0 fuel) : SpecDecl T0 (Parser.declare (fuel + 1)) := by
  intro i st st1 a w hi h
  unfold Parser.declare at h
  simp only [bind, ParserM.bind_ok, Parser.pure_ok] at h
  obtain ⟨b, s0, hb, id, s1, h1, c, s2, hc, h⟩ := h
  obtain ⟨rfl, hlow⟩ := Parser.peekBegin_low T0 hT _ _ _ w hb
  obtain ⟨⟨w1, r1, l1, g1⟩, e1⟩ := Parser.identifier_post T0 hT _ _ _ _ w hi h1
  obtain rfl := Parser.expectStr_eq _ _ _ _ hc
  rw [good_cons] at g1
  cases c with
  | true =>
    simp only [if_true, ParserM.bind_ok, Parser.pure_ok] at h
    obtain ⟨_, s3, h3, init, s4, h4, e, s5, h5, rfl, rfl⟩ := h
    obtain ⟨⟨w3, r3, l3, _⟩, e3, _⟩ := Parser.matchStr_post T0 _ _ _ _ w1 h3
    obtain ⟨w4, r4, l4, g4⟩ := ih.expressionPri _ _ _ _ _ w3 (by omega) h4
    obtain ⟨rfl, hbe⟩ := Parser.peekBegin_le T0 _ _ _ _ _ w w4 (by omega) hlow h5
    refine ⟨w4, by omega, by omega, ?_⟩
    simp only [Declaration.nodes, AST.nodesOpt, good_cons]
    exact ⟨wf_scoped _ _ _ _ _ rfl hbe (by omega), (Good.mono (good_cons _ _ _ |>.2 g1)
      (by omega) _ (List.mem_cons_self _ _)), g4⟩
  | false =>
    simp only [Bool.false_eq_true, if_false, ParserM.bind_ok, Parser.pure_ok] at h
    obtain ⟨e, s5, h5, rfl, rfl⟩ := h
    obtain ⟨rfl, hbe⟩ := Parser.peekBegin_le T0 _ _ _ _ _ w w1 (by omega) hlow h5
    refine ⟨w1, by omega, by omega, ?_⟩
    simp only [Declaration.nodes, AST.nodesOpt, good_cons]
    exact ⟨wf_scoped _ _ _ _ _ rfl hbe (by omega), g1.1, good_nil _⟩

theorem good_idents (N : Nat) (id : Identifier) (h : Good N [id.node]) :
    Good N ((some id).toList.map Identifier.node) := by
  simpa [Option.toList] using h

theorem namedFunction_spec (T0 : List Token) (hT : TokensOk T0) (fuel : Nat)
    (ih : ParserSpec T0 fuel) : SpecTree T0 (Parser.namedFunction (fuel + 1)) := by
  intro i st st1 a w hi h
  unfold Parser.namedFunction at h
  simp only [bind, ParserM.bind_ok, Parser.pure_ok] at h
  obtain ⟨b, s0, hb, s, s1, hs, _, s2, h2, name, s3, h3, _, s4, h4, plist, s5, h5, _, s6, h6,
    _, s7, h7, stmts, s8, h8, _, s9, h9, e, s10, h10, rfl, rfl⟩ := h
  obtain ⟨rfl, hlow⟩ := Parser.peekBegin_low T0 hT _ _ _ w hb
  obtain ⟨rfl, w1, r1, l1⟩ := Parser.newScope_post T0 i _ _ _ w hi hs
  obtain ⟨⟨w2, r2, l2, _⟩, e2, _⟩ := Parser.matchStr_post T0 _ _ _ _ w1 h2
  obtain ⟨⟨w3, r3, l3, g3⟩, e3⟩ := Parser.identifier_post T0 hT _ _ _ _ w2 (by omega) h3
  obtain ⟨⟨w4, r4, l4, _⟩, e4, _⟩ := Parser.matchStr_post T0 _ _ _ _ w3 h4
  obtain ⟨w5, r5, l5, g5⟩ := Parser.parameterList_post T0 hT _ _ _ _ _ w4 (by omega) h5
  obtain ⟨⟨w6, r6, l6, _⟩, e6, _⟩ := Parser.matchStr_post T0 _ _ _ _ w5 h6
  obtain ⟨⟨w7, r7, l7, _⟩, e7, _⟩ := Parser.matchStr_post T0 _ _ _ _ w6 h7
  obtain ⟨w8, r8, l8, g8⟩ := ih.topStatements _ _ _ _ w7 (by omega) h8
  obtain ⟨⟨w9, r9, l9, _⟩, e9, _⟩ := Parser.matchStr_post T0 _ _ _ _ w8 h9
  obtain ⟨rfl, hbe⟩ := Parser.peekBegin_le T0 _ _ _ _ _ w w9 (by omega) hlow h10
  refine ⟨w9, by omega, by omega, ?_⟩
  simp only [AST.nodes, good_cons, good_append]
  exact ⟨wf_scoped _ _ _ _ _ rfl hbe (by omega),
    ⟨(good_idents _ _ g3).mono (by omega), g5.mono (by omega)⟩, g8.mono (by omega)⟩

theorem function_spec (T0 : List Token) (hT : TokensOk T0) (fuel : Nat)
    (ih : ParserSpec T0 fuel) : SpecTree T0 (Parser.function (fuel + 1)) := by
  intro i st st1 a w hi h
  unfold Parser.function at h
  simp only [bind, ParserM.bind_ok, Parser.pure_ok] at h
  obtain ⟨b, s0, hb, _, s1, h1, s, s2, hs, name, s3, ⟨c, s2a, hc, hn⟩, _, s4, h4, plist, s5, h5,
    _, s6, h6, _, s7, h7, stmts, s8, h8, _, s9, h9, e, s10, h10, rfl, rfl⟩ := h
  obtain ⟨rfl, hlow⟩ := Parser.peekBegin_low T0 hT _ _ _ w hb
  obtain ⟨⟨w1, r1, l1, _⟩, e1, _⟩ := Parser.matchStr_post T0 _ _ _ _ w h1
  obtain ⟨rfl, w2, r2, l2⟩ := Parser.newScope_post T0 i _ _ _ w1 (by omega) hs
  obtain rfl := Parser.expectType_eq _ _ _ _ hc
  have hname : Post T0 s2a s3 (name.toList.map Identifier.node) := by
    cases c with
    | true =>
      simp only [if_true, ParserM.bind_ok, Parser.pure_ok] at hn
      obtain ⟨id, s, hid, rfl, rfl⟩ := hn
      obtain ⟨⟨w3, r3, l3, g3⟩, e3⟩ := Parser.identifier_post T0 hT _ _ _ _ w2 (by omega) hid
      exact ⟨w3, r3, l3, good_idents _ _ g3⟩
    | false =>
      simp only [Bool.false_eq_true, if_false, Parser.pure_ok] at hn
      obtain ⟨rfl, rfl⟩ := hn
      exact ⟨w2, Nat.le_refl _, Nat.le_refl _, good_nil _⟩
  obtain ⟨w3, r3, l3, g3⟩ := hname
  obtain ⟨⟨w4, r4, l4, _⟩, e4, _⟩ := Parser.matchStr_post T0 _ _ _ _ w3 h4
  obtain ⟨w5, r5, l5, g5⟩ := Parser.parameterList_post T0 hT _ _ _ _ _ w4 (by omega) h5
  obtain ⟨⟨w6, r6, l6, _⟩, e6, _⟩ := Parser.matchStr_post T0 _ _ _ _ w5 h6
  obtain ⟨⟨w7, r7, l7, _⟩, e7, _⟩ := Parser.matchStr_post T0 _ _ _ _ w6 h7
  obtain ⟨w8, r8, l8, g8⟩ := ih.topStatements _ _ _ _ w7 (by omega) h8
  obtain ⟨⟨w9, r9, l9, _⟩, e9, _⟩ := Parser.matchStr_post T0 _ _ _ _ w8 h9
  obtain ⟨rfl, hbe⟩ := Parser.peekBegin_le T0 _ _ _ _ _ w w9 (by omega) hlow h10
  refine ⟨w9, by omega, by omega, ?_⟩
  simp only [AST.nodes, good_cons, good_append]
  exact ⟨wf_scoped _ _ _ _ _ rfl hbe (by omega),
    ⟨g3.mono (by omega), g5.mono (by omega)⟩, g8.mono (by omega)⟩

theorem expression_spec (T0 : List Token) (hT : TokensOk T0) (fuel : Nat)
    (ih : ParserSpec T0 fuel) : SpecTree T0 (Parser.expression (fuel + 1)) := by
  intro i st st1 a w hi h
  unfold Parser.expression at h
  simp only [bind, ParserM.bind_ok, Parser.pure_ok] at h
  obtain ⟨b, s0, hb, x, s1, h1, l, s2, h2, e, s3, h3, rfl, rfl⟩ := h
  obtain ⟨rfl, hlow⟩ := Parser.peekBegin_low T0 hT _ _ _ w hb
  obtain ⟨w1, r1, l1, g1⟩ := ih.expressionPri _ _ _ _ _ w hi h1
  obtain ⟨w2, r2, l2, g2⟩ := ih.expressionLoop _ _ _ _ _ w1 (by omega)
    (by simp only [AST.nodesList, List.append_nil]; exact g1) h2
  obtain ⟨rfl, hbe⟩ := Parser.peekBegin_le T0 _ _ _ _ _ w w2 (by omega) hlow h3
  refine ⟨w2, by omega, by omega, ?_⟩
  simp only [AST.nodes, good_cons]
  exact ⟨wf_scoped _ _ _ _ _ rfl hbe (by omega), g2⟩

theorem forbegin_spec (T0 : List Token) (hT : TokensOk T0) (fuel : Nat)
    (ih : ParserSpec T0 fuel) : SpecTree T0 (Parser.forbegin (fuel + 1)) := by
  intro i st st1 a w hi h
  unfold Parser.forbegin at h
  simp only [bind, ParserM.bind_ok, Parser.pure_ok] at h
  obtain ⟨b, s0, hb, x, s1, h1, l, s2, h2, e, s3, h3, rfl, rfl⟩ := h
  obtain ⟨rfl, hlow⟩ := Parser.peekBegin_low T0 hT _ _ _ w hb
  obtain ⟨w1, r1, l1, g1⟩ := ih.forbeginPri _ _ _ _ _ w hi h1
  obtain ⟨w2, r2, l2, g2⟩ := ih.forbeginLoop _ _ _ _ _ w1 (by omega)
    (by simp only [AST.nodesList, List.append_nil]; exact g1) h2
  obtain ⟨rfl, hbe⟩ := Parser.peekBegin_le T0 _ _ _ _ _ w w2 (by omega) hlow h3
  refine ⟨w2, by omega, by omega, ?_⟩
  simp only [AST.nodes, good_cons]
  exact ⟨wf_scoped _ _ _ _ _ rfl hbe (by omega), g2⟩

theorem forin_spec (T0 : List Token) (fuel : Nat)
    (ih : ParserSpec T0 fuel) : SpecFrom T0 (Parser.forin (fuel + 1)) := by
  intro begin i x st st1 a w hi hlow gx h
  unfold Parser.forin at h
  simp only [bind, ParserM.bind_ok, Parser.pure_ok] at h
  obtain ⟨expr, s1, h1, _, s2, h2, body, s3, h3, e, s4, h4, rfl, rfl⟩ := h
  obtain ⟨w1, r1, l1, g1⟩ := ih.expression _ _ _ _ w hi h1
  obtain ⟨⟨w2, r2, l2, _⟩, e2, _⟩ := Parser.matchStr_post T0 _ _ _ _ w1 h2
  obtain ⟨w3, r3, l3, g3⟩ := ih.statement _ _ _ _ w2 (by omega) h3
  obtain ⟨rfl, hbe⟩ := Parser.peekBegin_le T0 _ _ _ _ _ w w3 (by omega) hlow h4
  refine ⟨w3, by omega, by omega, ?_⟩
  simp only [AST.nodes, good_cons, good_append]
  exact ⟨wf_scoped _ _ _ _ _ rfl hbe (by omega),
    ⟨gx.mono (by omega), g1.mono (by omega)⟩, g3⟩

/-- The optional clause of a `for` header: an expression unless the token `stop`
follows. -/
theorem clause_post (T0 : List Token) (fuel : Nat) (ih : ParserSpec T0 fuel) (stop : String)
    (i : Nat) (st st1 : ParserState) (c : Option AST) (w : st.within T0)
    (hi : i < st.scopes.length)
    (h : ∃ (b : Bool) (s0 : ParserState), Parser.expectStr stop st = .ok b s0 ∧
      (if (!b) = true then
          ParserM.bind (Parser.expression fuel (some i)) (fun c => pure (some c))
        else pure none : ParserM (Option AST)) s0 = .ok c st1) :
    Post T0 st st1 (AST.nodesOpt c) := by
  obtain ⟨b, s0, hb, h⟩ := h
  obtain rfl := Parser.expectStr_eq _ _ _ _ hb
  cases b with
  | true =>
    simp only [Bool.not_true, Bool.false_eq_true, if_false, Parser.pure_ok] at h
    obtain ⟨rfl, rfl⟩ := h
    exact ⟨w, Nat.le_refl _, Nat.le_refl _, good_nodesOpt_none _⟩
  | false =>
    simp only [Bool.not_false, if_true, ParserM.bind_ok, Parser.pure_ok] at h
    obtain ⟨x, s1, h1, rfl, rfl⟩ := h
    exact ih.expression _ _ _ _ w hi h1

theorem forloop_spec (T0 : List Token) (fuel : Nat)
    (ih : ParserSpec T0 fuel) : SpecForloop T0 (Parser.forloop (fuel + 1)) := by
  intro begin i x st st1 a w hi hlow gx h
  unfold Parser.forloop at h
  simp only [bind, ParserM.bind_ok] at h
  obtain ⟨cond, s1, h1, _, s2, h2, tail, s3, h3, _, s4, h4, body, s5, h5, e, s6, h6, h⟩ := h
  simp only [Parser.pure_ok] at h
  obtain ⟨rfl, rfl⟩ := h
  obtain ⟨w1, r1, l1, g1⟩ := clause_post T0 fuel ih ";" i _ _ _ w hi h1
  obtain ⟨⟨w2, r2, l2, _⟩, e2, _⟩ := Parser.matchStr_post T0 _ _ _ _ w1 h2
  obtain ⟨w3, r3, l3, g3⟩ := clause_post T0 fuel ih ")" i _ _ _ w2 (by omega) h3
  obtain ⟨⟨w4, r4, l4, _⟩, e4, _⟩ := Parser.matchStr_post T0 _ _ _ _ w3 h4
  obtain ⟨w5, r5, l5, g5⟩ := ih.statement _ _ _ _ w4 (by omega) h5
  obtain ⟨rfl, hbe⟩ := Parser.peekBegin_le T0 _ _ _ _ _ w w5 (by omega) hlow h6
  refine ⟨w5, by omega, by omega, ?_⟩
  simp only [AST.nodes, good_cons, good_append]
  exact ⟨wf_scoped _ _ _ _ _ rfl hbe (by omega),
    ⟨⟨gx.mono (by omega), g1.mono (by omega)⟩, g3.mono (by omega)⟩, g5⟩

theorem returnStatement_spec (T0 : List Token) (hT : TokensOk T0) (fuel : Nat)
    (ih : ParserSpec T0 fuel) : SpecTree T0 (Parser.returnStatement (fuel + 1)) := by
  intro i st st1 a w hi h
  unfold Parser.returnStatement at h
  simp only [bind, ParserM.bind_ok] at h
  obtain ⟨b, s0, hb, _, s1, h1, c1, s2, hc1, c2, s3, hc2, p, s4, hp, h⟩ := h
  obtain ⟨rfl, hlow⟩ := Parser.peekBegin_low T0 hT _ _ _ w hb
  obtain ⟨⟨w1, r1, l1, _⟩, e1, _⟩ := Parser.matchStr_post T0 _ _ _ _ w h1
  obtain rfl := Parser.expectStr_eq _ _ _ _ hc1
  obtain rfl := Parser.expectStr_eq _ _ _ _ hc2
  obtain ⟨rfl, _⟩ := (Parser.peekBegin_ok _ _ _).1 hp
  split at h
  · simp only [ParserM.bind_ok, Parser.pure_ok] at h
    obtain ⟨x, s5, h5, e, s6, h6, rfl, rfl⟩ := h
    obtain ⟨w5, r5, l5, g5⟩ := ih.expression _ _ _ _ w1 (by omega) h5
    obtain ⟨rfl, hbe⟩ := Parser.peekBegin_le T0 _ _ _ _ _ w w5 (by omega) hlow h6
    refine ⟨w5, by omega, by omega, ?_⟩
    simp only [AST.nodes, AST.nodesOpt, good_cons]
    exact ⟨wf_scoped _ _ _ _ _ rfl hbe (by omega), g5⟩
  · simp only [ParserM.bind_ok, Parser.pure_ok] at h
    obtain ⟨e, s6, h6, rfl, rfl⟩ := h
    obtain ⟨rfl, hbe⟩ := Parser.peekBegin_le T0 _ _ _ _ _ w w1 (by omega) hlow h6
    refine ⟨w1, by omega, by omega, ?_⟩
    simp only [AST.nodes, AST.nodesOpt, good_cons]
    exact ⟨wf_scoped _ _ _ _ _ rfl hbe (by omega), good_nil _⟩

theorem constructor_spec (T0 : List Token) (hT : TokensOk T0) (fuel : Nat)
    (ih : ParserSpec T0 fuel) : SpecTree T0 (Parser.constructor (fuel + 1)) := by
  intro i st st1 a w hi h
  unfold Parser.constructor at h
  simp only [bind, ParserM.bind_ok] at h
  obtain ⟨b, s0, hb, _, s1, h1, ctor, s2, h2, h⟩ := h
  obtain ⟨rfl, hlow⟩ := Parser.peekBegin_low T0 hT _ _ _ w hb
  obtain ⟨⟨w1, r1, l1, _⟩, e1, _⟩ := Parser.matchStr_post T0 _ _ _ _ w h1
  obtain ⟨w2, r2, l2, g2⟩ := ih.callExpression _ _ _ _ w1 (by omega) h2
  cases ctor with
  | Call rg sc f args =>
    simp only [ParserM.bind_ok, Parser.pure_ok] at h
    obtain ⟨e, s3, h3, rfl, rfl⟩ := h
    obtain ⟨rfl, hbe⟩ := Parser.peekBegin_le T0 _ _ _ _ _ w w2 (by omega) hlow h3
    refine ⟨w2, by omega, by omega, ?_⟩
    rw [AST.nodes, good_cons]
    exact ⟨wf_scoped _ _ _ _ _ rfl hbe (by omega), g2⟩
  | _ => cases h

theorem callExpression_spec (T0 : List Token) (hT : TokensOk T0) (fuel : Nat)
    (ih : ParserSpec T0 fuel) : SpecTree T0 (Parser.callExpression (fuel + 1)) := by
  intro i st st1 a w hi h
  unfold Parser.callExpression at h
  simp only [bind, ParserM.bind_ok] at h
  obtain ⟨b, s0, hb, x, s1, h1, h⟩ := h
  obtain ⟨rfl, hlow⟩ := Parser.peekBegin_low T0 hT _ _ _ w hb
  obtain ⟨w1, r1, l1, g1⟩ := ih.primary _ _ _ _ w hi h1
  obtain ⟨w2, r2, l2, g2⟩ := ih.callExpressionLoop _ _ _ _ _ _ w1 (by omega)
    (low_mono T0 _ _ _ w.1 w1.1 (by omega) hlow) g1 h
  exact ⟨w2, by omega, by omega, g2⟩

theorem leftExpression_spec (T0 : List Token) (fuel : Nat)
    (ih : ParserSpec T0 fuel) : SpecTree T0 (Parser.leftExpression (fuel + 1)) := by
  intro i st st1 a w hi h
  unfold Parser.leftExpression at h
  simp only [bind, ParserM.bind_ok] at h
  obtain ⟨c, s0, hc, h⟩ := h
  obtain rfl := Parser.expectStr_eq _ _ _ _ hc
  cases c with
  | true => exact ih.constructor _ _ _ _ w hi h
  | false => exact ih.callExpression _ _ _ _ w hi h

theorem topStatement_spec (T0 : List Token) (fuel : Nat)
    (ih : ParserSpec T0 fuel) : SpecTree T0 (Parser.topStatement (fuel + 1)) := by
  intro i st st1 a w hi h
  unfold Parser.topStatement at h
  simp only [bind, ParserM.bind_ok] at h
  obtain ⟨c, s0, hc, h⟩ := h
  obtain rfl := Parser.expectStr_eq _ _ _ _ hc
  cases c with
  | true => exact ih.namedFunction _ _ _ _ w hi h
  | false => exact ih.statement _ _ _ _ w hi h

theorem topStatements_spec (T0 : List Token) (fuel : Nat)
    (ih : ParserSpec T0 fuel) : SpecTrees T0 (Parser.topStatements (fuel + 1)) := by
  intro i st st1 a w hi h
  unfold Parser.topStatements at h
  exact ih.topStatementsLoop _ _ _ _ _ w hi (good_nodesList_nil _) h

theorem topStatementsLoop_spec (T0 : List Token) (fuel : Nat)
    (ih : ParserSpec T0 fuel) : SpecList T0 (Parser.topStatementsLoop (fuel + 1)) := by
  intro i ret st st1 a w hi hg h
  unfold Parser.topStatementsLoop at h
  simp only [bind, ParserM.bind_ok] at h
  obtain ⟨c1, s1, hc1, c2, s2, hc2, h⟩ := h
  obtain rfl := Parser.expectType_eq _ _ _ _ hc1
  obtain rfl := Parser.expectStr_eq _ _ _ _ hc2
  split at h
  · simp only [ParserM.bind_ok] at h
    obtain ⟨x, s3, h3, h⟩ := h
    obtain ⟨w3, r3, l3, g3⟩ := ih.topStatement _ _ _ _ w hi h3
    obtain ⟨w4, r4, l4, g4⟩ := ih.topStatementsLoop _ _ _ _ _ w3 (by omega)
      (by rw [nodesList_snoc, good_append]; exact ⟨hg.mono (by omega), g3⟩) h
    exact ⟨w4, by omega, by omega, g4⟩
  · simp only [Parser.pure_ok] at h
    obtain ⟨rfl, rfl⟩ := h
    exact ⟨w, Nat.le_refl _, Nat.le_refl _, hg⟩

theorem statements_spec (T0 : List Token) (fuel : Nat)
    (ih : ParserSpec T0 fuel) : SpecList T0 (Parser.statements (fuel + 1)) := by
  intro i ret st st1 a w hi hg h
  unfold Parser.statements at h
  simp only [bind, ParserM.bind_ok] at h
  obtain ⟨c1, s1, hc1, h⟩ := h
  obtain rfl := Parser.expectStr_eq _ _ _ _ hc1
  split at h
  · simp only [ParserM.bind_ok] at h
    obtain ⟨x, s3, h3, h⟩ := h
    obtain ⟨w3, r3, l3, g3⟩ := ih.statement _ _ _ _ w hi h3
    obtain ⟨w4, r4, l4, g4⟩ := ih.statements _ _ _ _ _ w3 (by omega)
      (by rw [nodesList_snoc, good_append]; exact ⟨hg.mono (by omega), g3⟩) h
    exact ⟨w4, by omega, by omega, g4⟩
  · simp only [Parser.pure_ok] at h
    obtain ⟨rfl, rfl⟩ := h
    exact ⟨w, Nat.le_refl _, Nat.le_refl _, hg⟩

theorem varStatementLoop_spec (T0 : List Token) (fuel : Nat)
    (ih : ParserSpec T0 fuel) : SpecDecls T0 (Parser.varStatementLoop (fuel + 1)) := by
  intro i ret st st1 a w hi hg h
  unfold Parser.varStatementLoop at h
  simp only [bind, ParserM.bind_ok] at h
  obtain ⟨c1, s1, hc1, h⟩ := h
  obtain rfl := Parser.expectStr_eq _ _ _ _ hc1
  split at h
  · simp only [ParserM.bind_ok] at h
    obtain ⟨_, s2, h2, x, s3, h3, h⟩ := h
    obtain ⟨⟨w2, r2, l2, _⟩, e2, _⟩ := Parser.matchStr_post T0 _ _ _ _ w h2
    obtain ⟨w3, r3, l3, g3⟩ := ih.declare _ _ _ _ w2 (by omega) h3
    obtain ⟨w4, r4, l4, g4⟩ := ih.varStatementLoop _ _ _ _ _ w3 (by omega)
      (by rw [declNodesList_snoc, good_append]; exact ⟨hg.mono (by omega), g3⟩) h
    exact ⟨w4, by omega, by omega, g4⟩
  · simp only [Parser.pure_ok] at h
    obtain ⟨rfl, rfl⟩ := h
    exact ⟨w, Nat.le_refl _, Nat.le_refl _, hg⟩

theorem expressionLoop_spec (T0 : List Token) (fuel : Nat)
    (ih : ParserSpec T0 fuel) : SpecList T0 (Parser.expressionLoop (fuel + 1)) := by
  intro i ret st st1 a w hi hg h
  unfold Parser.expressionLoop at h
  simp only [bind, ParserM.bind_ok] at h
  obtain ⟨c1, s1, hc1, h⟩ := h
  obtain rfl := Parser.expectStr_eq _ _ _ _ hc1
  split at h
  · simp only [ParserM.bind_ok] at h
    obtain ⟨_, s2, h2, x, s3, h3, h⟩ := h
    obtain ⟨⟨w2, r2, l2, _⟩, e2, _⟩ := Parser.matchStr_post T0 _ _ _ _ w h2
    obtain ⟨w3, r3, l3, g3⟩ := ih.expressionPri _ _ _ _ _ w2 (by omega) h3
    obtain ⟨w4, r4, l4, g4⟩ := ih.expressionLoop _ _ _ _ _ w3 (by omega)
      (by rw [nodesList_snoc, good_append]; exact ⟨hg.mono (by omega), g3⟩) h
    exact ⟨w4, by omega, by omega, g4⟩
  · simp only [Parser.pure_ok] at h
    obtain ⟨rfl, rfl⟩ := h
    exact ⟨w, Nat.le_refl _, Nat.le_refl _, hg⟩

theorem forbeginLoop_spec (T0 : List Token) (fuel : Nat)
    (ih : ParserSpec T0 fuel) : SpecList T0 (Parser.forbeginLoop (fuel + 1)) := by
  intro i ret st st1 a w hi hg h
  unfold Parser.forbeginLoop at h
  simp only [bind, ParserM.bind_ok] at h
  obtain ⟨c1, s1, hc1, h⟩ := h
  obtain rfl := Parser.expectStr_eq _ _ _ _ hc1
  split at h
  · simp only [ParserM.bind_ok] at h
    obtain ⟨_, s2, h2, x, s3, h3, h⟩ := h
    obtain ⟨⟨w2, r2, l2, _⟩, e2, _⟩ := Parser.matchStr_post T0 _ _ _ _ w h2
    obtain ⟨w3, r3, l3, g3⟩ := ih.forbeginPri _ _ _ _ _ w2 (by omega) h3
    obtain ⟨w4, r4, l4, g4⟩ := ih.forbeginLoop _ _ _ _ _ w3 (by omega)
      (by rw [nodesList_snoc, good_append]; exact ⟨hg.mono (by omega), g3⟩) h
    exact ⟨w4, by omega, by omega, g4⟩
  · simp only [Parser.pure_ok] at h
    obtain ⟨rfl, rfl⟩ := h
    exact ⟨w, Nat.le_refl _, Nat.le_refl _, hg⟩

theorem good_setBlockScope (N i : Nat) (blk : AST) (hi : i < N) (h : Good N blk.nodes) :
    Good N (Parser.setBlockScope blk (some i)).nodes := by
  cases blk with
  | Block r s stmts =>
    simp only [Parser.setBlockScope, AST.nodes, good_cons] at h ⊢
    exact ⟨wf_scoped _ _ _ _ _ rfl h.1.1 hi, h.2⟩
  | _ => exact h

theorem tryStatementLoop_spec (T0 : List Token) (fuel : Nat)
    (ih : ParserSpec T0 fuel) : SpecPairs T0 (Parser.tryStatementLoop (fuel + 1)) := by
  intro i ret st st1 a w hi hg h
  unfold Parser.tryStatementLoop at h
  simp only [bind, ParserM.bind_ok] at h
  obtain ⟨c1, s1, hc1, h⟩ := h
  obtain rfl := Parser.expectStr_eq _ _ _ _ hc1
  split at h
  · simp only [ParserM.bind_ok] at h
    obtain ⟨_, s2, h2, _, s3, h3, s, s4, hs, expr, s5, h5, _, s6, h6, blk, s7, h7, h⟩ := h
    obtain ⟨⟨w2, r2, l2, _⟩, e2, _⟩ := Parser.matchStr_post T0 _ _ _ _ w h2
    obtain ⟨⟨w3, r3, l3, _⟩, e3, _⟩ := Parser.matchStr_post T0 _ _ _ _ w2 h3
    obtain ⟨rfl, w4, r4, l4⟩ := Parser.newScope_post T0 i _ _ _ w3 (by omega) hs
    obtain ⟨w5, r5, l5, g5⟩ := ih.expression _ _ _ _ w4 (by omega) h5
    obtain ⟨⟨w6, r6, l6, _⟩, e6, _⟩ := Parser.matchStr_post T0 _ _ _ _ w5 h6
    obtain ⟨w7, r7, l7, g7⟩ := ih.block _ _ _ _ w6 (by omega) h7
    obtain ⟨w8, r8, l8, g8⟩ := ih.tryStatementLoop _ _ _ _ _ w7 (by omega)
      (by
        rw [nodesPairs_snoc, good_append, good_append]
        exact ⟨hg.mono (by omega), g5.mono (by omega),
          good_setBlockScope _ _ _ (by omega) g7⟩) h
    exact ⟨w8, by omega, by omega, g8⟩
  · simp only [Parser.pure_ok] at h
    obtain ⟨rfl, rfl⟩ := h
    exact ⟨w, Nat.le_refl _, Nat.le_refl _, hg⟩

theorem tryStatement_spec (T0 : List Token) (hT : TokensOk T0) (fuel : Nat)
    (ih : ParserSpec T0 fuel) : SpecTree T0 (Parser.tryStatement (fuel + 1)) := by
  intro i st st1 a w hi h
  unfold Parser.tryStatement at h
  simp only [bind, ParserM.bind_ok] at h
  obtain ⟨b, s0, hb, _, s1, h1, blk, s2, h2, cs, s3, h3, c, s4, hc, h⟩ := h
  obtain ⟨rfl, hlow⟩ := Parser.peekBegin_low T0 hT _ _ _ w hb
  obtain ⟨⟨w1, r1, l1, _⟩, e1, _⟩ := Parser.matchStr_post T0 _ _ _ _ w h1
  obtain ⟨w2, r2, l2, g2⟩ := ih.block _ _ _ _ w1 (by omega) h2
  obtain ⟨w3, r3, l3, g3⟩ := ih.tryStatementLoop _ _ _ _ _ w2 (by omega)
    (good_nodesPairs_nil _) h3
  obtain rfl := Parser.expectStr_eq _ _ _ _ hc
  split at h
  · simp only [ParserM.bind_ok, Parser.pure_ok] at h
    obtain ⟨_, s5, h5, fin, s6, h6, e, s7, h7, rfl, rfl⟩ := h
    obtain ⟨⟨w5, r5, l5, _⟩, e5, _⟩ := Parser.matchStr_post T0 _ _ _ _ w3 h5
    obtain ⟨w6, r6, l6, g6⟩ := ih.block _ _ _ _ w5 (by omega) h6
    obtain ⟨rfl, hbe⟩ := Parser.peekBegin_le T0 _ _ _ _ _ w w6 (by omega) hlow h7
    refine ⟨w6, by omega, by omega, ?_⟩
    simp only [AST.nodes, AST.nodesOpt, good_cons, good_append]
    exact ⟨wf_unscoped _ _ _ _ rfl hbe, ⟨g2.mono (by omega), g3.mono (by omega)⟩, g6⟩
  · simp only [ParserM.bind_ok, Parser.pure_ok] at h
    obtain ⟨e, s7, h7, rfl, rfl⟩ := h
    obtain ⟨rfl, hbe⟩ := Parser.peekBegin_le T0 _ _ _ _ _ w w3 (by omega) hlow h7
    refine ⟨w3, by omega, by omega, ?_⟩
    simp only [AST.nodes, AST.nodesOpt, good_cons, good_append]
    exact ⟨wf_unscoped _ _ _ _ rfl hbe, ⟨g2.mono (by omega), g3⟩, good_nil _⟩

theorem expressionChain_spec (T0 : List Token) (fuel : Nat)
    (ih : ParserSpec T0 fuel) : SpecChain T0 (Parser.expressionChain (fuel + 1)) := by
  intro pri i range left ret st st1 a w hi hr gl gr h
  unfold Parser.expressionChain at h
  simp only [bind, ParserM.bind_ok] at h
  obtain ⟨c, s0, hc, h⟩ := h
  obtain rfl := Parser.expectOperator_eq _ _ _ _ hc
  split at h
  · simp only [ParserM.bind_ok] at h
    obtain ⟨op, s1, h1, right, s2, h2, h⟩ := h
    obtain ⟨⟨w1, r1, l1, _⟩, e1, _⟩ := Parser.get_post T0 _ _ _ w h1
    obtain ⟨w2, r2, l2, g2⟩ := ih.expressionPri _ _ _ _ _ w1 (by omega) h2
    obtain ⟨w3, r3, l3, g3⟩ := ih.expressionChain _ _ _ _ _ _ _ _ w2 (by omega) hr
      (gl.mono (by omega))
      (by
        simp only [AST.nodes, good_cons, good_append]
        exact ⟨wf_scoped _ _ _ _ _ rfl hr (by omega), gl.mono (by omega), g2⟩) h
    exact ⟨w3, by omega, by omega, g3⟩
  · simp only [Parser.pure_ok] at h
    obtain ⟨rfl, rfl⟩ := h
    exact ⟨w, Nat.le_refl _, Nat.le_refl _, gr⟩

theorem forbeginChain_spec (T0 : List Token) (fuel : Nat)
    (ih : ParserSpec T0 fuel) : SpecChain T0 (Parser.forbeginChain (fuel + 1)) := by
  intro pri i range left ret st st1 a w hi hr gl gr h
  unfold Parser.forbeginChain at h
  simp only [bind, ParserM.bind_ok] at h
  obtain ⟨c, s0, hc, h⟩ := h
  obtain rfl := Parser.expectOperator_eq _ _ _ _ hc
  split at h
  · simp only [ParserM.bind_ok] at h
    obtain ⟨op, s1, h1, right, s2, h2, h⟩ := h
    obtain ⟨⟨w1, r1, l1, _⟩, e1, _⟩ := Parser.get_post T0 _ _ _ w h1
    obtain ⟨w2, r2, l2, g2⟩ := ih.forbeginPri _ _ _ _ _ w1 (by omega) h2
    obtain ⟨w3, r3, l3, g3⟩ := ih.forbeginChain _ _ _ _ _ _ _ _ w2 (by omega) hr
      (gl.mono (by omega))
      (by
        simp only [AST.nodes, good_cons, good_append]
        exact ⟨wf_scoped _ _ _ _ _ rfl hr (by omega), gl.mono (by omega), g2⟩) h
    exact ⟨w3, by omega, by omega, g3⟩
  · simp only [Parser.pure_ok] at h
    obtain ⟨rfl, rfl⟩ := h
    exact ⟨w, Nat.le_refl _, Nat.le_refl _, gr⟩

theorem switchStatementLoop_spec (T0 : List Token) (fuel : Nat)
    (ih : ParserSpec T0 fuel) : SpecBranches T0 (Parser.switchStatementLoop (fuel + 1)) := by
  intro begin i ret st st1 a w hi hlow hg h
  unfold Parser.switchStatementLoop at h
  simp only [bind, ParserM.bind_ok] at h
  obtain ⟨c0, s0, hc0, h⟩ := h
  obtain rfl := Parser.expectStr_eq _ _ _ _ hc0
  split at h
  · simp only [ParserM.bind_ok] at h
    obtain ⟨c1, s1, hc1, h⟩ := h
    obtain rfl := Parser.expectStr_eq _ _ _ _ hc1
    split at h
    · simp only [ParserM.bind_ok] at h
      obtain ⟨_, s2, h2, v, s3, h3, _, s4, h4, e, s5, h5, h⟩ := h
      obtain ⟨⟨w2, r2, l2, _⟩, e2, _⟩ := Parser.matchStr_post T0 _ _ _ _ w h2
      obtain ⟨w3, r3, l3, g3⟩ := ih.expression _ _ _ _ w2 (by omega) h3
      obtain ⟨⟨w4, r4, l4, _⟩, e4, _⟩ := Parser.matchStr_post T0 _ _ _ _ w3 h4
      obtain ⟨rfl, hbe⟩ := Parser.peekBegin_le T0 _ _ _ _ _ w w4 (by omega) hlow h5
      obtain ⟨w6, r6, l6, g6⟩ := ih.switchStatementLoop _ _ _ _ _ _ w4 (by omega)
        (low_mono T0 _ _ _ w.1 w4.1 (by omega) hlow)
        (by
          rw [nodesList_snoc, good_append]
          simp only [AST.nodes, AST.nodesOpt, good_cons]
          exact ⟨hg.mono (by omega), wf_unscoped _ _ _ _ rfl hbe, g3.mono (by omega)⟩) h
      exact ⟨w6, by omega, by omega, g6⟩
    · simp only [ParserM.bind_ok] at h
      obtain ⟨c2, s2, hc2, h⟩ := h
      obtain rfl := Parser.expectStr_eq _ _ _ _ hc2
      split at h
      · simp only [ParserM.bind_ok] at h
        obtain ⟨_, s2, h2, _, s4, h4, e, s5, h5, h⟩ := h
        obtain ⟨⟨w2, r2, l2, _⟩, e2, _⟩ := Parser.matchStr_post T0 _ _ _ _ w h2
        obtain ⟨⟨w4, r4, l4, _⟩, e4, _⟩ := Parser.matchStr_post T0 _ _ _ _ w2 h4
        obtain ⟨rfl, hbe⟩ := Parser.peekBegin_le T0 _ _ _ _ _ w w4 (by omega) hlow h5
        obtain ⟨w6, r6, l6, g6⟩ := ih.switchStatementLoop _ _ _ _ _ _ w4 (by omega)
          (low_mono T0 _ _ _ w.1 w4.1 (by omega) hlow)
          (by
            rw [nodesList_snoc, good_append]
            simp only [AST.nodes, AST.nodesOpt, good_cons]
            exact ⟨hg.mono (by omega), wf_unscoped _ _ _ _ rfl hbe, good_nil _⟩) h
        exact ⟨w6, by omega, by omega, g6⟩
      · simp only [ParserM.bind_ok] at h
        obtain ⟨x, s3, h3, h⟩ := h
        obtain ⟨w3, r3, l3, g3⟩ := ih.statement _ _ _ _ w hi h3
        obtain ⟨w6, r6, l6, g6⟩ := ih.switchStatementLoop _ _ _ _ _ _ w3 (by omega)
          (low_mono T0 _ _ _ w.1 w3.1 (by omega) hlow)
          (by rw [nodesList_snoc, good_append]; exact ⟨hg.mono (by omega), g3⟩) h
        exact ⟨w6, by omega, by omega, g6⟩
  · simp only [Parser.pure_ok] at h
    obtain ⟨rfl, rfl⟩ := h
    exact ⟨w, Nat.le_refl _, Nat.le_refl _, hg⟩

theorem arglistLoop_spec (T0 : List Token) (fuel : Nat)
    (ih : ParserSpec T0 fuel) : SpecList T0 (Parser.arglistLoop (fuel + 1)) := by
  intro i ret st st1 a w hi hg h
  unfold Parser.arglistLoop at h
  simp only [bind, ParserM.bind_ok] at h
  obtain ⟨x, s1, h1, c1, s2, hc1, h⟩ := h
  obtain ⟨w1, r1, l1, g1⟩ := ih.expressionPri _ _ _ _ _ w hi h1
  obtain rfl := Parser.expectStr_eq _ _ _ _ hc1
  have hg1 : Good s2.scopes.length (AST.nodesList (ret ++ [x])) := by
    rw [nodesList_snoc, good_append]
    exact ⟨hg.mono (by omega), g1⟩
  have tail : ∀ s3 : ParserState, s3.within T0 → s3.toks.length ≤ s2.toks.length →
      s3.scopes.length = s2.scopes.length →
      (∃ (c2 : Bool) (s4 : ParserState), Parser.expectStr ")" s3 = .ok c2 s4 ∧
        (if c2 = true then
            ParserM.bind (Parser.matchStr ")") (fun _ => pure (ret ++ [x]))
          else Parser.arglistLoop fuel (some i) (ret ++ [x])) s4 = .ok a st1) →
      Post T0 s2 st1 (AST.nodesList a) := by
    intro s3 w3 r3 l3 h
    obtain ⟨c2, s4, hc2, h⟩ := h
    obtain rfl := Parser.expectStr_eq _ _ _ _ hc2
    split at h
    · simp only [ParserM.bind_ok, Parser.pure_ok] at h
      obtain ⟨_, s5, h5, rfl, rfl⟩ := h
      obtain ⟨⟨w5, r5, l5, _⟩, e5, _⟩ := Parser.matchStr_post T0 _ _ _ _ w3 h5
      exact ⟨w5, by omega, by omega, hg1.mono (by omega)⟩
    · obtain ⟨w6, r6, l6, g6⟩ := ih.arglistLoop _ _ _ _ _ w3 (by omega)
        (hg1.mono (by omega)) h
      exact ⟨w6, by omega, by omega, g6⟩
  have post : Post T0 s2 st1 (AST.nodesList a) := by
    cases c1 with
    | true =>
      simp only [if_true, ParserM.bind_ok, Parser.pure_ok] at h
      obtain ⟨_, s3, h3, _, _, ⟨_, rfl⟩, h⟩ := h
      obtain ⟨⟨w3, r3, l3, _⟩, e3, _⟩ := Parser.matchStr_post T0 _ _ _ _ w1 h3
      exact tail _ w3 r3 e3 h
    | false =>
      simp only [Bool.false_eq_true, if_false, ParserM.bind_ok, Parser.pure_ok] at h
      obtain ⟨_, _, ⟨_, rfl⟩, h⟩ := h
      exact tail _ w1 (Nat.le_refl _) rfl h
  obtain ⟨w6, r6, l6, g6⟩ := post
  exact ⟨w6, by omega, by omega, g6⟩

theorem arglist_spec (T0 : List Token) (fuel : Nat)
    (ih : ParserSpec T0 fuel) : SpecTrees T0 (Parser.arglist (fuel + 1)) := by
  intro i st st1 a w hi h
  unfold Parser.arglist at h
  simp only [bind, ParserM.bind_ok] at h
  obtain ⟨c1, s1, hc1, h⟩ := h
  obtain rfl := Parser.expectStr_eq _ _ _ _ hc1
  split at h
  · simp only [ParserM.bind_ok] at h
    obtain ⟨_, s2, h2, c2, s3, hc2, h⟩ := h
    obtain ⟨⟨w2, r2, l2, _⟩, e2, _⟩ := Parser.matchStr_post T0 _ _ _ _ w h2
    obtain rfl := Parser.expectStr_eq _ _ _ _ hc2
    split at h
    · simp only [ParserM.bind_ok, Parser.pure_ok] at h
      obtain ⟨_, s5, h5, rfl, rfl⟩ := h
      obtain ⟨⟨w5, r5, l5, _⟩, e5, _⟩ := Parser.matchStr_post T0 _ _ _ _ w2 h5
      exact ⟨w5, by omega, by omega, good_nodesList_nil _⟩
    · obtain ⟨w6, r6, l6, g6⟩ := ih.arglistLoop _ _ _ _ _ w2 (by omega)
        (good_nodesList_nil _) h
      exact ⟨w6, by omega, by omega, g6⟩
  · simp only [Parser.pure_ok] at h
    obtain ⟨rfl, rfl⟩ := h
    exact ⟨w, Nat.le_refl _, Nat.le_refl _, good_nodesList_nil _⟩

theorem literalArrayLoop_spec (T0 : List Token) (fuel : Nat)
    (ih : ParserSpec T0 fuel) : SpecList T0 (Parser.literalArrayLoop (fuel + 1)) := by
  intro i ret st st1 a w hi hg h
  unfold Parser.literalArrayLoop at h
  simp only [bind, ParserM.bind_ok] at h
  obtain ⟨x, s1, h1, c1, s2, hc1, h⟩ := h
  obtain ⟨w1, r1, l1, g1⟩ := ih.expressionPri _ _ _ _ _ w hi h1
  obtain rfl := Parser.expectStr_eq _ _ _ _ hc1
  have hg1 : Good s2.scopes.length (AST.nodesList (ret ++ [x])) := by
    rw [nodesList_snoc, good_append]
    exact ⟨hg.mono (by omega), g1⟩
  split at h
  · simp only [ParserM.bind_ok] at h
    obtain ⟨_, s3, h3, c2, s4, hc2, h⟩ := h
    obtain ⟨⟨w3, r3, l3, _⟩, e3, _⟩ := Parser.matchStr_post T0 _ _ _ _ w1 h3
    obtain rfl := Parser.expectStr_eq _ _ _ _ hc2
    split at h
    · simp only [ParserM.bind_ok, Parser.pure_ok] at h
      obtain ⟨_, s5, h5, rfl, rfl⟩ := h
      obtain ⟨⟨w5, r5, l5, _⟩, e5, _⟩ := Parser.matchStr_post T0 _ _ _ _ w3 h5
      exact ⟨w5, by omega, by omega, hg1.mono (by omega)⟩
    · obtain ⟨w6, r6, l6, g6⟩ := ih.literalArrayLoop _ _ _ _ _ w3 (by omega)
        (hg1.mono (by omega)) h
      exact ⟨w6, by omega, by omega, g6⟩
  · simp only [ParserM.bind_ok, Parser.pure_ok] at h
    obtain ⟨_, s5, h5, rfl, rfl⟩ := h
    obtain ⟨⟨w5, r5, l5, _⟩, e5, _⟩ := Parser.matchStr_post T0 _ _ _ _ w1 h5
    exact ⟨w5, by omega, by omega, hg1.mono (by omega)⟩

theorem literalArray_spec (T0 : List Token) (hT : TokensOk T0) (fuel : Nat)
    (ih : ParserSpec T0 fuel) : SpecTree T0 (Parser.literalArray (fuel + 1)) := by
  intro i st st1 a w hi h
  unfold Parser.literalArray at h
  simp only [bind, ParserM.bind_ok] at h
  obtain ⟨b, s0, hb, _, s1, h1, c, s2, hc, h⟩ := h
  obtain ⟨rfl, hlow⟩ := Parser.peekBegin_low T0 hT _ _ _ w hb
  obtain ⟨⟨w1, r1, l1, _⟩, e1, _⟩ := Parser.matchStr_post T0 _ _ _ _ w h1
  obtain rfl := Parser.expectStr_eq _ _ _ _ hc
  split at h
  · simp only [ParserM.bind_ok, Parser.pure_ok] at h
    obtain ⟨elem, s3, h3, e, s4, h4, rfl, rfl⟩ := h
    obtain ⟨w3, r3, l3, g3⟩ := ih.literalArrayLoop _ _ _ _ _ w1 (by omega)
      (good_nodesList_nil _) h3
    obtain ⟨rfl, hbe⟩ := Parser.peekBegin_le T0 _ _ _ _ _ w w3 (by omega) hlow h4
    refine ⟨w3, by omega, by omega, ?_⟩
    simp only [AST.nodes, good_cons]
    exact ⟨wf_unscoped _ _ _ _ rfl hbe, g3⟩
  · simp only [ParserM.bind_ok, Parser.pure_ok] at h
    obtain ⟨_, s3, h3, e, s4, h4, rfl, rfl⟩ := h
    obtain ⟨⟨w3, r3, l3, _⟩, e3, _⟩ := Parser.matchStr_post T0 _ _ _ _ w1 h3
    obtain ⟨rfl, hbe⟩ := Parser.peekBegin_le T0 _ _ _ _ _ w w3 (by omega) hlow h4
    refine ⟨w3, by omega, by omega, ?_⟩
    simp only [AST.nodes, good_cons]
    exact ⟨wf_unscoped _ _ _ _ rfl hbe, good_nodesList_nil _⟩

theorem literalObjectLoop_spec (T0 : List Token) (fuel : Nat)
    (ih : ParserSpec T0 fuel) : SpecPairs T0 (Parser.literalObjectLoop (fuel + 1)) := by
  intro i ret st st1 a w hi hg h
  unfold Parser.literalObjectLoop at h
  simp only [bind, ParserM.bind_ok] at h
  obtain ⟨key, s1, h1, _, s2, h2, val, s3, h3, c1, s4, hc1, h⟩ := h
  obtain ⟨w1, r1, l1, g1⟩ := ih.primary _ _ _ _ w hi h1
  obtain ⟨⟨w2, r2, l2, _⟩, e2, _⟩ := Parser.matchStr_post T0 _ _ _ _ w1 h2
  obtain ⟨w3, r3, l3, g3⟩ := ih.expressionPri _ _ _ _ _ w2 (by omega) h3
  obtain rfl := Parser.expectStr_eq _ _ _ _ hc1
  have hg1 : Good s4.scopes.length (AST.nodesPairs (ret ++ [(key, val)])) := by
    rw [nodesPairs_snoc, good_append, good_append]
    exact ⟨hg.mono (by omega), g1.mono (by omega), g3⟩
  split at h
  · simp only [ParserM.bind_ok, Parser.pure_ok] at h
    obtain ⟨_, s5, h5, rfl, rfl⟩ := h
    obtain ⟨⟨w5, r5, l5, _⟩, e5, _⟩ := Parser.matchStr_post T0 _ _ _ _ w3 h5
    exact ⟨w5, by omega, by omega, hg1.mono (by omega)⟩
  · simp only [ParserM.bind_ok] at h
    obtain ⟨_, s5, h5, c2, s6, hc2, h⟩ := h
    obtain ⟨⟨w5, r5, l5, _⟩, e5, _⟩ := Parser.matchStr_post T0 _ _ _ _ w3 h5
    obtain rfl := Parser.expectStr_eq _ _ _ _ hc2
    split at h
    · simp only [ParserM.bind_ok, Parser.pure_ok] at h
      obtain ⟨_, s7, h7, rfl, rfl⟩ := h
      obtain ⟨⟨w7, r7, l7, _⟩, e7, _⟩ := Parser.matchStr_post T0 _ _ _ _ w5 h7
      exact ⟨w7, by omega, by omega, hg1.mono (by omega)⟩
    · obtain ⟨w6, r6, l6, g6⟩ := ih.literalObjectLoop _ _ _ _ _ w5 (by omega)
        (hg1.mono (by omega)) h
      exact ⟨w6, by omega, by omega, g6⟩

theorem literalObject_spec (T0 : List Token) (hT : TokensOk T0) (fuel : Nat)
    (ih : ParserSpec T0 fuel) : SpecTree T0 (Parser.literalObject (fuel + 1)) := by
  intro i st st1 a w hi h
  unfold Parser.literalObject at h
  simp only [bind, ParserM.bind_ok] at h
  obtain ⟨b, s0, hb, _, s1, h1, c, s2, hc, h⟩ := h
  obtain ⟨rfl, hlow⟩ := Parser.peekBegin_low T0 hT _ _ _ w hb
  obtain ⟨⟨w1, r1, l1, _⟩, e1, _⟩ := Parser.matchStr_post T0 _ _ _ _ w h1
  obtain rfl := Parser.expectStr_eq _ _ _ _ hc
  split at h
  · simp only [ParserM.bind_ok, Parser.pure_ok] at h
    obtain ⟨_, s3, h3, e, s4, h4, rfl, rfl⟩ := h
    obtain ⟨⟨w3, r3, l3, _⟩, e3, _⟩ := Parser.matchStr_post T0 _ _ _ _ w1 h3
    obtain ⟨rfl, hbe⟩ := Parser.peekBegin_le T0 _ _ _ _ _ w w3 (by omega) hlow h4
    refine ⟨w3, by omega, by omega, ?_⟩
    simp only [AST.nodes, good_cons]
    exact ⟨wf_unscoped _ _ _ _ rfl hbe, good_nodesPairs_nil _⟩
  · simp only [ParserM.bind_ok, Parser.pure_ok] at h
    obtain ⟨kv, s3, h3, e, s4, h4, rfl, rfl⟩ := h
    obtain ⟨w3, r3, l3, g3⟩ := ih.literalObjectLoop _ _ _ _ _ w1 (by omega)
      (good_nodesPairs_nil _) h3
    obtain ⟨rfl, hbe⟩ := Parser.peekBegin_le T0 _ _ _ _ _ w w3 (by omega) hlow h4
    refine ⟨w3, by omega, by omega, ?_⟩
    simp only [AST.nodes, good_cons]
    exact ⟨wf_unscoped _ _ _ _ rfl hbe, g3⟩

theorem callExpressionLoop_spec (T0 : List Token) (hT : TokensOk T0) (fuel : Nat)
    (ih : ParserSpec T0 fuel) : SpecFrom T0 (Parser.callExpressionLoop (fuel + 1)) := by
  intro begin i x st st1 a w hi hlow gx h
  unfold Parser.callExpressionLoop at h
  simp only [bind, ParserM.bind_ok] at h
  obtain ⟨c1, s1, hc1, h⟩ := h
  obtain rfl := Parser.expectStr_eq _ _ _ _ hc1
  split at h
  · simp only [ParserM.bind_ok] at h
    obtain ⟨_, s2, h2, mem, s3, h3, e, s4, h4, h⟩ := h
    obtain ⟨⟨w2, r2, l2, _⟩, e2, _⟩ := Parser.matchStr_post T0 _ _ _ _ w h2
    obtain ⟨⟨w3, r3, l3, g3⟩, e3⟩ := Parser.identifier_post T0 hT _ _ _ _ w2 (by omega) h3
    obtain ⟨rfl, hbe⟩ := Parser.peekBegin_le T0 _ _ _ _ _ w w3 (by omega) hlow h4
    obtain ⟨w5, r5, l5, g5⟩ := ih.callExpressionLoop _ _ _ _ _ _ w3 (by omega)
      (low_mono T0 _ _ _ w.1 w3.1 (by omega) hlow)
      (by
        simp only [AST.nodes, good_cons, good_append]
        exact ⟨wf_scoped _ _ _ _ _ rfl hbe (by omega), gx.mono (by omega),
          (good_cons _ _ _).1 g3⟩) h
    exact ⟨w5, by omega, by omega, g5⟩
  · simp only [ParserM.bind_ok] at h
    obtain ⟨c2, s2, hc2, h⟩ := h
    obtain rfl := Parser.expectStr_eq _ _ _ _ hc2
    split at h
    · simp only [ParserM.bind_ok] at h
      obtain ⟨args, s3, h3, e, s4, h4, h⟩ := h
      obtain ⟨w3, r3, l3, g3⟩ := ih.arglist _ _ _ _ w hi h3
      obtain ⟨rfl, hbe⟩ := Parser.peekBegin_le T0 _ _ _ _ _ w w3 (by omega) hlow h4
      obtain ⟨w5, r5, l5, g5⟩ := ih.callExpressionLoop _ _ _ _ _ _ w3 (by omega)
        (low_mono T0 _ _ _ w.1 w3.1 (by omega) hlow)
        (by
          simp only [AST.nodes, good_cons, good_append]
          exact ⟨wf_scoped _ _ _ _ _ rfl hbe (by omega), gx.mono (by omega), g3⟩) h
      exact ⟨w5, by omega, by omega, g5⟩
    · simp only [ParserM.bind_ok] at h
      obtain ⟨c3, s3, hc3, h⟩ := h
      obtain rfl := Parser.expectStr_eq _ _ _ _ hc3
      split at h
      · simp only [ParserM.bind_ok] at h
        obtain ⟨_, s2, h2, key, s3, h3, _, s4, h4, e, s5, h5, h⟩ := h
        obtain ⟨⟨w2, r2, l2, _⟩, e2, _⟩ := Parser.matchStr_post T0 _ _ _ _ w h2
        obtain ⟨w3, r3, l3, g3⟩ := ih.expressionPri _ _ _ _ _ w2 (by omega) h3
        obtain ⟨⟨w4, r4, l4, _⟩, e4, _⟩ := Parser.matchStr_post T0 _ _ _ _ w3 h4
        obtain ⟨rfl, hbe⟩ := Parser.peekBegin_le T0 _ _ _ _ _ w w4 (by omega) hlow h5
        obtain ⟨w6, r6, l6, g6⟩ := ih.callExpressionLoop _ _ _ _ _ _ w4 (by omega)
          (low_mono T0 _ _ _ w.1 w4.1 (by omega) hlow)
          (by
            simp only [AST.nodes, good_cons, good_append]
            exact ⟨wf_scoped _ _ _ _ _ rfl hbe (by omega), gx.mono (by omega),
              g3.mono (by omega)⟩) h
        exact ⟨w6, by omega, by omega, g6⟩
      · simp only [Parser.pure_ok] at h
        obtain ⟨rfl, rfl⟩ := h
        exact ⟨w, Nat.le_refl _, Nat.le_refl _, gx⟩

theorem forStatement_spec (T0 : List Token) (hT : TokensOk T0) (fuel : Nat)
    (ih : ParserSpec T0 fuel) : SpecTree T0 (Parser.forStatement (fuel + 1)) := by
  intro i st st1 a w hi h
  unfold Parser.forStatement at h
  simp only [bind, ParserM.bind_ok] at h
  obtain ⟨b, s0, hb, s, s1, hs, _, s2, h2, _, s3, h3, c1, s4, hc1, h⟩ := h
  obtain ⟨rfl, hlow⟩ := Parser.peekBegin_low T0 hT _ _ _ w hb
  obtain ⟨rfl, w1, r1, l1⟩ := Parser.newScope_post T0 i _ _ _ w hi hs
  obtain ⟨⟨w2, r2, l2, _⟩, e2, _⟩ := Parser.matchStr_post T0 _ _ _ _ w1 h2
  obtain ⟨⟨w3, r3, l3, _⟩, e3, _⟩ := Parser.matchStr_post T0 _ _ _ _ w2 h3
  obtain rfl := Parser.expectStr_eq _ _ _ _ hc1
  split at h
  · -- `for (var ...`
    simp only [ParserM.bind_ok] at h
    obtain ⟨init, s5, h5, c2, s6, hc2, h⟩ := h
    obtain ⟨w5, r5, l5, g5⟩ := ih.varStatement _ _ _ _ w3 (by omega) h5
    obtain rfl := Parser.expectStr_eq _ _ _ _ hc2
    split at h
    · simp only [ParserM.bind_ok] at h
      obtain ⟨_, s7, h7, h⟩ := h
      obtain ⟨⟨w7, r7, l7, _⟩, e7, _⟩ := Parser.matchStr_post T0 _ _ _ _ w5 h7
      obtain ⟨w8, r8, l8, g8⟩ := ih.forloop _ _ _ _ _ _ w7 (by omega)
        (low_mono T0 _ _ _ w.1 w7.1 (by omega) hlow)
        (by simp only [AST.nodesOpt]; exact g5.mono (by omega)) h
      exact ⟨w8, by omega, by omega, g8⟩
    · simp only [ParserM.bind_ok] at h
      obtain ⟨_, s7, h7, h⟩ := h
      obtain ⟨⟨w7, r7, l7, _⟩, e7, _⟩ := Parser.matchStr_post T0 _ _ _ _ w5 h7
      cases init with
      | Var rg sc vlist =>
        simp only at h
        split at h
        · cases h
        · obtain ⟨w8, r8, l8, g8⟩ := ih.forin _ _ _ _ _ _ w7 (by omega)
            (low_mono T0 _ _ _ w.1 w7.1 (by omega) hlow) (g5.mono (by omega)) h
          exact ⟨w8, by omega, by omega, g8⟩
      | _ => cases h
  · simp only [ParserM.bind_ok] at h
    obtain ⟨c3, s5, hc3, h⟩ := h
    obtain rfl := Parser.expectStr_eq _ _ _ _ hc3
    split at h
    · -- `for (;`
      simp only [ParserM.bind_ok] at h
      obtain ⟨_, s7, h7, h⟩ := h
      obtain ⟨⟨w7, r7, l7, _⟩, e7, _⟩ := Parser.matchStr_post T0 _ _ _ _ w3 h7
      obtain ⟨w8, r8, l8, g8⟩ := ih.forloop _ _ _ _ _ _ w7 (by omega)
        (low_mono T0 _ _ _ w.1 w7.1 (by omega) hlow) (good_nodesOpt_none _) h
      exact ⟨w8, by omega, by omega, g8⟩
    · simp only [ParserM.bind_ok] at h
      obtain ⟨init, s5, h5, c4, s6, hc4, h⟩ := h
      obtain ⟨w5, r5, l5, g5⟩ := ih.forbegin _ _ _ _ w3 (by omega) h5
      obtain rfl := Parser.expectStr_eq _ _ _ _ hc4
      split at h
      · simp only [ParserM.bind_ok] at h
        obtain ⟨_, s7, h7, h⟩ := h
        obtain ⟨⟨w7, r7, l7, _⟩, e7, _⟩ := Parser.matchStr_post T0 _ _ _ _ w5 h7
        obtain ⟨w8, r8, l8, g8⟩ := ih.forloop _ _ _ _ _ _ w7 (by omega)
          (low_mono T0 _ _ _ w.1 w7.1 (by omega) hlow)
          (by simp only [AST.nodesOpt]; exact g5.mono (by omega)) h
        exact ⟨w8, by omega, by omega, g8⟩
      · simp only [ParserM.bind_ok] at h
        obtain ⟨_, s7, h7, h⟩ := h
        obtain ⟨⟨w7, r7, l7, _⟩, e7, _⟩ := Parser.matchStr_post T0 _ _ _ _ w5 h7
        cases init with
        | GroupExpression rg sc elist =>
          cases elist with
          | nil => cases h
          | cons x more =>
            cases more with
            | cons y more2 =>
              cases x <;> cases h
            | nil =>
              cases x with
              | Identifier id =>
                simp only at h
                simp only [AST.nodes, AST.nodesList, good_cons, good_append] at g5
                obtain ⟨w8, r8, l8, g8⟩ := ih.forin _ _ _ _ _ _ w7 (by omega)
                  (low_mono T0 _ _ _ w.1 w7.1 (by omega) hlow)
                  (by
                    simp only [AST.nodes]
                    exact Good.mono ((good_cons _ _ _).2 g5.2.1) (by omega)) h
                exact ⟨w8, by omega, by omega, g8⟩
              | _ => cases h
        | _ => cases h

theorem wf_range_scoped (t : ASTType) (r : PositionRange) (i N : Nat) (ht : t.unscoped = false)
    (hbe : r.begin_.le r.end_) (hi : i < N) : Node.wellFormed N ⟨t, r, some i⟩ :=
  ⟨hbe, fun hu => by simp [ht] at hu, fun _ => ⟨i, rfl, hi⟩⟩

theorem wf_range_unscoped (t : ASTType) (r : PositionRange) (N : Nat) (ht : t.unscoped = true)
    (hbe : r.begin_.le r.end_) : Node.wellFormed N ⟨t, r, none⟩ :=
  ⟨hbe, fun _ => rfl, fun hu => by simp [ht] at hu⟩

theorem emptyStatement_post (T0 : List Token) (hT : TokensOk T0) (st st1 : ParserState)
    (a : AST) (w : st.within T0) (h : Parser.emptyStatement st = .ok a st1) :
    Post T0 st st1 a.nodes := by
  simp only [Parser.emptyStatement, bind, ParserM.bind_ok, Parser.pure_ok] at h
  obtain ⟨b, s0, hb, _, s1, h1, e, s2, h2, rfl, rfl⟩ := h
  obtain ⟨rfl, hlow⟩ := Parser.peekBegin_low T0 hT _ _ _ w hb
  obtain ⟨⟨w1, r1, l1, _⟩, e1, _⟩ := Parser.matchStr_post T0 _ _ _ _ w h1
  obtain ⟨rfl, hbe⟩ := Parser.peekBegin_le T0 _ _ _ _ _ w w1 (by omega) hlow h2
  refine ⟨w1, by omega, by omega, ?_⟩
  simp only [AST.nodes, good_cons]
  exact ⟨wf_unscoped _ _ _ _ rfl hbe, good_nil _⟩

theorem breakStatement_post (T0 : List Token) (hT : TokensOk T0) (st st1 : ParserState)
    (a : AST) (w : st.within T0) (h : Parser.breakStatement st = .ok a st1) :
    Post T0 st st1 a.nodes := by
  simp only [Parser.breakStatement, bind, ParserM.bind_ok, Parser.pure_ok] at h
  obtain ⟨b, s0, hb, _, s1, h1, e, s2, h2, rfl, rfl⟩ := h
  obtain ⟨rfl, hlow⟩ := Parser.peekBegin_low T0 hT _ _ _ w hb
  obtain ⟨⟨w1, r1, l1, _⟩, e1, _⟩ := Parser.matchStr_post T0 _ _ _ _ w h1
  obtain ⟨rfl, hbe⟩ := Parser.peekBegin_le T0 _ _ _ _ _ w w1 (by omega) hlow h2
  refine ⟨w1, by omega, by omega, ?_⟩
  simp only [AST.nodes, good_cons]
  exact ⟨wf_unscoped _ _ _ _ rfl hbe, good_nil _⟩

theorem continueStatement_post (T0 : List Token) (hT : TokensOk T0) (st st1 : ParserState)
    (a : AST) (w : st.within T0) (h : Parser.continueStatement st = .ok a st1) :
    Post T0 st st1 a.nodes := by
  simp only [Parser.continueStatement, bind, ParserM.bind_ok, Parser.pure_ok] at h
  obtain ⟨b, s0, hb, _, s1, h1, e, s2, h2, rfl, rfl⟩ := h
  obtain ⟨rfl, hlow⟩ := Parser.peekBegin_low T0 hT _ _ _ w hb
  obtain ⟨⟨w1, r1, l1, _⟩, e1, _⟩ := Parser.matchStr_post T0 _ _ _ _ w h1
  obtain ⟨rfl, hbe⟩ := Parser.peekBegin_le T0 _ _ _ _ _ w w1 (by omega) hlow h2
  refine ⟨w1, by omega, by omega, ?_⟩
  simp only [AST.nodes, good_cons]
  exact ⟨wf_unscoped _ _ _ _ rfl hbe, good_nil _⟩

theorem ite_pos_run {α : Type} {P : Prop} [Decidable P] (A B : ParserM α) (st : ParserState)
    (r : ParseResult α) (hP : P) (h : (if P then A else B) st = r) : A st = r := by
  rw [if_pos hP] at h
  exact h

theorem ite_neg_run {α : Type} {P : Prop} [Decidable P] (A B : ParserM α) (st : ParserState)
    (r : ParseResult α) (hP : ¬ P) (h : (if P then A else B) st = r) : B st = r := by
  rw [if_neg hP] at h
  exact h

/-- A statement followed by `opteol()`. -/
theorem opteol_after (T0 : List Token) (m : ParserM AST) (st st1 : ParserState) (a : AST)
    (hm : ∀ (s1 : ParserState) (x : AST), m st = .ok x s1 → Post T0 st s1 x.nodes)
    (h : ∃ (x : AST) (s1 : ParserState), m st = .ok x s1 ∧
      ∃ (u : PUnit) (s2 : ParserState), Parser.opteol s1 = .ok u s2 ∧ x = a ∧ s2 = st1) :
    Post T0 st st1 a.nodes := by
  obtain ⟨x, s1, h1, u, s2, h2, rfl, rfl⟩ := h
  obtain ⟨w1, r1, l1, g1⟩ := hm _ _ h1
  obtain ⟨⟨w2, r2, l2, _⟩, e2⟩ := Parser.opteol_post T0 _ _ _ w1 h2
  exact ⟨w2, by omega, by omega, g1.mono (by omega)⟩

theorem statement_spec (T0 : List Token) (hT : TokensOk T0) (fuel : Nat)
    (ih : ParserSpec T0 fuel) : SpecTree T0 (Parser.statement (fuel + 1)) := by
  intro i st st1 a w hi h
  unfold Parser.statement at h
  replace h := (ParserM.bind_ok _ _ _ _ _).1 h
  obtain ⟨c, s0, hc, h⟩ := h
  obtain rfl := Parser.expectStr_eq _ _ _ _ hc
  by_cases hcc : c = true
  · replace h := ite_pos_run _ _ _ _ hcc h
    exact emptyStatement_post T0 hT _ _ _ w h
  replace h := ite_neg_run _ _ _ _ hcc h
  clear hcc hc
  replace h := (ParserM.bind_ok _ _ _ _ _).1 h
  obtain ⟨c, s0, hc, h⟩ := h
  obtain rfl := Parser.expectStr_eq _ _ _ _ hc
  by_cases hcc : c = true
  · replace h := ite_pos_run _ _ _ _ hcc h
    simp only [bind, ParserM.bind_ok, Parser.pure_ok] at h
    exact opteol_after T0 _ _ _ _ (fun s1 x hx => ih.varStatement _ _ _ _ w hi hx) h
  replace h := ite_neg_run _ _ _ _ hcc h
  clear hcc hc
  replace h := (ParserM.bind_ok _ _ _ _ _).1 h
  obtain ⟨c, s0, hc, h⟩ := h
  obtain rfl := Parser.expectStr_eq _ _ _ _ hc
  by_cases hcc : c = true
  · replace h := ite_pos_run _ _ _ _ hcc h
    simp only [bind, ParserM.bind_ok, Parser.pure_ok] at h
    exact opteol_after T0 _ _ _ _ (fun s1 x hx => ih.block _ _ _ _ w hi hx) h
  replace h := ite_neg_run _ _ _ _ hcc h
  clear hcc hc
  replace h := (ParserM.bind_ok _ _ _ _ _).1 h
  obtain ⟨c, s0, hc, h⟩ := h
  obtain rfl := Parser.expectStr_eq _ _ _ _ hc
  by_cases hcc : c = true
  · replace h := ite_pos_run _ _ _ _ hcc h
    exact ih.ifStatement _ _ _ _ w hi h
  replace h := ite_neg_run _ _ _ _ hcc h
  clear hcc hc
  replace h := (ParserM.bind_ok _ _ _ _ _).1 h
  obtain ⟨c, s0, hc, h⟩ := h
  obtain rfl := Parser.expectStr_eq _ _ _ _ hc
  by_cases hcc : c = true
  · replace h := ite_pos_run _ _ _ _ hcc h
    exact ih.switchStatement _ _ _ _ w hi h
  replace h := ite_neg_run _ _ _ _ hcc h
  clear hcc hc
  replace h := (ParserM.bind_ok _ _ _ _ _).1 h
  obtain ⟨c, s0, hc, h⟩ := h
  obtain rfl := Parser.expectStr_eq _ _ _ _ hc
  by_cases hcc : c = true
  · replace h := ite_pos_run _ _ _ _ hcc h
    simp only [bind, ParserM.bind_ok, Parser.pure_ok] at h
    exact opteol_after T0 _ _ _ _ (fun s1 x hx => ih.doStatement _ _ _ _ w hi hx) h
  replace h := ite_neg_run _ _ _ _ hcc h
  clear hcc hc
  replace h := (ParserM.bind_ok _ _ _ _ _).1 h
  obtain ⟨c, s0, hc, h⟩ := h
  obtain rfl := Parser.expectStr_eq _ _ _ _ hc
  by_cases hcc : c = true
  · replace h := ite_pos_run _ _ _ _ hcc h
    exact ih.whileStatement _ _ _ _ w hi h
  replace h := ite_neg_run _ _ _ _ hcc h
  clear hcc hc
  replace h := (ParserM.bind_ok _ _ _ _ _).1 h
  obtain ⟨c, s0, hc, h⟩ := h
  obtain rfl := Parser.expectStr_eq _ _ _ _ hc
  by_cases hcc : c = true
  · replace h := ite_pos_run _ _ _ _ hcc h
    exact ih.forStatement _ _ _ _ w hi h
  replace h := ite_neg_run _ _ _ _ hcc h
  clear hcc hc
  replace h := (ParserM.bind_ok _ _ _ _ _).1 h
  obtain ⟨c, s0, hc, h⟩ := h
  obtain rfl := Parser.expectStr_eq _ _ _ _ hc
  by_cases hcc : c = true
  · replace h := ite_pos_run _ _ _ _ hcc h
    exact ih.withStatement _ _ _ _ w hi h
  replace h := ite_neg_run _ _ _ _ hcc h
  clear hcc hc
  replace h := (ParserM.bind_ok _ _ _ _ _).1 h
  obtain ⟨c, s0, hc, h⟩ := h
  obtain rfl := Parser.expectStr_eq _ _ _ _ hc
  by_cases hcc : c = true
  · replace h := ite_pos_run _ _ _ _ hcc h
    simp only [bind, ParserM.bind_ok, Parser.pure_ok] at h
    exact opteol_after T0 _ _ _ _ (fun s1 x hx => continueStatement_post T0 hT _ _ _ w hx) h
  replace h := ite_neg_run _ _ _ _ hcc h
  clear hcc hc
  replace h := (ParserM.bind_ok _ _ _ _ _).1 h
  obtain ⟨c, s0, hc, h⟩ := h
  obtain rfl := Parser.expectStr_eq _ _ _ _ hc
  by_cases hcc : c = true
  · replace h := ite_pos_run _ _ _ _ hcc h
    simp only [bind, ParserM.bind_ok, Parser.pure_ok] at h
    exact opteol_after T0 _ _ _ _ (fun s1 x hx => breakStatement_post T0 hT _ _ _ w hx) h
  replace h := ite_neg_run _ _ _ _ hcc h
  clear hcc hc
  replace h := (ParserM.bind_ok _ _ _ _ _).1 h
  obtain ⟨c, s0, hc, h⟩ := h
  obtain rfl := Parser.expectStr_eq _ _ _ _ hc
  by_cases hcc : c = true
  · replace h := ite_pos_run _ _ _ _ hcc h
    simp only [bind, ParserM.bind_ok, Parser.pure_ok] at h
    exact opteol_after T0 _ _ _ _ (fun s1 x hx => ih.returnStatement _ _ _ _ w hi hx) h
  replace h := ite_neg_run _ _ _ _ hcc h
  clear hcc hc
  replace h := (ParserM.bind_ok _ _ _ _ _).1 h
  obtain ⟨c, s0, hc, h⟩ := h
  obtain rfl := Parser.expectStr_eq _ _ _ _ hc
  by_cases hcc : c = true
  · replace h := ite_pos_run _ _ _ _ hcc h
    exact ih.tryStatement _ _ _ _ w hi h
  replace h := ite_neg_run _ _ _ _ hcc h
  clear hcc hc
  replace h := (ParserM.bind_ok _ _ _ _ _).1 h
  obtain ⟨c, s0, hc, h⟩ := h
  obtain rfl := Parser.expectStr_eq _ _ _ _ hc
  by_cases hcc : c = true
  · replace h := ite_pos_run _ _ _ _ hcc h
    simp only [bind, ParserM.bind_ok, Parser.pure_ok] at h
    exact opteol_after T0 _ _ _ _ (fun s1 x hx => ih.throwStatement _ _ _ _ w hi hx) h
  replace h := ite_neg_run _ _ _ _ hcc h
  clear hcc hc
  simp only [bind, ParserM.bind_ok, Parser.pure_ok] at h
  exact opteol_after T0 _ _ _ _ (fun s1 x hx => ih.expressionPri _ _ _ _ _ w hi hx) h

/-- A literal made of one token. -/
theorem literal_post (T0 : List Token) (hT : TokensOk T0) (st st1 : ParserState) (a : AST)
    (f : Token → AST) (ty : ASTType) (hty : ty.unscoped = true)
    (hf : ∀ t, (f t).nodes = [⟨ty, t.range_, none⟩]) (w : st.within T0)
    (h : ∃ (t : Token) (s1 : ParserState), Parser.get st = .ok t s1 ∧ f t = a ∧ s1 = st1) :
    Post T0 st st1 a.nodes := by
  obtain ⟨t, s1, h1, rfl, rfl⟩ := h
  obtain ⟨⟨w1, r1, l1, _⟩, e1, hm⟩ := Parser.get_post T0 _ _ _ w h1
  refine ⟨w1, r1, l1, ?_⟩
  rw [hf, good_cons]
  exact ⟨wf_range_unscoped _ _ _ hty (tok_range T0 hT _ w.1 t hm), good_nil _⟩

theorem primary_spec (T0 : List Token) (hT : TokensOk T0) (fuel : Nat)
    (ih : ParserSpec T0 fuel) : SpecTree T0 (Parser.primary (fuel + 1)) := by
  intro i st st1 a w hi h
  unfold Parser.primary at h
  replace h := (ParserM.bind_ok _ _ _ _ _).1 h
  obtain ⟨c, s0, hc, h⟩ := h
  obtain rfl := Parser.expectStr_eq _ _ _ _ hc
  by_cases hcc : c = true
  · replace h := ite_pos_run _ _ _ _ hcc h
    simp only [bind, ParserM.bind_ok, Parser.pure_ok] at h
    obtain ⟨_, s1, h1, x, s2, h2, _, s3, h3, rfl, rfl⟩ := h
    obtain ⟨⟨w1, r1, l1, _⟩, e1, _⟩ := Parser.matchStr_post T0 _ _ _ _ w h1
    obtain ⟨w2, r2, l2, g2⟩ := ih.expressionPri _ _ _ _ _ w1 (by omega) h2
    obtain ⟨⟨w3, r3, l3, _⟩, e3, _⟩ := Parser.matchStr_post T0 _ _ _ _ w2 h3
    exact ⟨w3, by omega, by omega, g2.mono (by omega)⟩
  replace h := ite_neg_run _ _ _ _ hcc h
  clear hcc hc
  replace h := (ParserM.bind_ok _ _ _ _ _).1 h
  obtain ⟨c, s0, hc, h⟩ := h
  obtain rfl := Parser.expectType_eq _ _ _ _ hc
  by_cases hcc : c = true
  · replace h := ite_pos_run _ _ _ _ hcc h
    simp only [bind, ParserM.bind_ok, Parser.pure_ok] at h
    obtain ⟨id, s1, h1, rfl, rfl⟩ := h
    obtain ⟨⟨w1, r1, l1, g1⟩, e1⟩ := Parser.identifier_post T0 hT _ _ _ _ w hi h1
    exact ⟨w1, r1, l1, by simp only [AST.nodes]; exact g1⟩
  replace h := ite_neg_run _ _ _ _ hcc h
  clear hcc hc
  replace h := (ParserM.bind_ok _ _ _ _ _).1 h
  obtain ⟨c, s0, hc, h⟩ := h
  replace h := (ParserM.bind_ok _ _ _ _ _).1 h
  obtain ⟨c2, s1, hc2, h⟩ := h
  obtain rfl := Parser.expectStr_eq _ _ _ _ hc
  obtain rfl := Parser.expectStr_eq _ _ _ _ hc2
  by_cases hcc : (c || c2) = true
  · replace h := ite_pos_run _ _ _ _ hcc h
    simp only [bind, ParserM.bind_ok, Parser.pure_ok] at h
    exact literal_post T0 hT _ _ _ (fun b => .LiteralBool b.range_ none (b.data_ == "true"))
      .LITERAL_BOOL rfl (fun t => rfl) w h
  replace h := ite_neg_run _ _ _ _ hcc h
  clear hcc hc hc2
  replace h := (ParserM.bind_ok _ _ _ _ _).1 h
  obtain ⟨c, s0, hc, h⟩ := h
  obtain rfl := Parser.expectStr_eq _ _ _ _ hc
  by_cases hcc : c = true
  · replace h := ite_pos_run _ _ _ _ hcc h
    simp only [bind, ParserM.bind_ok, Parser.pure_ok] at h
    exact literal_post T0 hT _ _ _ (fun n => .LiteralNull n.range_ none)
      .LITERAL_NULL rfl (fun t => rfl) w h
  replace h := ite_neg_run _ _ _ _ hcc h
  clear hcc hc
  replace h := (ParserM.bind_ok _ _ _ _ _).1 h
  obtain ⟨c, s0, hc, h⟩ := h
  obtain rfl := Parser.expectType_eq _ _ _ _ hc
  by_cases hcc : c = true
  · replace h := ite_pos_run _ _ _ _ hcc h
    simp only [bind, ParserM.bind_ok, Parser.pure_ok] at h
    exact literal_post T0 hT _ _ _ LiteralString.ofToken
      .LITERAL_STRING rfl (fun t => rfl) w h
  replace h := ite_neg_run _ _ _ _ hcc h
  clear hcc hc
  replace h := (ParserM.bind_ok _ _ _ _ _).1 h
  obtain ⟨c, s0, hc, h⟩ := h
  obtain rfl := Parser.expectType_eq _ _ _ _ hc
  by_cases hcc : c = true
  · replace h := ite_pos_run _ _ _ _ hcc h
    simp only [bind, ParserM.bind_ok, Parser.pure_ok] at h
    exact literal_post T0 hT _ _ _ (fun n => .LiteralNumber n.range_ none n.data_)
      .LITERAL_NUMBER rfl (fun t => rfl) w h
  replace h := ite_neg_run _ _ _ _ hcc h
  clear hcc hc
  replace h := (ParserM.bind_ok _ _ _ _ _).1 h
  obtain ⟨c, s0, hc, h⟩ := h
  replace h := (ParserM.bind_ok _ _ _ _ _).1 h
  obtain ⟨c2, s1, hc2, h⟩ := h
  obtain rfl := Parser.expectStr_eq _ _ _ _ hc
  obtain rfl := Parser.expectStr_eq _ _ _ _ hc2
  by_cases hcc : (c || c2) = true
  · replace h := ite_pos_run _ _ _ _ hcc h
    simp only [bind, ParserM.bind_ok, Parser.pure_ok] at h
    obtain ⟨t, s2, h2, rfl, rfl⟩ := h
    obtain ⟨⟨w1, r1, l1, _⟩, e1, hm⟩ := Parser.get_post T0 _ _ _ w h2
    refine ⟨w1, r1, l1, ?_⟩
    simp only [AST.nodes, good_cons]
    exact ⟨wf_range_scoped _ _ _ _ rfl (tok_range T0 hT _ w.1 t hm) (by omega), good_nil _⟩
  replace h := ite_neg_run _ _ _ _ hcc h
  clear hcc hc hc2
  replace h := (ParserM.bind_ok _ _ _ _ _).1 h
  obtain ⟨c, s0, hc, h⟩ := h
  obtain rfl := Parser.expectStr_eq _ _ _ _ hc
  by_cases hcc : c = true
  · replace h := ite_pos_run _ _ _ _ hcc h
    exact ih.literalArray _ _ _ _ w hi h
  replace h := ite_neg_run _ _ _ _ hcc h
  clear hcc hc
  replace h := (ParserM.bind_ok _ _ _ _ _).1 h
  obtain ⟨c, s0, hc, h⟩ := h
  obtain rfl := Parser.expectStr_eq _ _ _ _ hc
  by_cases hcc : c = true
  · replace h := ite_pos_run _ _ _ _ hcc h
    exact ih.literalObject _ _ _ _ w hi h
  replace h := ite_neg_run _ _ _ _ hcc h
  clear hcc hc
  replace h := (ParserM.bind_ok _ _ _ _ _).1 h
  obtain ⟨c, s0, hc, h⟩ := h
  obtain rfl := Parser.expectStr_eq _ _ _ _ hc
  by_cases hcc : c = true
  · replace h := ite_pos_run _ _ _ _ hcc h
    exact ih.function _ _ _ _ w hi h
  replace h := ite_neg_run _ _ _ _ hcc h
  clear hcc hc
  replace h := (ParserM.bind_ok _ _ _ _ _).1 h
  obtain ⟨c, s0, hc, h⟩ := h
  obtain rfl := Parser.expectType_eq _ _ _ _ hc
  by_cases hcc : c = true
  · replace h := ite_pos_run _ _ _ _ hcc h
    simp only [bind, ParserM.bind_ok, Parser.pure_ok] at h
    exact literal_post T0 hT _ _ _ (fun s => .LiteralRegular s.range_ none s.data_)
      .LITERAL_REGULAR rfl (fun t => rfl) w h
  replace h := ite_neg_run _ _ _ _ hcc h
  clear hcc hc
  cases h

theorem expressionPri_spec (T0 : List Token) (hT : TokensOk T0) (fuel : Nat)
    (ih : ParserSpec T0 fuel) (pri : Nat) :
    SpecTree T0 (Parser.expressionPri (fuel + 1) pri) := by
  intro i st st1 a w hi h
  unfold Parser.expressionPri at h
  simp only [bind, ParserM.bind_ok] at h
  obtain ⟨b, s0, hb, h⟩ := h
  obtain ⟨rfl, hlow⟩ := Parser.peekBegin_low T0 hT _ _ _ w hb
  split at h
  · -- unary operators and operands
    simp only [ParserM.bind_ok] at h
    obtain ⟨c1, s1, hc1, c2, s2, hc2, c3, s3, hc3, h⟩ := h
    obtain rfl := Parser.expectStr_eq _ _ _ _ hc1
    obtain rfl := Parser.expectStr_eq _ _ _ _ hc2
    obtain rfl := Parser.expectStr_eq _ _ _ _ hc3
    split at h
    · simp only [ParserM.bind_ok, Parser.pure_ok] at h
      obtain ⟨op, s4, h4, x, s5, h5, e, s6, h6, rfl, rfl⟩ := h
      obtain ⟨⟨w4, r4, l4, _⟩, e4, _⟩ := Parser.get_post T0 _ _ _ w h4
      obtain ⟨w5, r5, l5, g5⟩ := ih.leftExpression _ _ _ _ w4 (by omega) h5
      obtain ⟨rfl, hbe⟩ := Parser.peekBegin_le T0 _ _ _ _ _ w w5 (by omega) hlow h6
      refine ⟨w5, by omega, by omega, ?_⟩
      simp only [AST.nodes, good_cons]
      exact ⟨wf_scoped _ _ _ _ _ rfl hbe (by omega), g5⟩
    · simp only [ParserM.bind_ok] at h
      obtain ⟨d1, t1, hd1, d2, t2, hd2, d3, t3, hd3, d4, t4, hd4, d5, t5, hd5, d6, t6, hd6, h⟩ := h
      obtain rfl := Parser.expectStr_eq _ _ _ _ hd1
      obtain rfl := Parser.expectStr_eq _ _ _ _ hd2
      obtain rfl := Parser.expectStr_eq _ _ _ _ hd3
      obtain rfl := Parser.expectStr_eq _ _ _ _ hd4
      obtain rfl := Parser.expectStr_eq _ _ _ _ hd5
      obtain rfl := Parser.expectStr_eq _ _ _ _ hd6
      split at h
      · simp only [ParserM.bind_ok, Parser.pure_ok] at h
        obtain ⟨op, s4, h4, x, s5, h5, e, s6, h6, rfl, rfl⟩ := h
        obtain ⟨⟨w4, r4, l4, _⟩, e4, _⟩ := Parser.get_post T0 _ _ _ w h4
        obtain ⟨w5, r5, l5, g5⟩ := ih.expressionPri _ _ _ _ _ w4 (by omega) h5
        obtain ⟨rfl, hbe⟩ := Parser.peekBegin_le T0 _ _ _ _ _ w w5 (by omega) hlow h6
        refine ⟨w5, by omega, by omega, ?_⟩
        simp only [AST.nodes, good_cons]
        exact ⟨wf_scoped _ _ _ _ _ rfl hbe (by omega), g5⟩
      · simp only [ParserM.bind_ok] at h
        obtain ⟨x, s5, h5, e1, u1, he1, e2, u2, he2, h⟩ := h
        obtain ⟨w5, r5, l5, g5⟩ := ih.leftExpression _ _ _ _ w hi h5
        obtain rfl := Parser.expectStr_eq _ _ _ _ he1
        obtain rfl := Parser.expectStr_eq _ _ _ _ he2
        split at h
        · simp only [ParserM.bind_ok, Parser.pure_ok] at h
          obtain ⟨op, s6, h6, e, s7, h7, rfl, rfl⟩ := h
          obtain ⟨⟨w6, r6, l6, _⟩, e6, _⟩ := Parser.get_post T0 _ _ _ w5 h6
          obtain ⟨rfl, hbe⟩ := Parser.peekBegin_le T0 _ _ _ _ _ w w6 (by omega) hlow h7
          refine ⟨w6, by omega, by omega, ?_⟩
          simp only [AST.nodes, good_cons]
          exact ⟨wf_scoped _ _ _ _ _ rfl hbe (by omega), g5.mono (by omega)⟩
        · simp only [Parser.pure_ok] at h
          obtain ⟨rfl, rfl⟩ := h
          exact ⟨w5, r5, l5, g5⟩
  · -- binary and ternary operators
    simp only [ParserM.bind_ok] at h
    obtain ⟨left, s1, h1, c, s2, hc, h⟩ := h
    obtain ⟨w1, r1, l1, g1⟩ := ih.expressionPri _ _ _ _ _ w hi h1
    obtain rfl := Parser.expectOperator_eq _ _ _ _ hc
    split at h
    · simp only [Parser.pure_ok] at h
      obtain ⟨rfl, rfl⟩ := h
      exact ⟨w1, r1, l1, g1⟩
    · simp only [ParserM.bind_ok] at h
      obtain ⟨op, s3, h3, h⟩ := h
      obtain ⟨⟨w3, r3, l3, _⟩, e3, _⟩ := Parser.get_post T0 _ _ _ w1 h3
      split at h
      · simp only [ParserM.bind_ok, Parser.pure_ok] at h
        obtain ⟨first, s4, h4, _, s5, h5, second, s6, h6, e, s7, h7, rfl, rfl⟩ := h
        obtain ⟨w4, r4, l4, g4⟩ := ih.expressionPri _ _ _ _ _ w3 (by omega) h4
        obtain ⟨⟨w5, r5, l5, _⟩, e5, _⟩ := Parser.matchStr_post T0 _ _ _ _ w4 h5
        obtain ⟨w6, r6, l6, g6⟩ := ih.expressionPri _ _ _ _ _ w5 (by omega) h6
        obtain ⟨rfl, hbe⟩ := Parser.peekBegin_le T0 _ _ _ _ _ w w6 (by omega) hlow h7
        refine ⟨w6, by omega, by omega, ?_⟩
        simp only [AST.nodes, good_cons, good_append]
        exact ⟨wf_scoped _ _ _ _ _ rfl hbe (by omega),
          ⟨g1.mono (by omega), g4.mono (by omega)⟩, g6⟩
      · simp only [ParserM.bind_ok] at h
        obtain ⟨right, s4, h4, e, s5, h5, h⟩ := h
        obtain ⟨w4, r4, l4, g4⟩ := ih.expressionPri _ _ _ _ _ w3 (by omega) h4
        obtain ⟨rfl, hbe⟩ := Parser.peekBegin_le T0 _ _ _ _ _ w w4 (by omega) hlow h5
        obtain ⟨w6, r6, l6, g6⟩ := ih.expressionChain _ _ _ _ _ _ _ _ w4 (by omega) hbe
          (g1.mono (by omega))
          (by
            simp only [AST.nodes, good_cons, good_append]
            exact ⟨wf_scoped _ _ _ _ _ rfl hbe (by omega), g1.mono (by omega), g4⟩) h
        exact ⟨w6, by omega, by omega, g6⟩

theorem forbeginPri_spec (T0 : List Token) (hT : TokensOk T0) (fuel : Nat)
    (ih : ParserSpec T0 fuel) (pri : Nat) :
    SpecTree T0 (Parser.forbeginPri (fuel + 1) pri) := by
  intro i st st1 a w hi h
  unfold Parser.forbeginPri at h
  simp only [bind, ParserM.bind_ok] at h
  obtain ⟨b, s0, hb, h⟩ := h
  obtain ⟨rfl, hlow⟩ := Parser.peekBegin_low T0 hT _ _ _ w hb
  split at h
  · -- unary operators and operands
    simp only [ParserM.bind_ok] at h
    obtain ⟨c1, s1, hc1, c2, s2, hc2, c3, s3, hc3, h⟩ := h
    obtain rfl := Parser.expectStr_eq _ _ _ _ hc1
    obtain rfl := Parser.expectStr_eq _ _ _ _ hc2
    obtain rfl := Parser.expectStr_eq _ _ _ _ hc3
    split at h
    · simp only [ParserM.bind_ok, Parser.pure_ok] at h
      obtain ⟨op, s4, h4, x, s5, h5, e, s6, h6, rfl, rfl⟩ := h
      obtain ⟨⟨w4, r4, l4, _⟩, e4, _⟩ := Parser.get_post T0 _ _ _ w h4
      obtain ⟨w5, r5, l5, g5⟩ := ih.leftExpression _ _ _ _ w4 (by omega) h5
      obtain ⟨rfl, hbe⟩ := Parser.peekBegin_le T0 _ _ _ _ _ w w5 (by omega) hlow h6
      refine ⟨w5, by omega, by omega, ?_⟩
      simp only [AST.nodes, good_cons]
      exact ⟨wf_scoped _ _ _ _ _ rfl hbe (by omega), g5⟩
    · simp only [ParserM.bind_ok] at h
      obtain ⟨d1, t1, hd1, d2, t2, hd2, d3, t3, hd3, d4, t4, hd4, d5, t5, hd5, d6, t6, hd6, h⟩ := h
      obtain rfl := Parser.expectStr_eq _ _ _ _ hd1
      obtain rfl := Parser.expectStr_eq _ _ _ _ hd2
      obtain rfl := Parser.expectStr_eq _ _ _ _ hd3
      obtain rfl := Parser.expectStr_eq _ _ _ _ hd4
      obtain rfl := Parser.expectStr_eq _ _ _ _ hd5
      obtain rfl := Parser.expectStr_eq _ _ _ _ hd6
      split at h
      · simp only [ParserM.bind_ok, Parser.pure_ok] at h
        obtain ⟨op, s4, h4, x, s5, h5, e, s6, h6, rfl, rfl⟩ := h
        obtain ⟨⟨w4, r4, l4, _⟩, e4, _⟩ := Parser.get_post T0 _ _ _ w h4
        obtain ⟨w5, r5, l5, g5⟩ := ih.expressionPri _ _ _ _ _ w4 (by omega) h5
        obtain ⟨rfl, hbe⟩ := Parser.peekBegin_le T0 _ _ _ _ _ w w5 (by omega) hlow h6
        refine ⟨w5, by omega, by omega, ?_⟩
        simp only [AST.nodes, good_cons]
        exact ⟨wf_scoped _ _ _ _ _ rfl hbe (by omega), g5⟩
      · simp only [ParserM.bind_ok] at h
        obtain ⟨x, s5, h5, e1, u1, he1, e2, u2, he2, h⟩ := h
        obtain ⟨w5, r5, l5, g5⟩ := ih.leftExpression _ _ _ _ w hi h5
        obtain rfl := Parser.expectStr_eq _ _ _ _ he1
        obtain rfl := Parser.expectStr_eq _ _ _ _ he2
        split at h
        · simp only [ParserM.bind_ok, Parser.pure_ok] at h
          obtain ⟨op, s6, h6, e, s7, h7, rfl, rfl⟩ := h
          obtain ⟨⟨w6, r6, l6, _⟩, e6, _⟩ := Parser.get_post T0 _ _ _ w5 h6
          obtain ⟨rfl, _⟩ := (Parser.peekBegin_ok _ _ _).1 h7
          exact ⟨w6, by omega, by omega, g5.mono (by omega)⟩
        · simp only [Parser.pure_ok] at h
          obtain ⟨rfl, rfl⟩ := h
          exact ⟨w5, r5, l5, g5⟩
  · -- binary and ternary operators
    simp only [ParserM.bind_ok] at h
    obtain ⟨left, s1, h1, c, s2, hc, c2, s2a, hc2, h⟩ := h
    obtain ⟨w1, r1, l1, g1⟩ := ih.forbeginPri _ _ _ _ _ w hi h1
    obtain rfl := Parser.expectOperator_eq _ _ _ _ hc
    obtain rfl := Parser.expectStr_eq _ _ _ _ hc2
    split at h
    · simp only [Parser.pure_ok] at h
      obtain ⟨rfl, rfl⟩ := h
      exact ⟨w1, r1, l1, g1⟩
    · simp only [ParserM.bind_ok] at h
      obtain ⟨op, s3, h3, h⟩ := h
      obtain ⟨⟨w3, r3, l3, _⟩, e3, _⟩ := Parser.get_post T0 _ _ _ w1 h3
      have tail : ∀ s4 : ParserState, s4.within T0 → s4.toks.length ≤ s3.toks.length →
          s3.scopes.length ≤ s4.scopes.length →
          (∃ (right : AST) (s5 : ParserState),
            Parser.forbeginPri fuel pri (some i) s4 = .ok right s5 ∧
            ∃ (e : Position) (s6 : ParserState), Parser.peekBegin s5 = .ok e s6 ∧
              Parser.forbeginChain fuel pri (some i) ⟨b, e⟩ left
                (.BiExpression ⟨b, e⟩ (some i) left op.data_ right) s6 = .ok a st1) →
          Post T0 s4 st1 a.nodes := by
        intro s4 w4 r4 l4 h
        obtain ⟨right, s5, h5, e, s6, h6, h⟩ := h
        obtain ⟨w5, r5, l5, g5⟩ := ih.forbeginPri _ _ _ _ _ w4 (by omega) h5
        obtain ⟨rfl, hbe⟩ := Parser.peekBegin_le T0 _ _ _ _ _ w w5 (by omega) hlow h6
        obtain ⟨w6, r6, l6, g6⟩ := ih.forbeginChain _ _ _ _ _ _ _ _ w5 (by omega) hbe
          (g1.mono (by omega))
          (by
            simp only [AST.nodes, good_cons, good_append]
            exact ⟨wf_scoped _ _ _ _ _ rfl hbe (by omega), g1.mono (by omega), g5⟩) h
        exact ⟨w6, by omega, by omega, g6⟩
      split at h
      · simp only [ParserM.bind_ok, Parser.pure_ok] at h
        obtain ⟨_, t1, k1, _, t2, k2, _, t3, k3, _, t4, k4, _, _, ⟨_, rfl⟩, h⟩ := h
        obtain ⟨v1, q1, m1, _⟩ := ih.forbeginPri _ _ _ _ _ w3 (by omega) k1
        obtain ⟨⟨v2, q2, m2, _⟩, _, _⟩ := Parser.matchStr_post T0 _ _ _ _ v1 k2
        obtain ⟨v3, q3, m3, _⟩ := ih.forbeginPri _ _ _ _ _ v2 (by omega) k3
        obtain ⟨rfl, _⟩ := (Parser.peekBegin_ok _ _ _).1 k4
        obtain ⟨w6, r6, l6, g6⟩ := tail _ v3 (by omega) (by omega) h
        exact ⟨w6, by omega, by omega, g6⟩
      · simp only [ParserM.bind_ok, Parser.pure_ok] at h
        obtain ⟨_, _, ⟨_, rfl⟩, h⟩ := h
        obtain ⟨w6, r6, l6, g6⟩ := tail _ w3 (Nat.le_refl _) (Nat.le_refl _) h
        exact ⟨w6, by omega, by omega, g6⟩

theorem parserSpec_zero (T0 : List Token) : ParserSpec T0 0 := by
  constructor
  all_goals simp only [SpecTree, SpecList, SpecTrees, SpecDecl, SpecDecls, SpecPairs,
    SpecBranches, SpecFrom, SpecForloop, SpecChain]
  all_goals intros
  all_goals rename_i h
  all_goals cases h

theorem parserSpec_succ (T0 : List Token) (hT : TokensOk T0) (fuel : Nat)
    (ih : ParserSpec T0 fuel) : ParserSpec T0 (fuel + 1) where
  topStatementsLoop := topStatementsLoop_spec T0 fuel ih
  topStatements := topStatements_spec T0 fuel ih
  topStatement := topStatement_spec T0 fuel ih
  namedFunction := namedFunction_spec T0 hT fuel ih
  statement := statement_spec T0 hT fuel ih
  varStatementLoop := varStatementLoop_spec T0 fuel ih
  varStatement := varStatement_spec T0 hT fuel ih
  declare := declare_spec T0 hT fuel ih
  block := block_spec T0 hT fuel ih
  statements := statements_spec T0 fuel ih
  ifStatement := ifStatement_spec T0 hT fuel ih
  switchStatementLoop := switchStatementLoop_spec T0 fuel ih
  switchStatement := switchStatement_spec T0 hT fuel ih
  doStatement := doStatement_spec T0 hT fuel ih
  whileStatement := whileStatement_spec T0 hT fuel ih
  forStatement := forStatement_spec T0 hT fuel ih
  forloop := forloop_spec T0 fuel ih
  forin := forin_spec T0 fuel ih
  returnStatement := returnStatement_spec T0 hT fuel ih
  withStatement := withStatement_spec T0 hT fuel ih
  throwStatement := throwStatement_spec T0 hT fuel ih
  tryStatementLoop := tryStatementLoop_spec T0 fuel ih
  tryStatement := tryStatement_spec T0 hT fuel ih
  expressionLoop := expressionLoop_spec T0 fuel ih
  expression := expression_spec T0 hT fuel ih
  expressionPri := expressionPri_spec T0 hT fuel ih
  expressionChain := expressionChain_spec T0 fuel ih
  leftExpression := leftExpression_spec T0 fuel ih
  constructor := constructor_spec T0 hT fuel ih
  callExpressionLoop := callExpressionLoop_spec T0 hT fuel ih
  callExpression := callExpression_spec T0 hT fuel ih
  arglistLoop := arglistLoop_spec T0 fuel ih
  arglist := arglist_spec T0 fuel ih
  primary := primary_spec T0 hT fuel ih
  function := function_spec T0 hT fuel ih
  literalArrayLoop := literalArrayLoop_spec T0 fuel ih
  literalArray := literalArray_spec T0 hT fuel ih
  literalObjectLoop := literalObjectLoop_spec T0 fuel ih
  literalObject := literalObject_spec T0 hT fuel ih
  forbeginPri := forbeginPri_spec T0 hT fuel ih
  forbeginChain := forbeginChain_spec T0 fuel ih
  forbeginLoop := forbeginLoop_spec T0 fuel ih
  forbegin := forbegin_spec T0 hT fuel ih

theorem parserSpec (T0 : List Token) (hT : TokensOk T0) (fuel : Nat) : ParserSpec T0 fuel := by
  induction fuel with
  | zero => exact parserSpec_zero T0
  | succ f ih => exact parserSpec_succ T0 hT f ih

/-! ## Lemmas on the positions of the tokens -/

theorem scanIdentifier_col (src : List Char) (e fuel f c : Nat) :
    c ≤ (scanIdentifier src e fuel f c).2 := by
  induction fuel generalizing f c with
  | zero => simp [scanIdentifier]
  | succ k ih =>
    unfold scanIdentifier
    split
    · exact Nat.le_trans (Nat.le_succ c) (ih (f + 1) (c + 1))
    · exact Nat.le_refl c

theorem scanLineComment_col (src : List Char) (e fuel f c : Nat) :
    c ≤ (scanLineComment src e fuel f c).2 := by
  induction fuel generalizing f c with
  | zero => simp [scanLineComment]
  | succ k ih =>
    unfold scanLineComment
    split
    · exact Nat.le_trans (Nat.le_succ c) (ih (f + 1) (c + 1))
    · exact Nat.le_refl c

theorem scanOperator_col (src : List Char) (e cur fuel f c : Nat) :
    c ≤ (scanOperator src e cur fuel f c).2 := by
  induction fuel generalizing f c with
  | zero => simp [scanOperator]
  | succ k ih =>
    unfold scanOperator
    split
    · exact Nat.le_trans (Nat.le_succ c) (ih (f + 1) (c + 1))
    · exact Nat.le_refl c

theorem scanQuoted_pos (src : List Char) (e : Nat) (q : Char) (fuel f l c : Nat) :
    Position.le ⟨l, c⟩
      ⟨(scanQuoted src e q fuel f l c).2.1, (scanQuoted src e q fuel f l c).2.2⟩ := by
  induction fuel generalizing f l c with
  | zero => simp [scanQuoted, Position.le]
  | succ k ih =>
    unfold scanQuoted
    split
    · refine Position.le_trans ?_ (ih _ _ _)
      unfold Position.le
      simp only
      split <;> omega
    · exact Position.le_refl _

theorem scanBlockComment_pos (src : List Char) (e fuel f l c : Nat) :
    Position.le ⟨l, c⟩
      ⟨(scanBlockComment src e fuel f l c).2.1, (scanBlockComment src e fuel f l c).2.2⟩ := by
  induction fuel generalizing f l c with
  | zero => simp [scanBlockComment, Position.le]
  | succ k ih =>
    unfold scanBlockComment
    simp only
    split
    · split
      · refine Position.le_trans ?_ (ih _ _ _)
        unfold Position.le
        simp only
        omega
      · split
        · split
          · exact Position.le_refl _
          · exact ih _ _ _
        · exact ih _ _ _
    · exact Position.le_refl _

/-- One step of the lexer does not move the position backwards, and a token it emits
begins at the old position, ends at the new one, and the new one is after the
old. -/
theorem processStep_pos (src : List Char) (st st1 : LexState)
    (h : processStep src st = some st1) :
    Position.le ⟨st.line, st.col⟩ ⟨st1.line, st1.col⟩ ∧
      (st1.tokens_ = st.tokens_ ∨
        ∃ tok, st1.tokens_ = st.tokens_ ++ [tok] ∧ tok.range_.begin_ = ⟨st.line, st.col⟩
          ∧ tok.range_.end_ = ⟨st1.line, st1.col⟩
          ∧ Position.lt ⟨st.line, st.col⟩ ⟨st1.line, st1.col⟩) := by
  have hlt : ∀ p : Position, Position.le ⟨st.line, st.col + 1⟩ p →
      Position.lt ⟨st.line, st.col⟩ p := by
    intro p hp
    unfold Position.le at hp
    unfold Position.lt
    simp only at hp ⊢
    omega
  have hcol : ∀ c : Nat, st.col + 1 ≤ c → Position.le ⟨st.line, st.col + 1⟩ ⟨st.line, c⟩ := by
    intro c hc
    exact Or.inr ⟨rfl, hc⟩
  unfold processStep at h
  simp only at h
  split at h
  · -- identifier
    have hge := scanIdentifier_col src src.length src.length (st.cur + 1) (st.col + 1)
    simp only [Option.some.injEq] at h
    subst h
    exact ⟨Position.le_of_lt (hlt _ (hcol _ hge)), Or.inr ⟨_, rfl, rfl, rfl, hlt _ (hcol _ hge)⟩⟩
  · split at h
    · have hge := scanQuoted_pos src src.length (src.getD st.cur (Char.ofNat 0)) src.length
        (st.cur + 1) st.line (st.col + 1)
      simp only [Option.some.injEq] at h
      subst h
      exact ⟨Position.le_of_lt (hlt _ hge), Or.inr ⟨_, rfl, rfl, rfl, hlt _ hge⟩⟩
    · split at h
      · split at h
        · simp at h
        · have hge := scanQuoted_pos src src.length (src.getD st.cur (Char.ofNat 0)) src.length
            (st.cur + 1) st.line (st.col + 1)
          simp only [Option.some.injEq] at h
          subst h
          exact ⟨Position.le_of_lt (hlt _ hge), Or.inr ⟨_, rfl, rfl, rfl, hlt _ hge⟩⟩
      · split at h
        · have hge := scanLineComment_col src src.length src.length (st.cur + 1) (st.col + 1)
          simp only [Option.some.injEq] at h
          subst h
          exact ⟨Position.le_of_lt (hlt _ (hcol _ hge)), Or.inl rfl⟩
        · split at h
          · have hge := scanBlockComment_pos src src.length src.length (st.cur + 1 + 1) st.line
              (st.col + 1 + 1)
            simp only [Option.some.injEq] at h
            subst h
            refine ⟨Position.le_of_lt (hlt _ (Position.le_trans (hcol _ (by omega)) hge)),
              Or.inl rfl⟩
          · split at h
            · split at h
              · simp at h
              · simp only [Option.some.injEq] at h
                subst h
                exact ⟨Position.le_of_lt (hlt _ (Position.le_refl _)),
                  Or.inr ⟨_, rfl, rfl, rfl, hlt _ (Position.le_refl _)⟩⟩
            · split at h
              · simp only [Option.some.injEq] at h
                subst h
                exact ⟨Or.inl (Nat.lt_succ_self _), Or.inl rfl⟩
              · split at h
                · split at h
                  · simp at h
                  · have hge := scanOperator_col src src.length st.cur src.length (st.cur + 1)
                      (st.col + 1)
                    simp only [Option.some.injEq] at h
                    subst h
                    exact ⟨Position.le_of_lt (hlt _ (hcol _ hge)),
                      Or.inr ⟨_, rfl, rfl, rfl, hlt _ (hcol _ hge)⟩⟩
                · simp only [Option.some.injEq] at h
                  subst h
                  exact ⟨Position.le_of_lt (hlt _ (Position.le_refl _)), Or.inl rfl⟩

theorem tokensOk_snoc (ts : List Token) (t : Token) (h : TokensOk ts)
    (ht : t.range_.begin_.le t.range_.end_)
    (hlt : ∀ x ∈ ts, x.range_.begin_.lt t.range_.begin_) : TokensOk (ts ++ [t]) := by
  refine ⟨?_, ?_⟩
  · intro x hx
    rcases List.mem_append.1 hx with h1 | h1
    · exact h.1 x h1
    · simp only [List.mem_singleton] at h1
      rw [h1]; exact ht
  · rw [List.pairwise_append]
    refine ⟨h.2, List.pairwise_singleton _ _, ?_⟩
    intro a ha b hb
    simp only [List.mem_singleton] at hb
    rw [hb]
    exact hlt a ha

/-- The tokens the lexer returns have ordered ranges and strictly increasing begin
positions, the end-of-file token included. -/
theorem processLoop_tokensOk (src : List Char) (fuel : Nat) (st : LexState) (ts : List Token)
    (hok : TokensOk st.tokens_)
    (hlt : ∀ t ∈ st.tokens_, t.range_.begin_.lt ⟨st.line, st.col⟩)
    (h : processLoop src fuel st = .tokens ts) : TokensOk ts := by
  have hend : TokensOk (st.tokens_ ++
      [⟨.END_OF_FILE, "", ⟨⟨st.line, st.col⟩, ⟨st.line, st.col⟩⟩⟩]) :=
    tokensOk_snoc _ _ hok (Position.le_refl _) hlt
  induction fuel generalizing st with
  | zero =>
    unfold processLoop at h
    split at h
    · cases h
    · simp only [LexResult.tokens.injEq] at h
      rw [← h]; exact hend
  | succ k ih =>
    unfold processLoop at h
    split at h
    · cases hstep : processStep src st with
      | none => rw [hstep] at h; cases h
      | some st1 =>
        rw [hstep] at h
        simp only at h
        obtain ⟨hle, htok⟩ := processStep_pos src st st1 hstep
        have hlt1 : ∀ t ∈ st.tokens_, t.range_.begin_.lt ⟨st1.line, st1.col⟩ :=
          fun t ht => Position.lt_of_lt_of_le (hlt t ht) hle
        rcases htok with e | ⟨tok, e, hb, he, hlt2⟩
        · have hok1 : TokensOk st1.tokens_ := by rw [e]; exact hok
          have hlt3 : ∀ t ∈ st1.tokens_, t.range_.begin_.lt ⟨st1.line, st1.col⟩ := by
            rw [e]; exact hlt1
          exact ih st1 hok1 hlt3 h (tokensOk_snoc _ _ hok1 (Position.le_refl _) hlt3)
        · have hok1 : TokensOk st1.tokens_ := by
            rw [e]
            refine tokensOk_snoc _ _ hok ?_ ?_
            · rw [hb, he]; exact Position.le_of_lt hlt2
            · rw [hb]; exact hlt
          have hlt3 : ∀ t ∈ st1.tokens_, t.range_.begin_.lt ⟨st1.line, st1.col⟩ := by
            rw [e]
            intro t ht
            rcases List.mem_append.1 ht with h1 | h1
            · exact hlt1 t h1
            · simp only [List.mem_singleton] at h1
              rw [h1, hb]; exact hlt2
          exact ih st1 hok1 hlt3 h (tokensOk_snoc _ _ hok1 (Position.le_refl _) hlt3)
    · simp only [LexResult.tokens.injEq] at h
      rw [← h]; exact hend

theorem Lexer_tokensOk (source : String) (ts : List Token) (h : Lexer source = .tokens ts) :
    TokensOk ts := by
  refine processLoop_tokensOk source.data source.data.length ⟨0, 0, 1, 1, []⟩ ts ?_ ?_ h
  · exact ⟨fun t ht => (by cases ht), List.Pairwise.nil⟩
  · intro t ht
    cases ht

/-! ## Lemmas on the scopes and the program -/

theorem rootOf_eq_zero (scopes : List (Option Nat)) (hs : ScopesOk scopes) :
    ∀ (fuel i : Nat), i < fuel → i < scopes.length → rootOf scopes fuel i = some 0 := by
  intro fuel
  induction fuel with
  | zero => intro i h; omega
  | succ f ih =>
    intro i hf hi
    unfold rootOf
    have hget : scopes[i]? = some scopes[i] := List.getElem?_eq_getElem hi
    rw [hget]
    rcases hs i _ hget with ⟨h0, hp⟩ | ⟨q, hq, hlt⟩
    · rw [hp, h0]
    · rw [hq]
      simp only
      exact ih q (by omega) (by omega)

/-- The program the parser returns: every node is well formed for the scopes
allocated, and the scopes are well formed. -/
theorem program_post (fuel : Nat) (ts : List Token) (hT : TokensOk ts) (prog : AST)
    (pst : ParserState) (h : Parser.program fuel ⟨ts, []⟩ = .ok prog pst) :
    Good pst.scopes.length prog.nodes ∧ ScopesOk pst.scopes := by
  simp only [Parser.program, bind, ParserM.bind_ok, Parser.pure_ok] at h
  obtain ⟨s, s0, hs, b, s1, hb, stmts, s2, h2, e, s3, h3, _, s4, h4, rfl, rfl⟩ := h
  have w0 : ParserState.within ts s0 := by
    unfold Parser.newScope at hs
    simp only [ParseResult.ok.injEq] at hs
    obtain ⟨_, rfl⟩ := hs
    refine ⟨List.suffix_refl _, ?_⟩
    intro j p hj
    simp only [List.nil_append] at hj
    cases j with
    | zero =>
      simp only [List.getElem?_cons_zero, Option.some.injEq] at hj
      exact Or.inl ⟨rfl, hj.symm⟩
    | succ n => simp at hj
  have hs0 : s = some 0 ∧ s0.scopes.length = 1 := by
    unfold Parser.newScope at hs
    simp only [ParseResult.ok.injEq] at hs
    obtain ⟨rfl, rfl⟩ := hs
    exact ⟨rfl, rfl⟩
  obtain ⟨rfl, hlen⟩ := hs0
  obtain ⟨rfl, hlow⟩ := Parser.peekBegin_low ts hT _ _ _ w0 hb
  obtain ⟨w2, r2, l2, g2⟩ := (parserSpec ts hT fuel).topStatements _ _ _ _ w0 (by omega) h2
  obtain ⟨rfl, hbe⟩ := Parser.peekBegin_le ts _ _ _ _ _ w0 w2 (by omega) hlow h3
  obtain ⟨⟨w4, r4, l4, _⟩, e4, _⟩ := Parser.matchType_post ts _ _ _ _ w2 h4
  refine ⟨?_, w4.2⟩
  simp only [AST.nodes, good_cons]
  exact ⟨wf_scoped _ _ _ _ _ rfl hbe (by omega), g2.mono (by omega)⟩

/-- The nodes of a parsed program are well formed for the scopes the parser
allocated, and these scopes are well formed. -/
theorem parsedNodes_good (fuel : Nat) (source : String) (nodes : List Node)
    (scopes : List (Option Nat)) (h : parsedNodes fuel source = some (nodes, scopes)) :
    Good scopes.length nodes ∧ ScopesOk scopes := by
  unfold parsedNodes parseProgram at h
  cases hl : Lexer source with
  | tokens ts =>
    rw [hl] at h
    simp only at h
    cases hp : Parser.program fuel ⟨ts, []⟩ with
    | ok prog pst =>
      rw [hp] at h
      simp only [Option.map_some', Option.some.injEq, Prod.mk.injEq] at h
      obtain ⟨rfl, rfl⟩ := h
      exact program_post fuel ts (Lexer_tokensOk source ts hl) prog pst hp
    | parseError => rw [hp] at h; cases h
    | undefinedBehaviour => rw [hp] at h; cases h
    | fuelOut => rw [hp] at h; cases h
  | outOfBounds => rw [hl] at h; cases h
  | fuelOut => rw [hl] at h; cases h

/-! ## Lemmas on the type `double` -/

namespace Double

theorem log2Fuel_eq_log (fuel n : Nat) (hn : 1 ≤ n) (h : n ≤ fuel) :
    log2Fuel fuel n = Nat.log 2 n := by
  induction fuel generalizing n with
  | zero => omega
  | succ f ih =>
    unfold log2Fuel
    split
    · rename_i h2
      rw [ih (n / 2) (by omega) (by omega)]
      exact (Nat.log_of_one_lt_of_le (by omega) h2).symm
    · have : n = 1 := by omega
      subst this
      simp

theorem log_mul_two_pow (K s : Nat) (hK : 0 < K) : Nat.log 2 (K * 2 ^ s) = Nat.log 2 K + s := by
  induction s with
  | zero => simp
  | succ s ih =>
    rw [pow_succ, ← Nat.mul_assoc, Nat.log_mul_base (by omega) (by positivity), ih]
    omega

/-- Rounding is exact on an integer below `2^53`, given as a fraction with a power
of two as its denominator. -/
theorem round_exact (neg : Bool) (K s : Nat) (hK : 0 < K) (hlt : K < 2 ^ 53) :
    round neg (K * 2 ^ s) (2 ^ s)
      = .finite neg (K * 2 ^ (52 - Nat.log 2 K)) (-((52 - Nat.log 2 K : Nat) : Int)) := by
  have hL1 : 2 ^ Nat.log 2 K ≤ K := Nat.pow_log_le_self 2 (by omega)
  have hL2 : K < 2 ^ (Nat.log 2 K + 1) := Nat.lt_pow_succ_log_self (by omega) K
  have hL : Nat.log 2 K ≤ 52 := by
    by_contra hc
    have : 2 ^ 53 ≤ 2 ^ Nat.log 2 K := Nat.pow_le_pow_right (by omega) (by omega)
    omega
  obtain ⟨t, ht⟩ : ∃ t, 52 - Nat.log 2 K = t := ⟨_, rfl⟩
  have htL : Nat.log 2 K + t = 52 := by omega
  have hpos : 0 < 2 ^ s := by positivity
  have hnum : K * 2 ^ s ≠ 0 := by positivity
  have hl1 : log2Fuel (K * 2 ^ s) (K * 2 ^ s) = Nat.log 2 K + s := by
    rw [log2Fuel_eq_log _ _ (by omega) (Nat.le_refl _), log_mul_two_pow K s hK]
  have hl2 : log2Fuel (2 ^ s) (2 ^ s) = s := by
    rw [log2Fuel_eq_log _ _ (by omega) (Nat.le_refl _), Nat.log_pow (by omega)]
  have hq : K * 2 ^ t < 2 ^ 53 := by
    calc K * 2 ^ t < 2 ^ (Nat.log 2 K + 1) * 2 ^ t := by
          apply Nat.mul_lt_mul_of_pos_right hL2 (by positivity)
      _ = 2 ^ 53 := by rw [← pow_add]; congr 1; omega
  have hq2 : 2 ^ 52 ≤ K * 2 ^ t := by
    calc 2 ^ 52 = 2 ^ Nat.log 2 K * 2 ^ t := by rw [← pow_add, htL]
      _ ≤ K * 2 ^ t := Nat.mul_le_mul_right _ hL1
  unfold round
  rw [ht, hl1, hl2]
  simp only [hnum, if_false]
  have he0 : ((Nat.log 2 K + s : Nat) : Int) - (s : Int) - 52 = -(t : Int) := by
    push_cast; omega
  rw [he0]
  rcases Nat.eq_zero_or_pos t with h0 | hpos_t
  · subst h0
    simp only [pow_zero, mul_one] at hq hq2
    have hb : ¬ (K < 4503599627370496) := by omega
    have hK53 : ¬ K = 9007199254740992 := by omega
    simp [hb, Nat.mul_mod_left, Nat.mul_div_cancel _ hpos, hK53, hpos]
  · have hneg : ¬ (0 : Int) ≤ -(t : Int) := by omega
    have hb : ¬ (K * 2 ^ s * 2 ^ t < 2 ^ 52 * 2 ^ s) := by
      intro h
      have h' : K * 2 ^ t * 2 ^ s < 2 ^ 52 * 2 ^ s := by
        rw [Nat.mul_assoc, Nat.mul_comm (2 ^ t), ← Nat.mul_assoc]; exact h
      have := Nat.lt_of_mul_lt_mul_right h'
      omega
    have hlt1074 : ¬ (-(t : Int) < -1074) := by omega
    have hdiv : K * 2 ^ s * 2 ^ t / 2 ^ s = K * 2 ^ t := by
      rw [Nat.mul_assoc, Nat.mul_comm (2 ^ s), ← Nat.mul_assoc]
      exact Nat.mul_div_cancel _ hpos
    have hmod : K * 2 ^ s * 2 ^ t % 2 ^ s = 0 := by
      rw [Nat.mul_assoc, Nat.mul_comm (2 ^ s), ← Nat.mul_assoc]
      exact Nat.mul_mod_left _ _
    have hK53 : ¬ K * 2 ^ t = 9007199254740992 := by omega
    have h971 : ¬ ((971 : Int) < -(t : Int)) := by omega
    have hb' : ¬ (K * 2 ^ s * 2 ^ t < 4503599627370496 * 2 ^ s) := by
      have e : (4503599627370496 : Nat) = 2 ^ 52 := by norm_num
      rw [e]; exact hb
    simp [hneg, hb', hlt1074, hdiv, hmod, hK53, h971, hpos]

/-- An integer below `2^53` converts without rounding: the mantissa is the integer
scaled by a power of two and the exponent undoes the scaling. -/
theorem ofInt_exact (K : Nat) (hlt : K < 2 ^ 53) :
    ∃ t : Nat, ofInt (K : Int) = .finite false (K * 2 ^ t) (-(t : Int)) := by
  rcases Nat.eq_zero_or_pos K with h0 | hpos
  · subst h0
    exact ⟨1074, by rw [Nat.zero_mul]; rfl⟩
  · refine ⟨52 - Nat.log 2 K, ?_⟩
    have h := round_exact false K 0 hpos hlt
    simp only [pow_zero, mul_one] at h
    have hneg : ¬ ((K : Int) < 0) := by omega
    simp only [ofInt, hneg, decide_False, Int.natAbs_ofNat]
    exact h

theorem lt_exact (j n t u : Nat) :
    lt (.finite false (j * 2 ^ t) (-(t : Int))) (.finite false (n * 2 ^ u) (-(u : Int)))
      = decide (j < n) := by
  unfold lt
  simp only [Bool.false_eq_true, if_false, one_mul]
  rcases Nat.le_total u t with h | h
  · have hg : (-(t : Int) ≤ -(u : Int)) := by omega
    obtain ⟨d, rfl⟩ : ∃ d, t = u + d := ⟨t - u, by omega⟩
    have e1 : (-((u + d : Nat) : Int) - -((u + d : Nat) : Int)).toNat = 0 := by simp
    have e2 : (-(u : Int) - -((u + d : Nat) : Int)).toNat = d := by
      push_cast; simp
    simp only [hg, if_true, e1, e2, pow_zero, mul_one]
    have : n * 2 ^ u * 2 ^ d = n * 2 ^ (u + d) := by rw [Nat.mul_assoc, ← pow_add]
    rw [this]
    have hp : 0 < 2 ^ (u + d) := by positivity
    simp only [Nat.cast_lt, decide_eq_decide]
    exact ⟨fun h => Nat.lt_of_mul_lt_mul_right h, fun h => Nat.mul_lt_mul_of_pos_right h hp⟩
  · rcases Nat.eq_or_lt_of_le h with heq | hlt
    · subst heq
      simp only [le_refl, if_true, sub_self, Int.toNat_zero, pow_zero, mul_one]
      have hp : 0 < 2 ^ t := by positivity
      simp only [Nat.cast_lt, decide_eq_decide]
      exact ⟨fun h => Nat.lt_of_mul_lt_mul_right h, fun h => Nat.mul_lt_mul_of_pos_right h hp⟩
    · have hg : ¬ (-(t : Int) ≤ -(u : Int)) := by omega
      obtain ⟨d, rfl⟩ : ∃ d, u = t + d := ⟨u - t, by omega⟩
      have e1 : (-((t + d : Nat) : Int) - -((t + d : Nat) : Int)).toNat = 0 := by simp
      have e2 : (-(t : Int) - -((t + d : Nat) : Int)).toNat = d := by
        push_cast; simp
      simp only [hg, if_false, e1, e2, pow_zero, mul_one]
      have : j * 2 ^ t * 2 ^ d = j * 2 ^ (t + d) := by rw [Nat.mul_assoc, ← pow_add]
      rw [this]
      have hp : 0 < 2 ^ (t + d) := by positivity
      simp only [Nat.cast_lt, decide_eq_decide]
      exact ⟨fun h => Nat.lt_of_mul_lt_mul_right h, fun h => Nat.mul_lt_mul_of_pos_right h hp⟩

theorem lt_ofInt (j n : Nat) (hj : j < 2 ^ 53) (hn : n < 2 ^ 53) :
    lt (ofInt (j : Int)) (ofInt (n : Int)) = decide (j < n) := by
  obtain ⟨t, ht⟩ := ofInt_exact j hj
  obtain ⟨u, hu⟩ := ofInt_exact n hn
  rw [ht, hu, lt_exact]

theorem ofInt_one : ofInt 1 = .finite false (1 * 2 ^ 52) (-((52 : Nat) : Int)) := by
  decide

/-- Adding 1 to an integer below `2^53 - 1` is exact. -/
theorem add_ofInt_one (j : Nat) (h : j + 1 < 2 ^ 53) :
    add (ofInt (j : Int)) (ofInt 1) = ofInt ((j + 1 : Nat) : Int) := by
  obtain ⟨t, ht⟩ := ofInt_exact j (by omega)
  rw [ht, ofInt_one]
  unfold add
  simp only [Bool.false_eq_true, if_false, one_mul, Bool.and_self]
  have hres : ofInt ((j + 1 : Nat) : Int)
      = .finite false ((j + 1) * 2 ^ (52 - Nat.log 2 (j + 1)))
          (-((52 - Nat.log 2 (j + 1) : Nat) : Int)) := by
    have hr := round_exact false (j + 1) 0 (by omega) h
    simp only [pow_zero, mul_one] at hr
    have hneg : ¬ (((j + 1 : Nat) : Int) < 0) := by omega
    simp only [ofInt, hneg, decide_False, Int.natAbs_ofNat]
    exact hr
  rw [hres]
  rcases Nat.le_total 52 t with hle | hle
  · -- the exponent of `j` is the smaller one
    have hg : (-(t : Int) ≤ -((52 : Nat) : Int)) := by omega
    obtain ⟨d, rfl⟩ : ∃ d, t = 52 + d := ⟨t - 52, by omega⟩
    have e1 : (-((52 + d : Nat) : Int) - -((52 + d : Nat) : Int)).toNat = 0 := by simp
    have e2 : (-((52 : Nat) : Int) - -((52 + d : Nat) : Int)).toNat = d := by
      push_cast; simp
    simp only [hg, if_true, e1, e2, pow_zero, mul_one]
    have hc : ((j * 2 ^ (52 + d) : Nat) : Int) + ((2 ^ 52 * 2 ^ d : Nat) : Int)
        = (((j + 1) * 2 ^ (52 + d) : Nat) : Int) := by
      push_cast; ring
    rw [hc]
    have hpos : 0 < (j + 1) * 2 ^ (52 + d) := by positivity
    have hne : ¬ ((((j + 1) * 2 ^ (52 + d) : Nat) : Int) = 0) := by omega
    have hnn : ¬ ((((j + 1) * 2 ^ (52 + d) : Nat) : Int) < 0) := by omega
    have hexp : ¬ ((0 : Int) ≤ -((52 + d : Nat) : Int)) := by push_cast; omega
    simp only [hne, if_false, hnn, decide_False, Int.natAbs_ofNat, ofScaled, hexp, neg_neg,
      Int.toNat_ofNat]
    exact round_exact false (j + 1) (52 + d) (by omega) h
  · have hlt' : t ≤ 52 := hle
    rcases Nat.eq_or_lt_of_le hlt' with heq | hlt
    · subst heq
      simp only [le_refl, if_true, sub_self, Int.toNat_zero, pow_zero, mul_one]
      have hc : ((j * 2 ^ 52 : Nat) : Int) + ((2 ^ 52 : Nat) : Int)
          = (((j + 1) * 2 ^ 52 : Nat) : Int) := by
        push_cast; ring
      rw [hc]
      have hpos : 0 < (j + 1) * 2 ^ 52 := by positivity
      have hne : ¬ ((((j + 1) * 2 ^ 52 : Nat) : Int) = 0) := by omega
      have hnn : ¬ ((((j + 1) * 2 ^ 52 : Nat) : Int) < 0) := by omega
      have hexp : ¬ ((0 : Int) ≤ -((52 : Nat) : Int)) := by decide
      simp only [hne, if_false, hnn, decide_False, Int.natAbs_ofNat, ofScaled, hexp, neg_neg,
        Int.toNat_ofNat]
      exact round_exact false (j + 1) 52 (by omega) h
    · have hg : ¬ (-(t : Int) ≤ -((52 : Nat) : Int)) := by omega
      obtain ⟨d, hd⟩ : ∃ d, 52 = t + d := ⟨52 - t, by omega⟩
      have e1 : (-(t : Int) - -((52 : Nat) : Int)).toNat = d := by
        rw [show ((52 : Nat) : Int) = ((t + d : Nat) : Int) by rw [← hd]]
        push_cast; simp
      have e2 : (-((52 : Nat) : Int) - -((52 : Nat) : Int)).toNat = 0 := by simp
      simp only [hg, if_false, e1, e2, pow_zero, mul_one]
      have hc : ((j * 2 ^ t * 2 ^ d : Nat) : Int) + ((2 ^ 52 : Nat) : Int)
          = (((j + 1) * 2 ^ 52 : Nat) : Int) := by
        have : j * 2 ^ t * 2 ^ d = j * 2 ^ 52 := by rw [Nat.mul_assoc, ← pow_add, ← hd]
        rw [this]
        push_cast; ring
      rw [hc]
      have hpos : 0 < (j + 1) * 2 ^ 52 := by positivity
      have hne : ¬ ((((j + 1) * 2 ^ 52 : Nat) : Int) = 0) := by omega
      have hnn : ¬ ((((j + 1) * 2 ^ 52 : Nat) : Int) < 0) := by omega
      have hexp : ¬ ((0 : Int) ≤ -((52 : Nat) : Int)) := by decide
      simp only [hne, if_false, hnn, decide_False, Int.natAbs_ofNat, ofScaled, hexp, neg_neg,
        Int.toNat_ofNat]
      exact round_exact false (j + 1) 52 (by omega) h

theorem ofInt_two_pow_53 : ofInt 9007199254740992 = .finite false (2 ^ 52) 1 := by
  decide

/-- The comparison of two integers up to `2^53` is exact. -/
theorem lt_ofInt_le (j n : Nat) (hj : j ≤ n) (hn : n ≤ 2 ^ 53) :
    lt (ofInt (j : Int)) (ofInt (n : Int)) = decide (j < n) := by
  rcases Nat.lt_or_ge n (2 ^ 53) with h | h
  · exact lt_ofInt j n (by omega) h
  · have hn53 : n = 9007199254740992 := by omega
    subst hn53
    rcases Nat.lt_or_ge j (2 ^ 53) with h2 | h2
    · obtain ⟨t, ht⟩ := ofInt_exact j h2
      have h53 : ofInt ((9007199254740992 : Nat) : Int) = .finite false (2 ^ 52) 1 :=
        ofInt_two_pow_53
      rw [ht, h53]
      unfold lt
      have hg : (-(t : Int) ≤ 1) := by omega
      have e1 : (-(t : Int) - -(t : Int)).toNat = 0 := by simp
      have e2 : ((1 : Int) - -(t : Int)).toNat = t + 1 := by omega
      simp only [Bool.false_eq_true, if_false, one_mul, hg, if_true, e1, e2, pow_zero, mul_one]
      have hp : 0 < 2 ^ t := by positivity
      have : j * 2 ^ t < 2 ^ 52 * 2 ^ (t + 1) := by
        have : 2 ^ 52 * 2 ^ (t + 1) = 2 ^ 53 * 2 ^ t := by rw [pow_succ]; ring
        rw [this]
        exact Nat.mul_lt_mul_of_pos_right h2 hp
      have hj2 : j < 9007199254740992 := by omega
      simp only [hj2, decide_True, decide_eq_true_eq]
      exact_mod_cast this
    · have hj53 : j = 9007199254740992 := by omega
      subst hj53
      decide

/-- Adding 1 to an integer below `2^53` is exact. -/
theorem add_ofInt_one_le (j : Nat) (h : j + 1 ≤ 2 ^ 53) :
    add (ofInt (j : Int)) (ofInt 1) = ofInt ((j + 1 : Nat) : Int) := by
  rcases Nat.lt_or_ge (j + 1) (2 ^ 53) with h2 | h2
  · exact add_ofInt_one j h2
  · have hj : j = 9007199254740991 := by omega
    subst hj
    decide!

end Double

/-! ## Lemmas on the increment and decrement of integers -/

namespace Double

theorem mul_pos_neg_iff (w p : Int) (hp : 0 < p) : w * p < 0 ↔ w < 0 := by
  constructor
  · intro h
    by_contra hn
    have h0 : 0 ≤ w := by omega
    have := mul_nonneg h0 hp.le
    omega
  · intro h
    exact mul_neg_of_neg_of_pos h hp

/-- A non-zero integer of magnitude below `2^53` converts without rounding. -/
theorem ofInt_int_exact (z : Int) (h0 : z ≠ 0) (hlt : z.natAbs < 2 ^ 53) :
    ofInt z = .finite (decide (z < 0)) (z.natAbs * 2 ^ (52 - Nat.log 2 z.natAbs))
      (-((52 - Nat.log 2 z.natAbs : Nat) : Int)) := by
  have hpos : 0 < z.natAbs := Int.natAbs_pos.2 h0
  have h := round_exact (decide (z < 0)) z.natAbs 0 hpos hlt
  simp only [pow_zero, mul_one] at h
  unfold ofInt
  exact h

/-- Adding `1` or `-1` to an integer given without rounding is exact when the sum is
not zero and of magnitude below `2^53`. -/
theorem add_unit_exact (a b : Bool) (K t : Nat) (z w : Int)
    (hz : z = (if a then -1 else 1) * (K : Int)) (hw : w = z + (if b then -1 else 1))
    (hw0 : w ≠ 0) (hwlt : w.natAbs < 2 ^ 53) :
    add (.finite a (K * 2 ^ t) (-(t : Int))) (.finite b (1 * 2 ^ 52) (-((52 : Nat) : Int)))
      = ofInt w := by
  rw [ofInt_int_exact w hw0 hwlt]
  have hwpos : 0 < w.natAbs := Int.natAbs_pos.2 hw0
  unfold add
  rcases Nat.le_total 52 t with hle | hle
  · obtain ⟨d, rfl⟩ : ∃ d, t = 52 + d := ⟨t - 52, by omega⟩
    have hg : (-((52 + d : Nat) : Int) ≤ -((52 : Nat) : Int)) := by push_cast; omega
    have e1 : (-((52 + d : Nat) : Int) - -((52 + d : Nat) : Int)).toNat = 0 := by simp
    have e2 : (-((52 : Nat) : Int) - -((52 + d : Nat) : Int)).toNat = d := by
      push_cast; simp
    simp only [hg, if_true, e1, e2, pow_zero, mul_one, one_mul]
    have hc : (if a = true then (-1 : Int) else 1) * ((K * 2 ^ (52 + d) : Nat) : Int)
        + (if b = true then (-1 : Int) else 1) * ((2 ^ 52 * 2 ^ d : Nat) : Int)
        = w * ((2 ^ (52 + d) : Nat) : Int) := by
      rw [hw, hz]
      push_cast
      ring
    rw [hc]
    have hp : (0 : Int) < ((2 ^ (52 + d) : Nat) : Int) := by positivity
    have hne : ¬ (w * ((2 ^ (52 + d) : Nat) : Int) = 0) := by
      intro h
      rcases mul_eq_zero.1 h with h | h
      · exact hw0 h
      · omega
    have hneg : decide (w * ((2 ^ (52 + d) : Nat) : Int) < 0) = decide (w < 0) := by
      congr 1
      exact propext (mul_pos_neg_iff w _ hp)
    have habs : (w * ((2 ^ (52 + d) : Nat) : Int)).natAbs = w.natAbs * 2 ^ (52 + d) := by
      rw [Int.natAbs_mul, Int.natAbs_ofNat]
    have hexp : ¬ ((0 : Int) ≤ -((52 + d : Nat) : Int)) := by push_cast; omega
    simp only [hne, if_false, hneg, habs, ofScaled, hexp, neg_neg, Int.toNat_ofNat]
    exact round_exact _ w.natAbs (52 + d) hwpos hwlt
  · obtain ⟨d, hd⟩ : ∃ d, 52 = t + d := ⟨52 - t, by omega⟩
    rcases Nat.eq_zero_or_pos d with hd0 | hdpos
    · subst hd0
      have ht : t = 52 := by omega
      subst ht
      simp only [le_refl, if_true, sub_self, Int.toNat_zero, pow_zero, mul_one, one_mul]
      have hc : (if a = true then (-1 : Int) else 1) * ((K * 2 ^ 52 : Nat) : Int)
          + (if b = true then (-1 : Int) else 1) * ((2 ^ 52 : Nat) : Int)
          = w * ((2 ^ 52 : Nat) : Int) := by
        rw [hw, hz]
        push_cast
        ring
      rw [hc]
      have hp : (0 : Int) < ((2 ^ 52 : Nat) : Int) := by positivity
      have hne : ¬ (w * ((2 ^ 52 : Nat) : Int) = 0) := by
        intro h
        rcases mul_eq_zero.1 h with h | h
        · exact hw0 h
        · omega
      have hneg : decide (w * ((2 ^ 52 : Nat) : Int) < 0) = decide (w < 0) := by
        congr 1
        exact propext (mul_pos_neg_iff w _ hp)
      have habs : (w * ((2 ^ 52 : Nat) : Int)).natAbs = w.natAbs * 2 ^ 52 := by
        rw [Int.natAbs_mul, Int.natAbs_ofNat]
      have hexp : ¬ ((0 : Int) ≤ -((52 : Nat) : Int)) := by decide
      simp only [hne, if_false, hneg, habs, ofScaled, hexp, neg_neg, Int.toNat_ofNat]
      exact round_exact _ w.natAbs 52 hwpos hwlt
    · have hg : ¬ (-(t : Int) ≤ -((52 : Nat) : Int)) := by omega
      have e1 : (-(t : Int) - -((52 : Nat) : Int)).toNat = d := by
        rw [show ((52 : Nat) : Int) = ((t + d : Nat) : Int) by rw [← hd]]
        push_cast; simp
      have e2 : (-((52 : Nat) : Int) - -((52 : Nat) : Int)).toNat = 0 := by simp
      simp only [hg, if_false, e1, e2, pow_zero, mul_one, one_mul]
      have hK : K * 2 ^ t * 2 ^ d = K * 2 ^ 52 := by rw [Nat.mul_assoc, ← pow_add, ← hd]
      rw [hK]
      have hc : (if a = true then (-1 : Int) else 1) * ((K * 2 ^ 52 : Nat) : Int)
          + (if b = true then (-1 : Int) else 1) * ((2 ^ 52 : Nat) : Int)
          = w * ((2 ^ 52 : Nat) : Int) := by
        rw [hw, hz]
        push_cast
        ring
      rw [hc]
      have hp : (0 : Int) < ((2 ^ 52 : Nat) : Int) := by positivity
      have hne : ¬ (w * ((2 ^ 52 : Nat) : Int) = 0) := by
        intro h
        rcases mul_eq_zero.1 h with h | h
        · exact hw0 h
        · omega
      have hneg : decide (w * ((2 ^ 52 : Nat) : Int) < 0) = decide (w < 0) := by
        congr 1
        exact propext (mul_pos_neg_iff w _ hp)
      have habs : (w * ((2 ^ 52 : Nat) : Int)).natAbs = w.natAbs * 2 ^ 52 := by
        rw [Int.natAbs_mul, Int.natAbs_ofNat]
      have hexp : ¬ ((0 : Int) ≤ -((52 : Nat) : Int)) := by decide
      simp only [hne, if_false, hneg, habs, ofScaled, hexp, neg_neg, Int.toNat_ofNat]
      exact round_exact _ w.natAbs 52 hwpos hwlt

/-- Every integer of magnitude below `2^53` converts to its magnitude scaled by a power
of two, with its sign. -/
theorem ofInt_int_repr (z : Int) (hlt : z.natAbs < 2 ^ 53) :
    ∃ t : Nat, ofInt z = .finite (decide (z < 0)) (z.natAbs * 2 ^ t) (-(t : Int)) := by
  by_cases h0 : z = 0
  · subst h0
    exact ⟨1074, by rw [Int.natAbs_zero, Nat.zero_mul]; rfl⟩
  · exact ⟨_, ofInt_int_exact z h0 hlt⟩

theorem neg_ofInt_one : neg (ofInt 1) = .finite true (1 * 2 ^ 52) (-((52 : Nat) : Int)) := by
  decide

/-- The increment `++num_` is exact on the integers from `-2^53` to `2^53 - 1`. -/
theorem add_ofInt_one_int (z : Int) (h1 : -2 ^ 53 ≤ z) (h2 : z + 1 ≤ 2 ^ 53) :
    add (ofInt z) (ofInt 1) = ofInt (z + 1) := by
  by_cases ha : z = -9007199254740992
  · subst ha; decide!
  by_cases hb : z = 9007199254740991
  · subst hb; decide!
  by_cases hc : z = -1
  · subst hc; decide
  have hz : z.natAbs < 2 ^ 53 := by omega
  obtain ⟨t, ht⟩ := ofInt_int_repr z hz
  rw [ht, ofInt_one]
  refine add_unit_exact (decide (z < 0)) false z.natAbs t z (z + 1) ?_ (by simp) (by omega)
    (by omega)
  by_cases hn : z < 0
  · simp only [hn, decide_True, if_true]
    omega
  · simp only [hn, decide_False, Bool.false_eq_true, if_false]
    omega

/-- The decrement `--num_` is exact on the integers from `-2^53 + 1` to `2^53`. -/
theorem sub_ofInt_one_int (z : Int) (h1 : -2 ^ 53 ≤ z - 1) (h2 : z ≤ 2 ^ 53) :
    sub (ofInt z) (ofInt 1) = ofInt (z - 1) := by
  by_cases ha : z = 9007199254740992
  · subst ha; decide!
  by_cases hb : z = -9007199254740991
  · subst hb; decide!
  by_cases hc : z = 1
  · subst hc; decide
  have hz : z.natAbs < 2 ^ 53 := by omega
  obtain ⟨t, ht⟩ := ofInt_int_repr z hz
  unfold sub
  rw [ht, neg_ofInt_one]
  refine add_unit_exact (decide (z < 0)) true z.natAbs t z (z - 1) ?_ (by simp; ring) (by omega)
    (by omega)
  by_cases hn : z < 0
  · simp only [hn, decide_True, if_true]
    omega
  · simp only [hn, decide_False, Bool.false_eq_true, if_false]
    omega

end Double

/-! ## Lemmas on the counting loop -/

theorem loopPrefix_length : loopPrefix.length = 7 := rfl

theorem loop_heap7 (c : Value) (rest : List Value) : (loopPrefix ++ c :: rest)[7]? = some c := by
  rw [List.getElem?_append_right (by rw [loopPrefix_length])]
  simp [loopPrefix_length]

theorem loop_heap5 (rest : List Value) :
    (loopPrefix ++ rest)[5]? = some ⟨.Signal .NORMAL none, []⟩ := by
  rw [List.getElem?_append_left (by rw [loopPrefix_length]; omega)]
  rfl

theorem loop_heapLen (c : Value) (rest : List Value) :
    (loopPrefix ++ c :: rest).length = 8 + rest.length := by
  simp [loopPrefix_length]; omega

theorem heap_at_length (h : List Value) (a : Value) (rest : List Value) :
    (h ++ a :: rest)[h.length]? = some a := by
  rw [List.getElem?_append_right (Nat.le_refl _)]
  simp

theorem loop_heap_last (c : Value) (rest : List Value) (a b : Value) :
    (loopPrefix ++ c :: (rest ++ [a, b]))[8 + rest.length + 1]? = some b := by
  have e : loopPrefix ++ c :: (rest ++ [a, b]) = (loopPrefix ++ c :: (rest ++ [a])) ++ [b] := by
    simp
  have hlen : (loopPrefix ++ c :: (rest ++ [a])).length = 8 + rest.length + 1 := by
    simp [loopPrefix_length]; omega
  rw [e, ← hlen]
  exact List.getElem?_concat_length _ _

theorem loop_getVar (h : List Value) :
    VM.getVar (some 1) "i" ⟨h, loopScopes, some 0, none⟩
      = .ok (some 7) ⟨h, loopScopes, some 0, none⟩ := by
  rfl

theorem loop_cond (f : Nat) (rg : Nat → PositionRange) (lexeme : String) (n : Int)
    (hlex : VM.stoll lexeme = some n) (x : Double) (rest : List Value) :
    VM.execNullable (f + 6) (some (countingCond rg lexeme))
      ⟨loopPrefix ++ ⟨.Number x, []⟩ :: rest, loopScopes, some 0, none⟩
    = .ok (some (8 + rest.length + 1))
        ⟨loopPrefix ++ ⟨.Number x, []⟩ :: (rest ++ [⟨.Number (Double.ofInt n), []⟩,
          ⟨.Boolean (Double.lt x (Double.ofInt n)), []⟩]), loopScopes, some 0, none⟩ := by
  unfold countingCond VM.execNullable VM.exec VM.execGroupExpression VM.exec VM.execBiExpression
  simp only [bind, VMM.bind]
  unfold VM.exec
  simp only [hlex, VM.alloc]
  have e1 : ¬ ("<" = "&&") := by decide
  have e2 : ¬ ("<" = "||") := by decide
  have e3 : ¬ ("<" = "=") := by decide
  have hco : VM.compoundOperator "<" = none := by rfl
  have hbo : VM.binaryOperator "<" = some VM.ls := by rfl
  simp only [e1, e2, e3, if_false, hco, hbo, VM.alloc, VMM.bind, loop_getVar, pure, VM.ls,
    VM.compare, bind, VM.deref]
  have h7 := loop_heap7 ⟨.Number x, []⟩ (rest ++ [⟨.Number (Double.ofInt n), []⟩])
  have hl := heap_at_length (loopPrefix ++ ⟨.Number x, []⟩ :: rest) ⟨.Number (Double.ofInt n), []⟩ []
  simp only [List.append_assoc, List.cons_append] at hl ⊢
  simp only [h7, hl, VMM.bind, VM.deref, VM.alloc, List.getElem?_concat_length, Value.type_]
  unfold VM.execGroupExpression
  simp [loopPrefix_length, pure]
  omega

theorem loop_set7 (c d : Value) (rest : List Value) :
    (loopPrefix ++ c :: rest).set 7 d = loopPrefix ++ d :: rest := by
  rw [List.set_append_right _ _ (by rw [loopPrefix_length])]
  simp [loopPrefix_length]

theorem loop_tail (f : Nat) (rg : Nat → PositionRange) (x : Double) (rest : List Value) :
    VM.execNullable (f + 6) (some (countingTail rg))
      ⟨loopPrefix ++ ⟨.Number x, []⟩ :: rest, loopScopes, some 0, none⟩
    = .ok (some (8 + rest.length))
        ⟨loopPrefix ++ ⟨.Number (Double.add x (Double.ofInt 1)), []⟩ ::
          (rest ++ [⟨.Number x, []⟩]), loopScopes, some 0, none⟩ := by
  unfold countingTail VM.execNullable VM.exec VM.execGroupExpression VM.exec VM.execUniExpression
  simp only [bind, VMM.bind]
  unfold VM.exec
  have e1 : ¬ ("++" = "delete") := by decide
  have h7 := loop_heap7 ⟨.Number x, []⟩ rest
  have h7' := loop_heap7 ⟨.Number x, []⟩ (rest ++ [⟨.Number x, []⟩])
  simp only [Bool.false_and, Bool.false_eq_true, if_false, if_true, loop_getVar, VMM.bind, bind,
    pure, VM.deref, h7, VM.alloc, VM.setNum, VM.getState, VM.setState]
  simp only [List.append_assoc, List.cons_append, h7', loop_set7, VMM.bind]
  have hl := heap_at_length (loopPrefix ++ ⟨.Number (Double.add x (Double.ofInt 1)), []⟩ :: rest)
    ⟨.Number x, []⟩ []
  simp only [List.append_assoc, List.cons_append, loop_heapLen] at hl
  simp only [loop_heapLen, hl, Value.type_]
  unfold VM.execGroupExpression
  simp [pure]

theorem loop_body (f : Nat) (r : PositionRange) (st : VMState) :
    VM.exec (f + 2) (.Block r (some 2) []) st = .ok (some sigNormalAddr) st := by
  unfold VM.exec VM.execBlock
  rfl

/-- One iteration of the counting loop while the condition holds: three cells are
allocated (the number of the bound, the boolean of the comparison, the copy that
postfix `++` returns) and the value of `i` is replaced by its successor. -/
theorem loop_iteration (f : Nat) (rg : Nat → PositionRange) (lexeme : String) (n : Int)
    (hlex : VM.stoll lexeme = some n) (x : Double) (rest : List Value)
    (hlt : Double.lt x (Double.ofInt n) = true) :
    VM.execForLoop (f + 7) (some (countingCond rg lexeme)) (some (countingTail rg))
        (.Block (rg 16) (some 2) [])
        ⟨loopPrefix ++ ⟨.Number x, []⟩ :: rest, loopScopes, some 0, none⟩
      = VM.execForLoop (f + 6) (some (countingCond rg lexeme)) (some (countingTail rg))
          (.Block (rg 16) (some 2) [])
          ⟨loopPrefix ++ ⟨.Number (Double.add x (Double.ofInt 1)), []⟩ ::
            (rest ++ [⟨.Number (Double.ofInt n), []⟩, ⟨.Boolean true, []⟩, ⟨.Number x, []⟩]),
            loopScopes, some 0, none⟩ := by
  have hc := loop_cond f rg lexeme n hlex x rest
  have ht := loop_tail f rg x
    (rest ++ [⟨.Number (Double.ofInt n), []⟩, ⟨.Boolean (Double.lt x (Double.ofInt n)), []⟩])
  have hb := loop_body (f + 4) (rg 16)
    ⟨loopPrefix ++ ⟨.Number x, []⟩ :: (rest ++ [⟨.Number (Double.ofInt n), []⟩,
      ⟨.Boolean (Double.lt x (Double.ofInt n)), []⟩]), loopScopes, some 0, none⟩
  have h5 := loop_heap5 (⟨.Number x, []⟩ :: (rest ++ [⟨.Number (Double.ofInt n), []⟩,
      ⟨.Boolean (Double.lt x (Double.ofInt n)), []⟩]))
  have hl := loop_heap_last ⟨.Number x, []⟩ rest ⟨.Number (Double.ofInt n), []⟩
    ⟨.Boolean (Double.lt x (Double.ofInt n)), []⟩
  rw [hlt] at hc ht hb h5 hl
  conv_lhs => unfold VM.execForLoop
  simp only [bind, VMM.bind, hc, VM.deref, hl, Value.toBool, if_true, hb, sigNormalAddr, h5, ht]
  simp

/-- The last evaluation of the condition: two cells are allocated and the loop
yields the Normal signal. -/
theorem loop_exit (f : Nat) (rg : Nat → PositionRange) (lexeme : String) (n : Int)
    (hlex : VM.stoll lexeme = some n) (x : Double) (rest : List Value)
    (hlt : Double.lt x (Double.ofInt n) = false) :
    VM.execForLoop (f + 7) (some (countingCond rg lexeme)) (some (countingTail rg))
        (.Block (rg 16) (some 2) [])
        ⟨loopPrefix ++ ⟨.Number x, []⟩ :: rest, loopScopes, some 0, none⟩
      = .ok (some sigNormalAddr)
          ⟨loopPrefix ++ ⟨.Number x, []⟩ ::
            (rest ++ [⟨.Number (Double.ofInt n), []⟩, ⟨.Boolean false, []⟩]),
            loopScopes, some 0, none⟩ := by
  have hc := loop_cond f rg lexeme n hlex x rest
  have hl := loop_heap_last ⟨.Number x, []⟩ rest ⟨.Number (Double.ofInt n), []⟩
    ⟨.Boolean (Double.lt x (Double.ofInt n)), []⟩
  rw [hlt] at hc hl
  conv_lhs => unfold VM.execForLoop
  simp only [bind, VMM.bind, hc, VM.deref, hl, Value.toBool]
  simp [pure]

/-- The counting loop from the value `j` of `i` on, with `k` iterations to go: it
yields the Normal signal with `i` at the bound, after allocating three cells per
iteration and two for the last evaluation of the condition. -/
theorem loop_run (rg : Nat → PositionRange) (lexeme : String) (n : Nat)
    (hlex : VM.stoll lexeme = some (n : Int)) (hn : n ≤ 2 ^ 53) :
    ∀ k j f rest, j + k = n →
      ∃ extra : List Value, extra.length = 3 * k + 2 ∧
        VM.execForLoop (f + k + 7) (some (countingCond rg lexeme)) (some (countingTail rg))
            (.Block (rg 16) (some 2) [])
            ⟨loopPrefix ++ ⟨.Number (Double.ofInt (j : Int)), []⟩ :: rest, loopScopes, some 0, none⟩
          = .ok (some sigNormalAddr)
              ⟨loopPrefix ++ ⟨.Number (Double.ofInt (n : Int)), []⟩ :: (rest ++ extra),
                loopScopes, some 0, none⟩ := by
  intro k
  induction k with
  | zero =>
    intro j f rest hj
    have hjn : j = n := by omega
    subst hjn
    have hlt : Double.lt (Double.ofInt (j : Int)) (Double.ofInt (j : Int)) = false := by
      rw [Double.lt_ofInt_le j j (Nat.le_refl j) hn]; simp
    exact ⟨[⟨.Number (Double.ofInt (j : Int)), []⟩, ⟨.Boolean false, []⟩], rfl,
      loop_exit f rg lexeme j hlex _ rest hlt⟩
  | succ k ih =>
    intro j f rest hj
    have hlt : Double.lt (Double.ofInt (j : Int)) (Double.ofInt (n : Int)) = true := by
      rw [Double.lt_ofInt_le j n (by omega) hn]; simp; omega
    have hstep := loop_iteration (f + k + 1) rg lexeme n hlex _ rest hlt
    rw [Double.add_ofInt_one_le j (by omega)] at hstep
    obtain ⟨extra, hlen, hrun⟩ := ih (j + 1) f
      (rest ++ [⟨.Number (Double.ofInt (n : Int)), []⟩, ⟨.Boolean true, []⟩,
        ⟨.Number (Double.ofInt (j : Int)), []⟩]) (by omega)
    refine ⟨[⟨.Number (Double.ofInt (n : Int)), []⟩, ⟨.Boolean true, []⟩,
        ⟨.Number (Double.ofInt (j : Int)), []⟩] ++ extra, by simp [hlen]; omega, ?_⟩
    have e1 : f + (k + 1) + 7 = f + k + 1 + 7 := by omega
    have e2 : f + k + 1 + 6 = f + k + 7 := by omega
    rw [e1, hstep, e2, hrun]
    simp

theorem loop_var (f : Nat) (rg : Nat → PositionRange) :
    VM.exec (f + 3) (.Var (rg 0) (some 0)
        [.mk (rg 1) (some 0) ⟨rg 2, some 0, "i"⟩ (some (.LiteralNumber (rg 3) none "0"))])
      ⟨initialHeap, [⟨[("undefined", some 0)], none⟩, ⟨[], some 0⟩, ⟨[], some 1⟩], some 0, none⟩
    = .ok (some 6) ⟨loopPrefix,
        [⟨[("undefined", some 0), ("i", some 6)], none⟩, ⟨[], some 0⟩, ⟨[], some 1⟩],
        some 0, none⟩ := by
  unfold VM.exec VM.execVar VM.exec VM.execVar
  rfl

theorem loop_init (f : Nat) (rg : Nat → PositionRange) :
    VM.execNullable (f + 6) (some (.GroupExpression (rg 5) (some 1)
        [.BiExpression (rg 6) (some 1) (.Identifier ⟨rg 7, some 1, "i"⟩) "="
          (.LiteralNumber (rg 8) none "0")]))
      ⟨loopPrefix, [⟨[("undefined", some 0), ("i", some 6)], none⟩, ⟨[], some 0⟩, ⟨[], some 1⟩],
        some 0, none⟩
    = .ok (some 7) ⟨loopPrefix ++ [⟨.Number (Double.ofInt 0), []⟩], loopScopes, some 0, none⟩ := by
  unfold VM.execNullable VM.exec VM.execGroupExpression VM.exec VM.execBiExpression VM.exec
    VM.assign VM.execGroupExpression
  rfl

/-- The program of the counting loop, from the fresh memory on: it ends with the
global `i` at the bound and a heap of `3 * n + 10` cells. -/
theorem loop_program (rg : Nat → PositionRange) (lexeme : String) (n fuel : Nat)
    (hlex : VM.stoll lexeme = some (n : Int)) (hn : n ≤ 2 ^ 53) :
    ∃ st : VMState,
      VM.execProgram (fuel + n + 8) (.Program (rg 18) (some 0) (countingLoop rg lexeme))
          (initialState [none, some 0, some 1]) = .ok () st
      ∧ st.lookup 0 "i" = some (.number (Double.ofInt (n : Int)))
      ∧ st.heap.length = 3 * n + 10 := by
  obtain ⟨extra, hlen, hrun⟩ := loop_run rg lexeme n hlex hn n 0 fuel [] (by omega)
  rw [List.nil_append] at hrun
  refine ⟨⟨loopPrefix ++ ⟨.Number (Double.ofInt (n : Int)), []⟩ :: extra, loopScopes,
    some 0, none⟩, ?_, ?_, ?_⟩
  · have hv := loop_var (fuel + n + 5) rg
    have hi := loop_init (fuel + n + 1) rg
    have e1 : fuel + n + 5 + 3 = fuel + n + 8 := by omega
    have e2 : fuel + n + 1 + 6 = fuel + n + 7 := by omega
    rw [e1] at hv
    rw [e2] at hi
    have hfor : VM.exec (fuel + n + 8) (.ForLoop (rg 4) (some 1)
        (some (.GroupExpression (rg 5) (some 1)
          [.BiExpression (rg 6) (some 1) (.Identifier ⟨rg 7, some 1, "i"⟩) "="
            (.LiteralNumber (rg 8) none "0")]))
        (some (countingCond rg lexeme)) (some (countingTail rg)) (.Block (rg 16) (some 2) []))
        ⟨loopPrefix, [⟨[("undefined", some 0), ("i", some 6)], none⟩, ⟨[], some 0⟩,
          ⟨[], some 1⟩], some 0, none⟩
        = .ok (some sigNormalAddr)
            ⟨loopPrefix ++ ⟨.Number (Double.ofInt (n : Int)), []⟩ :: extra, loopScopes,
              some 0, none⟩ := by
      conv_lhs => unfold VM.exec
      simp only [bind, VMM.bind, hi]
      exact hrun
    have h0 : (loopPrefix ++ ⟨.Number (Double.ofInt (n : Int)), []⟩ :: extra)[0]?
        = some ⟨.Undefined, []⟩ := by
      rw [List.getElem?_append_left (by rw [loopPrefix_length]; omega)]
      rfl
    unfold VM.execProgram countingLoop
    simp only [bind, VMM.bind, VM.getState, VM.setState, VM.loadBuiltin, initialState]
    have hb : VM.setVar (some 0) "undefined" (some undefinedAddr)
        ⟨initialHeap, List.map (fun p => ({ vars_ := [], parent_ := p } : Scope))
          [none, some 0, some 1], some 0, none⟩
        = .ok () ⟨initialHeap, [⟨[("undefined", some 0)], none⟩, ⟨[], some 0⟩, ⟨[], some 1⟩],
            some 0, none⟩ := by
      rfl
    have hp6 : loopPrefix[6]? = some ⟨.Number (Double.ofInt 0), []⟩ := rfl
    have h5 := loop_heap5 (⟨.Number (Double.ofInt (n : Int)), []⟩ :: extra)
    have h7 := loop_heap7 ⟨.Number (Double.ofInt (n : Int)), []⟩ extra
    have hid : VM.exec (fuel + n + 8) (.Identifier ⟨rg 17, some 0, "i"⟩)
        ⟨loopPrefix ++ ⟨.Number (Double.ofInt (n : Int)), []⟩ :: extra, loopScopes,
          some 0, none⟩
        = .ok (some 7) ⟨loopPrefix ++ ⟨.Number (Double.ofInt (n : Int)), []⟩ :: extra,
            loopScopes, some 0, none⟩ := by
      unfold VM.exec
      rfl
    simp only [hb, VM.execStatements, bind, VMM.bind, hv, VM.deref, hp6, hfor, sigNormalAddr, h5,
      hid, h7, pure, VM.derefScope]
    have hlt3 : (0 : Nat) < 0 + 1 + 1 + 1 := by omega
    simp only [loopScopes, List.length_cons, List.length_nil, hlt3, if_true]
    simp only [List.getD_cons_zero, VM.printVars, bind, VMM.bind, VM.deref, h0, h7, pure]
  · simp only [VMState.lookup, VMState.entry, scopeEntry, loopScopes, VMState.obsAt]
    have h7 := loop_heap7 ⟨.Number (Double.ofInt (n : Int)), []⟩ extra
    have hm : mapFind [("undefined", some 0), ("i", some 7)] "i" = some (some 7) := by decide
    simp only [List.getElem?_cons_zero, hm, h7, Option.map_some', Value.obs]
  · simp [loopPrefix_length, hlen]
    omega

/-! ## Lemmas on the parse of the counting loop -/

theorem identifierRange_sound (s : Option Nat) (n : String) (a : AST) (r : PositionRange)
    (h : identifierRange s n a = some r) : a = .Identifier ⟨r, s, n⟩ := by
  unfold identifierRange at h
  split at h
  · split at h
    · rename_i id hc
      obtain ⟨rfl, rfl⟩ := hc
      simp only [Option.some.injEq] at h
      subst h
      rfl
    · exact absurd h (by simp)
  · exact absurd h (by simp)

theorem numberParts_sound (a : AST) (r : PositionRange) (d : String)
    (h : numberParts a = some (r, d)) : a = .LiteralNumber r none d := by
  unfold numberParts at h
  split at h
  · split at h
    · rename_i hc
      subst hc
      simp only [Option.some.injEq, Prod.mk.injEq] at h
      obtain ⟨rfl, rfl⟩ := h
      rfl
    · exact absurd h (by simp)
  · exact absurd h (by simp)

theorem groupParts_sound (s : Option Nat) (a : Option AST) (r : PositionRange) (e : AST)
    (h : groupParts s a = some (r, e)) : a = some (.GroupExpression r s [e]) := by
  unfold groupParts at h
  split at h
  · split at h
    · rename_i hc
      subst hc
      simp only [Option.some.injEq, Prod.mk.injEq] at h
      obtain ⟨rfl, rfl⟩ := h
      rfl
    · exact absurd h (by simp)
  · exact absurd h (by simp)

theorem biParts_sound (s : Option Nat) (op : String) (a : AST) (r : PositionRange) (l e : AST)
    (h : biParts s op a = some (r, l, e)) : a = .BiExpression r s l op e := by
  unfold biParts at h
  split at h
  · split at h
    · rename_i hc
      obtain ⟨rfl, rfl⟩ := hc
      simp only [Option.some.injEq, Prod.mk.injEq] at h
      obtain ⟨rfl, rfl, rfl⟩ := h
      rfl
    · exact absurd h (by simp)
  · exact absurd h (by simp)

theorem uniParts_sound (s : Option Nat) (op : String) (pre : Bool) (a : AST) (r : PositionRange)
    (e : AST) (h : uniParts s op pre a = some (r, e)) : a = .UniExpression r s op e pre := by
  unfold uniParts at h
  split at h
  · split at h
    · rename_i hc
      obtain ⟨rfl, rfl, rfl⟩ := hc
      simp only [Option.some.injEq, Prod.mk.injEq] at h
      obtain ⟨rfl, rfl⟩ := h
      rfl
    · exact absurd h (by simp)
  · exact absurd h (by simp)

theorem programParts_sound (s : Option Nat) (p : AST) (r : PositionRange) (a b c : AST)
    (h : programParts s p = some (r, a, b, c)) : p = .Program r s [a, b, c] := by
  unfold programParts at h
  split at h
  · split at h
    · rename_i hc
      subst hc
      simp only [Option.some.injEq, Prod.mk.injEq] at h
      obtain ⟨rfl, rfl, rfl, rfl⟩ := h
      rfl
    · exact absurd h (by simp)
  · exact absurd h (by simp)

theorem varParts_sound (s : Option Nat) (n : String) (a : AST) (r r1 r2 : PositionRange)
    (init : AST) (h : varParts s n a = some (r, r1, r2, init)) :
    a = .Var r s [.mk r1 s ⟨r2, s, n⟩ (some init)] := by
  unfold varParts at h
  split at h
  · split at h
    · rename_i hc
      obtain ⟨rfl, rfl, rfl, rfl⟩ := hc
      simp only [Option.some.injEq, Prod.mk.injEq] at h
      obtain ⟨rfl, rfl, rfl, rfl⟩ := h
      rfl
    · exact absurd h (by simp)
  · exact absurd h (by simp)

theorem forParts_sound (s b : Option Nat) (a : AST) (r r1 : PositionRange) (i c t : Option AST)
    (h : forParts s b a = some (r, i, c, t, r1)) :
    a = .ForLoop r s i c t (.Block r1 b []) := by
  unfold forParts at h
  split at h
  · split at h
    · rename_i hc
      obtain ⟨rfl, rfl⟩ := hc
      simp only [Option.some.injEq, Prod.mk.injEq] at h
      obtain ⟨rfl, rfl, rfl, rfl, rfl⟩ := h
      rfl
    · exact absurd h (by simp)
  · exact absurd h (by simp)

theorem initRanges_sound (init : Option AST) (rs : List PositionRange)
    (h : initRanges init = some rs) :
    ∃ r5 r6 r7 r8, rs = [r5, r6, r7, r8] ∧
      init = some (.GroupExpression r5 (some 1)
        [.BiExpression r6 (some 1) (.Identifier ⟨r7, some 1, "i"⟩) "="
          (.LiteralNumber r8 none "0")]) := by
  unfold initRanges at h
  cases hg : groupParts (some 1) init with
  | none => rw [hg] at h; exact absurd h (by simp)
  | some g =>
    obtain ⟨r5, e⟩ := g
    rw [hg] at h
    simp only [Option.some_bind] at h
    cases hb : biParts (some 1) "=" e with
    | none => rw [hb] at h; exact absurd h (by simp)
    | some b =>
      obtain ⟨r6, l, r⟩ := b
      rw [hb] at h
      simp only [Option.some_bind] at h
      cases hi : identifierRange (some 1) "i" l with
      | none => rw [hi] at h; exact absurd h (by simp)
      | some r7 =>
        rw [hi] at h
        simp only [Option.some_bind] at h
        cases hn : numberParts r with
        | none => rw [hn] at h; exact absurd h (by simp)
        | some n =>
          obtain ⟨r8, d⟩ := n
          rw [hn] at h
          simp only [Option.some_bind] at h
          split at h
          · rename_i hd
            subst hd
            simp only [Option.some.injEq] at h
            refine ⟨r5, r6, r7, r8, h.symm, ?_⟩
            rw [groupParts_sound _ _ _ _ hg, biParts_sound _ _ _ _ _ _ hb,
              identifierRange_sound _ _ _ _ hi, numberParts_sound _ _ _ hn]
          · exact absurd h (by simp)

theorem condRanges_sound (cond : Option AST) (rs : List PositionRange) (lexeme : String)
    (h : condRanges cond = some (rs, lexeme)) :
    ∃ r9 r10 r11 r12, rs = [r9, r10, r11, r12] ∧
      cond = some (.GroupExpression r9 (some 1)
        [.BiExpression r10 (some 1) (.Identifier ⟨r11, some 1, "i"⟩) "<"
          (.LiteralNumber r12 none lexeme)]) := by
  unfold condRanges at h
  cases hg : groupParts (some 1) cond with
  | none => rw [hg] at h; exact absurd h (by simp)
  | some g =>
    obtain ⟨r9, e⟩ := g
    rw [hg] at h
    simp only [Option.some_bind] at h
    cases hb : biParts (some 1) "<" e with
    | none => rw [hb] at h; exact absurd h (by simp)
    | some b =>
      obtain ⟨r10, l, r⟩ := b
      rw [hb] at h
      simp only [Option.some_bind] at h
      cases hi : identifierRange (some 1) "i" l with
      | none => rw [hi] at h; exact absurd h (by simp)
      | some r11 =>
        rw [hi] at h
        simp only [Option.some_bind] at h
        cases hn : numberParts r with
        | none => rw [hn] at h; exact absurd h (by simp)
        | some n =>
          obtain ⟨r12, d⟩ := n
          rw [hn] at h
          simp only [Option.some_bind, Option.some.injEq, Prod.mk.injEq] at h
          obtain ⟨h1, rfl⟩ := h
          refine ⟨r9, r10, r11, r12, h1.symm, ?_⟩
          rw [groupParts_sound _ _ _ _ hg, biParts_sound _ _ _ _ _ _ hb,
            identifierRange_sound _ _ _ _ hi, numberParts_sound _ _ _ hn]

theorem tailRanges_sound (tail : Option AST) (rs : List PositionRange)
    (h : tailRanges tail = some rs) :
    ∃ r13 r14 r15, rs = [r13, r14, r15] ∧
      tail = some (.GroupExpression r13 (some 1)
        [.UniExpression r14 (some 1) "++" (.Identifier ⟨r15, some 1, "i"⟩) false]) := by
  unfold tailRanges at h
  cases hg : groupParts (some 1) tail with
  | none => rw [hg] at h; exact absurd h (by simp)
  | some g =>
    obtain ⟨r13, e⟩ := g
    rw [hg] at h
    simp only [Option.some_bind] at h
    cases hu : uniParts (some 1) "++" false e with
    | none => rw [hu] at h; exact absurd h (by simp)
    | some u =>
      obtain ⟨r14, l⟩ := u
      rw [hu] at h
      simp only [Option.some_bind] at h
      cases hi : identifierRange (some 1) "i" l with
      | none => rw [hi] at h; exact absurd h (by simp)
      | some r15 =>
        rw [hi] at h
        simp only [Option.some_bind, Option.some.injEq] at h
        refine ⟨r13, r14, r15, h.symm, ?_⟩
        rw [groupParts_sound _ _ _ _ hg, uniParts_sound _ _ _ _ _ _ hu,
          identifierRange_sound _ _ _ _ hi]

theorem varRanges_sound (a : AST) (rs : List PositionRange) (h : varRanges a = some rs) :
    ∃ r0 r1 r2 r3, rs = [r0, r1, r2, r3] ∧
      a = .Var r0 (some 0)
        [.mk r1 (some 0) ⟨r2, some 0, "i"⟩ (some (.LiteralNumber r3 none "0"))] := by
  unfold varRanges at h
  cases hv : varParts (some 0) "i" a with
  | none => rw [hv] at h; exact absurd h (by simp)
  | some v =>
    obtain ⟨r0, r1, r2, e⟩ := v
    rw [hv] at h
    simp only [Option.some_bind] at h
    cases hn : numberParts e with
    | none => rw [hn] at h; exact absurd h (by simp)
    | some n =>
      obtain ⟨r3, d⟩ := n
      rw [hn] at h
      simp only [Option.some_bind] at h
      split at h
      · rename_i hd
        subst hd
        simp only [Option.some.injEq] at h
        refine ⟨r0, r1, r2, r3, h.symm, ?_⟩
        rw [varParts_sound _ _ _ _ _ _ _ hv, numberParts_sound _ _ _ hn]
      · exact absurd h (by simp)

theorem countingRanges_sound (p : AST) (rs : List PositionRange) (lexeme : String)
    (h : countingRanges p = some (rs, lexeme)) :
    p = .Program (rs.getD 18 default) (some 0)
      (countingLoop (fun i => rs.getD i default) lexeme) := by
  unfold countingRanges at h
  cases hq : programParts (some 0) p with
  | none => rw [hq] at h; exact absurd h (by simp)
  | some q =>
    obtain ⟨r18, a, b, c⟩ := q
    rw [hq] at h
    simp only [Option.some_bind] at h
    cases hv : varRanges a with
    | none => rw [hv] at h; exact absurd h (by simp)
    | some rv =>
      rw [hv] at h
      simp only [Option.some_bind] at h
      cases hf : forParts (some 1) (some 2) b with
      | none => rw [hf] at h; exact absurd h (by simp)
      | some f =>
        obtain ⟨r4, init, cond, tail, r16⟩ := f
        rw [hf] at h
        simp only [Option.some_bind] at h
        cases hi : initRanges init with
        | none => rw [hi] at h; exact absurd h (by simp)
        | some ri =>
          rw [hi] at h
          simp only [Option.some_bind] at h
          cases hc : condRanges cond with
          | none => rw [hc] at h; exact absurd h (by simp)
          | some rc =>
            obtain ⟨rc, lx⟩ := rc
            rw [hc] at h
            simp only [Option.some_bind] at h
            cases ht : tailRanges tail with
            | none => rw [ht] at h; exact absurd h (by simp)
            | some rt =>
              rw [ht] at h
              simp only [Option.some_bind] at h
              cases h17 : identifierRange (some 0) "i" c with
              | none => rw [h17] at h; exact absurd h (by simp)
              | some r17 =>
                rw [h17] at h
                simp only [Option.some_bind, Option.some.injEq, Prod.mk.injEq] at h
                obtain ⟨hrs, rfl⟩ := h
                obtain ⟨r0, r1, r2, r3, rfl, rfl⟩ := varRanges_sound a rv hv
                obtain ⟨r5, r6, r7, r8, rfl, rfl⟩ := initRanges_sound init ri hi
                obtain ⟨r9, r10, r11, r12, rfl, rfl⟩ := condRanges_sound cond rc _ hc
                obtain ⟨r13, r14, r15, rfl, rfl⟩ := tailRanges_sound tail rt ht
                subst hrs
                rw [programParts_sound _ _ _ _ _ _ hq, forParts_sound _ _ _ _ _ _ _ _ hf,
                  identifierRange_sound _ _ _ _ h17]
                rfl

theorem run_of_parseProgram (fuel : Nat) (source : String) (prog : AST)
    (scopes : List (Option Nat)) (st : VMState)
    (hp : parseProgram fuel source = some (prog, scopes))
    (he : VM.execProgram fuel prog (initialState scopes) = .ok () st) :
    run fuel source = .finished st := by
  unfold parseProgram at hp
  unfold run
  cases hl : Lexer source with
  | tokens ts =>
    rw [hl] at hp
    simp only at hp ⊢
    cases hq : Parser.program fuel ⟨ts, []⟩ with
    | ok p pst =>
      rw [hq] at hp
      simp only [Option.some.injEq, Prod.mk.injEq] at hp ⊢
      obtain ⟨rfl, rfl⟩ := hp
      rw [he]
    | parseError => rw [hq] at hp; exact absurd hp (by simp)
    | undefinedBehaviour => rw [hq] at hp; exact absurd hp (by simp)
    | fuelOut => rw [hq] at hp; exact absurd hp (by simp)
  | outOfBounds => rw [hl] at hp; exact absurd hp (by simp)
  | fuelOut => rw [hl] at hp; exact absurd hp (by simp)

/-! ## Lemmas on the loops and on `++` and `--` -/

/-- What the loops do with the value `ret` of the body: a Return signal is returned,
a Break signal gives Normal, every other value lets the loop go on with `next`. -/
theorem loop_tail_result (ret : ValuePtr) (next : VMM ValuePtr) (st st' : VMState) (r : ValuePtr)
    (hnext : ∀ st1, next st1 = .ok r st' → isNormalOrReturn st' r)
    (h : ∃ (a : Value) (st1 : VMState), VM.deref ret st = .ok a st1 ∧
      (match a.data with
        | .Signal .RETURN _ => pure ret
        | .Signal .BREAK _ => pure (some sigNormalAddr)
        | _ => next : VMM ValuePtr) st1 = .ok r st') :
    isNormalOrReturn st' r := by
  simp only [deref_ok] at h
  obtain ⟨rc, st1, ⟨a, rfl, ha, rfl⟩, h⟩ := h
  obtain ⟨d, attrs⟩ := rc
  cases d with
  | Signal t v =>
    cases t with
    | RETURN =>
      simp only [VMM.pure_result] at h
      obtain ⟨rfl, rfl⟩ := h
      exact Or.inr ⟨a, v, attrs, rfl, ha⟩
    | BREAK =>
      simp only [VMM.pure_result] at h
      obtain ⟨rfl, rfl⟩ := h
      exact Or.inl rfl
    | CONTINUE => exact hnext _ h
    | NORMAL => exact hnext _ h
  | _ => exact hnext _ h

theorem execLoop_result (cond stmt : AST) :
    ∀ (fuel : Nat) (st st' : VMState) (r : ValuePtr),
      VM.execLoop fuel cond stmt st = .ok r st' → isNormalOrReturn st' r := by
  intro fuel
  induction fuel with
  | zero => intro st st' r h; cases h
  | succ f ih =>
    intro st st' r h
    unfold VM.execLoop at h
    simp only [bind, VMM.bind_result, deref_ok] at h
    obtain ⟨c, st1, _, cc, st2, ⟨a, rfl, _, rfl⟩, h⟩ := h
    by_cases hb : cc.toBool = true
    · simp only [hb, if_true, VMM.bind_result] at h
      obtain ⟨rv, st3, _, h⟩ := h
      exact loop_tail_result rv _ st3 st' r (fun s hs => ih s st' r hs) h
    · simp only [hb, if_false, VMM.pure_result] at h
      obtain ⟨rfl, rfl⟩ := h
      exact Or.inl rfl

theorem execDoLoop_result (blk cond : AST) :
    ∀ (fuel : Nat) (st st' : VMState) (r : ValuePtr),
      VM.execDoLoop fuel blk cond st = .ok r st' → isNormalOrReturn st' r := by
  intro fuel
  induction fuel with
  | zero => intro st st' r h; cases h
  | succ f ih =>
    intro st st' r h
    unfold VM.execDoLoop at h
    simp only [bind, VMM.bind_result] at h
    obtain ⟨rv, st1, _, h⟩ := h
    refine loop_tail_result rv _ st1 st' r ?_ h
    intro s hs
    simp only [bind, VMM.bind_result, deref_ok] at hs
    obtain ⟨c, st2, _, cc, st3, ⟨a, rfl, _, rfl⟩, hs⟩ := hs
    by_cases hb : cc.toBool = true
    · simp only [hb, if_true] at hs
      exact ih _ _ _ hs
    · simp only [hb, if_false, VMM.pure_result] at hs
      obtain ⟨rfl, rfl⟩ := hs
      exact Or.inl rfl

theorem execForLoop_result (cond iter : Option AST) (stmt : AST) :
    ∀ (fuel : Nat) (st st' : VMState) (r : ValuePtr),
      VM.execForLoop fuel cond iter stmt st = .ok r st' → isNormalOrReturn st' r := by
  intro fuel
  induction fuel with
  | zero => intro st st' r h; cases h
  | succ f ih =>
    intro st st' r h
    unfold VM.execForLoop at h
    simp only [bind, VMM.bind_result, deref_ok] at h
    obtain ⟨c, st1, _, cc, st2, ⟨a, rfl, _, rfl⟩, h⟩ := h
    by_cases hb : cc.toBool = true
    · simp only [hb, if_true, VMM.bind_result] at h
      obtain ⟨rv, st3, _, h⟩ := h
      refine loop_tail_result rv _ st3 st' r ?_ h
      intro s hs
      simp only [bind, VMM.bind_result] at hs
      obtain ⟨t, st4, _, hs⟩ := hs
      exact ih _ _ _ hs
    · simp only [hb, if_false, VMM.pure_result] at h
      obtain ⟨rfl, rfl⟩ := h
      exact Or.inl rfl

theorem execForInString_result (s : Option Nat) (i : String) (stmt : AST) :
    ∀ (fuel : Nat) (cs : List Char) (st st' : VMState) (r : ValuePtr),
      VM.execForInString fuel s i stmt cs st = .ok r st' → isNormalOrReturn st' r := by
  intro fuel
  induction fuel with
  | zero => intro cs st st' r h; cases h
  | succ f ih =>
    intro cs st st' r h
    cases cs with
    | nil =>
      unfold VM.execForInString at h
      rw [VMM.pure_result] at h
      obtain ⟨rfl, rfl⟩ := h
      exact Or.inl rfl
    | cons c rest =>
      unfold VM.execForInString at h
      simp only [bind, VMM.bind_result] at h
      obtain ⟨v, st1, _, u, st2, _, rv, st3, _, h⟩ := h
      exact loop_tail_result rv _ st3 st' r (fun s hs => ih _ _ _ _ hs) h

theorem execForInKeys_result (s : Option Nat) (i : String) (obj : ValuePtr) (stmt : AST) :
    ∀ (fuel : Nat) (ks : List String) (st st' : VMState) (r : ValuePtr),
      VM.execForInKeys fuel s i obj stmt ks st = .ok r st' → isNormalOrReturn st' r := by
  intro fuel
  induction fuel with
  | zero => intro ks st st' r h; cases h
  | succ f ih =>
    intro ks st st' r h
    cases ks with
    | nil =>
      unfold VM.execForInKeys at h
      rw [VMM.pure_result] at h
      obtain ⟨rfl, rfl⟩ := h
      exact Or.inl rfl
    | cons k rest =>
      unfold VM.execForInKeys at h
      simp only [bind, VMM.bind_result] at h
      obtain ⟨v, st1, _, u, st2, _, rv, st3, _, h⟩ := h
      exact loop_tail_result rv _ st3 st' r (fun s hs => ih _ _ _ _ hs) h

theorem execForInLoop_result (fuel : Nat) (s : Option Nat) (key target stmt : AST)
    (st st' : VMState) (r : ValuePtr)
    (h : VM.execForInLoop fuel s key target stmt st = .ok r st') : isNormalOrReturn st' r := by
  cases fuel with
  | zero => cases h
  | succ f =>
    unfold VM.execForInLoop at h
    simp only [bind, VMM.bind_result] at h
    obtain ⟨_, st1, _, name, st2, _, h⟩ := h
    cases name with
    | none => cases h
    | some i =>
      simp only [VMM.bind_result, deref_ok] at h
      obtain ⟨obj, st3, _, cell, st4, ⟨a, rfl, _, rfl⟩, h⟩ := h
      obtain ⟨d, attrs⟩ := cell
      cases d with
      | Signal t v => cases h
      | StringValue str => exact execForInString_result _ _ _ _ _ _ _ _ h
      | _ => exact execForInKeys_result _ _ _ _ _ _ _ _ _ h

theorem exec_identifier_bound (fuel : Nat) (rg : PositionRange) (s : Nat) (name : String)
    (st : VMState) (a : Nat) (hs : s < st.scopes.length)
    (hx : Scope.getVar st.scopes s name = some a) :
    VM.exec (fuel + 1) (.Identifier ⟨rg, some s, name⟩) st = .ok (some a) st := by
  unfold VM.exec
  simp only [bind, VMM.bind, getVar_run st s name hs, hx, pure]

theorem setNum_run (st : VMState) (a : Nat) (cell : Value) (d : Double)
    (h : st.heap[a]? = some cell) :
    VM.setNum (some a) d st
      = .ok () { st with heap := st.heap.set a { cell with data := .Number d } } := by
  simp only [VM.setNum, bind, VMM.bind, VM.deref, h, VM.getState, VM.setState]

/-- The operators `++` and `--`, prefix and postfix, on an identifier bound to a number
cell. -/
theorem execUni_step (fuel : Nat) (sc : Option Nat) (rg : PositionRange) (s : Nat)
    (name : String) (st : VMState) (a : Nat) (x : Double) (attrs : List (String × ValuePtr))
    (hs : s < st.scopes.length) (hx : Scope.getVar st.scopes s name = some a)
    (hcell : st.heap[a]? = some ⟨.Number x, attrs⟩) :
    VM.execUniExpression (fuel + 2) sc "++" (.Identifier ⟨rg, some s, name⟩) false st
      = .ok (some st.heap.length)
          { st with heap := ((st.heap ++ [(⟨.Number x, []⟩ : Value)]).set a
              ⟨.Number (Double.add x (Double.ofInt 1)), attrs⟩) }
    ∧ VM.execUniExpression (fuel + 2) sc "++" (.Identifier ⟨rg, some s, name⟩) true st
      = .ok (some a)
          { st with heap := st.heap.set a ⟨.Number (Double.add x (Double.ofInt 1)), attrs⟩ }
    ∧ VM.execUniExpression (fuel + 2) sc "--" (.Identifier ⟨rg, some s, name⟩) false st
      = .ok (some st.heap.length)
          { st with heap := ((st.heap ++ [(⟨.Number x, []⟩ : Value)]).set a
              ⟨.Number (Double.sub x (Double.ofInt 1)), attrs⟩) }
    ∧ VM.execUniExpression (fuel + 2) sc "--" (.Identifier ⟨rg, some s, name⟩) true st
      = .ok (some a)
          { st with heap := st.heap.set a ⟨.Number (Double.sub x (Double.ofInt 1)), attrs⟩ } := by
  have hE := exec_identifier_bound fuel rg s name st a hs hx
  have halt : a < st.heap.length := by
    rcases Nat.lt_or_ge a st.heap.length with h | h
    · exact h
    · rw [List.getElem?_eq_none h] at hcell; cases hcell
  have hcell2 : (st.heap ++ [(⟨.Number x, []⟩ : Value)])[a]? = some ⟨.Number x, attrs⟩ := by
    rw [List.getElem?_append_left halt]; exact hcell
  have e1 : ¬ ("++" = "delete") := by decide
  have e2 : ¬ ("--" = "delete") := by decide
  have e3 : ¬ ("--" = "++") := by decide
  refine ⟨?_, ?_, ?_, ?_⟩
  · unfold VM.execUniExpression
    simp only [Bool.false_and, Bool.false_eq_true, if_false, bind, VMM.bind, hE, VM.deref, hcell,
      if_true, VM.alloc]
    rw [setNum_run _ a ⟨.Number x, attrs⟩ _ hcell2]
    rfl
  · unfold VM.execUniExpression
    simp only [Bool.true_and, beq_iff_eq, e1, if_false, bind, VMM.bind, hE, VM.deref, hcell,
      if_true]
    rw [setNum_run _ a ⟨.Number x, attrs⟩ _ hcell]
    rfl
  · unfold VM.execUniExpression
    simp only [Bool.false_and, Bool.false_eq_true, if_false, bind, VMM.bind, hE, VM.deref, hcell,
      e3, if_true, VM.alloc]
    rw [setNum_run _ a ⟨.Number x, attrs⟩ _ hcell2]
    rfl
  · unfold VM.execUniExpression
    simp only [Bool.true_and, beq_iff_eq, e2, if_false, bind, VMM.bind, hE, VM.deref, hcell,
      e3, if_true]
    rw [setNum_run _ a ⟨.Number x, attrs⟩ _ hcell]
    rfl

/-! ## Lemmas on the pointers of a state -/

theorem validPtr_none (X : Nat → Prop) (n : Nat) : ValidPtr X n none := by
  intro a h; cases h

theorem ValidPtr.grow {X : Nat → Prop} {n m : Nat} {p : ValuePtr} (h : ValidPtr X n p)
    (hnm : n ≤ m) : ValidPtr X m p :=
  fun a ha => ⟨Nat.lt_of_lt_of_le (h a ha).1 hnm, (h a ha).2⟩

theorem CellOk.growCell {X : Nat → Prop} {n m : Nat} {c : Value} (h : CellOk X n c)
    (hnm : n ≤ m) : CellOk X m c :=
  ⟨fun kv hkv => (h.1 kv hkv).grow hnm, fun t v hd => (h.2 t v hd).grow hnm⟩

theorem PtrInv.singleton {X : Nat → Prop} {st : VMState} (inv : PtrInv X st) (a : Nat)
    (ha : a < 6) : ValidPtr X st.heap.length (some a) := by
  intro b hb
  cases hb
  exact ⟨Nat.lt_of_lt_of_le ha inv.six, inv.low a ha⟩

theorem Res.same {X : Nat → Prop} {st : VMState} {r : ValuePtr} (inv : PtrInv X st)
    (hr : ValidPtr X st.heap.length r) : Res X st st r :=
  ⟨inv, Nat.le_refl _, fun _ _ => rfl, hr⟩

theorem Res.andThen {X : Nat → Prop} {st s1 s2 : VMState} {r1 r2 : ValuePtr}
    (h1 : Res X st s1 r1) (h2 : Res X s1 s2 r2) : Res X st s2 r2 :=
  ⟨h2.inv, Nat.le_trans h1.le h2.le, fun a ha => (h2.frame a ha).trans (h1.frame a ha), h2.valid⟩

theorem Res.withResult {X : Nat → Prop} {st s1 : VMState} {r1 r2 : ValuePtr}
    (h1 : Res X st s1 r1) (h2 : ValidPtr X s1.heap.length r2) : Res X st s1 r2 :=
  ⟨h1.inv, h1.le, h1.frame, h2⟩

theorem Res.withSingleton {X : Nat → Prop} {st s1 : VMState} {r1 : ValuePtr}
    (h1 : Res X st s1 r1) (a : Nat) (ha : a < 6) : Res X st s1 (some a) :=
  h1.withResult (h1.inv.singleton a ha)

/-- A cell found in the heap of a state that satisfies the invariant. -/
theorem PtrInv.cellOk {X : Nat → Prop} {st : VMState} (inv : PtrInv X st) (a : Nat) (c : Value)
    (h : st.heap[a]? = some c) : CellOk X st.heap.length c :=
  inv.cells c (List.getElem?_mem h)

theorem PtrInv.setCell {X : Nat → Prop} {st : VMState} (inv : PtrInv X st) (a : Nat) (c : Value)
    (hc : CellOk X st.heap.length c) : PtrInv X { st with heap := st.heap.set a c } := by
  refine ⟨?_, inv.low, ?_, ?_, ?_, ?_⟩
  · simpa using inv.six
  · simpa using inv.excl
  · simpa using inv.vars
  · intro c1 h1
    simp only [List.length_set]
    rcases List.mem_or_eq_of_mem_set h1 with h | h
    · exact inv.cells c1 h
    · rw [h]; exact hc
  · simpa using inv.ret

theorem Res.ofSetCell {X : Nat → Prop} {st : VMState} (inv : PtrInv X st) (a : Nat) (c : Value)
    (hc : CellOk X st.heap.length c) (ha : ¬ X a) :
    Res X st { st with heap := st.heap.set a c } none := by
  refine ⟨inv.setCell a c hc, by simp, ?_, validPtr_none _ _⟩
  intro b hb
  have hne : a ≠ b := fun e => ha (e ▸ hb)
  simp [List.getElem?_set_ne hne]

theorem Res.ofPush {X : Nat → Prop} {st : VMState} (inv : PtrInv X st) (c : Value)
    (hc : CellOk X st.heap.length c) :
    Res X st { st with heap := st.heap ++ [c] } (some st.heap.length) := by
  have hle : st.heap.length ≤ (st.heap ++ [c]).length := by simp
  refine ⟨⟨?_, inv.low, ?_, ?_, ?_, ?_⟩, hle, ?_, ?_⟩
  · exact Nat.le_trans inv.six hle
  · intro a ha; exact Nat.lt_of_lt_of_le (inv.excl a ha) hle
  · intro sc hsc kv hkv; exact (inv.vars sc hsc kv hkv).grow hle
  · intro c1 h1
    rcases List.mem_append.1 h1 with h | h
    · exact (inv.cells c1 h).growCell hle
    · rw [List.mem_singleton.1 h]; exact hc.growCell hle
  · exact inv.ret.grow hle
  · intro a ha
    exact List.getElem?_append_left (inv.excl a ha)
  · intro a ha
    cases ha
    refine ⟨by simp, fun hx => Nat.lt_irrefl _ (inv.excl _ hx)⟩

theorem PtrInv.withScopes {X : Nat → Prop} {st : VMState} (inv : PtrInv X st) (scopes : List Scope)
    (h : ∀ sc ∈ scopes, ∀ kv ∈ sc.vars_, ValidPtr X st.heap.length kv.2) :
    Res X st { st with scopes := scopes } none :=
  ⟨⟨inv.six, inv.low, inv.excl, h, inv.cells, inv.ret⟩, Nat.le_refl _, fun _ _ => rfl,
    validPtr_none _ _⟩

theorem mem_mapSet {α : Type} (m : List (String × α)) (key : String) (v : α) (kv : String × α)
    (h : kv ∈ mapSet m key v) : kv ∈ m ∨ kv.2 = v := by
  induction m with
  | nil =>
    simp only [mapSet, List.mem_singleton] at h
    right; rw [h]
  | cons e rest ih =>
    obtain ⟨k, w⟩ := e
    simp only [mapSet] at h
    split at h
    · rcases List.mem_cons.1 h with h | h
      · right; rw [h]
      · left; exact List.mem_cons_of_mem _ h
    · rcases List.mem_cons.1 h with h | h
      · left; rw [h]; exact List.mem_cons_self _ _
      · rcases ih h with h | h
        · left; exact List.mem_cons_of_mem _ h
        · right; exact h

theorem getVarLoop_mem (scopes : List Scope) (name : String) (fuel : Nat) (cur : Option Nat)
    (a : Nat) (h : getVarLoop scopes name fuel cur = some a) :
    ∃ sc ∈ scopes, ∃ kv ∈ sc.vars_, kv.2 = some a := by
  induction fuel generalizing cur with
  | zero => simp [getVarLoop] at h
  | succ n ih =>
    cases cur with
    | none => simp [getVarLoop] at h
    | some c =>
      simp only [getVarLoop] at h
      cases hsc : scopes[c]? with
      | none => simp [hsc] at h
      | some sc =>
        simp only [hsc] at h
        cases hm : mapFind sc.vars_ name with
        | none => simp only [hm] at h; exact ih _ h
        | some r =>
          simp only [hm] at h
          subst h
          exact ⟨sc, List.getElem?_mem hsc, _, mapFind_mem _ _ _ hm, rfl⟩

theorem writeVar_vars (scopes : List Scope) (i : Nat) (name : String) (v : ValuePtr)
    (sc1 : Scope) (kv : String × ValuePtr) (hs : sc1 ∈ writeVar scopes i name v)
    (hk : kv ∈ sc1.vars_) : kv.2 = v ∨ ∃ sc ∈ scopes, kv ∈ sc.vars_ := by
  unfold writeVar at hs
  cases hsc : scopes[i]? with
  | none => simp only [hsc] at hs; exact Or.inr ⟨sc1, hs, hk⟩
  | some sc =>
    simp only [hsc] at hs
    rcases List.mem_or_eq_of_mem_set hs with h | h
    · exact Or.inr ⟨sc1, h, hk⟩
    · subst h
      rcases mem_mapSet _ _ _ _ hk with h | h
      · exact Or.inr ⟨sc, List.getElem?_mem hsc, h⟩
      · exact Or.inl h

theorem setVar_vars (scopes : List Scope) (i : Nat) (name : String) (v : ValuePtr)
    (sc1 : Scope) (kv : String × ValuePtr) (hs : sc1 ∈ Scope.setVar scopes i name v)
    (hk : kv ∈ sc1.vars_) : kv.2 = v ∨ ∃ sc ∈ scopes, kv ∈ sc.vars_ := by
  unfold Scope.setVar at hs
  split at hs <;> exact writeVar_vars _ _ _ _ _ _ hs hk

theorem mapErase_entries {α : Type} (m : List (String × α)) (k : String) :
    (mapErase m k).Sublist m := by
  induction m with
  | nil => simp [mapErase]
  | cons e rest ih =>
    obtain ⟨k1, w⟩ := e
    simp only [mapErase]
    split
    · exact List.sublist_cons_self _ _
    · exact ih.cons₂ _

theorem delVar_vars (scopes : List Scope) (i : Nat) (name : String)
    (sc1 : Scope) (kv : String × ValuePtr) (hs : sc1 ∈ Scope.delVar scopes i name)
    (hk : kv ∈ sc1.vars_) : ∃ sc ∈ scopes, kv ∈ sc.vars_ := by
  unfold Scope.delVar at hs
  split at hs
  · rename_i cur _
    cases hsc : scopes[cur]? with
    | none => simp only [hsc] at hs; exact ⟨sc1, hs, hk⟩
    | some sc =>
      simp only [hsc] at hs
      rcases List.mem_or_eq_of_mem_set hs with h | h
      · exact ⟨sc1, h, hk⟩
      · subst h
        exact ⟨sc, List.getElem?_mem hsc, (mapErase_entries _ _).subset hk⟩
  · exact ⟨sc1, hs, hk⟩

theorem derefScope_ok (s : Option Nat) (st st1 : VMState) (i : Nat)
    (h : VM.derefScope s st = .ok i st1) : s = some i ∧ i < st.scopes.length ∧ st1 = st := by
  unfold VM.derefScope at h
  cases s with
  | none => simp at h
  | some j =>
    simp only at h
    split at h
    · simp only [ExecResult.ok.injEq] at h
      obtain ⟨rfl, rfl⟩ := h
      exact ⟨rfl, by assumption, rfl⟩
    · simp at h

theorem getState_ok (st st1 s : VMState) (h : VM.getState st = .ok s st1) : s = st ∧ st1 = st := by
  unfold VM.getState at h
  cases h
  exact ⟨rfl, rfl⟩

theorem setState_ok (s st st1 : VMState) (u : Unit) (h : VM.setState s st = .ok u st1) :
    st1 = s := by
  unfold VM.setState at h
  cases h
  rfl

theorem alloc_res (X : Nat → Prop) (d : ValueData) (st st1 : VMState) (r : ValuePtr)
    (inv : PtrInv X st) (hd : ∀ t v, d = .Signal t v → ValidPtr X st.heap.length v)
    (h : VM.alloc d st = .ok r st1) : Res X st st1 r := by
  simp only [VM.alloc, ExecResult.ok.injEq] at h
  obtain ⟨rfl, rfl⟩ := h
  exact Res.ofPush inv _ ⟨fun kv hkv => (by cases hkv), hd⟩

theorem getVar_res (X : Nat → Prop) (s : Option Nat) (name : String) (st st1 : VMState)
    (r : ValuePtr) (inv : PtrInv X st) (h : VM.getVar s name st = .ok r st1) : Res X st st1 r := by
  unfold VM.getVar at h
  simp only [bind, VMM.bind_result, VMM.pure_result] at h
  obtain ⟨i, s1, hi, s2, s3, hg, rfl, rfl⟩ := h
  obtain ⟨rfl, _, rfl⟩ := derefScope_ok _ _ _ _ hi
  obtain ⟨rfl, rfl⟩ := getState_ok _ _ _ hg
  refine Res.same inv ?_
  intro a ha
  obtain ⟨sc, hsc, kv, hkv, e⟩ := getVarLoop_mem _ _ _ _ _ ha
  exact inv.vars sc hsc kv hkv a e

theorem setVar_res (X : Nat → Prop) (s : Option Nat) (name : String) (v : ValuePtr)
    (st st1 : VMState) (u : Unit) (inv : PtrInv X st) (hv : ValidPtr X st.heap.length v)
    (h : VM.setVar s name v st = .ok u st1) : Res X st st1 none := by
  unfold VM.setVar at h
  simp only [bind, VMM.bind_result] at h
  obtain ⟨i, s1, hi, s2, s3, hg, h⟩ := h
  obtain ⟨rfl, _, rfl⟩ := derefScope_ok _ _ _ _ hi
  obtain ⟨rfl, rfl⟩ := getState_ok _ _ _ hg
  obtain rfl := setState_ok _ _ _ _ h
  refine inv.withScopes _ ?_
  intro sc hsc kv hkv
  rcases setVar_vars _ _ _ _ _ _ hsc hkv with e | ⟨sc0, h0, hk0⟩
  · rw [e]; exact hv
  · exact inv.vars sc0 h0 kv hk0

theorem setValueMap_res (X : Nat → Prop) (s : Option Nat) (name : String) (v : ValuePtr)
    (st st1 : VMState) (u : Unit) (inv : PtrInv X st) (hv : ValidPtr X st.heap.length v)
    (h : VM.setValueMap s name v st = .ok u st1) : Res X st st1 none := by
  unfold VM.setValueMap at h
  simp only [bind, VMM.bind_result] at h
  obtain ⟨i, s1, hi, s2, s3, hg, h⟩ := h
  obtain ⟨rfl, _, rfl⟩ := derefScope_ok _ _ _ _ hi
  obtain ⟨rfl, rfl⟩ := getState_ok _ _ _ hg
  obtain rfl := setState_ok _ _ _ _ h
  refine inv.withScopes _ ?_
  intro sc hsc kv hkv
  rcases writeVar_vars _ _ _ _ _ _ hsc hkv with e | ⟨sc0, h0, hk0⟩
  · rw [e]; exact hv
  · exact inv.vars sc0 h0 kv hk0

theorem delVar_res (X : Nat → Prop) (s : Option Nat) (name : String)
    (st st1 : VMState) (u : Unit) (inv : PtrInv X st)
    (h : VM.delVar s name st = .ok u st1) : Res X st st1 none := by
  unfold VM.delVar at h
  simp only [bind, VMM.bind_result] at h
  obtain ⟨i, s1, hi, s2, s3, hg, h⟩ := h
  obtain ⟨rfl, _, rfl⟩ := derefScope_ok _ _ _ _ hi
  obtain ⟨rfl, rfl⟩ := getState_ok _ _ _ hg
  obtain rfl := setState_ok _ _ _ _ h
  refine inv.withScopes _ ?_
  intro sc hsc kv hkv
  obtain ⟨sc0, h0, hk0⟩ := delVar_vars _ _ _ _ _ hsc hkv
  exact inv.vars sc0 h0 kv hk0

/-- What a successful `setAttr` did. -/
theorem setAttr_ok (p : ValuePtr) (key : String) (v : ValuePtr) (st st1 : VMState) (u : Unit)
    (h : VM.setAttr p key v st = .ok u st1) :
    ∃ a b cell w, p = some a ∧ v = some b ∧ st.heap[a]? = some cell ∧ st.heap[b]? = some w
      ∧ st1 = { st with heap := st.heap.set a { cell with attr_ := mapSet cell.attr_ key v } } := by
  unfold VM.setAttr at h
  simp only [bind, VMM.bind_result, deref_ok] at h
  obtain ⟨w, s1, ⟨b, hb, hw, rfl⟩, cell, s2, ⟨a, ha, hc, rfl⟩, s3, s4, hg, h⟩ := h
  obtain ⟨rfl, rfl⟩ := getState_ok _ _ _ hg
  subst ha
  simp only at h
  obtain rfl := setState_ok _ _ _ _ h
  exact ⟨a, b, cell, w, rfl, hb, hc, hw, rfl⟩

theorem setAttr_inv (X : Nat → Prop) (p : ValuePtr) (key : String) (v : ValuePtr)
    (st st1 : VMState) (u : Unit) (inv : PtrInv X st) (hv : ValidPtr X st.heap.length v)
    (h : VM.setAttr p key v st = .ok u st1) : PtrInv X st1 := by
  obtain ⟨a, b, cell, w, rfl, rfl, hc, hw, rfl⟩ := setAttr_ok _ _ _ _ _ _ h
  refine inv.setCell a _ ⟨?_, (inv.cellOk a cell hc).2⟩
  intro kv hkv
  rcases mem_mapSet _ _ _ _ hkv with e | e
  · exact (inv.cellOk a cell hc).1 kv e
  · rw [e]; exact hv

theorem setAttr_res (X : Nat → Prop) (p : ValuePtr) (key : String) (v : ValuePtr)
    (st st1 : VMState) (u : Unit) (inv : PtrInv X st) (hp : ValidPtr X st.heap.length p)
    (hv : ValidPtr X st.heap.length v)
    (h : VM.setAttr p key v st = .ok u st1) : Res X st st1 none := by
  obtain ⟨a, b, cell, w, rfl, rfl, hc, hw, rfl⟩ := setAttr_ok _ _ _ _ _ _ h
  refine Res.ofSetCell inv a _ ⟨?_, (inv.cellOk a cell hc).2⟩ (hp a rfl).2
  intro kv hkv
  rcases mem_mapSet _ _ _ _ hkv with e | e
  · exact (inv.cellOk a cell hc).1 kv e
  · rw [e]; exact hv

theorem delAttr_res (X : Nat → Prop) (p : ValuePtr) (key : String)
    (st st1 : VMState) (u : Unit) (inv : PtrInv X st) (hp : ValidPtr X st.heap.length p)
    (h : VM.delAttr p key st = .ok u st1) : Res X st st1 none := by
  unfold VM.delAttr at h
  simp only [bind, VMM.bind_result, deref_ok] at h
  obtain ⟨cell, s2, ⟨a, ha, hc, rfl⟩, s3, s4, hg, h⟩ := h
  obtain ⟨rfl, rfl⟩ := getState_ok _ _ _ hg
  subst ha
  simp only at h
  obtain rfl := setState_ok _ _ _ _ h
  refine Res.ofSetCell inv a _ ⟨?_, (inv.cellOk a cell hc).2⟩ (hp a rfl).2
  intro kv hkv
  exact (inv.cellOk a cell hc).1 kv ((mapErase_entries _ _).subset hkv)

theorem setNum_res (X : Nat → Prop) (p : ValuePtr) (d : Double)
    (st st1 : VMState) (u : Unit) (inv : PtrInv X st) (hp : ValidPtr X st.heap.length p)
    (h : VM.setNum p d st = .ok u st1) : Res X st st1 none := by
  unfold VM.setNum at h
  simp only [bind, VMM.bind_result, deref_ok] at h
  obtain ⟨cell, s2, ⟨a, ha, hc, rfl⟩, s3, s4, hg, h⟩ := h
  obtain ⟨rfl, rfl⟩ := getState_ok _ _ _ hg
  subst ha
  simp only at h
  obtain rfl := setState_ok _ _ _ _ h
  refine Res.ofSetCell inv a _ ⟨(inv.cellOk a cell hc).1, ?_⟩ (hp a rfl).2
  intro t v hd
  cases hd

theorem getAttr_res (X : Nat → Prop) (p : ValuePtr) (key : String)
    (st st1 : VMState) (r : ValuePtr) (inv : PtrInv X st)
    (h : VM.getAttr p key st = .ok r st1) : Res X st st1 r := by
  unfold VM.getAttr at h
  simp only [bind, VMM.bind_result, deref_ok] at h
  obtain ⟨cell, s2, ⟨a, ha, hc, rfl⟩, h⟩ := h
  cases hm : mapFind cell.attr_ key with
  | none =>
    simp only [hm, VMM.pure_result] at h
    obtain ⟨rfl, rfl⟩ := h
    exact Res.same inv (inv.singleton 0 (by decide))
  | some v =>
    simp only [hm, VMM.pure_result] at h
    obtain ⟨rfl, rfl⟩ := h
    exact Res.same inv ((inv.cellOk a cell hc).1 _ (mapFind_mem _ _ _ hm))

theorem sigReturn_res (X : Nat → Prop) (v : ValuePtr)
    (st st1 : VMState) (r : ValuePtr) (inv : PtrInv X st) (hv : ValidPtr X st.heap.length v)
    (h : VM.sigReturn v st = .ok r st1) : Res X st st1 r := by
  unfold VM.sigReturn at h
  simp only [bind, VMM.bind_result] at h
  obtain ⟨inst, s1, ha, s2, s3, hg, h⟩ := h
  obtain ⟨rfl, rfl⟩ := getState_ok _ _ _ hg
  have r1 := alloc_res X _ _ _ _ inv (fun t w e => by cases e; exact hv) ha
  cases hr : s3.sigReturnRet with
  | some ret =>
    simp only [hr, VMM.pure_result] at h
    obtain ⟨rfl, rfl⟩ := h
    exact r1.withResult (hr ▸ r1.inv.ret)
  | none =>
    simp only [hr, bind, VMM.bind_result, VMM.pure_result] at h
    obtain ⟨u, s4, hs, rfl, rfl⟩ := h
    obtain rfl := setState_ok _ _ _ _ hs
    exact ⟨⟨r1.inv.six, r1.inv.low, r1.inv.excl, r1.inv.vars, r1.inv.cells, r1.valid⟩, r1.le,
      r1.frame, r1.valid⟩

theorem isNotaNumber_ok (p : ValuePtr) (st st1 : VMState) (b : Bool)
    (h : VM.isNotaNumber p st = .ok b st1) : st1 = st := by
  unfold VM.isNotaNumber at h
  cases p with
  | none => simp only [ExecResult.ok.injEq] at h; exact h.2.symm
  | some a =>
    simp only at h
    split at h
    · simp at h
    · simp only [ExecResult.ok.injEq] at h; exact h.2.symm

theorem ite_pos_vm {σ ρ : Type} {P : Prop} [Decidable P] (A B : σ → ρ) (st : σ) (r : ρ)
    (hP : P) (h : (if P then A else B) st = r) : A st = r := by
  rw [if_pos hP] at h
  exact h

theorem ite_neg_vm {σ ρ : Type} {P : Prop} [Decidable P] (A B : σ → ρ) (st : σ) (r : ρ)
    (hP : ¬ P) (h : (if P then A else B) st = r) : B st = r := by
  rw [if_neg hP] at h
  exact h

theorem arith_res (X : Nat → Prop) (op : Double → Double → Option Double) (l r : ValuePtr)
    (st st1 : VMState) (res : ValuePtr) (inv : PtrInv X st)
    (h : VM.arith op l r st = .ok res st1) : Res X st st1 res := by
  unfold VM.arith at h
  simp only [bind, VMM.bind_result, deref_ok] at h
  obtain ⟨lc, s1, ⟨a, _, _, rfl⟩, h⟩ := h
  cases hd : lc.data <;> simp only [hd, bind, VMM.bind_result, deref_ok, VMM.pure_result] at h
  case Number x =>
    obtain ⟨rc, s2, ⟨b, _, _, rfl⟩, h⟩ := h
    cases hr : rc.data <;> simp only [hr, VMM.pure_result] at h
    case Number y =>
      cases ho : op x y <;> simp only [ho] at h
      · simp [VM.undefinedBehaviour] at h
      · exact alloc_res X _ _ _ _ inv (fun _ _ e => by cases e) h
    all_goals
      obtain ⟨rfl, rfl⟩ := h
      exact Res.same inv (inv.singleton 1 (by decide))
  case NotaNumber =>
    obtain ⟨rc, s2, ⟨b, _, _, rfl⟩, rfl, rfl⟩ := h
    exact Res.same inv (inv.singleton 1 (by decide))
  all_goals
    obtain ⟨rfl, rfl⟩ := h
    exact Res.same inv (inv.singleton 1 (by decide))

theorem plus_res (X : Nat → Prop) (l r : ValuePtr)
    (st st1 : VMState) (res : ValuePtr) (inv : PtrInv X st)
    (h : VM.plus l r st = .ok res st1) : Res X st st1 res := by
  unfold VM.plus at h
  simp only [bind, VMM.bind_result] at h
  obtain ⟨b1, s1, h1, b2, s2, h2, h⟩ := h
  obtain rfl := isNotaNumber_ok _ _ _ _ h1
  obtain rfl := isNotaNumber_ok _ _ _ _ h2
  by_cases hb : (b1 || b2) = true
  · replace h := ite_pos_vm _ _ _ _ hb h
    obtain ⟨rfl, rfl⟩ := (VMM.pure_result _ _ _ _).1 h
    exact Res.same inv (inv.singleton 1 (by decide))
  · replace h := ite_neg_vm _ _ _ _ hb h
    simp only [bind, VMM.bind_result, deref_ok] at h
    obtain ⟨lc, s3, ⟨a, _, _, rfl⟩, rc, s4, ⟨b, _, _, rfl⟩, h⟩ := h
    cases hd : lc.data with
    | Number x =>
      cases hr : rc.data <;> simp only [hd, hr] at h <;>
        exact alloc_res X _ _ _ _ inv (fun _ _ e => by cases e) h
    | _ =>
      simp only [hd] at h
      exact alloc_res X _ _ _ _ inv (fun _ _ e => by cases e) h

theorem rev_res (X : Nat → Prop) (v : ValuePtr)
    (st st1 : VMState) (res : ValuePtr) (inv : PtrInv X st)
    (h : VM.rev v st = .ok res st1) : Res X st st1 res := by
  unfold VM.rev at h
  simp only [bind, VMM.bind_result, deref_ok] at h
  obtain ⟨c, s1, ⟨a, _, _, rfl⟩, h⟩ := h
  cases hd : c.data <;> simp only [hd, VMM.pure_result] at h
  case Number x =>
    cases ho : x.toInt64 <;> simp only [ho] at h
    · simp [VM.undefinedBehaviour] at h
    · exact alloc_res X _ _ _ _ inv (fun _ _ e => by cases e) h
  all_goals
    obtain ⟨rfl, rfl⟩ := h
    exact Res.same inv (inv.singleton 1 (by decide))

theorem compare_res (X : Nat → Prop) (num : Double → Double → Bool)
    (str : String → String → Bool) (l r : ValuePtr)
    (st st1 : VMState) (res : ValuePtr) (inv : PtrInv X st)
    (h : VM.compare num str l r st = .ok res st1) : Res X st st1 res := by
  unfold VM.compare at h
  simp only [bind, VMM.bind_result, deref_ok] at h
  obtain ⟨lc, s1, ⟨a, _, _, rfl⟩, h⟩ := h
  cases hd : lc.data <;> simp only [hd, bind, VMM.bind_result, deref_ok] at h
  case Number x =>
    obtain ⟨rc, s2, ⟨b, _, _, rfl⟩, h⟩ := h
    cases hr : rc.data <;> simp only [hr] at h <;>
      exact alloc_res X _ _ _ _ inv (fun _ _ e => by cases e) h
  all_goals
    obtain ⟨rc, s2, ⟨b, _, _, rfl⟩, h⟩ := h
    exact alloc_res X _ _ _ _ inv (fun _ _ e => by cases e) h

theorem teq_res (X : Nat → Prop) (l r : ValuePtr)
    (st st1 : VMState) (res : ValuePtr) (inv : PtrInv X st)
    (h : VM.teq l r st = .ok res st1) : Res X st st1 res := by
  unfold VM.teq at h
  simp only [bind, VMM.bind_result, deref_ok] at h
  obtain ⟨lc, s1, ⟨a, _, _, rfl⟩, rc, s2, ⟨b, _, _, rfl⟩, h⟩ := h
  split at h
  · exact alloc_res X _ _ _ _ inv (fun _ _ e => by cases e) h
  · exact compare_res X _ _ _ _ _ _ _ inv h

theorem nteq_res (X : Nat → Prop) (l r : ValuePtr)
    (st st1 : VMState) (res : ValuePtr) (inv : PtrInv X st)
    (h : VM.nteq l r st = .ok res st1) : Res X st st1 res := by
  unfold VM.nteq at h
  simp only [bind, VMM.bind_result, deref_ok] at h
  obtain ⟨t, s1, ht, c, s2, ⟨a, _, _, rfl⟩, h⟩ := h
  have r1 := teq_res X _ _ _ _ _ inv ht
  cases hd : c.data <;> simp only [hd] at h
  case Boolean x => exact r1.andThen (alloc_res X _ _ _ _ r1.inv (fun _ _ e => by cases e) h)
  all_goals simp [VM.undefinedBehaviour] at h

theorem binaryOperator_res (X : Nat → Prop) (op : String)
    (f : ValuePtr → ValuePtr → VMM ValuePtr) (hf : VM.binaryOperator op = some f) (l r : ValuePtr)
    (st st1 : VMState) (res : ValuePtr) (inv : PtrInv X st)
    (h : f l r st = .ok res st1) : Res X st st1 res := by
  unfold VM.binaryOperator at hf
  by_cases hc : op = "+"
  · rw [if_pos hc] at hf
    cases hf
    exact plus_res X _ _ _ _ _ inv h
  rw [if_neg hc] at hf
  clear hc
  by_cases hc : op = "-"
  · rw [if_pos hc] at hf
    cases hf
    exact arith_res X _ _ _ _ _ _ inv h
  rw [if_neg hc] at hf
  clear hc
  by_cases hc : op = "*"
  · rw [if_pos hc] at hf
    cases hf
    exact arith_res X _ _ _ _ _ _ inv h
  rw [if_neg hc] at hf
  clear hc
  by_cases hc : op = "/"
  · rw [if_pos hc] at hf
    cases hf
    exact arith_res X _ _ _ _ _ _ inv h
  rw [if_neg hc] at hf
  clear hc
  by_cases hc : op = "%"
  · rw [if_pos hc] at hf
    cases hf
    exact arith_res X _ _ _ _ _ _ inv h
  rw [if_neg hc] at hf
  clear hc
  by_cases hc : op = "&"
  · rw [if_pos hc] at hf
    cases hf
    exact arith_res X _ _ _ _ _ _ inv h
  rw [if_neg hc] at hf
  clear hc
  by_cases hc : op = "|"
  · rw [if_pos hc] at hf
    cases hf
    exact arith_res X _ _ _ _ _ _ inv h
  rw [if_neg hc] at hf
  clear hc
  by_cases hc : op = "^"
  · rw [if_pos hc] at hf
    cases hf
    exact arith_res X _ _ _ _ _ _ inv h
  rw [if_neg hc] at hf
  clear hc
  by_cases hc : op = "<<"
  · rw [if_pos hc] at hf
    cases hf
    exact arith_res X _ _ _ _ _ _ inv h
  rw [if_neg hc] at hf
  clear hc
  by_cases hc : op = ">>"
  · rw [if_pos hc] at hf
    cases hf
    exact arith_res X _ _ _ _ _ _ inv h
  rw [if_neg hc] at hf
  clear hc
  by_cases hc : op = "<"
  · rw [if_pos hc] at hf
    cases hf
    exact compare_res X _ _ _ _ _ _ _ inv h
  rw [if_neg hc] at hf
  clear hc
  by_cases hc : op = "<="
  · rw [if_pos hc] at hf
    cases hf
    exact compare_res X _ _ _ _ _ _ _ inv h
  rw [if_neg hc] at hf
  clear hc
  by_cases hc : op = ">"
  · rw [if_pos hc] at hf
    cases hf
    exact compare_res X _ _ _ _ _ _ _ inv h
  rw [if_neg hc] at hf
  clear hc
  by_cases hc : op = ">="
  · rw [if_pos hc] at hf
    cases hf
    exact compare_res X _ _ _ _ _ _ _ inv h
  rw [if_neg hc] at hf
  clear hc
  by_cases hc : op = "=="
  · rw [if_pos hc] at hf
    cases hf
    exact compare_res X _ _ _ _ _ _ _ inv h
  rw [if_neg hc] at hf
  clear hc
  by_cases hc : op = "!="
  · rw [if_pos hc] at hf
    cases hf
    exact compare_res X _ _ _ _ _ _ _ inv h
  rw [if_neg hc] at hf
  clear hc
  by_cases hc : op = "==="
  · rw [if_pos hc] at hf
    cases hf
    exact teq_res X _ _ _ _ _ inv h
  rw [if_neg hc] at hf
  clear hc
  by_cases hc : op = "!=="
  · rw [if_pos hc] at hf
    cases hf
    exact nteq_res X _ _ _ _ _ inv h
  rw [if_neg hc] at hf
  clear hc
  cases hf

theorem compoundOperator_res (X : Nat → Prop) (op : String)
    (f : ValuePtr → ValuePtr → VMM ValuePtr) (hf : VM.compoundOperator op = some f) (l r : ValuePtr)
    (st st1 : VMState) (res : ValuePtr) (inv : PtrInv X st)
    (h : f l r st = .ok res st1) : Res X st st1 res := by
  unfold VM.compoundOperator at hf
  by_cases hc : op = "+="
  · rw [if_pos hc] at hf
    cases hf
    exact plus_res X _ _ _ _ _ inv h
  rw [if_neg hc] at hf
  clear hc
  by_cases hc : op = "-="
  · rw [if_pos hc] at hf
    cases hf
    exact arith_res X _ _ _ _ _ _ inv h
  rw [if_neg hc] at hf
  clear hc
  by_cases hc : op = "*="
  · rw [if_pos hc] at hf
    cases hf
    exact arith_res X _ _ _ _ _ _ inv h
  rw [if_neg hc] at hf
  clear hc
  by_cases hc : op = "/="
  · rw [if_pos hc] at hf
    cases hf
    exact arith_res X _ _ _ _ _ _ inv h
  rw [if_neg hc] at hf
  clear hc
  by_cases hc : op = "%="
  · rw [if_pos hc] at hf
    cases hf
    exact arith_res X _ _ _ _ _ _ inv h
  rw [if_neg hc] at hf
  clear hc
  by_cases hc : op = "&="
  · rw [if_pos hc] at hf
    cases hf
    exact arith_res X _ _ _ _ _ _ inv h
  rw [if_neg hc] at hf
  clear hc
  by_cases hc : op = "|="
  · rw [if_pos hc] at hf
    cases hf
    exact arith_res X _ _ _ _ _ _ inv h
  rw [if_neg hc] at hf
  clear hc
  by_cases hc : op = "~="
  · rw [if_pos hc] at hf
    cases hf
    exact rev_res X _ _ _ _ inv h
  rw [if_neg hc] at hf
  clear hc
  by_cases hc : op = "^="
  · rw [if_pos hc] at hf
    cases hf
    exact arith_res X _ _ _ _ _ _ inv h
  rw [if_neg hc] at hf
  clear hc
  by_cases hc : op = "<<="
  · rw [if_pos hc] at hf
    cases hf
    exact arith_res X _ _ _ _ _ _ inv h
  rw [if_neg hc] at hf
  clear hc
  by_cases hc : op = ">>="
  · rw [if_pos hc] at hf
    cases hf
    exact arith_res X _ _ _ _ _ _ inv h
  rw [if_neg hc] at hf
  clear hc
  cases hf

theorem loop_tail_res (X : Nat → Prop) (st0 : VMState) (ret : ValuePtr) (next : VMM ValuePtr)
    (st st1 : VMState) (r : ValuePtr) (r0 : Res X st0 st ret)
    (hnext : next st = .ok r st1 → Res X st0 st1 r)
    (h : ∃ (a : Value) (s : VMState), VM.deref ret st = .ok a s ∧
      (match a.data with
        | .Signal .RETURN _ => pure ret
        | .Signal .BREAK _ => pure (some sigNormalAddr)
        | _ => next : VMM ValuePtr) s = .ok r st1) :
    Res X st0 st1 r := by
  simp only [deref_ok] at h
  obtain ⟨rc, s, ⟨a, rfl, ha, rfl⟩, h⟩ := h
  obtain ⟨d, attrs⟩ := rc
  cases d with
  | Signal t v =>
    cases t with
    | RETURN =>
      simp only [VMM.pure_result] at h
      obtain ⟨rfl, rfl⟩ := h
      exact r0
    | BREAK =>
      simp only [VMM.pure_result] at h
      obtain ⟨rfl, rfl⟩ := h
      exact r0.withSingleton 5 (by decide)
    | CONTINUE => exact hnext h
    | NORMAL => exact hnext h
  | _ => exact hnext h

theorem execNullable_sound (X : Nat → Prop) (fuel : Nat) (ih : VMSpec X fuel) (code : Option AST) :
    Sound X none (VM.execNullable (fuel + 1) code) := by
  intro st r st1 inv _ h
  unfold VM.execNullable at h
  cases code with
  | none =>
    obtain ⟨rfl, rfl⟩ := (VMM.pure_result _ _ _ _).1 h
    exact Res.same inv (inv.singleton 5 (by decide))
  | some c => exact ih.exec c _ _ _ inv (validPtr_none _ _) h

theorem execVar_sound (X : Nat → Prop) (fuel : Nat) (ih : VMSpec X fuel) (s : Option Nat)
    (ds : List Declaration) (ret : ValuePtr) : Sound X ret (VM.execVar (fuel + 1) s ds ret) := by
  intro st r st1 inv hp h
  cases ds with
  | nil =>
    unfold VM.execVar at h
    obtain ⟨rfl, rfl⟩ := (VMM.pure_result _ _ _ _).1 h
    exact Res.same inv hp
  | cons d rest =>
    obtain ⟨rg, sc, id, init⟩ := d
    unfold VM.execVar at h
    simp only [bind, VMM.bind_result, deref_ok] at h
    obtain ⟨v, s1, h1, u, s2, h2, c, s3, ⟨a, _, _, rfl⟩, h⟩ := h
    have r1 : Res X st s1 v := by
      cases init with
      | none =>
        obtain ⟨rfl, rfl⟩ := (VMM.pure_result _ _ _ _).1 h1
        exact Res.same inv (inv.singleton 0 (by decide))
      | some e => exact ih.exec e _ _ _ inv (validPtr_none _ _) h1
    have r2 := setVar_res X _ _ _ _ _ _ r1.inv r1.valid h2
    exact (r1.andThen r2).andThen (ih.execVar _ _ _ _ _ _ r2.inv (r1.valid.grow r2.le) h)

theorem execBlock_sound (X : Nat → Prop) (fuel : Nat) (ih : VMSpec X fuel) (l : List AST) :
    Sound X none (VM.execBlock (fuel + 1) l) := by
  intro st r st1 inv _ h
  cases l with
  | nil =>
    unfold VM.execBlock at h
    obtain ⟨rfl, rfl⟩ := (VMM.pure_result _ _ _ _).1 h
    exact Res.same inv (inv.singleton 5 (by decide))
  | cons i rest =>
    unfold VM.execBlock at h
    simp only [bind, VMM.bind_result, deref_ok] at h
    obtain ⟨v, s1, h1, c, s2, ⟨a, _, _, rfl⟩, h⟩ := h
    have r1 := ih.exec _ _ _ _ inv (validPtr_none _ _) h1
    by_cases hc : c.type_ = .SIGNAL
    · replace h := ite_pos_vm _ _ _ _ hc h
      obtain ⟨rfl, rfl⟩ := (VMM.pure_result _ _ _ _).1 h
      exact r1
    · replace h := ite_neg_vm _ _ _ _ hc h
      exact r1.andThen (ih.execBlock _ _ _ _ r1.inv (validPtr_none _ _) h)

theorem execGroupExpression_sound (X : Nat → Prop) (fuel : Nat) (ih : VMSpec X fuel)
    (l : List AST) (ret : ValuePtr) : Sound X ret (VM.execGroupExpression (fuel + 1) l ret) := by
  intro st r st1 inv hp h
  cases l with
  | nil =>
    unfold VM.execGroupExpression at h
    obtain ⟨rfl, rfl⟩ := (VMM.pure_result _ _ _ _).1 h
    exact Res.same inv hp
  | cons i rest =>
    unfold VM.execGroupExpression at h
    simp only [bind, VMM.bind_result, deref_ok] at h
    obtain ⟨v, s1, h1, c, s2, ⟨a, _, _, rfl⟩, h⟩ := h
    have r1 := ih.exec _ _ _ _ inv (validPtr_none _ _) h1
    by_cases hc : c.type_ = .SIGNAL
    · replace h := ite_pos_vm _ _ _ _ hc h
      cases h
    · replace h := ite_neg_vm _ _ _ _ hc h
      exact r1.andThen (ih.execGroupExpression _ _ _ _ _ r1.inv r1.valid h)

theorem execArguments_sound (X : Nat → Prop) (fuel : Nat) (ih : VMSpec X fuel)
    (fscope : Option Nat) (arguments : ValuePtr) (formals : List Identifier) (rarg : List AST)
    (i : Nat) : SoundUnit X arguments (VM.execArguments (fuel + 1) fscope arguments formals rarg i) := by
  intro st r st1 inv hp h
  cases formals with
  | nil =>
    unfold VM.execArguments at h
    obtain ⟨_, rfl⟩ := (VMM.pure_result _ _ _ _).1 h
    exact Res.same inv (validPtr_none _ _)
  | cons arg formals =>
    cases rarg with
    | nil =>
      unfold VM.execArguments at h
      obtain ⟨_, rfl⟩ := (VMM.pure_result _ _ _ _).1 h
      exact Res.same inv (validPtr_none _ _)
    | cons a rarg =>
      unfold VM.execArguments at h
      simp only [bind, VMM.bind_result] at h
      obtain ⟨v, s1, h1, u, s2, h2, u3, s3, h3, h⟩ := h
      have r1 := ih.exec _ _ _ _ inv (validPtr_none _ _) h1
      have r2 := setVar_res X _ _ _ _ _ _ r1.inv r1.valid h2
      have r3 := setAttr_res X _ _ _ _ _ _ r2.inv (hp.grow (Nat.le_trans r1.le r2.le))
        (r1.valid.grow r2.le) h3
      have r4 := (r1.andThen r2).andThen r3
      exact r4.andThen (ih.execArguments _ _ _ _ _ _ _ _ r4.inv (hp.grow r4.le) h)

theorem execCallBody_sound (X : Nat → Prop) (fuel : Nat) (ih : VMSpec X fuel) (l : List AST) :
    Sound X none (VM.execCallBody (fuel + 1) l) := by
  intro st r st1 inv _ h
  cases l with
  | nil =>
    unfold VM.execCallBody at h
    obtain ⟨rfl, rfl⟩ := (VMM.pure_result _ _ _ _).1 h
    exact Res.same inv (inv.singleton 2 (by decide))
  | cons i rest =>
    unfold VM.execCallBody at h
    simp only [bind, VMM.bind_result, deref_ok] at h
    obtain ⟨v, s1, h1, c, s2, ⟨a, rfl, ha, rfl⟩, h⟩ := h
    have r1 := ih.exec _ _ _ _ inv (validPtr_none _ _) h1
    have hc := r1.inv.cellOk a c ha
    obtain ⟨d, attrs⟩ := c
    cases d with
    | Signal t w =>
      cases t with
      | RETURN =>
        simp only [VMM.pure_result] at h
        obtain ⟨rfl, rfl⟩ := h
        exact r1.withResult (hc.2 _ _ rfl)
      | BREAK => cases h
      | CONTINUE => cases h
      | NORMAL => exact r1.andThen (ih.execCallBody _ _ _ _ r1.inv (validPtr_none _ _) h)
    | _ => exact r1.andThen (ih.execCallBody _ _ _ _ r1.inv (validPtr_none _ _) h)

theorem execConstructorBody_sound (X : Nat → Prop) (fuel : Nat) (ih : VMSpec X fuel)
    (l : List AST) : SoundUnit X none (VM.execConstructorBody (fuel + 1) l) := by
  intro st r st1 inv _ h
  cases l with
  | nil =>
    unfold VM.execConstructorBody at h
    obtain ⟨_, rfl⟩ := (VMM.pure_result _ _ _ _).1 h
    exact Res.same inv (validPtr_none _ _)
  | cons i rest =>
    unfold VM.execConstructorBody at h
    simp only [bind, VMM.bind_result, deref_ok] at h
    obtain ⟨v, s1, h1, c, s2, ⟨a, rfl, ha, rfl⟩, h⟩ := h
    have r1 := ih.exec _ _ _ _ inv (validPtr_none _ _) h1
    obtain ⟨d, attrs⟩ := c
    cases d with
    | Signal t w =>
      cases t with
      | RETURN =>
        simp only [VMM.pure_result] at h
        obtain ⟨_, rfl⟩ := h
        exact r1.withResult (validPtr_none _ _)
      | BREAK => cases h
      | CONTINUE => cases h
      | NORMAL =>
        exact r1.andThen (ih.execConstructorBody _ _ _ _ r1.inv (validPtr_none _ _) h)
    | _ => exact r1.andThen (ih.execConstructorBody _ _ _ _ r1.inv (validPtr_none _ _) h)

/-- The steps of `exec(Call*)` and `exec(Constructor*)` between the evaluation of the
callee and the run of its body. -/
theorem callee_setup_res (X : Nat → Prop) (fuel : Nat) (ih : VMSpec X fuel)
    (fscope : Option Nat) (fargs : List Identifier) (args_ : List AST)
    (st s3 s4 s5 s6 s7 : VMState) (arguments me : ValuePtr) (u5 u6 u7 : Unit)
    (inv : PtrInv X st)
    (h3 : VM.alloc .ObjectValue st = .ok arguments s3)
    (h4 : VM.alloc .ObjectValue s3 = .ok me s4)
    (h5 : VM.execArguments fuel fscope arguments fargs args_ 0 s4 = .ok u5 s5)
    (h6 : VM.setValueMap fscope "arguments" arguments s5 = .ok u6 s6)
    (h7 : VM.setValueMap fscope "this" me s6 = .ok u7 s7) : Res X st s7 me := by
  have r3 := alloc_res X _ _ _ _ inv (fun _ _ e => by cases e) h3
  have r4 := alloc_res X _ _ _ _ r3.inv (fun _ _ e => by cases e) h4
  have r5 := ih.execArguments _ _ _ _ _ _ _ _ r4.inv (r3.valid.grow r4.le) h5
  have r6 := setValueMap_res X _ _ _ _ _ _ r5.inv
    (r3.valid.grow (Nat.le_trans r4.le r5.le)) h6
  have r7 := setValueMap_res X _ _ _ _ _ _ r6.inv
    (r4.valid.grow (Nat.le_trans r5.le r6.le)) h7
  exact ((((r3.andThen r4).andThen r5).andThen r6).andThen r7).withResult
    (r4.valid.grow (Nat.le_trans r5.le (Nat.le_trans r6.le r7.le)))

theorem execCall_sound (X : Nat → Prop) (fuel : Nat) (ih : VMSpec X fuel) (func_ : AST)
    (args_ : List AST) : Sound X none (VM.execCall (fuel + 1) func_ args_) := by
  intro st r st1 inv _ h
  unfold VM.execCall at h
  simp only [bind, VMM.bind_result] at h
  obtain ⟨fv, s1, h1, h⟩ := h
  have r1 := ih.exec _ _ _ _ inv (validPtr_none _ _) h1
  cases fv with
  | none => cases h
  | some f =>
    simp only [bind, VMM.bind_result, deref_ok] at h
    obtain ⟨c, s2, ⟨a, _, ha, rfl⟩, h⟩ := h
    obtain ⟨d, attrs⟩ := c
    cases d with
    | FunctionValue code =>
      cases code with
      | Function rg sc id fargs fstmts =>
        simp only [bind, VMM.bind_result] at h
        obtain ⟨arguments, s3, h3, me, s4, h4, u5, s5, h5, u6, s6, h6, u7, s7, h7, h⟩ := h
        have r7 := callee_setup_res X fuel ih _ _ _ _ _ _ _ _ _ _ _ _ _ _ r1.inv h3 h4 h5 h6 h7
        exact (r1.andThen r7).andThen (ih.execCallBody _ _ _ _ r7.inv (validPtr_none _ _) h)
      | _ => cases h
    | _ => cases h

theorem execConstructor_sound (X : Nat → Prop) (fuel : Nat) (ih : VMSpec X fuel) (func_ : AST)
    (args_ : List AST) : Sound X none (VM.execConstructor (fuel + 1) func_ args_) := by
  intro st r st1 inv _ h
  unfold VM.execConstructor at h
  simp only [bind, VMM.bind_result] at h
  obtain ⟨fv, s1, h1, h⟩ := h
  have r1 := ih.exec _ _ _ _ inv (validPtr_none _ _) h1
  cases fv with
  | none => cases h
  | some f =>
    simp only [bind, VMM.bind_result, deref_ok] at h
    obtain ⟨c, s2, ⟨a, _, ha, rfl⟩, h⟩ := h
    obtain ⟨d, attrs⟩ := c
    cases d with
    | FunctionValue code =>
      cases code with
      | Function rg sc id fargs fstmts =>
        simp only [bind, VMM.bind_result, VMM.pure_result] at h
        obtain ⟨arguments, s3, h3, me, s4, h4, u5, s5, h5, u6, s6, h6, u7, s7, h7, u8, s8, h8,
          rfl, rfl⟩ := h
        have r7 := callee_setup_res X fuel ih _ _ _ _ _ _ _ _ _ _ _ _ _ _ r1.inv h3 h4 h5 h6 h7
        have r8 := ih.execConstructorBody _ _ _ _ r7.inv (validPtr_none _ _) h8
        exact ((r1.andThen r7).andThen r8).withResult (r7.valid.grow r8.le)
      | _ => cases h
    | _ => cases h

theorem execArray_sound (X : Nat → Prop) (fuel : Nat) (ih : VMSpec X fuel) (ret : ValuePtr)
    (l : List AST) (i : Nat) : Sound X ret (VM.execArray (fuel + 1) ret l i) := by
  intro st r st1 inv hp h
  cases l with
  | nil =>
    unfold VM.execArray at h
    obtain ⟨rfl, rfl⟩ := (VMM.pure_result _ _ _ _).1 h
    exact Res.same inv hp
  | cons e rest =>
    unfold VM.execArray at h
    simp only [bind, VMM.bind_result] at h
    obtain ⟨v, s1, h1, u, s2, h2, h⟩ := h
    have r1 := ih.exec _ _ _ _ inv (validPtr_none _ _) h1
    have r2 := r1.andThen (setAttr_res X _ _ _ _ _ _ r1.inv (hp.grow r1.le) r1.valid h2)
    exact r2.andThen (ih.execArray _ _ _ _ _ _ r2.inv (hp.grow r2.le) h)

theorem execObject_sound (X : Nat → Prop) (fuel : Nat) (ih : VMSpec X fuel) (ret : ValuePtr)
    (l : List (AST × AST)) : Sound X ret (VM.execObject (fuel + 1) ret l) := by
  intro st r st1 inv hp h
  cases l with
  | nil =>
    unfold VM.execObject at h
    obtain ⟨rfl, rfl⟩ := (VMM.pure_result _ _ _ _).1 h
    exact Res.same inv hp
  | cons e rest =>
    obtain ⟨k, e⟩ := e
    unfold VM.execObject at h
    simp only [bind, VMM.bind_result, deref_ok] at h
    obtain ⟨kv, s1, h1, c, s2, ⟨a, _, _, rfl⟩, v, s3, h3, u, s4, h4, h⟩ := h
    have r1 := ih.exec _ _ _ _ inv (validPtr_none _ _) h1
    have r3 := r1.andThen (ih.exec _ _ _ _ r1.inv (validPtr_none _ _) h3)
    have r4 := r3.andThen (setAttr_res X _ _ _ _ _ _ r3.inv (hp.grow r3.le) r3.valid h4)
    exact r4.andThen (ih.execObject _ _ _ _ _ r4.inv (hp.grow r4.le) h)

theorem execSwitch_sound (X : Nat → Prop) (fuel : Nat) (ih : VMSpec X fuel) (val : ValuePtr)
    (state : Bool) (l : List AST) : Sound X none (VM.execSwitch (fuel + 1) val state l) := by
  intro st r st1 inv _ h
  cases l with
  | nil =>
    unfold VM.execSwitch at h
    obtain ⟨rfl, rfl⟩ := (VMM.pure_result _ _ _ _).1 h
    exact Res.same inv (inv.singleton 5 (by decide))
  | cons stmt rest =>
    have other : (if state = true then (do
          let ret ← VM.exec fuel stmt
          match (← VM.deref ret).data with
          | .Signal .BREAK _ => pure (some sigNormalAddr)
          | .Signal _ _ => pure ret
          | _ => VM.execSwitch fuel val state rest)
        else VM.execSwitch fuel val state rest : VMM ValuePtr) st = .ok r st1 →
        Res X st st1 r := by
      intro h
      by_cases hs : state = true
      · replace h := ite_pos_vm _ _ _ _ hs h
        simp only [bind, VMM.bind_result, deref_ok] at h
        obtain ⟨v, s1, h1, c, s2, ⟨a, _, ha, rfl⟩, h⟩ := h
        have r1 := ih.exec _ _ _ _ inv (validPtr_none _ _) h1
        obtain ⟨d, attrs⟩ := c
        cases d with
        | Signal t w =>
          cases t with
          | BREAK =>
            simp only [VMM.pure_result] at h
            obtain ⟨rfl, rfl⟩ := h
            exact r1.withSingleton 5 (by decide)
          | _ =>
            simp only [VMM.pure_result] at h
            obtain ⟨rfl, rfl⟩ := h
            exact r1
        | _ => exact r1.andThen (ih.execSwitch _ _ _ _ _ _ r1.inv (validPtr_none _ _) h)
      · replace h := ite_neg_vm _ _ _ _ hs h
        exact ih.execSwitch _ _ _ _ _ _ inv (validPtr_none _ _) h
    unfold VM.execSwitch at h
    cases stmt with
    | Case rg sc e =>
      cases e with
      | none => exact ih.execSwitch _ _ _ _ _ _ inv (validPtr_none _ _) h
      | some e =>
        simp only [bind, VMM.bind_result] at h
        obtain ⟨c, s1, h1, q, s2, h2, h⟩ := h
        have r1 := ih.exec _ _ _ _ inv (validPtr_none _ _) h1
        have r2 := r1.andThen (compare_res X _ _ _ _ _ _ _ r1.inv h2)
        exact r2.andThen (ih.execSwitch _ _ _ _ _ _ r2.inv (validPtr_none _ _) h)
    | _ => exact other h

theorem execDoLoop_sound (X : Nat → Prop) (fuel : Nat) (ih : VMSpec X fuel) (blk cond : AST) :
    Sound X none (VM.execDoLoop (fuel + 1) blk cond) := by
  intro st r st1 inv _ h
  unfold VM.execDoLoop at h
  simp only [bind, VMM.bind_result] at h
  obtain ⟨rv, s1, h1, h⟩ := h
  have r1 := ih.exec _ _ _ _ inv (validPtr_none _ _) h1
  refine loop_tail_res X st rv _ s1 st1 r r1 ?_ h
  intro hs
  simp only [bind, VMM.bind_result, deref_ok] at hs
  obtain ⟨c, s2, h2, cc, s3, ⟨a, _, _, rfl⟩, hs⟩ := hs
  have r2 := r1.andThen (ih.exec _ _ _ _ r1.inv (validPtr_none _ _) h2)
  by_cases hb : cc.toBool = true
  · replace hs := ite_pos_vm _ _ _ _ hb hs
    exact r2.andThen (ih.execDoLoop _ _ _ _ _ r2.inv (validPtr_none _ _) hs)
  · replace hs := ite_neg_vm _ _ _ _ hb hs
    obtain ⟨rfl, rfl⟩ := (VMM.pure_result _ _ _ _).1 hs
    exact r2.withSingleton 5 (by decide)

theorem execLoop_sound (X : Nat → Prop) (fuel : Nat) (ih : VMSpec X fuel) (cond stmt : AST) :
    Sound X none (VM.execLoop (fuel + 1) cond stmt) := by
  intro st r st1 inv _ h
  unfold VM.execLoop at h
  simp only [bind, VMM.bind_result, deref_ok] at h
  obtain ⟨c, s1, h1, cc, s2, ⟨a, _, _, rfl⟩, h⟩ := h
  have r1 := ih.exec _ _ _ _ inv (validPtr_none _ _) h1
  by_cases hb : cc.toBool = true
  · replace h := ite_pos_vm _ _ _ _ hb h
    simp only [VMM.bind_result] at h
    obtain ⟨rv, s3, h3, h⟩ := h
    have r3 := r1.andThen (ih.exec _ _ _ _ r1.inv (validPtr_none _ _) h3)
    exact loop_tail_res X st rv _ s3 st1 r r3
      (fun hs => r3.andThen (ih.execLoop _ _ _ _ _ r3.inv (validPtr_none _ _) hs)) h
  · replace h := ite_neg_vm _ _ _ _ hb h
    obtain ⟨rfl, rfl⟩ := (VMM.pure_result _ _ _ _).1 h
    exact r1.withSingleton 5 (by decide)

theorem execForLoop_sound (X : Nat → Prop) (fuel : Nat) (ih : VMSpec X fuel)
    (cond iter : Option AST) (stmt : AST) :
    Sound X none (VM.execForLoop (fuel + 1) cond iter stmt) := by
  intro st r st1 inv _ h
  unfold VM.execForLoop at h
  simp only [bind, VMM.bind_result, deref_ok] at h
  obtain ⟨c, s1, h1, cc, s2, ⟨a, _, _, rfl⟩, h⟩ := h
  have r1 := ih.execNullable _ _ _ _ inv (validPtr_none _ _) h1
  by_cases hb : cc.toBool = true
  · replace h := ite_pos_vm _ _ _ _ hb h
    simp only [VMM.bind_result] at h
    obtain ⟨rv, s3, h3, h⟩ := h
    have r3 := r1.andThen (ih.exec _ _ _ _ r1.inv (validPtr_none _ _) h3)
    refine loop_tail_res X st rv _ s3 st1 r r3 ?_ h
    intro hs
    simp only [VMM.bind_result] at hs
    obtain ⟨q, s4, h4, hs⟩ := hs
    have r4 := r3.andThen (ih.execNullable _ _ _ _ r3.inv (validPtr_none _ _) h4)
    exact r4.andThen (ih.execForLoop _ _ _ _ _ _ r4.inv (validPtr_none _ _) hs)
  · replace h := ite_neg_vm _ _ _ _ hb h
    obtain ⟨rfl, rfl⟩ := (VMM.pure_result _ _ _ _).1 h
    exact r1.withSingleton 5 (by decide)

theorem execForInString_sound (X : Nat → Prop) (fuel : Nat) (ih : VMSpec X fuel)
    (s : Option Nat) (i : String) (stmt : AST) (cs : List Char) :
    Sound X none (VM.execForInString (fuel + 1) s i stmt cs) := by
  intro st r st1 inv _ h
  cases cs with
  | nil =>
    unfold VM.execForInString at h
    obtain ⟨rfl, rfl⟩ := (VMM.pure_result _ _ _ _).1 h
    exact Res.same inv (inv.singleton 5 (by decide))
  | cons c rest =>
    unfold VM.execForInString at h
    simp only [bind, VMM.bind_result] at h
    obtain ⟨v, s1, h1, u, s2, h2, rv, s3, h3, h⟩ := h
    have r1 := alloc_res X _ _ _ _ inv (fun _ _ e => by cases e) h1
    have r2 := r1.andThen (setVar_res X _ _ _ _ _ _ r1.inv r1.valid h2)
    have r3 := r2.andThen (ih.exec _ _ _ _ r2.inv (validPtr_none _ _) h3)
    exact loop_tail_res X st rv _ s3 st1 r r3
      (fun hs => r3.andThen (ih.execForInString _ _ _ _ _ _ _ r3.inv (validPtr_none _ _) hs)) h

theorem execForInKeys_sound (X : Nat → Prop) (fuel : Nat) (ih : VMSpec X fuel)
    (s : Option Nat) (i : String) (obj : ValuePtr) (stmt : AST) (keys : List String) :
    Sound X none (VM.execForInKeys (fuel + 1) s i obj stmt keys) := by
  intro st r st1 inv _ h
  cases keys with
  | nil =>
    unfold VM.execForInKeys at h
    obtain ⟨rfl, rfl⟩ := (VMM.pure_result _ _ _ _).1 h
    exact Res.same inv (inv.singleton 5 (by decide))
  | cons c rest =>
    unfold VM.execForInKeys at h
    simp only [bind, VMM.bind_result] at h
    obtain ⟨v, s1, h1, u, s2, h2, rv, s3, h3, h⟩ := h
    have r1 := getAttr_res X _ _ _ _ _ inv h1
    have r2 := r1.andThen (setVar_res X _ _ _ _ _ _ r1.inv r1.valid h2)
    have r3 := r2.andThen (ih.exec _ _ _ _ r2.inv (validPtr_none _ _) h3)
    exact loop_tail_res X st rv _ s3 st1 r r3
      (fun hs => r3.andThen (ih.execForInKeys _ _ _ _ _ _ _ _ r3.inv (validPtr_none _ _) hs)) h

theorem execForInLoop_sound (X : Nat → Prop) (fuel : Nat) (ih : VMSpec X fuel)
    (s : Option Nat) (key target stmt : AST) :
    Sound X none (VM.execForInLoop (fuel + 1) s key target stmt) := by
  intro st r st1 inv _ h
  unfold VM.execForInLoop at h
  simp only [bind, VMM.bind_result] at h
  obtain ⟨k, s1, h1, name, s2, h2, h⟩ := h
  have r1 := ih.exec _ _ _ _ inv (validPtr_none _ _) h1
  have e2 : s2 = s1 := by
    split at h2
    · exact ((VMM.pure_result _ _ _ _).1 h2).2.symm
    · cases h2
    · exact ((VMM.pure_result _ _ _ _).1 h2).2.symm
    · exact ((VMM.pure_result _ _ _ _).1 h2).2.symm
  subst e2
  cases name with
  | none => cases h
  | some i =>
    simp only [bind, VMM.bind_result, deref_ok] at h
    obtain ⟨obj, s3, h3, cell, s4, ⟨a, _, _, rfl⟩, h⟩ := h
    have r3 := r1.andThen (ih.exec _ _ _ _ r1.inv (validPtr_none _ _) h3)
    obtain ⟨d, attrs⟩ := cell
    cases d with
    | Signal t w => cases h
    | StringValue str =>
      exact r3.andThen (ih.execForInString _ _ _ _ _ _ _ r3.inv (validPtr_none _ _) h)
    | _ => exact r3.andThen (ih.execForInKeys _ _ _ _ _ _ _ _ r3.inv (validPtr_none _ _) h)

theorem assign_sound (X : Nat → Prop) (fuel : Nat) (ih : VMSpec X fuel) (left : AST)
    (v : ValuePtr) : Sound X v (VM.assign (fuel + 1) left v) := by
  intro st r st1 inv hp h
  unfold VM.assign at h
  cases left with
  | Identifier id =>
    simp only [bind, VMM.bind_result] at h
    obtain ⟨g, s1, h1, h⟩ := h
    have r1 := getVar_res X _ _ _ _ _ inv h1
    by_cases hc : g = none
    · replace h := ite_pos_vm _ _ _ _ hc h
      simp only [VMM.bind_result, deref_ok, VMM.pure_result] at h
      obtain ⟨q, s2, h2, u, s3, h3, c, s4, ⟨p, _, _, rfl⟩, rfl, rfl⟩ := h
      obtain ⟨rfl, rfl⟩ := getState_ok _ _ _ h2
      have r3 := setVar_res X _ _ _ _ _ _ r1.inv (hp.grow r1.le) h3
      exact (r1.andThen r3).withResult (hp.grow (Nat.le_trans r1.le r3.le))
    · replace h := ite_neg_vm _ _ _ _ hc h
      simp only [VMM.bind_result, deref_ok, VMM.pure_result] at h
      obtain ⟨u, s3, h3, c, s4, ⟨p, _, _, rfl⟩, rfl, rfl⟩ := h
      have r3 := setVar_res X _ _ _ _ _ _ r1.inv (hp.grow r1.le) h3
      exact (r1.andThen r3).withResult (hp.grow (Nat.le_trans r1.le r3.le))
  | ArrayMember rg sc base attr =>
    simp only [bind, VMM.bind_result, deref_ok] at h
    obtain ⟨a, s1, h1, c, s2, ⟨p, _, _, rfl⟩, ref, s3, h3, c3, s4, ⟨q, _, _, rfl⟩, h⟩ := h
    have r1 := ih.exec _ _ _ _ inv (validPtr_none _ _) h1
    have r3 := r1.andThen (ih.exec _ _ _ _ r1.inv (validPtr_none _ _) h3)
    by_cases hc : c3.type_ = .UNDEFINED ∨ c3.type_ = .NULLVAL
    · replace h := ite_pos_vm _ _ _ _ hc h
      cases h
    · replace h := ite_neg_vm _ _ _ _ hc h
      simp only [bind, VMM.bind_result, VMM.pure_result] at h
      obtain ⟨u, s5, h5, rfl, rfl⟩ := h
      have r5 := setAttr_res X _ _ _ _ _ _ r3.inv r3.valid (hp.grow r3.le) h5
      exact (r3.andThen r5).withResult (hp.grow (Nat.le_trans r3.le r5.le))
  | ObjectMember rg sc base attr =>
    cases attr with
    | Identifier id =>
      simp only [bind, VMM.bind_result, deref_ok] at h
      obtain ⟨ref, s3, h3, c3, s4, ⟨q, _, _, rfl⟩, h⟩ := h
      have r3 := ih.exec _ _ _ _ inv (validPtr_none _ _) h3
      by_cases hc : c3.type_ = .UNDEFINED ∨ c3.type_ = .NULLVAL
      · replace h := ite_pos_vm _ _ _ _ hc h
        cases h
      · replace h := ite_neg_vm _ _ _ _ hc h
        simp only [bind, VMM.bind_result, VMM.pure_result] at h
        obtain ⟨u, s5, h5, rfl, rfl⟩ := h
        have r5 := setAttr_res X _ _ _ _ _ _ r3.inv r3.valid (hp.grow r3.le) h5
        exact (r3.andThen r5).withResult (hp.grow (Nat.le_trans r3.le r5.le))
    | _ => cases h
  | _ => cases h

theorem execBiExpression_sound (X : Nat → Prop) (fuel : Nat) (ih : VMSpec X fuel) (left : AST)
    (op : String) (right : AST) : Sound X none (VM.execBiExpression (fuel + 1) left op right) := by
  intro st r st1 inv _ h
  unfold VM.execBiExpression at h
  by_cases hand : op = "&&"
  · replace h := ite_pos_vm _ _ _ _ hand h
    simp only [bind, VMM.bind_result, deref_ok] at h
    obtain ⟨l, s1, h1, c, s2, ⟨a, _, _, rfl⟩, h⟩ := h
    have r1 := ih.exec _ _ _ _ inv (validPtr_none _ _) h1
    by_cases hb : c.toBool = true
    · replace h := ite_pos_vm _ _ _ _ hb h
      simp only [VMM.bind_result, deref_ok] at h
      obtain ⟨rv, s3, h3, c3, s4, ⟨b, _, _, rfl⟩, h⟩ := h
      have r3 := r1.andThen (ih.exec _ _ _ _ r1.inv (validPtr_none _ _) h3)
      exact r3.andThen (alloc_res X _ _ _ _ r3.inv (fun _ _ e => by cases e) h)
    · replace h := ite_neg_vm _ _ _ _ hb h
      exact r1.andThen (alloc_res X _ _ _ _ r1.inv (fun _ _ e => by cases e) h)
  replace h := ite_neg_vm _ _ _ _ hand h
  by_cases hor : op = "||"
  · replace h := ite_pos_vm _ _ _ _ hor h
    simp only [bind, VMM.bind_result, deref_ok] at h
    obtain ⟨l, s1, h1, c, s2, ⟨a, _, _, rfl⟩, h⟩ := h
    have r1 := ih.exec _ _ _ _ inv (validPtr_none _ _) h1
    by_cases hb : c.toBool = true
    · replace h := ite_pos_vm _ _ _ _ hb h
      exact r1.andThen (alloc_res X _ _ _ _ r1.inv (fun _ _ e => by cases e) h)
    · replace h := ite_neg_vm _ _ _ _ hb h
      simp only [VMM.bind_result, deref_ok] at h
      obtain ⟨rv, s3, h3, c3, s4, ⟨b, _, _, rfl⟩, h⟩ := h
      have r3 := r1.andThen (ih.exec _ _ _ _ r1.inv (validPtr_none _ _) h3)
      exact r3.andThen (alloc_res X _ _ _ _ r3.inv (fun _ _ e => by cases e) h)
  replace h := ite_neg_vm _ _ _ _ hor h
  simp only [bind, VMM.bind_result] at h
  obtain ⟨rval, s1, h1, h⟩ := h
  have r1 := ih.exec _ _ _ _ inv (validPtr_none _ _) h1
  by_cases heq : op = "="
  · replace h := ite_pos_vm _ _ _ _ heq h
    exact r1.andThen (ih.assign _ _ _ _ _ r1.inv r1.valid h)
  replace h := ite_neg_vm _ _ _ _ heq h
  simp only [VMM.bind_result] at h
  obtain ⟨lval, s2, h2, h⟩ := h
  have r2 := r1.andThen (ih.exec _ _ _ _ r1.inv (validPtr_none _ _) h2)
  cases hco : VM.compoundOperator op with
  | some f =>
    simp only [hco, VMM.bind_result] at h
    obtain ⟨q, s3, h3, h⟩ := h
    have r3 := r2.andThen (compoundOperator_res X op f hco _ _ _ _ _ r2.inv h3)
    exact r3.andThen (ih.assign _ _ _ _ _ r3.inv r3.valid h)
  | none =>
    simp only [hco] at h
    cases hbo : VM.binaryOperator op with
    | some f =>
      simp only [hbo] at h
      exact r2.andThen (binaryOperator_res X op f hbo _ _ _ _ _ r2.inv h)
    | none =>
      simp only [hbo] at h
      cases h

theorem number_match_res (X : Nat → Prop) (st0 st st1 : VMState) (r : ValuePtr) (c : Value)
    (yes : Double → VMM ValuePtr) (no : VMM ValuePtr)
    (hyes : ∀ n, yes n st = .ok r st1 → Res X st0 st1 r)
    (hno : no st = .ok r st1 → Res X st0 st1 r)
    (h : (match c.data with
      | .Number n => yes n
      | _ => no : VMM ValuePtr) st = .ok r st1) : Res X st0 st1 r := by
  obtain ⟨d, attrs⟩ := c
  cases d with
  | Number n => exact hyes n h
  | _ => exact hno h

/-- The in-place update of `++` and `--` in prefix position. -/
theorem preStep_res (X : Nat → Prop) (st0 st st1 : VMState) (v r : ValuePtr)
    (f : Double → Double) (r0 : Res X st0 st v)
    (h : (do
      match (← VM.deref v).data with
      | .Number n => do
        VM.setNum v (f n)
        pure v
      | _ => pure (some nanAddr) : VMM ValuePtr) st = .ok r st1) : Res X st0 st1 r := by
  simp only [bind, VMM.bind_result, deref_ok] at h
  obtain ⟨c, s1, ⟨a, _, _, rfl⟩, h⟩ := h
  refine number_match_res X st0 _ st1 r c _ _ ?_ ?_ h
  · intro n hn
    simp only [VMM.bind_result, VMM.pure_result] at hn
    obtain ⟨u, s2, h2, rfl, rfl⟩ := hn
    have r2 := setNum_res X _ _ _ _ _ r0.inv r0.valid h2
    exact (r0.andThen r2).withResult (r0.valid.grow r2.le)
  · intro hn
    obtain ⟨rfl, rfl⟩ := (VMM.pure_result _ _ _ _).1 hn
    exact r0.withSingleton 1 (by decide)

/-- The copy and in-place update of `++` and `--` in postfix position. -/
theorem postStep_res (X : Nat → Prop) (st0 st st1 : VMState) (v r : ValuePtr)
    (f : Double → Double) (r0 : Res X st0 st v)
    (h : (do
      match (← VM.deref v).data with
      | .Number n => do
        let ret ← VM.alloc (.Number n)
        VM.setNum v (f n)
        pure ret
      | _ => pure (some nanAddr) : VMM ValuePtr) st = .ok r st1) : Res X st0 st1 r := by
  simp only [bind, VMM.bind_result, deref_ok] at h
  obtain ⟨c, s1, ⟨a, _, _, rfl⟩, h⟩ := h
  refine number_match_res X st0 _ st1 r c _ _ ?_ ?_ h
  · intro n hn
    simp only [VMM.bind_result, VMM.pure_result] at hn
    obtain ⟨ret, s2, h2, u, s3, h3, rfl, rfl⟩ := hn
    have r2 := alloc_res X _ _ _ _ r0.inv (fun _ _ e => by cases e) h2
    have r3 := setNum_res X _ _ _ _ _ r2.inv (r0.valid.grow r2.le) h3
    exact ((r0.andThen r2).andThen r3).withResult (r2.valid.grow r3.le)
  · intro hn
    obtain ⟨rfl, rfl⟩ := (VMM.pure_result _ _ _ _).1 hn
    exact r0.withSingleton 1 (by decide)

theorem execUniExpression_sound (X : Nat → Prop) (fuel : Nat) (ih : VMSpec X fuel)
    (s : Option Nat) (op : String) (expr : AST) (pre : Bool) :
    Sound X none (VM.execUniExpression (fuel + 1) s op expr pre) := by
  intro st r st1 inv _ h
  unfold VM.execUniExpression at h
  by_cases hdel : (pre && op == "delete") = true
  · replace h := ite_pos_vm _ _ _ _ hdel h
    cases expr with
    | Identifier id =>
      simp only [bind, VMM.bind_result] at h
      obtain ⟨u, s1, h1, h⟩ := h
      have r1 := delVar_res X _ _ _ _ _ inv h1
      exact r1.andThen (alloc_res X _ _ _ _ r1.inv (fun _ _ e => by cases e) h)
    | ArrayMember rg sc base attr =>
      simp only [bind, VMM.bind_result, deref_ok] at h
      obtain ⟨a, s1, h1, c, s2, ⟨p, _, _, rfl⟩, ref, s3, h3, u, s4, h4, h⟩ := h
      have r1 := ih.exec _ _ _ _ inv (validPtr_none _ _) h1
      have r3 := r1.andThen (ih.exec _ _ _ _ r1.inv (validPtr_none _ _) h3)
      have r4 := r3.andThen (delAttr_res X _ _ _ _ _ r3.inv r3.valid h4)
      exact r4.andThen (alloc_res X _ _ _ _ r4.inv (fun _ _ e => by cases e) h)
    | ObjectMember rg sc base attr =>
      cases attr with
      | Identifier id =>
        simp only [bind, VMM.bind_result] at h
        obtain ⟨ref, s3, h3, u, s4, h4, h⟩ := h
        have r3 := ih.exec _ _ _ _ inv (validPtr_none _ _) h3
        have r4 := r3.andThen (delAttr_res X _ _ _ _ _ r3.inv r3.valid h4)
        exact r4.andThen (alloc_res X _ _ _ _ r4.inv (fun _ _ e => by cases e) h)
      | _ => cases h
    | _ => exact alloc_res X _ _ _ _ inv (fun _ _ e => by cases e) h
  replace h := ite_neg_vm _ _ _ _ hdel h
  simp only [bind, VMM.bind_result] at h
  obtain ⟨v, s1, h1, h⟩ := h
  have r1 := ih.exec _ _ _ _ inv (validPtr_none _ _) h1
  by_cases hpre : pre = true
  · replace h := ite_pos_vm _ _ _ _ hpre h
    by_cases hc : op = "++"
    · exact preStep_res X st s1 st1 v r _ r1 (ite_pos_vm _ _ _ _ hc h)
    replace h := ite_neg_vm _ _ _ _ hc h
    clear hc
    by_cases hc : op = "--"
    · exact preStep_res X st s1 st1 v r _ r1 (ite_pos_vm _ _ _ _ hc h)
    replace h := ite_neg_vm _ _ _ _ hc h
    clear hc
    by_cases hc : op = "+"
    · replace h := ite_pos_vm _ _ _ _ hc h
      obtain ⟨rfl, rfl⟩ := (VMM.pure_result _ _ _ _).1 h
      exact r1
    replace h := ite_neg_vm _ _ _ _ hc h
    clear hc
    by_cases hc : op = "-"
    · replace h := ite_pos_vm _ _ _ _ hc h
      simp only [bind, VMM.bind_result, deref_ok] at h
      obtain ⟨c, s2, ⟨a, _, _, rfl⟩, h⟩ := h
      refine number_match_res X st _ st1 r c _ _ ?_ ?_ h
      · intro n hn
        exact r1.andThen (alloc_res X _ _ _ _ r1.inv (fun _ _ e => by cases e) hn)
      · intro hn
        obtain ⟨rfl, rfl⟩ := (VMM.pure_result _ _ _ _).1 hn
        exact r1.withSingleton 1 (by decide)
    replace h := ite_neg_vm _ _ _ _ hc h
    clear hc
    by_cases hc : op = "~"
    · replace h := ite_pos_vm _ _ _ _ hc h
      simp only [bind, VMM.bind_result, deref_ok] at h
      obtain ⟨c, s2, ⟨a, _, _, rfl⟩, h⟩ := h
      refine number_match_res X st _ st1 r c _ _ ?_ ?_ h
      · intro n hn
        cases ho : n.toInt64 with
        | none => simp only [ho] at hn; cases hn
        | some x =>
          simp only [ho] at hn
          exact r1.andThen (alloc_res X _ _ _ _ r1.inv (fun _ _ e => by cases e) hn)
      · intro hn
        exact r1.andThen (alloc_res X _ _ _ _ r1.inv (fun _ _ e => by cases e) hn)
    replace h := ite_neg_vm _ _ _ _ hc h
    clear hc
    by_cases hc : op = "!"
    · replace h := ite_pos_vm _ _ _ _ hc h
      simp only [bind, VMM.bind_result, deref_ok] at h
      obtain ⟨c, s2, ⟨a, _, _, rfl⟩, h⟩ := h
      exact r1.andThen (alloc_res X _ _ _ _ r1.inv (fun _ _ e => by cases e) h)
    replace h := ite_neg_vm _ _ _ _ hc h
    clear hc
    by_cases hc : op = "void"
    · replace h := ite_pos_vm _ _ _ _ hc h
      obtain ⟨rfl, rfl⟩ := (VMM.pure_result _ _ _ _).1 h
      exact r1
    replace h := ite_neg_vm _ _ _ _ hc h
    clear hc
    by_cases hc : op = "typeof"
    · replace h := ite_pos_vm _ _ _ _ hc h
      simp only [bind, VMM.bind_result, deref_ok] at h
      obtain ⟨c, s2, ⟨a, _, _, rfl⟩, h⟩ := h
      exact r1.andThen (alloc_res X _ _ _ _ r1.inv (fun _ _ e => by cases e) h)
    replace h := ite_neg_vm _ _ _ _ hc h
    cases h
  · replace h := ite_neg_vm _ _ _ _ hpre h
    by_cases hc : op = "++"
    · exact postStep_res X st s1 st1 v r _ r1 (ite_pos_vm _ _ _ _ hc h)
    replace h := ite_neg_vm _ _ _ _ hc h
    clear hc
    by_cases hc : op = "--"
    · exact postStep_res X st s1 st1 v r _ r1 (ite_pos_vm _ _ _ _ hc h)
    replace h := ite_neg_vm _ _ _ _ hc h
    cases h

theorem exec_sound (X : Nat → Prop) (fuel : Nat) (ih : VMSpec X fuel) (code : AST) :
    Sound X none (VM.exec (fuel + 1) code) := by
  intro st r st1 inv hn h
  unfold VM.exec at h
  cases code with
  | Var rg sc vlist => exact ih.execVar _ _ _ _ _ _ inv hn h
  | LiteralString rg sc str => exact alloc_res X _ _ _ _ inv (fun _ _ e => by cases e) h
  | LiteralNumber rg sc data =>
    cases hs : VM.stoll data with
    | none => simp only [hs] at h; cases h
    | some n =>
      simp only [hs] at h
      exact alloc_res X _ _ _ _ inv (fun _ _ e => by cases e) h
  | LiteralBool rg sc b => exact alloc_res X _ _ _ _ inv (fun _ _ e => by cases e) h
  | LiteralNull rg sc =>
    obtain ⟨rfl, rfl⟩ := (VMM.pure_result _ _ _ _).1 h
    exact Res.same inv (inv.singleton 2 (by decide))
  | Identifier id =>
    simp only [bind, VMM.bind_result] at h
    obtain ⟨ret, s1, h1, h⟩ := h
    have r1 := getVar_res X _ _ _ _ _ inv h1
    cases ret with
    | none =>
      obtain ⟨rfl, rfl⟩ := (VMM.pure_result _ _ _ _).1 h
      exact r1.withSingleton 0 (by decide)
    | some a =>
      obtain ⟨rfl, rfl⟩ := (VMM.pure_result _ _ _ _).1 h
      exact r1
  | Function rg sc id args stmts => exact alloc_res X _ _ _ _ inv (fun _ _ e => by cases e) h
  | Block rg sc stmts => exact ih.execBlock _ _ _ _ inv hn h
  | Condition rg sc cond yes no =>
    simp only [bind, VMM.bind_result, deref_ok] at h
    obtain ⟨c, s1, h1, cc, s2, ⟨a, _, _, rfl⟩, h⟩ := h
    have r1 := ih.exec _ _ _ _ inv hn h1
    have tail : ∀ (r2 : ValuePtr) (s3 : VMState), Res X st s3 r2 →
        (∃ (c3 : Value) (s4 : VMState), VM.deref r2 s3 = .ok c3 s4 ∧
          (if c3.type_ = .SIGNAL then pure r2 else pure (some sigNormalAddr) : VMM ValuePtr) s4
            = .ok r st1) → Res X st st1 r := by
      intro r2 s3 r3 ht
      simp only [deref_ok] at ht
      obtain ⟨c3, s4, ⟨a3, _, _, rfl⟩, ht⟩ := ht
      by_cases hc : c3.type_ = .SIGNAL
      · obtain ⟨rfl, rfl⟩ := (VMM.pure_result _ _ _ _).1 (ite_pos_vm _ _ _ _ hc ht)
        exact r3
      · obtain ⟨rfl, rfl⟩ := (VMM.pure_result _ _ _ _).1 (ite_neg_vm _ _ _ _ hc ht)
        exact r3.withSingleton 5 (by decide)
    by_cases hb : cc.toBool = true
    · replace h := ite_pos_vm _ _ _ _ hb h
      simp only [VMM.bind_result] at h
      obtain ⟨r2, s3, h3, h⟩ := h
      exact tail r2 s3 (r1.andThen (ih.exec _ _ _ _ r1.inv (validPtr_none _ _) h3)) h
    · replace h := ite_neg_vm _ _ _ _ hb h
      simp only [VMM.bind_result] at h
      obtain ⟨r2, s3, h3, h⟩ := h
      exact tail r2 s3 (r1.andThen (ih.execNullable _ _ _ _ r1.inv (validPtr_none _ _) h3)) h
  | Return rg sc expr =>
    cases expr with
    | none => exact sigReturn_res X _ _ _ _ inv (inv.singleton 2 (by decide)) h
    | some e =>
      simp only [bind, VMM.bind_result] at h
      obtain ⟨v, s1, h1, h⟩ := h
      have r1 := ih.exec _ _ _ _ inv hn h1
      exact r1.andThen (sigReturn_res X _ _ _ _ r1.inv r1.valid h)
  | BiExpression rg sc left op right => exact ih.execBiExpression _ _ _ _ _ _ inv hn h
  | Break rg sc =>
    obtain ⟨rfl, rfl⟩ := (VMM.pure_result _ _ _ _).1 h
    exact Res.same inv (inv.singleton 3 (by decide))
  | Continue rg sc =>
    obtain ⟨rfl, rfl⟩ := (VMM.pure_result _ _ _ _).1 h
    exact Res.same inv (inv.singleton 4 (by decide))
  | GroupExpression rg sc elist => exact ih.execGroupExpression _ _ _ _ _ inv hn h
  | Call rg sc func args => exact ih.execCall _ _ _ _ _ inv hn h
  | ArrayMember rg sc base attr =>
    simp only [bind, VMM.bind_result, deref_ok] at h
    obtain ⟨a, s1, h1, c, s2, ⟨p, _, _, rfl⟩, ref, s3, h3, c3, s4, ⟨q, _, _, rfl⟩, h⟩ := h
    have r1 := ih.exec _ _ _ _ inv hn h1
    have r3 := r1.andThen (ih.exec _ _ _ _ r1.inv (validPtr_none _ _) h3)
    by_cases hc : c3.type_ = .UNDEFINED ∨ c3.type_ = .NULLVAL
    · cases ite_pos_vm _ _ _ _ hc h
    · exact r3.andThen (getAttr_res X _ _ _ _ _ r3.inv (ite_neg_vm _ _ _ _ hc h))
  | ObjectMember rg sc base attr =>
    cases attr with
    | Identifier id =>
      simp only [bind, VMM.bind_result, deref_ok] at h
      obtain ⟨ref, s3, h3, c3, s4, ⟨q, _, _, rfl⟩, h⟩ := h
      have r3 := ih.exec _ _ _ _ inv hn h3
      by_cases hc : c3.type_ = .UNDEFINED ∨ c3.type_ = .NULLVAL
      · cases ite_pos_vm _ _ _ _ hc h
      · exact r3.andThen (getAttr_res X _ _ _ _ _ r3.inv (ite_neg_vm _ _ _ _ hc h))
    | _ => cases h
  | Array rg sc elem =>
    simp only [bind, VMM.bind_result] at h
    obtain ⟨ret, s1, h1, h⟩ := h
    have r1 := alloc_res X _ _ _ _ inv (fun _ _ e => by cases e) h1
    exact r1.andThen (ih.execArray _ _ _ _ _ _ r1.inv r1.valid h)
  | Object rg sc kv =>
    simp only [bind, VMM.bind_result] at h
    obtain ⟨ret, s1, h1, h⟩ := h
    have r1 := alloc_res X _ _ _ _ inv (fun _ _ e => by cases e) h1
    exact r1.andThen (ih.execObject _ _ _ _ _ r1.inv r1.valid h)
  | Keyword rg sc data => exact getVar_res X _ _ _ _ _ inv h
  | Constructor rg sc ctor =>
    cases ctor with
    | Call rg2 sc2 func args => exact ih.execConstructor _ _ _ _ _ inv hn h
    | _ => cases h
  | Switch rg sc expr branches =>
    simp only [bind, VMM.bind_result] at h
    obtain ⟨v, s1, h1, h⟩ := h
    have r1 := ih.exec _ _ _ _ inv hn h1
    exact r1.andThen (ih.execSwitch _ _ _ _ _ _ r1.inv (validPtr_none _ _) h)
  | DoLoop rg sc blk cond => exact ih.execDoLoop _ _ _ _ _ inv hn h
  | Loop rg sc cond stmt => exact ih.execLoop _ _ _ _ _ inv hn h
  | ForLoop rg sc init cond iter stmt =>
    simp only [bind, VMM.bind_result] at h
    obtain ⟨v, s1, h1, h⟩ := h
    have r1 := ih.execNullable _ _ _ _ inv hn h1
    exact r1.andThen (ih.execForLoop _ _ _ _ _ _ r1.inv (validPtr_none _ _) h)
  | ForInLoop rg sc key target stmt => exact ih.execForInLoop _ _ _ _ _ _ _ inv hn h
  | With rg sc expr stmt =>
    simp only [bind, VMM.bind_result] at h
    obtain ⟨v, s1, h1, h⟩ := h
    have r1 := ih.exec _ _ _ _ inv hn h1
    exact r1.andThen (ih.exec _ _ _ _ r1.inv (validPtr_none _ _) h)
  | UniExpression rg sc op expr pre => exact ih.execUniExpression _ _ _ _ _ _ _ inv hn h
  | TriExpression rg sc cond yes no =>
    simp only [bind, VMM.bind_result, deref_ok] at h
    obtain ⟨c, s1, h1, cc, s2, ⟨a, _, _, rfl⟩, h⟩ := h
    have r1 := ih.exec _ _ _ _ inv hn h1
    by_cases hb : cc.toBool = true
    · exact r1.andThen (ih.exec _ _ _ _ r1.inv (validPtr_none _ _) (ite_pos_vm _ _ _ _ hb h))
    · exact r1.andThen (ih.exec _ _ _ _ r1.inv (validPtr_none _ _) (ite_neg_vm _ _ _ _ hb h))
  | _ =>
    obtain ⟨rfl, rfl⟩ := (VMM.pure_result _ _ _ _).1 h
    exact Res.same inv (inv.singleton 5 (by decide))

theorem vmSpec_zero (X : Nat → Prop) : VMSpec X 0 := by
  constructor
  all_goals intros
  all_goals intro st r st1 _ _ h
  all_goals cases h

theorem vmSpec_succ (X : Nat → Prop) (fuel : Nat) (ih : VMSpec X fuel) : VMSpec X (fuel + 1) where
  exec := exec_sound X fuel ih
  execNullable := execNullable_sound X fuel ih
  execVar := execVar_sound X fuel ih
  execBlock := execBlock_sound X fuel ih
  execGroupExpression := execGroupExpression_sound X fuel ih
  execArguments := execArguments_sound X fuel ih
  execCallBody := execCallBody_sound X fuel ih
  execCall := execCall_sound X fuel ih
  execConstructorBody := execConstructorBody_sound X fuel ih
  execConstructor := execConstructor_sound X fuel ih
  execArray := execArray_sound X fuel ih
  execObject := execObject_sound X fuel ih
  execSwitch := execSwitch_sound X fuel ih
  execDoLoop := execDoLoop_sound X fuel ih
  execLoop := execLoop_sound X fuel ih
  execForLoop := execForLoop_sound X fuel ih
  execForInString := execForInString_sound X fuel ih
  execForInKeys := execForInKeys_sound X fuel ih
  execForInLoop := execForInLoop_sound X fuel ih
  execUniExpression := execUniExpression_sound X fuel ih
  assign := assign_sound X fuel ih
  execBiExpression := execBiExpression_sound X fuel ih

/-- Every function of the evaluator keeps the pointers of the state valid and leaves
the cells of `X` as they are. -/
theorem vmSpec (X : Nat → Prop) (fuel : Nat) : VMSpec X fuel := by
  induction fuel with
  | zero => exact vmSpec_zero X
  | succ n ih => exact vmSpec_succ X n ih

theorem digitChar_value (m : Nat) (h : m < 10) : (Nat.digitChar m).toNat - 48 = m := by
  interval_cases m <;> rfl

theorem digitsValue_toDigitsCore (fuel : Nat) :
    ∀ (n : Nat) (ds : List Char), n < fuel →
      digitsValue 0 (Nat.toDigitsCore 10 fuel n ds) = digitsValue n ds := by
  induction fuel with
  | zero => intro n ds h; omega
  | succ f ih =>
    intro n ds h
    unfold Nat.toDigitsCore
    simp only
    have hd : (Nat.digitChar (n % 10)).toNat - 48 = n % 10 :=
      digitChar_value _ (Nat.mod_lt _ (by decide))
    by_cases h0 : n / 10 = 0
    · rw [if_pos h0]
      have hn : n % 10 = n := by omega
      rw [hn] at hd
      simp only [digitsValue, List.foldl_cons, hd, hn, Nat.zero_mul, Nat.zero_add]
    · rw [if_neg h0, ih (n / 10) _ (by omega)]
      have hn : n / 10 * 10 + n % 10 = n := by omega
      simp only [digitsValue, List.foldl_cons, hd, hn]

theorem intToString_inj (a b : Nat) (h : VM.intToString a = VM.intToString b) : a = b := by
  unfold VM.intToString Nat.toDigits at h
  have h1 := congrArg (fun s => digitsValue 0 s.data) h
  simp only [digitsValue_toDigitsCore _ _ _ (Nat.lt_succ_self _)] at h1
  exact h1

theorem mapSet_fresh {α : Type} (m : List (String × α)) (key : String) (v : α)
    (h : ∀ kv ∈ m, kv.1 ≠ key) : mapSet m key v = m ++ [(key, v)] := by
  induction m with
  | nil => rfl
  | cons e rest ih =>
    obtain ⟨k, w⟩ := e
    have hk : k ≠ key := h (k, w) (List.mem_cons_self _ _)
    simp only [mapSet, if_neg hk, List.cons_append, List.cons.injEq, true_and]
    exact ih (fun kv hkv => h kv (List.mem_cons_of_mem _ hkv))

theorem argumentsMap_keys (vs : List ValuePtr) :
    ∀ i, (argumentsMap i vs).map Prod.fst = (List.range' i vs.length).map VM.intToString := by
  induction vs with
  | nil => intro i; rfl
  | cons v vs ih =>
    intro i
    simp only [argumentsMap, List.map_cons, List.length_cons, List.range'_succ, ih]

/-- The loop over the formals is the loop that also returns the values. -/
theorem execArguments_iff_values (fscope : Option Nat) (arguments : ValuePtr) (fuel : Nat) :
    ∀ (formals : List Identifier) (rarg : List AST) (i : Nat) (st st1 : VMState),
      VM.execArguments fuel fscope arguments formals rarg i st = .ok () st1
        ↔ ∃ vs, VM.execArgumentsValues fuel fscope arguments formals rarg i st = .ok vs st1 := by
  induction fuel with
  | zero =>
    intro formals rarg i st st1
    constructor
    · intro h; cases h
    · rintro ⟨vs, h⟩; cases h
  | succ f ih =>
    intro formals rarg i st st1
    cases formals with
    | nil =>
      unfold VM.execArguments VM.execArgumentsValues
      simp only [VMM.pure_result, true_and, exists_and_right, exists_eq', true_and]
    | cons arg formals =>
      cases rarg with
      | nil =>
        unfold VM.execArguments VM.execArgumentsValues
        simp only [VMM.pure_result, true_and, exists_and_right, exists_eq', true_and]
      | cons a rarg =>
        unfold VM.execArguments VM.execArgumentsValues
        simp only [bind, VMM.bind_result, VMM.pure_result]
        constructor
        · rintro ⟨v, s1, h1, u2, s2, h2, u3, s3, h3, h⟩
          obtain ⟨vs, hvs⟩ := (ih _ _ _ _ _).1 h
          exact ⟨v :: vs, v, s1, h1, u2, s2, h2, u3, s3, h3, vs, st1, hvs, rfl, rfl⟩
        · rintro ⟨vs0, v, s1, h1, u2, s2, h2, u3, s3, h3, vs, s4, hvs, _, rfl⟩
          exact ⟨v, s1, h1, u2, s2, h2, u3, s3, h3, (ih _ _ _ _ _).2 ⟨vs, hvs⟩⟩

/-- The object at `A`, which no pointer of the state leads to, collects the values of
the arguments under the keys `"i"`, `"i+1"`, ... -/
theorem execArgumentsValues_attrs (A : Nat) (fscope : Option Nat) (fuel : Nat) :
    ∀ (formals : List Identifier) (rarg : List AST) (i : Nat) (st st1 : VMState)
      (vs : List ValuePtr) (m : List (String × ValuePtr)),
      PtrInv (fun a => a = A) st → st.heap[A]? = some ⟨.ObjectValue, m⟩ →
      (∀ kv ∈ m, ∃ j, j < i ∧ kv.1 = VM.intToString j) →
      VM.execArgumentsValues fuel fscope (some A) formals rarg i st = .ok vs st1 →
      PtrInv (fun a => a = A) st1
        ∧ st1.heap[A]? = some ⟨.ObjectValue, m ++ argumentsMap i vs⟩
        ∧ vs.length = min formals.length rarg.length := by
  induction fuel with
  | zero => intro formals rarg i st st1 vs m _ _ _ h; cases h
  | succ f ih =>
    intro formals rarg i st st1 vs m inv hA hm h
    cases formals with
    | nil =>
      unfold VM.execArgumentsValues at h
      obtain ⟨rfl, rfl⟩ := (VMM.pure_result _ _ _ _).1 h
      exact ⟨inv, by simpa [argumentsMap] using hA, by simp⟩
    | cons arg formals =>
      cases rarg with
      | nil =>
        unfold VM.execArgumentsValues at h
        obtain ⟨rfl, rfl⟩ := (VMM.pure_result _ _ _ _).1 h
        exact ⟨inv, by simpa [argumentsMap] using hA, by simp⟩
      | cons a rarg =>
        unfold VM.execArgumentsValues at h
        simp only [bind, VMM.bind_result, VMM.pure_result] at h
        obtain ⟨v, s1, h1, u2, s2, h2, u3, s3, h3, vs1, s4, h4, rfl, rfl⟩ := h
        have r1 := (vmSpec (fun a => a = A) f).exec _ _ _ _ inv (validPtr_none _ _) h1
        have r2 := setVar_res _ _ _ _ _ _ _ r1.inv r1.valid h2
        have hA2 : s2.heap[A]? = some ⟨.ObjectValue, m⟩ := by
          rw [r2.frame A rfl, r1.frame A rfl]; exact hA
        have inv3 := setAttr_inv _ _ _ _ _ _ _ r2.inv (r1.valid.grow r2.le) h3
        obtain ⟨a1, b, cell, w, ea, eb, hc, hw, rfl⟩ := setAttr_ok _ _ _ _ _ _ h3
        cases ea
        rw [hA2] at hc
        cases hc
        have hfresh : ∀ kv ∈ m, kv.1 ≠ VM.intToString i := by
          intro kv hkv e
          obtain ⟨j, hj, ej⟩ := hm kv hkv
          have := intToString_inj _ _ (ej.symm.trans e)
          omega
        have hlt : A < s2.heap.length := by
          rcases Nat.lt_or_ge A s2.heap.length with hl | hl
          · exact hl
          · rw [List.getElem?_eq_none hl] at hA2; cases hA2
        have hA3 : (s2.heap.set A ⟨.ObjectValue, mapSet m (VM.intToString i) v⟩)[A]?
            = some ⟨.ObjectValue, m ++ [(VM.intToString i, v)]⟩ := by
          rw [List.getElem?_set_self hlt, mapSet_fresh m _ _ hfresh]
        have hm3 : ∀ kv ∈ m ++ [(VM.intToString i, v)], ∃ j, j < i + 1 ∧ kv.1 = VM.intToString j := by
          intro kv hkv
          rcases List.mem_append.1 hkv with hk | hk
          · obtain ⟨j, hj, ej⟩ := hm kv hk
            exact ⟨j, by omega, ej⟩
          · rw [List.mem_singleton.1 hk]
            exact ⟨i, by omega, rfl⟩
        obtain ⟨inv4, hA4, hlen⟩ := ih formals rarg (i + 1) _ _ vs1 _ inv3 hA3 hm3 h4
        refine ⟨inv4, ?_, ?_⟩
        · rw [hA4]
          simp only [argumentsMap, List.append_assoc, List.singleton_append]
        · simp only [List.length_cons, hlen]
          omega

/-- After two objects are allocated in a state without dangling pointers, no pointer
leads to the first of them. -/
theorem ptrInv_fresh_pair (st : VMState) (inv : PtrInv (fun _ => False) st) :
    PtrInv (fun a => a = st.heap.length)
      { st with heap := st.heap ++ [⟨.ObjectValue, []⟩, ⟨.ObjectValue, []⟩] } := by
  have hle : st.heap.length ≤ (st.heap ++ [(⟨.ObjectValue, []⟩ : Value), ⟨.ObjectValue, []⟩]).length := by
    simp
  have hv : ∀ p, ValidPtr (fun _ => False) st.heap.length p →
      ValidPtr (fun a => a = st.heap.length)
        (st.heap ++ [(⟨.ObjectValue, []⟩ : Value), ⟨.ObjectValue, []⟩]).length p := by
    intro p hp a ha
    have := (hp a ha).1
    exact ⟨Nat.lt_of_lt_of_le this hle, by omega⟩
  refine ⟨Nat.le_trans inv.six hle, ?_, ?_, ?_, ?_, hv _ inv.ret⟩
  · intro a ha e
    have := inv.six
    omega
  · intro a ha
    simp only [List.length_append, List.length_cons, List.length_nil]
    omega
  · intro sc hsc kv hkv
    exact hv _ (inv.vars sc hsc kv hkv)
  · intro c hc
    rcases List.mem_append.1 hc with h | h
    · exact ⟨fun kv hkv => hv _ ((inv.cells c h).1 kv hkv),
        fun t v e => hv _ ((inv.cells c h).2 t v e)⟩
    · simp only [List.mem_cons, List.mem_singleton, List.not_mem_nil, or_false, or_self] at h
      subst h
      exact ⟨fun kv hkv => (by cases hkv), fun t v e => (by cases e)⟩

theorem functionState_inv : PtrInv (fun _ => False) functionState := by
  refine ⟨by decide, fun _ _ h => h, fun _ h => h.elim, ?_, ?_, ?_⟩
  · intro sc hsc kv hkv a ha
    simp only [functionState, List.mem_cons, List.mem_singleton, List.not_mem_nil, or_false] at hsc
    rcases hsc with rfl | rfl
    · simp only [List.mem_singleton] at hkv
      subst hkv
      cases ha
      exact ⟨by decide, fun h => h⟩
    · cases hkv
  · intro c hc
    refine ⟨?_, ?_⟩
    · intro kv hkv
      simp only [functionState, initialHeap, List.cons_append, List.nil_append, List.mem_cons,
        List.mem_singleton, List.not_mem_nil, or_false] at hc
      rcases hc with rfl | rfl | rfl | rfl | rfl | rfl | rfl <;> cases hkv
    · intro t v e
      simp only [functionState, initialHeap, List.cons_append, List.nil_append, List.mem_cons,
        List.mem_singleton, List.not_mem_nil, or_false] at hc
      rcases hc with rfl | rfl | rfl | rfl | rfl | rfl | rfl <;> cases e <;>
        exact validPtr_none _ _
  · exact validPtr_none _ _

theorem setValueMap_ok (s : Option Nat) (name : String) (v : ValuePtr) (st st1 : VMState)
    (u : Unit) (h : VM.setValueMap s name v st = .ok u st1) :
    ∃ i, s = some i ∧ i < st.scopes.length
      ∧ st1 = { st with scopes := writeVar st.scopes i name v } := by
  unfold VM.setValueMap at h
  simp only [bind, VMM.bind_result] at h
  obtain ⟨i, s1, hi, s2, s3, hg, h⟩ := h
  obtain ⟨rfl, hlt, rfl⟩ := derefScope_ok _ _ _ _ hi
  obtain ⟨rfl, rfl⟩ := getState_ok _ _ _ hg
  obtain rfl := setState_ok _ _ _ _ h
  exact ⟨i, rfl, hlt, rfl⟩

/-- The memory that a fresh `VM` starts on has no dangling pointer. -/
theorem initialState_inv (scopes : List (Option Nat)) :
    PtrInv (fun _ => False) (initialState scopes) := by
  refine ⟨Nat.le_refl 6, fun _ _ h => h, fun _ h => h.elim, ?_, ?_, validPtr_none _ _⟩
  · intro sc hsc kv hkv
    simp only [initialState, List.mem_map] at hsc
    obtain ⟨p, _, rfl⟩ := hsc
    cases hkv
  · intro c hc
    simp only [initialState, initialHeap, List.mem_cons, List.mem_singleton, List.not_mem_nil,
      or_false] at hc
    refine ⟨?_, ?_⟩
    · intro kv hkv
      rcases hc with rfl | rfl | rfl | rfl | rfl | rfl <;> cases hkv
    · intro t v e
      rcases hc with rfl | rfl | rfl | rfl | rfl | rfl <;> cases e <;> exact validPtr_none _ _

/-! ## Lemmas on the expression levels, the loops of the lexer and the operators -/

namespace Parser

end Parser

/-- What the bindings show after a step that leaves the scopes alone and writes the number
`d` into the cell `a`. -/
theorem lookup_after_cell_update (st st1 : VMState) (a : Nat) (d : Double)
    (attrs : List (String × ValuePtr)) (hsc : st1.scopes = st.scopes)
    (ha : st1.heap[a]? = some ⟨.Number d, attrs⟩)
    (hfr : ∀ c, c ≠ a → c < st.heap.length → st1.heap[c]? = st.heap[c]?) :
    (∀ s2 n2, st.entry s2 n2 = some (some a) → st1.lookup s2 n2 = some (.number d))
    ∧ (∀ s3 n3 c, st.entry s3 n3 = some (some c) → c ≠ a → c < st.heap.length →
        st1.lookup s3 n3 = st.lookup s3 n3) := by
  constructor
  · intro s2 n2 h
    have h1 : st1.entry s2 n2 = some (some a) := by
      unfold VMState.entry at h ⊢
      rw [hsc]; exact h
    simp only [VMState.lookup, h1, VMState.obsAt, ha, Option.map_some', Value.obs]
  · intro s3 n3 c h hne hlt
    have h1 : st1.entry s3 n3 = some (some c) := by
      unfold VMState.entry at h ⊢
      rw [hsc]; exact h
    simp only [VMState.lookup, h1, h, VMState.obsAt, hfr c hne hlt]

theorem stoll_eq (data : String) :
    VM.stoll data
      = if (leadingDigits data).isEmpty then none
        else if digitsValue 0 (leadingDigits data) < 2 ^ 63
          then some ((digitsValue 0 (leadingDigits data) : Nat) : Int) else none := by
  rfl

/-- A character that begins no rule is skipped: no token is made and the cursor moves to
the next character. -/
theorem processStep_skip (src : List Char) (st : LexState)
    (h1 : isIdentifierFirst (src.getD st.cur (Char.ofNat 0)) = false)
    (h2 : src.getD st.cur (Char.ofNat 0) ≠ '"') (h3 : src.getD st.cur (Char.ofNat 0) ≠ '\'')
    (h4 : src.getD st.cur (Char.ofNat 0) ≠ '/')
    (h5 : isDigit (src.getD st.cur (Char.ofNat 0)) = false)
    (h6 : src.getD st.cur (Char.ofNat 0) ≠ '\n')
    (h7 : mapFind TOKEN_MAP (String.mk (substr src st.cur 1)) = none) :
    processStep src st = some ⟨st.cur + 1, st.cur + 1, st.line, st.col + 1, st.tokens_⟩ := by
  have e2 : (src.getD st.cur (Char.ofNat 0) == '"') = false := beq_eq_false_iff_ne.2 h2
  have e3 : (src.getD st.cur (Char.ofNat 0) == '\'') = false := beq_eq_false_iff_ne.2 h3
  have e4 : (src.getD st.cur (Char.ofNat 0) == '/') = false := beq_eq_false_iff_ne.2 h4
  have e6 : (src.getD st.cur (Char.ofNat 0) == '\n') = false := beq_eq_false_iff_ne.2 h6
  unfold processStep
  simp only [h1, e2, e3, e4, h5, e6, h7, Bool.false_eq_true, if_false, Bool.or_self,
    Bool.false_and, Option.isSome_none]

/-- The loop over an identifier stops by its own guard within the iterations it is given:
more iterations change nothing. -/
theorem scanIdentifier_stable (src : List Char) (e k : Nat) :
    ∀ (fuel f c : Nat), e ≤ f + fuel →
      scanIdentifier src e (fuel + k) f c = scanIdentifier src e fuel f c := by
  intro fuel
  induction fuel with
  | zero =>
    intro f c h
    cases k with
    | zero => rfl
    | succ j =>
      have hg : ¬ f < e := by omega
      simp only [Nat.zero_add, scanIdentifier, hg, decide_False, Bool.false_and,
        Bool.false_eq_true, if_false]
  | succ n ih =>
    intro f c h
    rw [Nat.add_right_comm]
    unfold scanIdentifier
    split
    · exact ih _ _ (by omega)
    · rfl

theorem scanQuoted_stable (src : List Char) (e : Nat) (q : Char) (k : Nat) :
    ∀ (fuel f l c : Nat), e ≤ f + fuel →
      scanQuoted src e q (fuel + k) f l c = scanQuoted src e q fuel f l c := by
  intro fuel
  induction fuel with
  | zero =>
    intro f l c h
    cases k with
    | zero => rfl
    | succ j =>
      have hg : ¬ f < e := by omega
      simp only [Nat.zero_add, scanQuoted, hg, decide_False, Bool.false_and,
        Bool.false_eq_true, if_false]
  | succ n ih =>
    intro f l c h
    rw [Nat.add_right_comm]
    unfold scanQuoted
    split
    · apply ih
      split <;> omega
    · rfl

theorem scanLineComment_stable (src : List Char) (e k : Nat) :
    ∀ (fuel f c : Nat), e ≤ f + fuel →
      scanLineComment src e (fuel + k) f c = scanLineComment src e fuel f c := by
  intro fuel
  induction fuel with
  | zero =>
    intro f c h
    cases k with
    | zero => rfl
    | succ j =>
      have hg : ¬ f < e := by omega
      simp only [Nat.zero_add, scanLineComment, hg, decide_False, Bool.false_and,
        Bool.false_eq_true, if_false]
  | succ n ih =>
    intro f c h
    rw [Nat.add_right_comm]
    unfold scanLineComment
    split
    · exact ih _ _ (by omega)
    · rfl

theorem scanBlockComment_stable (src : List Char) (e k : Nat) :
    ∀ (fuel f l c : Nat), e ≤ f + fuel →
      scanBlockComment src e (fuel + k) f l c = scanBlockComment src e fuel f l c := by
  intro fuel
  induction fuel with
  | zero =>
    intro f l c h
    cases k with
    | zero => rfl
    | succ j =>
      have hg : ¬ f < e := by omega
      simp only [Nat.zero_add, scanBlockComment, hg, if_false]
  | succ n ih =>
    intro f l c h
    rw [Nat.add_right_comm]
    unfold scanBlockComment
    split
    · simp only
      split
      · exact ih _ _ _ (by omega)
      · split
        · split
          · rfl
          · exact ih _ _ _ (by omega)
        · exact ih _ _ _ (by omega)
    · rfl

theorem scanOperator_stable (src : List Char) (e cur k : Nat) :
    ∀ (fuel f c : Nat), e ≤ f + fuel →
      scanOperator src e cur (fuel + k) f c = scanOperator src e cur fuel f c := by
  intro fuel
  induction fuel with
  | zero =>
    intro f c h
    cases k with
    | zero => rfl
    | succ j =>
      have hg : ¬ f < e := by omega
      simp only [Nat.zero_add, scanOperator, hg, decide_False, Bool.false_and,
        Bool.false_eq_true, if_false]
  | succ n ih =>
    intro f c h
    rw [Nat.add_right_comm]
    unfold scanOperator
    split
    · exact ih _ _ (by omega)
    · rfl

theorem process_ne_fuelOut (source : String) : process source ≠ .fuelOut := by
  have h := processLoop_spec source.data source.data.length ⟨0, 0, 1, 1, []⟩ (by simp) (by simp)
  unfold process
  rcases h with h | ⟨ts, eof, h, _⟩
  · rw [h]; exact fun e => by cases e
  · rw [h]; exact fun e => by cases e

/-- The comparison functions on two cells that are not both of the class Number: the
result is a new Boolean that holds the comparison of the two strings. -/
theorem compare_of_not_both_numbers (num : Double → Double → Bool)
    (str : String → String → Bool) (l r : Nat) (st : VMState) (lc rc : Value)
    (hl : st.heap[l]? = some lc) (hr : st.heap[r]? = some rc)
    (hnot : ¬ ∃ a b, lc.data = .Number a ∧ rc.data = .Number b) :
    VM.compare num str (some l) (some r) st
      = .ok (some st.heap.length)
          { st with heap := st.heap ++ [⟨.Boolean (str lc.toString rc.toString), []⟩] } := by
  have dl : VM.deref (some l) st = .ok lc st := by simp only [VM.deref, hl]
  have dr : VM.deref (some r) st = .ok rc st := by simp only [VM.deref, hr]
  unfold VM.compare
  simp only [bind, VMM.bind, dl]
  cases hd : lc.data with
  | Number a =>
    simp only [VMM.bind, dr]
    cases he : rc.data with
    | Number b => exact absurd ⟨a, b, hd, he⟩ hnot
    | _ => rfl
  | _ => simp only [VMM.bind, dr]; rfl

theorem teq_of_not_both_numbers (l r : Nat) (st : VMState) (lc rc : Value)
    (hl : st.heap[l]? = some lc) (hr : st.heap[r]? = some rc)
    (hnot : ¬ ∃ a b, lc.data = .Number a ∧ rc.data = .Number b) :
    VM.teq (some l) (some r) st
      = .ok (some st.heap.length)
          { st with heap := st.heap ++
              [⟨.Boolean (decide (lc.type_ = rc.type_) && lc.toString == rc.toString), []⟩] } := by
  unfold VM.teq
  have dl : VM.deref (some l) st = .ok lc st := by simp only [VM.deref, hl]
  have dr : VM.deref (some r) st = .ok rc st := by simp only [VM.deref, hr]
  simp only [bind, VMM.bind, dl, dr]
  by_cases ht : lc.type_ = rc.type_
  · rw [if_neg (not_not.2 ht), compare_of_not_both_numbers _ _ l r st lc rc hl hr hnot]
    simp [ht]
  · rw [if_pos ht]
    simp [ht, VM.alloc]

theorem obs_of_new_boolean (st : VMState) (b : Bool) :
    (ExecResult.ok (some st.heap.length)
        { st with heap := st.heap ++ [⟨.Boolean b, []⟩] }).obs = some (.bool b) := by
  show Option.map Value.obs ((st.heap ++ [⟨.Boolean b, []⟩])[st.heap.length]?) = _
  rw [List.getElem?_append_right (Nat.le_refl _), Nat.sub_self]
  rfl

/-- The function mod on two cells of the class Number whose payloads convert to 64-bit
integers: the remainder of the two integers in a new Number, and no defined result when
the divisor is zero or the division overflows. -/
theorem mod_of_numbers (l r : Nat) (st : VMState) (x y : Double)
    (la ra : List (String × ValuePtr)) (a b : Int)
    (hl : st.heap[l]? = some ⟨.Number x, la⟩) (hr : st.heap[r]? = some ⟨.Number y, ra⟩)
    (hx : x.toInt64 = some a) (hy : y.toInt64 = some b) :
    VM.mod (some l) (some r) st
      = if b = 0 then .undefinedBehaviour
        else if a = -(2 : Int) ^ 63 ∧ b = -1 then .undefinedBehaviour
        else .ok (some st.heap.length)
          { st with heap := st.heap ++ [⟨.Number (Double.ofInt (Int.tmod a b)), []⟩] } := by
  have dl : VM.deref (some l) st = .ok ⟨.Number x, la⟩ st := by simp only [VM.deref, hl]
  have dr : VM.deref (some r) st = .ok ⟨.Number y, ra⟩ st := by simp only [VM.deref, hr]
  unfold VM.mod VM.arith
  simp only [bind, VMM.bind, dl, dr, VM.int64Op, hx, hy]
  by_cases hb : b = 0
  · simp only [hb, if_true, Option.map_none']
    rfl
  · simp only [hb, if_false]
    by_cases ho : a = -(2 : Int) ^ 63 ∧ b = -1
    · simp only [ho, and_self, if_true, Option.map_none']
      rfl
    · simp only [ho, if_false, Option.map_some']
      rfl

/-! ## Lemmas on the scan of the lexer, exact doubles and the for-in loop -/

theorem processStep_none_iff_unclosed (src : List Char) (st : LexState)
    (hcur : st.cur < src.length) :
    processStep src st = none ↔ unclosedRegexAt src st = true := by
  rw [processStep_eq_none_iff src st hcur]
  unfold unclosedRegexAt
  simp only [Bool.and_eq_true, decide_eq_true_eq]

/-- The scan has no defined result exactly when one of its iterations starts at a
regular-expression literal that is not closed. -/
theorem processLoop_outOfBounds_iff (src : List Char) :
    ∀ (fuel : Nat) (st : LexState),
      processLoop src fuel st = .outOfBounds
        ↔ ∃ s ∈ scanStates src fuel st, unclosedRegexAt src s = true := by
  intro fuel
  induction fuel with
  | zero =>
    intro st
    unfold processLoop scanStates
    constructor
    · intro h
      split at h <;> cases h
    · rintro ⟨s, hs, _⟩
      cases hs
  | succ f ih =>
    intro st
    unfold processLoop scanStates
    by_cases hcur : st.cur < src.length
    · simp only [hcur, if_true]
      cases hp : processStep src st with
      | none =>
        simp only
        constructor
        · intro _
          exact ⟨st, List.mem_cons_self _ _, (processStep_none_iff_unclosed src st hcur).1 hp⟩
        · intro _
          trivial
      | some st1 =>
        simp only
        have hno : unclosedRegexAt src st ≠ true := by
          intro hu
          rw [(processStep_none_iff_unclosed src st hcur).2 hu] at hp
          cases hp
        rw [ih st1]
        constructor
        · rintro ⟨s, hs, hu⟩
          exact ⟨s, List.mem_cons_of_mem _ hs, hu⟩
        · rintro ⟨s, hs, hu⟩
          rcases List.mem_cons.1 hs with rfl | hs
          · exact absurd hu hno
          · exact ⟨s, hs, hu⟩
    · simp only [hcur, if_false]
      constructor
      · intro h
        cases h
      · rintro ⟨s, hs, _⟩
        cases hs

/-- A source whose scan meets no regular-expression literal that is not closed is scanned
to its tokens: some tokens that are not end-of-file, then one end-of-file token. -/
theorem process_tokens_of_closed (source : String)
    (h : ∀ s ∈ scanStates source.data source.data.length ⟨0, 0, 1, 1, []⟩,
      unclosedRegexAt source.data s = false) :
    ∃ ts eof, process source = .tokens (ts ++ [eof])
      ∧ eof.type_ = .END_OF_FILE ∧ ∀ t ∈ ts, t.type_ ≠ .END_OF_FILE := by
  have h1 := processLoop_spec source.data source.data.length ⟨0, 0, 1, 1, []⟩
    (by simp) (by simp)
  rcases h1 with h1 | h1
  · obtain ⟨s, hs, hu⟩ := (processLoop_outOfBounds_iff source.data _ _).1 h1
    rw [h s hs] at hu
    cases hu
  · exact h1

/-- The scan loop has at most as many iterations as it is given. -/
theorem scanStates_length (src : List Char) :
    ∀ (fuel : Nat) (st : LexState), (scanStates src fuel st).length ≤ fuel := by
  intro fuel
  induction fuel with
  | zero => intro st; exact Nat.le_refl 0
  | succ f ih =>
    intro st
    unfold scanStates
    split
    · cases processStep src st with
      | none => simp
      | some st1 =>
        simp only [List.length_cons]
        exact Nat.succ_le_succ (ih st1)
    · simp

namespace Double

/-- Rounding is exact on an integer that is a 53-bit integer times a power of two. -/
theorem round_scaled_exact (neg : Bool) (K t : Nat) (hK : 0 < K) (hlt : K < 2 ^ 53)
    (hb : Nat.log 2 K + t ≤ 1023) :
    round neg (K * 2 ^ t) 1
      = .finite neg (K * 2 ^ (52 - Nat.log 2 K)) (((Nat.log 2 K + t : Nat) : Int) - 52) := by
  have hL1 : 2 ^ Nat.log 2 K ≤ K := Nat.pow_log_le_self 2 (by omega)
  have hL2 : K < 2 ^ (Nat.log 2 K + 1) := Nat.lt_pow_succ_log_self (by omega) K
  have hL : Nat.log 2 K ≤ 52 := by
    by_contra hc
    have : 2 ^ 53 ≤ 2 ^ Nat.log 2 K := Nat.pow_le_pow_right (by omega) (by omega)
    omega
  obtain ⟨u, hu⟩ : ∃ u, 52 - Nat.log 2 K = u := ⟨_, rfl⟩
  have huL : Nat.log 2 K + u = 52 := by omega
  have hnum : K * 2 ^ t ≠ 0 := by positivity
  have hl1 : log2Fuel (K * 2 ^ t) (K * 2 ^ t) = Nat.log 2 K + t := by
    rw [log2Fuel_eq_log _ _ (by omega) (Nat.le_refl _), log_mul_two_pow K t hK]
  have hl2 : log2Fuel 1 1 = 0 := rfl
  have hq : K * 2 ^ u < 2 ^ 53 := by
    calc K * 2 ^ u < 2 ^ (Nat.log 2 K + 1) * 2 ^ u := by
          apply Nat.mul_lt_mul_of_pos_right hL2 (by positivity)
      _ = 2 ^ 53 := by rw [← pow_add]; congr 1; omega
  have hq2 : 2 ^ 52 ≤ K * 2 ^ u := by
    calc 2 ^ 52 = 2 ^ Nat.log 2 K * 2 ^ u := by rw [← pow_add, huL]
      _ ≤ K * 2 ^ u := Nat.mul_le_mul_right _ hL1
  have hK53 : ¬ K * 2 ^ u = 2 ^ 53 := by omega
  unfold round
  rw [hu, hl1, hl2]
  simp only [hnum, if_false, Nat.cast_zero, sub_zero]
  rcases Nat.lt_or_ge t u with htu | hut
  swap
  · -- the exponent is not negative
    obtain ⟨d, rfl⟩ : ∃ d, t = u + d := ⟨t - u, by omega⟩
    have he0 : ((Nat.log 2 K + (u + d) : Nat) : Int) - 52 = (d : Int) := by
      push_cast; omega
    rw [he0]
    have hnn : (0 : Int) ≤ (d : Int) := Int.natCast_nonneg d
    have hsplit : K * 2 ^ (u + d) = K * 2 ^ u * 2 ^ d := by rw [pow_add, Nat.mul_assoc]
    have hpos : 0 < 2 ^ d := by positivity
    have hb1 : ¬ (K * 2 ^ (u + d) < 2 ^ 52 * (1 * 2 ^ d)) := by
      rw [hsplit, Nat.one_mul]
      intro h
      have := Nat.lt_of_mul_lt_mul_right h
      omega
    have hdiv : K * 2 ^ (u + d) / (1 * 2 ^ d) = K * 2 ^ u := by
      rw [hsplit, Nat.one_mul]; exact Nat.mul_div_cancel _ hpos
    have hmod : K * 2 ^ (u + d) % (1 * 2 ^ d) = 0 := by
      rw [hsplit, Nat.one_mul]; exact Nat.mul_mod_left _ _
    have hlt1074 : ¬ ((d : Int) < -1074) := by omega
    have h971 : ¬ ((971 : Int) < (d : Int)) := by omega
    have hpos1 : 0 < 1 * 2 ^ d := by rw [Nat.one_mul]; exact hpos
    simp only [hnn, if_true, Int.toNat_ofNat, hb1, decide_False, Bool.false_eq_true, if_false,
      hlt1074, hdiv, hmod, Nat.mul_zero, hpos1, hK53, h971]
  · obtain ⟨d, rfl⟩ : ∃ d, u = t + d := ⟨u - t, by omega⟩
    have hdpos : 0 < d := by omega
    have he0 : ((Nat.log 2 K + t : Nat) : Int) - 52 = -(d : Int) := by
      push_cast; omega
    rw [he0]
    have hneg : ¬ (0 : Int) ≤ -(d : Int) := by omega
    have hsplit : K * 2 ^ t * 2 ^ d = K * 2 ^ (t + d) := by rw [pow_add, Nat.mul_assoc]
    have hbL : ¬ (K * 2 ^ (t + d) < 4503599627370496) := by
      have e : (4503599627370496 : Nat) = 2 ^ 52 := by norm_num
      rw [e]; omega
    have hKL : ¬ K * 2 ^ (t + d) = 9007199254740992 := by
      have e : (9007199254740992 : Nat) = 2 ^ 53 := by norm_num
      rw [e]; exact hK53
    have hlt1074 : ¬ (-(d : Int) < -1074) := by omega
    have h971 : ¬ ((971 : Int) < -(d : Int)) := by omega
    simp [hneg, hsplit, hbL, hlt1074, Nat.mod_one, hKL, h971]

end Double

/-- An integer below `2^63` that is a 53-bit integer times a power of two converts
without rounding. -/
theorem ofInt_isNat_of_representable (n : Nat) (hrep : Double.representable n)
    (hlt : n < 2 ^ 63) : (Double.ofInt (n : Int)).isNat n := by
  obtain ⟨K, t, rfl, hK⟩ := hrep
  rcases Nat.eq_zero_or_pos K with h0 | hpos
  · subst h0
    refine ⟨0, 1074, Or.inl ⟨?_, by rw [Nat.zero_mul, Nat.zero_mul]⟩⟩
    simp only [Nat.zero_mul]
    rfl
  · have hlog : Nat.log 2 K + t < 63 := by
      have h1 : Nat.log 2 (K * 2 ^ t) = Nat.log 2 K + t := Double.log_mul_two_pow K t hpos
      have h2 : Nat.log 2 (K * 2 ^ t) < 63 := Nat.log_lt_of_lt_pow (by positivity) hlt
      omega
    have hL1 : 2 ^ Nat.log 2 K ≤ K := Nat.pow_log_le_self 2 (by omega)
    have hL : Nat.log 2 K ≤ 52 := by
      by_contra hc
      have : 2 ^ 53 ≤ 2 ^ Nat.log 2 K := Nat.pow_le_pow_right (by omega) (by omega)
      omega
    have hr := Double.round_scaled_exact false K t hpos hK (by omega)
    have hof : Double.ofInt ((K * 2 ^ t : Nat) : Int)
        = .finite false (K * 2 ^ (52 - Nat.log 2 K)) (((Nat.log 2 K + t : Nat) : Int) - 52) := by
      unfold Double.ofInt
      have hn : ¬ (((K * 2 ^ t : Nat) : Int) < 0) := by omega
      simp only [hn, decide_False, Int.natAbs_ofNat]
      exact hr
    rcases Nat.lt_or_ge (Nat.log 2 K + t) 52 with hs | hs
    · refine ⟨K * 2 ^ (52 - Nat.log 2 K), 52 - (Nat.log 2 K + t), Or.inl ⟨?_, ?_⟩⟩
      · rw [hof]
        congr 1
        push_cast
        omega
      · rw [Nat.mul_assoc, ← pow_add]
        congr 2
        omega
    · refine ⟨K * 2 ^ (52 - Nat.log 2 K), Nat.log 2 K + t - 52, Or.inr ⟨?_, ?_⟩⟩
      · rw [hof]
        congr 1
        push_cast
        omega
      · rw [Nat.mul_assoc, ← pow_add]
        congr 2
        omega

/-- Every natural number up to `2^53` is a value of a `double`. -/
theorem representable_of_le (n : Nat) (h : n ≤ 2 ^ 53) : Double.representable n := by
  rcases Nat.lt_or_ge n (2 ^ 53) with hlt | hge
  · exact ⟨n, 0, by simp, hlt⟩
  · exact ⟨2 ^ 52, 1, by omega, by norm_num⟩

theorem length_setVar (scopes : List Scope) (s : Nat) (name : String) (v : ValuePtr) :
    (Scope.setVar scopes s name v).length = scopes.length := by
  rw [setVar_eq_writeVar, length_writeVar]

/-- One iteration of the loop over the keys: the loop variable is set to what the
object holds under the key (the `Undefined` singleton when it holds nothing), then the
body runs. -/
theorem execForInKeys_step (f : Nat) (s : Nat) (i : String) (o : Nat) (stmt : AST)
    (key : String) (rest : List String) (sa : VMState) (oc : Value)
    (ho : sa.heap[o]? = some oc) (hs : s < sa.scopes.length) :
    VM.execForInKeys (f + 1) (some s) i (some o) stmt (key :: rest) sa
      = (do
          let ret ← VM.exec f stmt
          match (← VM.deref ret).data with
          | .Signal .RETURN _ => pure ret
          | .Signal .BREAK _ => pure (some sigNormalAddr)
          | _ => VM.execForInKeys f (some s) i (some o) stmt rest : VMM ValuePtr)
          { sa with scopes :=
              (Scope.setVar sa.scopes s i ((mapFind oc.attr_ key).getD (some undefinedAddr))) } := by
  have hd : VM.deref (some o) sa = .ok oc sa := by simp only [VM.deref, ho]
  conv_lhs => unfold VM.execForInKeys
  simp only [bind, VMM.bind, VM.getAttr, hd]
  cases hm : mapFind oc.attr_ key with
  | none =>
    simp only [pure, Option.getD_none, setVar_run sa s i (some undefinedAddr) hs]
  | some v =>
    simp only [pure, Option.getD_some, setVar_run sa s i v hs]

/-- With the empty statement as its body, the loop over the keys sets the loop variable
once for every key of the list, in the order of the list, and ends with Normal. -/
theorem execForInKeys_empty_body (s : Nat) (i : String) (o : Nat) (rg0 : PositionRange)
    (sc0 : Option Nat) (oc : Value) (p : ValuePtr) (na : List (String × ValuePtr)) :
    ∀ (ks : List String) (f : Nat) (sa : VMState),
      sa.heap[o]? = some oc → s < sa.scopes.length →
      sa.heap[sigNormalAddr]? = some ⟨.Signal .NORMAL p, na⟩ →
      VM.execForInKeys (ks.length + f + 2) (some s) i (some o) (.Empty rg0 sc0) ks sa
        = .ok (some sigNormalAddr)
            { sa with scopes :=
              (ks.foldl (fun scs k => Scope.setVar scs s i
                ((mapFind oc.attr_ k).getD (some undefinedAddr))) sa.scopes) } := by
  intro ks
  induction ks with
  | nil =>
    intro f sa _ _ _
    rfl
  | cons k rest ih =>
    intro f sa ho hs hn
    have e : (k :: rest).length + f + 2 = (rest.length + f + 2) + 1 := by
      simp only [List.length_cons]; omega
    rw [e, execForInKeys_step _ s i o _ k rest sa oc ho hs]
    have hb : VM.exec (rest.length + f + 2) (.Empty rg0 sc0)
        { sa with scopes :=
            (Scope.setVar sa.scopes s i ((mapFind oc.attr_ k).getD (some undefinedAddr))) }
        = .ok (some sigNormalAddr)
          { sa with scopes :=
            (Scope.setVar sa.scopes s i ((mapFind oc.attr_ k).getD (some undefinedAddr))) } :=
      rfl
    simp only [bind, VMM.bind, hb, VM.deref, hn]
    exact ih f { sa with scopes :=
        (Scope.setVar sa.scopes s i ((mapFind oc.attr_ k).getD (some undefinedAddr))) }
      ho (by rw [length_setVar]; exact hs) hn

/-! ## Runs that several theorems speak of -/

/-- The call of a function that was only declared ends in an execution error. -/
theorem declared_call_run : (run 300 "function f(x) \x7b return x + 1; \x7d f(10)").outcome = .execError := by
  decide!

/-- A for-in loop that reads `o[k]` with `k` bound to the values of the properties. -/
theorem for_in_over_keys_run :
    (run 300 "var o = \x7b\"a\": 2, \"b\": 3\x7d; var k; var s = 0; for (k in o) \x7b s = s + o[k]; \x7d s").lookup 0 "s"
      = some (.string "0.000000undefinedundefined")
    ∧ (run 300 "var o = \x7b\"a\": 2, \"b\": 3\x7d; var k; var s = 0; for (k in o) \x7b s = s + o[k]; \x7d s").lookup 0 "k"
      = some (.number (Double.ofInt 3)) := by
  decide!

/-- A call whose formal parameter has the name of a global variable. -/
theorem parameter_call_run :
    (run 300 "var x = 5; var f = function(x) \x7b return x; \x7d; f(10);").lookup 0 "x" = some (.number (Double.ofInt 10))
    ∧ (run 300 "var x = 5; var f = function(x) \x7b return x; \x7d; f(10);").names 1 = some ["arguments", "this"]
    ∧ (run 300 "var x = 5; var f = function(x) \x7b return x; \x7d; f(10);").lookup 1 "x" = none := by
  decide!

/-- The complement of a string. -/
theorem complement_of_string_run :
    (run 300 "var r = ~\"x\";").lookup 0 "r" = some (.number (Double.ofInt (-1))) := by
  decide!

/-- A regular-expression literal as the condition of an `if`. -/
theorem regex_condition_run : (run 300 "if(/a/)\x7b\x7d").outcome = .execError := by
  decide!

/-! ## The claims -/

/-- Claim C1, evaluated on the code: `exec(Block*)` returns at the first statement
whose value has type `SIGNAL`, the Normal signal included.  A block that begins with
an empty statement returns Normal without evaluating any of the statements after
it; in `var x = 0; { ; x = 1; }` the assignment `x = 1` is never evaluated and `x`
still holds 0, while without the empty statement `x` holds 1. -/
theorem block_returns_at_normal_signal
    (fuel : Nat) (r : PositionRange) (s : Option Nat) (rest : List AST)
    (extra : List Value) (scopes : List Scope) (g ret : Option Nat) :
    VM.execBlock (fuel + 2) (.Empty r s :: rest) ⟨initialHeap ++ extra, scopes, g, ret⟩
      = .ok (some sigNormalAddr) ⟨initialHeap ++ extra, scopes, g, ret⟩
    ∧ (run 300 "var x = 0; \x7b ; x = 1; \x7d").outcome = .finished
    ∧ (run 300 "var x = 0; \x7b ; x = 1; \x7d").lookup 0 "x" = some (.number (Double.ofInt 0))
    ∧ (run 300 "var x = 0; \x7b x = 1; \x7d").lookup 0 "x" = some (.number (Double.ofInt 1)) := by
  have h0 : VM.execBlock (fuel + 2) (.Empty r s :: rest) ⟨initialHeap ++ extra, scopes, g, ret⟩ =
      (do
        let v ← (pure (some sigNormalAddr) : VMM ValuePtr)
        if (← VM.deref v).type_ = .SIGNAL then pure v
        else VM.execBlock (fuel + 1) rest : VMM ValuePtr)
        ⟨initialHeap ++ extra, scopes, g, ret⟩ := by
    rfl
  refine ⟨?_, by decide!⟩
  rw [h0]
  simp [bind, VMM.bind, pure, VM.deref, sigNormal_cell, Value.type_]

/-- Claim C2, evaluated on the code: once the static `ret` of `Signal::sigReturn` is
initialised, every call returns that first signal and the new payload goes into a
signal nobody sees.  With `var f = function(x) { return x + 1; };` the call `f(10)`
yields 11 and the later call `f(20)` yields 11 again. -/
theorem second_call_yields_first_return_value (v : ValuePtr) (st : VMState) (ret : Nat) :
    VM.sigReturn v { st with sigReturnRet := some ret }
      = .ok (some ret)
          { st with heap := st.heap ++ [⟨.Signal .RETURN v, []⟩], sigReturnRet := some ret }
    ∧ (run 300 "var f = function(x) \x7b return x + 1; \x7d; var a = f(10); var b = f(20);").lookup 0 "a"
      = some (.number (Double.ofInt 11))
    ∧ (run 300 "var f = function(x) \x7b return x + 1; \x7d; var a = f(10); var b = f(20);").lookup 0 "b"
      = some (.number (Double.ofInt 11)) := by
  refine ⟨rfl, by decide!⟩

/-- Claim C3 (amended): evaluating a function declaration allocates a function value and
changes no scope, so the declared name stays unbound: the program
`function f(x) { return x + 1; } f(10)` ends in an execution error, the declaration
alone leaves `undefined` as the only global name, and a function bound with
`var f = function(x) { return x + 1; };` is callable, `f(10)` yielding 11. -/
theorem function_declaration_binds_no_name
    (fuel : Nat) (r : PositionRange) (s : Option Nat) (id : Option Identifier)
    (args : List Identifier) (stmts : List AST) (st : VMState) :
    VM.exec (fuel + 1) (.Function r s id args stmts) st
      = .ok (some st.heap.length)
          { st with heap := st.heap ++ [⟨.FunctionValue (.Function r s id args stmts), []⟩] }
    ∧ (run 300 "function f(x) \x7b return x + 1; \x7d f(10)").outcome = .execError
    ∧ (run 300 "function f(x) \x7b return x + 1; \x7d").names 0 = some ["undefined"]
    ∧ (run 300 "var f = function(x) \x7b return x + 1; \x7d; var r = f(10);").lookup 0 "r"
      = some (.number (Double.ofInt 11)) := by
  refine ⟨rfl, declared_call_run, by decide!⟩

/-- Claim C3, counterexample: `function f(x) { return x + 1; } f(10)` raises an execution
error. -/
theorem declared_function_is_not_callable :
    (run 300 "function f(x) \x7b return x + 1; \x7d f(10)").outcome = .execError
    ∧ (run 300 "function f(x) \x7b return x + 1; \x7d f(10)").outcome ≠ .finished := by
  refine ⟨declared_call_run, ?_⟩
  rw [declared_call_run]
  decide

/-- Claim C4, evaluated on the code: at a `Case` whose expression evaluates, the state
becomes EXECUTE whatever `eq` computed, because the pointer `eq` returns is tested
against null.  In
`var x = 0; switch (2) { case 1: x = 1; break; case 2: x = 2; break; }` the
statements after `case 1` run and `x` ends as 1. -/
theorem switch_executes_unequal_case
    (fuel : Nat) (val : ValuePtr) (state : Bool) (r : PositionRange) (s : Option Nat)
    (e : AST) (rest : List AST) (st st1 st2 : VMState) (c b : ValuePtr)
    (hE : VM.exec fuel e st = .ok c st1) (hEq : VM.eq c val st1 = .ok b st2) :
    VM.execSwitch (fuel + 1) val state (.Case r s (some e) :: rest) st
      = VM.execSwitch fuel val true rest st2
    ∧ (run 300 "var x = 0; switch (2) \x7b case 1: x = 1; break; case 2: x = 2; break; \x7d").lookup 0 "x"
      = some (.number (Double.ofInt 1)) := by
  have h0 : VM.execSwitch (fuel + 1) val state (.Case r s (some e) :: rest) st =
      (do
        let c ← VM.exec fuel e
        let r ← VM.eq c val
        VM.execSwitch fuel val r.isSome rest : VMM ValuePtr) st := by
    rfl
  refine ⟨?_, by decide!⟩
  rw [h0]
  simp only [bind, VMM.bind, hE, hEq, eq_returns_nonnull c val b st1 st2 hEq]

/-- Claim C4, witness: `case 1` under the head 2 turns the state to EXECUTE. -/
theorem switch_executes_unequal_case_witness :
    VM.execSwitch 2 (some 6) false
        [.Case default none (some (.LiteralNumber default none "1"))] switchState
      = VM.execSwitch 1 (some 6) true []
          { switchState with heap := switchState.heap ++
              [⟨.Number (Double.ofInt 1), []⟩,
               ⟨.Boolean (Double.eq (Double.ofInt 1) (Double.ofInt 2)), []⟩] } :=
  (switch_executes_unequal_case 1 (some 6) false default none
    (.LiteralNumber default none "1") [] switchState
    { switchState with heap := switchState.heap ++ [⟨.Number (Double.ofInt 1), []⟩] }
    { switchState with heap := switchState.heap ++
        [⟨.Number (Double.ofInt 1), []⟩,
         ⟨.Boolean (Double.eq (Double.ofInt 1) (Double.ofInt 2)), []⟩] }
    (some 7) (some 8) (by rfl) (by rfl)).1

/-- Claim C5 (amended): a `for`-`in` loop over an object goes through the keys of the
object in ascending order, each key once, and runs its body once for each key with the
loop variable set to what the object holds under the key (the value of the property,
not the key) before the body runs; a Return or Break of the body ends the loop, every
other value of the body leads to the next key, and the loop ends with Normal when no key
is left.  With the empty statement as body the variable is set once for every key, in
that order.  In the program of the claim the reads `o[k]` therefore look up the values
as keys and give undefined: `s` holds the string `0.000000undefinedundefined` and `k`
holds 3; with the body `s = s + k` the sum is 5. -/
theorem for_in_binds_property_values (fuel : Nat) (rg : PositionRange) (s : Nat)
    (id : Identifier) (target stmt : AST) (st st1 st2 : VMState) (r : ValuePtr) (o : Nat)
    (cell : Value)
    (hk : VM.exec fuel (.Identifier id) st = .ok r st1)
    (ht : VM.exec fuel target st1 = .ok (some o) st2)
    (hcell : st2.heap[o]? = some cell) (hobj : cell.data = .ObjectValue)
    (hnd : (cell.attr_.map Prod.fst).Nodup) :
    VM.exec (fuel + 2) (.ForInLoop rg (some s) (.Identifier id) target stmt) st
      = VM.execForInKeys fuel (some s) id.name_ (some o) stmt cell.getKeys st2
    ∧ (∀ k : String, cell.getKeys.count k = if k ∈ cell.attr_.map Prod.fst then 1 else 0)
    ∧ cell.getKeys.Pairwise (fun a b => strLt a.data b.data = true)
    -- one iteration
    ∧ (∀ (f : Nat) (key : String) (rest : List String) (sa : VMState) (oc : Value),
        sa.heap[o]? = some oc → s < sa.scopes.length →
        VM.execForInKeys (f + 1) (some s) id.name_ (some o) stmt (key :: rest) sa
          = (do
              let ret ← VM.exec f stmt
              match (← VM.deref ret).data with
              | .Signal .RETURN _ => pure ret
              | .Signal .BREAK _ => pure (some sigNormalAddr)
              | _ => VM.execForInKeys f (some s) id.name_ (some o) stmt rest : VMM ValuePtr)
              { sa with scopes :=
                  (Scope.setVar sa.scopes s id.name_
                    ((mapFind oc.attr_ key).getD (some undefinedAddr))) })
    -- no key left
    ∧ (∀ (f : Nat) (sa : VMState),
        VM.execForInKeys (f + 1) (some s) id.name_ (some o) stmt [] sa
          = .ok (some sigNormalAddr) sa)
    -- the whole loop, with the empty statement as body
    ∧ (∀ (ks : List String) (f : Nat) (rg0 : PositionRange) (sc0 : Option Nat) (sa : VMState)
        (oc : Value) (p : ValuePtr) (na : List (String × ValuePtr)),
        sa.heap[o]? = some oc → s < sa.scopes.length →
        sa.heap[sigNormalAddr]? = some ⟨.Signal .NORMAL p, na⟩ →
        VM.execForInKeys (ks.length + f + 2) (some s) id.name_ (some o) (.Empty rg0 sc0) ks sa
          = .ok (some sigNormalAddr)
              { sa with scopes :=
                  (ks.foldl (fun scs k => Scope.setVar scs s id.name_
                    ((mapFind oc.attr_ k).getD (some undefinedAddr))) sa.scopes) })
    ∧ (run 300 "var o = \x7b\"a\": 2, \"b\": 3\x7d; var k; var s = 0; for (k in o) \x7b s = s + o[k]; \x7d s").lookup 0 "s"
      = some (.string "0.000000undefinedundefined")
    ∧ (run 300 "var o = \x7b\"a\": 2, \"b\": 3\x7d; var k; var s = 0; for (k in o) \x7b s = s + o[k]; \x7d s").lookup 0 "k"
      = some (.number (Double.ofInt 3))
    ∧ (run 300 "var o = \x7b\"a\": 2, \"b\": 3\x7d; var k; var s = 0; for (k in o) \x7b s = s + k; \x7d s").lookup 0 "s"
      = some (.number (Double.ofInt 5))
    ∧ (run 300 "var o = \x7b\"b\": 3, \"a\": 2\x7d; var k; var t = \"\"; for (k in o) \x7b t = t + k; \x7d").lookup 0 "t"
      = some (.string "2.0000003.000000") := by
  have hperm : cell.getKeys.Perm (cell.attr_.map Prod.fst) := sortKeys_perm _
  refine ⟨?_, ?_, sortKeys_sorted _ hnd,
    fun f key rest sa oc ho hs => execForInKeys_step f s id.name_ o stmt key rest sa oc ho hs,
    fun _ _ => rfl,
    fun ks f rg0 sc0 sa oc p na ho hs hn =>
      execForInKeys_empty_body s id.name_ o rg0 sc0 oc p na ks f sa ho hs hn,
    for_in_over_keys_run.1, for_in_over_keys_run.2, by decide!⟩
  · obtain ⟨d, attrs⟩ := cell
    simp only at hobj
    subst hobj
    have h0 : VM.exec (fuel + 2) (.ForInLoop rg (some s) (.Identifier id) target stmt) st
        = VM.execForInLoop (fuel + 1) (some s) (.Identifier id) target stmt st := rfl
    rw [h0]
    conv_lhs => unfold VM.execForInLoop
    simp only [bind, VMM.bind, hk, pure, ht, VM.deref, hcell]
  · intro k
    rw [hperm.count_eq]
    split
    · rename_i h
      exact List.count_eq_one_of_mem hnd h
    · rename_i h
      exact List.count_eq_zero_of_not_mem h

/-- Claim C5, witness: the loop `for (k in o) ;` in a state where `o` holds `b` before
`a`: the keys come out as `a`, `b`, and `k` ends with the value under `b`. -/
theorem for_in_binds_property_values_witness :
    forInState.heap[6]? = some ⟨.ObjectValue, [("b", some 8), ("a", some 7)]⟩
    ∧ VM.exec 3 (.ForInLoop default (some 0) (.Identifier ⟨default, some 0, "k"⟩)
          (.Identifier ⟨default, some 0, "o"⟩) (.Empty default none)) forInState
        = VM.execForInKeys 1 (some 0) "k" (some 6) (.Empty default none)
            (Value.getKeys ⟨.ObjectValue, [("b", some 8), ("a", some 7)]⟩) forInState
    ∧ Value.getKeys ⟨.ObjectValue, [("b", some 8), ("a", some 7)]⟩ = ["a", "b"]
    ∧ (VM.exec 6 (.ForInLoop default (some 0) (.Identifier ⟨default, some 0, "k"⟩)
          (.Identifier ⟨default, some 0, "o"⟩) (.Empty default none)) forInState).lookup 0 "k"
        = some (.number (Double.ofInt 3)) :=
  ⟨rfl,
    (for_in_binds_property_values 1 default 0 ⟨default, some 0, "k"⟩
      (.Identifier ⟨default, some 0, "o"⟩) (.Empty default none) forInState forInState
      forInState (some 0) 6 ⟨.ObjectValue, [("b", some 8), ("a", some 7)]⟩
      (exec_identifier_bound 0 default 0 "k" forInState 0 (by decide) (by decide!))
      (exec_identifier_bound 0 default 0 "o" forInState 6 (by decide) (by decide!))
      rfl rfl (by decide)).1,
    by decide!, by decide!⟩

/-- Claim C5, counterexample: after the program of the claim `s` does not hold the number
5. -/
theorem for_in_sum_over_keys_is_not_five :
    (run 300 "var o = \x7b\"a\": 2, \"b\": 3\x7d; var k; var s = 0; for (k in o) \x7b s = s + o[k]; \x7d s").lookup 0 "s"
      ≠ some (.number (Double.ofInt 5)) := by
  rw [for_in_over_keys_run.1]
  decide!

/-- Claim C7, evaluated on the code: `exec(Call*)` writes `arguments` and `this` straight
into the map of the scope of the called function, but it binds a formal parameter that has
an actual argument through `Scope::setVar` from that scope: the nearest scope of the
chain that already has the name is overwritten, the scope of the function gets the entry
only when no scope of the chain has it, and no other entry changes.  After
`var x = 5; var f = function(x) { return x; }; f(10);` the global `x` holds 10 and
the scope of the function has the entries `arguments` and `this` only, none for `x`. -/
theorem call_binds_parameter_in_nearest_binding_or_callee_scope
    (fuel : Nat) (fs ar : Nat) (arg : Identifier) (formals : List Identifier) (e : AST)
    (rarg : List AST) (i : Nat) (st st1 : VMState) (a : Nat)
    (hE : VM.exec (fuel + 1) e st = .ok (some a) st1)
    (ha : a < st1.heap.length) (har : ar < st1.heap.length) (hfs : fs < st1.scopes.length) :
    ∃ st2 : VMState,
      VM.execArguments (fuel + 2) (some fs) (some ar) (arg :: formals) (e :: rarg) i st
        = VM.execArguments (fuel + 1) (some fs) (some ar) formals rarg (i + 1) st2
      ∧ (∀ c, nearestBinding st1.scopes fs arg.name_ = some c →
          st2.entry c arg.name_ = some (some a)
          ∧ ∀ j n, (j ≠ c ∨ n ≠ arg.name_) → st2.entry j n = st1.entry j n)
      ∧ (nearestBinding st1.scopes fs arg.name_ = none →
          st2.entry fs arg.name_ = some (some a)
          ∧ ∀ j n, (j ≠ fs ∨ n ≠ arg.name_) → st2.entry j n = st1.entry j n)
      ∧ (run 300 "var x = 5; var f = function(x) \x7b return x; \x7d; f(10);").lookup 0 "x"
          = some (.number (Double.ofInt 10))
      ∧ (run 300 "var x = 5; var f = function(x) \x7b return x; \x7d; f(10);").names 1
          = some ["arguments", "this"]
      ∧ (run 300 "var x = 5; var f = function(x) \x7b return x; \x7d; f(10);").lookup 1 "x"
          = none := by
  have h0 : VM.execArguments (fuel + 2) (some fs) (some ar) (arg :: formals) (e :: rarg) i st =
      (do
        let v ← VM.exec (fuel + 1) e
        VM.setVar (some fs) arg.name_ v
        VM.setAttr (some ar) (VM.intToString i) v
        VM.execArguments (fuel + 1) (some fs) (some ar) formals rarg (i + 1) : VMM Unit) st := by
    rfl
  let stA : VMState := { st1 with scopes :=
      (writeVar st1.scopes ((nearestBinding st1.scopes fs arg.name_).getD fs) arg.name_ (some a)) }
  have haA : a < stA.heap.length := ha
  have harA : ar < stA.heap.length := har
  refine ⟨{ stA with heap :=
      (stA.heap.set ar
        { stA.heap[ar] with attr_ := mapSet stA.heap[ar].attr_ (VM.intToString i) (some a) }) },
    ?_, ?_, ?_, parameter_call_run.1, parameter_call_run.2.1, parameter_call_run.2.2⟩
  · rw [h0]
    simp only [bind, VMM.bind, hE, setVar_run st1 fs arg.name_ (some a) hfs, setVar_eq_writeVar]
    rw [setAttr_run stA ar a (VM.intToString i) harA haA]
  · intro c hc
    exact entry_writeVar_self st1 c arg.name_ (some a)
      (nearestBinding_lt st1.scopes fs c arg.name_ hc).1 _ (by simp [stA, hc])
  · intro hc
    exact entry_writeVar_self st1 fs arg.name_ (some a) hfs _ (by simp [stA, hc])

/-- Claim C7, witness: with no enclosing `x`, the parameter `x` lands in the scope of
the function. -/
theorem call_binds_parameter_in_nearest_binding_or_callee_scope_witness :
    ∃ st2 : VMState,
      VM.execArguments 2 (some 1) (some 6) [⟨default, some 1, "x"⟩]
          [.LiteralNumber default none "7"] 0 callState
        = VM.execArguments 1 (some 1) (some 6) [] [] 1 st2
      ∧ st2.entry 1 "x" = some (some 7) := by
  obtain ⟨st2, h1, _, h3, _⟩ :=
    call_binds_parameter_in_nearest_binding_or_callee_scope 0 1 6 ⟨default, some 1, "x"⟩ []
      (.LiteralNumber default none "7") [] 0 callState
      { callState with heap := callState.heap ++ [⟨.Number (Double.ofInt 7), []⟩] } 7
      (by rfl) (by decide) (by decide) (by decide)
  exact ⟨st2, h1, (h3 (by simp [nearestBinding, scopeChain, hasVar, mapFind, callState])).1⟩

/-- Claim C8: an assignment `x = E` whose right side evaluates to the value at address `a`
overwrites exactly the nearest binding of `x` on the scope chain of the identifier
node when there is one, creates the binding in the global scope (and nowhere else)
when there is none, leaves every other entry of every scope unchanged, and yields
the assigned value; `a = b = 7` leaves `a` and `b` bound globally to 7. -/
theorem assignment_overwrites_nearest_binding_or_creates_global
    (fuel : Nat) (id : Identifier) (right : AST) (st st1 : VMState) (a s g : Nat)
    (hE : VM.exec (fuel + 1) right st = .ok (some a) st1)
    (ha : a < st1.heap.length)
    (hs : id.scope_ = some s) (hsl : s < st1.scopes.length)
    (hg : st1.global_ = some g) (hgl : g < st1.scopes.length)
    (hroot : ∀ sc, st1.scopes[g]? = some sc → sc.parent_ = none)
    (hnn : ∀ c, nearestBinding st1.scopes s id.name_ = some c →
      scopeEntry st1.scopes c id.name_ ≠ some none) :
    ∃ st2 : VMState,
      VM.execBiExpression (fuel + 2) (.Identifier id) "=" right st = .ok (some a) st2
      ∧ st2.heap = st1.heap
      ∧ (∀ c, nearestBinding st1.scopes s id.name_ = some c →
          st2.entry c id.name_ = some (some a)
          ∧ ∀ i n, (i ≠ c ∨ n ≠ id.name_) → st2.entry i n = st1.entry i n)
      ∧ (nearestBinding st1.scopes s id.name_ = none →
          st2.entry g id.name_ = some (some a)
          ∧ ∀ i n, (i ≠ g ∨ n ≠ id.name_) → st2.entry i n = st1.entry i n)
      ∧ (run 300 "a = b = 7; a").lookup 0 "a" = some (.number (Double.ofInt 7))
      ∧ (run 300 "a = b = 7; a").lookup 0 "b" = some (.number (Double.ofInt 7)) := by
  have h0 : VM.execBiExpression (fuel + 2) (.Identifier id) "=" right st =
      (VM.exec (fuel + 1) right >>= fun rval => VM.assign (fuel + 1) (.Identifier id) rval) st := by
    rfl
  have h1 := assign_identifier_run fuel id st1 a s g ha hs hsl hg hgl hroot hnn
  refine ⟨{ st1 with scopes :=
      (writeVar st1.scopes ((nearestBinding st1.scopes s id.name_).getD g) id.name_ (some a)) },
    ?_, rfl, ?_, ?_, by decide!⟩
  · rw [h0]
    simp only [bind, VMM.bind, hE]
    exact h1
  · intro c hc
    have hcl := (nearestBinding_lt st1.scopes s c id.name_ hc).1
    simp only [VMState.entry, hc, Option.getD_some]
    refine ⟨?_, ?_⟩
    · rw [scopeEntry_writeVar _ _ _ _ _ _ hcl]
      simp
    · intro i n hin
      rw [scopeEntry_writeVar _ _ _ _ _ _ hcl]
      have : ¬ (i = c ∧ n = id.name_) := by
        rintro ⟨h1, h2⟩
        cases hin with
        | inl h => exact h h1
        | inr h => exact h h2
      simp [this]
  · intro hc
    simp only [VMState.entry, hc, Option.getD_none]
    refine ⟨?_, ?_⟩
    · rw [scopeEntry_writeVar _ _ _ _ _ _ hgl]
      simp
    · intro i n hin
      rw [scopeEntry_writeVar _ _ _ _ _ _ hgl]
      have : ¬ (i = g ∧ n = id.name_) := by
        rintro ⟨h1, h2⟩
        cases hin with
        | inl h => exact h h1
        | inr h => exact h h2
      simp [this]

/-- Claim C8, witness: `x = 7` with `x` unbound makes the entry in the global scope. -/
theorem assignment_overwrites_nearest_binding_or_creates_global_witness :
    ∃ st2 : VMState,
      VM.execBiExpression 2 (.Identifier ⟨default, some 0, "x"⟩) "="
        (.LiteralNumber default none "7") witnessState = .ok (some 6) st2
      ∧ st2.entry 0 "x" = some (some 6) := by
  obtain ⟨st2, h1, _, _, h4, _⟩ :=
    assignment_overwrites_nearest_binding_or_creates_global 0 ⟨default, some 0, "x"⟩
      (.LiteralNumber default none "7") witnessState
      { witnessState with heap := initialHeap ++ [⟨.Number (Double.ofInt 7), []⟩] } 6 0 0
      (by rfl) (by decide) rfl (by decide) rfl (by decide)
      (by intro sc h; simp [witnessState] at h; rw [← h])
      (by intro c h; simp [nearestBinding, scopeChain, hasVar, mapFind, witnessState] at h)
  exact ⟨st2, h1, (h4 (by simp [nearestBinding, scopeChain, hasVar, mapFind, witnessState])).1⟩

/-- Claim C9 (amended): `plus` yields the `NotaNumber` singleton as soon as one operand is
that singleton, whatever the other operand is; the `Number` of the sum of the
payloads when both operands are `Number`s; and otherwise a new string value, the
concatenation of the two `toString()` results. -/
theorem plus_nan_then_sum_then_concatenation
    (st : VMState) (l r : Nat) (lc rc : Value)
    (hl : st.heap[l]? = some lc) (hr : st.heap[r]? = some rc) :
    ((lc.data = .NotaNumber ∨ rc.data = .NotaNumber) →
      VM.plus (some l) (some r) st = .ok (some nanAddr) st)
    ∧ (∀ a b, lc.data = .Number a → rc.data = .Number b →
      VM.plus (some l) (some r) st = .ok (some st.heap.length)
        { st with heap := st.heap ++ [⟨.Number (Double.add a b), []⟩] })
    ∧ (lc.data ≠ .NotaNumber → rc.data ≠ .NotaNumber →
      (lc.type_ ≠ .NUMBER ∨ rc.type_ ≠ .NUMBER) →
      VM.plus (some l) (some r) st = .ok (some st.heap.length)
        { st with heap := st.heap ++ [⟨.StringValue (lc.toString ++ rc.toString), []⟩] }) := by
  obtain ⟨ld, lattr⟩ := lc
  obtain ⟨rd, rattr⟩ := rc
  refine ⟨?_, ?_, ?_⟩
  · intro h
    cases ld <;> cases rd <;>
      simp_all [VM.plus, VM.isNotaNumber, bind, VMM.bind, pure]
  · intro a b h1 h2
    simp only at h1 h2
    subst h1 h2
    simp [VM.plus, VM.isNotaNumber, VM.deref, VM.alloc, bind, VMM.bind, pure, hl, hr]
  · intro h1 h2 h3
    cases ld <;> cases rd <;>
      simp_all [VM.plus, VM.isNotaNumber, VM.deref, VM.alloc, bind, VMM.bind, pure, Value.type_]

/-- Claim C9, witness: the string `"x"` plus the singleton is the singleton, in an
unchanged state. -/
theorem plus_nan_then_sum_then_concatenation_witness :
    VM.plus (some 6) (some nanAddr) stringHeapState = .ok (some nanAddr) stringHeapState :=
  (plus_nan_then_sum_then_concatenation stringHeapState 6 nanAddr
    ⟨.StringValue "x", []⟩ ⟨.NotaNumber, []⟩ rfl rfl).1 (Or.inr rfl)

/-- Claim C9, counterexample: the string `"x"` plus the `NotaNumber` singleton is the
singleton, not the string `"xNaN"`. -/
theorem string_plus_nan_is_not_concatenation :
    (VM.plus (some 6) (some nanAddr) stringHeapState).obs = some .nan
    ∧ (VM.plus (some 6) (some nanAddr) stringHeapState).obs ≠ some (.string "xNaN")
    ∧ (run 300 "var r = \"x\" + (\"a\" - 1);").lookup 0 "r" = some .nan := by
  decide!

/-- Claim C10, evaluated at the failing input: `10 - 3 - 2` parses to
`BiExpression(10, -, BiExpression(3, -, 2))` and evaluates to 9. -/
theorem equal_priority_parses_right_nested :
    parseShapes 300 "10 - 3 - 2"
      = some [.bi (.leaf "10") "-" (.bi (.leaf "3") "-" (.leaf "2"))]
    ∧ (run 300 "var r = 10 - 3 - 2;").lookup 0 "r" = some (.number (Double.ofInt 9)) := by
  decide!

/-- Claim C11: higher priority binds tighter.  For operator tokens `lo` and `hi` of the
priorities `pl < ph`, both from 2 to 11 of `PRIORITY`, operands that the level above
the binary operators (`expression(12, ps)`) parses to `A`, `B` and `C`, and a token
`e` after the last operand that is no operator, `Parser::expression(0, ps)` parses
`A lo B hi C` to `BiExpression(A, lo, BiExpression(B, hi, C))` and `A hi B lo C` to
`BiExpression(BiExpression(A, hi, B), lo, C)`, leaving the cursor at `e`; the sources
`a + b * c`, `a * b + c`, `1 || 2 && 3` and `x == y < z` parse accordingly. -/
theorem higher_priority_operator_binds_tighter
    (fuel fa fb fc : Nat) (ps : Option Nat) (A B C : AST) (lo hi e : Token) (pl ph : Nat)
    (hlo : mapFind PRIORITY lo.data_ = some pl) (hhi : mapFind PRIORITY hi.data_ = some ph)
    (h2 : 2 ≤ pl) (hlt : pl < ph) (h11 : ph ≤ 11) (he : mapFind PRIORITY e.data_ = none) :
    (∀ (s0 s1 s3 s5 : ParserState) (a0 b0 c0 : Token) (ra rb rc rest : List Token),
      s0.toks = a0 :: ra →
      (∀ f, Parser.expressionPri (f + fa) 12 ps s0 = .ok A s1) →
      s1.toks = lo :: b0 :: rb →
      (∀ f, Parser.expressionPri (f + fb) 12 ps ⟨b0 :: rb, s1.scopes⟩ = .ok B s3) →
      s3.toks = hi :: c0 :: rc →
      (∀ f, Parser.expressionPri (f + fc) 12 ps ⟨c0 :: rc, s3.scopes⟩ = .ok C s5) →
      s5.toks = e :: rest →
      Parser.expressionPri (fuel + fa + fb + fc + 14) 0 ps s0
        = .ok (.BiExpression ⟨a0.range_.begin_, e.range_.begin_⟩ ps A lo.data_
                (.BiExpression ⟨b0.range_.begin_, e.range_.begin_⟩ ps B hi.data_ C)) s5)
    ∧ (∀ (s0 s1 s3 s5 : ParserState) (a0 b0 c0 : Token) (ra rb rc rest : List Token),
      s0.toks = a0 :: ra →
      (∀ f, Parser.expressionPri (f + fa) 12 ps s0 = .ok A s1) →
      s1.toks = hi :: b0 :: rb →
      (∀ f, Parser.expressionPri (f + fb) 12 ps ⟨b0 :: rb, s1.scopes⟩ = .ok B s3) →
      s3.toks = lo :: c0 :: rc →
      (∀ f, Parser.expressionPri (f + fc) 12 ps ⟨c0 :: rc, s3.scopes⟩ = .ok C s5) →
      s5.toks = e :: rest →
      Parser.expressionPri (fuel + fa + fb + fc + 14) 0 ps s0
        = .ok (.BiExpression ⟨a0.range_.begin_, e.range_.begin_⟩ ps
                (.BiExpression ⟨a0.range_.begin_, lo.range_.begin_⟩ ps A hi.data_ B)
                lo.data_ C) s5)
    ∧ parseShapes 300 "a + b * c" = some [.bi (.leaf "a") "+" (.bi (.leaf "b") "*" (.leaf "c"))]
    ∧ parseShapes 300 "a * b + c" = some [.bi (.bi (.leaf "a") "*" (.leaf "b")) "+" (.leaf "c")]
    ∧ parseShapes 300 "1 || 2 && 3"
        = some [.bi (.leaf "1") "||" (.bi (.leaf "2") "&&" (.leaf "3"))]
    ∧ parseShapes 300 "x == y < z"
        = some [.bi (.leaf "x") "==" (.bi (.leaf "y") "<" (.leaf "z"))] := by
  have heop : ∀ p, mapFind PRIORITY e.data_ ≠ some p := by
    intro p; rw [he]; simp
  have hlop : ∀ p, pl < p → mapFind PRIORITY lo.data_ ≠ some p := by
    intro p hp; rw [hlo]; simp; omega
  have hhip : ∀ p, ph < p → mapFind PRIORITY hi.data_ ≠ some p := by
    intro p hp; rw [hhi]; simp; omega
  obtain ⟨j, hj⟩ : ∃ j, ph + (j + 1) = 12 := ⟨11 - ph, by omega⟩
  obtain ⟨m, hm⟩ : ∃ m, pl + (m + 1) = ph := ⟨ph - pl - 1, by omega⟩
  refine ⟨?_, ?_, by decide!⟩
  · -- `A lo B hi C`
    intro s0 s1 s3 s5 a0 b0 c0 ra rb rc rest h0 hA h1 hB h3 hC h5
    have key : ∀ x, Parser.expressionPri (x + fc + 14) 0 ps s0
        = .ok (.BiExpression ⟨a0.range_.begin_, e.range_.begin_⟩ ps A lo.data_
                (.BiExpression ⟨b0.range_.begin_, e.range_.begin_⟩ ps B hi.data_ C)) s5
        ∨ ¬ (fa + fb ≤ x) := by
      intro x
      by_cases hx : fa + fb ≤ x
      · left
        obtain ⟨u, rfl⟩ : ∃ u, x = u + fa + fb := ⟨x - fa - fb, by omega⟩
        -- the operand `C` at the level of `hi`
        have hC1 := Parser.expressionPri_descend (j + 1) (u + fa + fb + fc) ps
          ⟨c0 :: rc, s3.scopes⟩ s5 C c0 e rc rest rfl h5 ph (by omega)
          (by rw [hj]; exact hC (u + fa + fb)) (fun p _ _ => heop p)
        -- the operand `B` at the level above `hi`
        have hB1 := Parser.expressionPri_descend j (u + fa + fc + 1 + fb) ps
          ⟨b0 :: rb, s1.scopes⟩ s3 B b0 hi rb (c0 :: rc) rfl h3 (ph + 1) (by omega)
          (by rw [show ph + 1 + j = 12 by omega]; exact hB (u + fa + fc + 1))
          (fun p hp1 _ => hhip p (by omega))
        have hBi := Parser.expressionPri_binary (u + fa + fb + fc + j) ph ps
          ⟨b0 :: rb, s1.scopes⟩ s3 s5 B C b0 hi e rb (c0 :: rc) rest (by omega) h11 rfl
          (by rw [← hB1]; congr 1; omega) h3 hhi
          (by rw [← hC1]; congr 1) h5 (heop ph)
        have hBi2 := Parser.expressionPri_descend (m + 1) (u + fa + fb + fc + j + 2) ps
          ⟨b0 :: rb, s1.scopes⟩ s5 _ b0 e rb rest rfl h5 pl (by omega)
          (by rw [hm]; exact hBi) (fun p _ _ => heop p)
        have hA1 := Parser.expressionPri_descend (j + m + 1) (u + fb + fc + 2 + fa) ps
          s0 s1 A a0 lo ra (b0 :: rb) h0 h1 (pl + 1) (by omega)
          (by rw [show pl + 1 + (j + m + 1) = 12 by omega]; exact hA (u + fb + fc + 2))
          (fun p hp1 _ => hlop p (by omega))
        have hTop := Parser.expressionPri_binary (u + fa + fb + fc + j + 2 + m) pl ps
          s0 s1 s5 A _ a0 lo e ra (b0 :: rb) rest h2 (by omega) h0
          (by rw [← hA1]; congr 1; omega) h1 hlo
          (by rw [← hBi2]; congr 1) h5 (heop pl)
        have hFin := Parser.expressionPri_descend pl (u + fa + fb + fc + j + 2 + m + 2) ps
          s0 s5 _ a0 e ra rest h0 h5 0 (by omega) (by rw [Nat.zero_add]; exact hTop)
          (fun p _ _ => heop p)
        rw [← hFin]
        congr 1
        omega
      · right; exact hx
    rcases key (fuel + fa + fb) with h | h
    · exact h
    · omega
  · -- `A hi B lo C`
    intro s0 s1 s3 s5 a0 b0 c0 ra rb rc rest h0 hA h1 hB h3 hC h5
    have key : ∀ x, Parser.expressionPri (x + fc + 13) 0 ps s0
        = .ok (.BiExpression ⟨a0.range_.begin_, e.range_.begin_⟩ ps
                (.BiExpression ⟨a0.range_.begin_, lo.range_.begin_⟩ ps A hi.data_ B)
                lo.data_ C) s5
        ∨ ¬ (fa + fb ≤ x) := by
      intro x
      by_cases hx : fa + fb ≤ x
      · left
        obtain ⟨u, rfl⟩ : ∃ u, x = u + fa + fb := ⟨x - fa - fb, by omega⟩
        have hA1 := Parser.expressionPri_descend j (u + fb + fc + 1 + fa) ps
          s0 s1 A a0 hi ra (b0 :: rb) h0 h1 (ph + 1) (by omega)
          (by rw [show ph + 1 + j = 12 by omega]; exact hA (u + fb + fc + 1))
          (fun p hp1 _ => hhip p (by omega))
        have hB1 := Parser.expressionPri_descend (j + 1) (u + fa + fc + fb) ps
          ⟨b0 :: rb, s1.scopes⟩ s3 B b0 lo rb (c0 :: rc) rfl h3 ph (by omega)
          (by rw [hj]; exact hB (u + fa + fc)) (fun p hp1 _ => hlop p (by omega))
        have hBi := Parser.expressionPri_binary (u + fa + fb + fc + j) ph ps
          s0 s1 s3 A B a0 hi lo ra (b0 :: rb) (c0 :: rc) (by omega) h11 h0
          (by rw [← hA1]; congr 1; omega) h1 hhi
          (by rw [← hB1]; congr 1; omega) h3 (hlop ph hlt)
        have hBi2 := Parser.expressionPri_descend m (u + fa + fb + fc + j + 2) ps
          s0 s3 _ a0 lo ra (c0 :: rc) h0 h3 (pl + 1) (by omega)
          (by rw [show pl + 1 + m = ph by omega]; exact hBi)
          (fun p hp1 _ => hlop p (by omega))
        have hC1 := Parser.expressionPri_descend (j + m + 2) (u + fa + fb + fc) ps
          ⟨c0 :: rc, s3.scopes⟩ s5 C c0 e rc rest rfl h5 pl (by omega)
          (by rw [show pl + (j + m + 2) = 12 by omega]; exact hC (u + fa + fb))
          (fun p _ _ => heop p)
        have hTop := Parser.expressionPri_binary (u + fa + fb + fc + j + 1 + m) pl ps
          s0 s3 s5 _ C a0 lo e ra (c0 :: rc) rest h2 (by omega) h0
          (by rw [← hBi2]; congr 1; omega) h3 hlo
          (by rw [← hC1]; congr 1; omega) h5 (heop pl)
        have hFin := Parser.expressionPri_descend pl (u + fa + fb + fc + j + 1 + m + 2) ps
          s0 s5 _ a0 e ra rest h0 h5 0 (by omega) (by rw [Nat.zero_add]; exact hTop)
          (fun p _ _ => heop p)
        rw [← hFin]
        congr 1
        omega
      · right; exact hx
    rcases key (fuel + fa + fb + 1) with h | h
    · rw [← h]; congr 1; omega
    · omega

/-- Claim C11, witness: the tokens of `a + b * c` and of `a * b + c`, with `+` of priority
10 and `*` of priority 11; the operands are identifiers, which the level above the
binary operators parses with fuel 4. -/
theorem higher_priority_operator_binds_tighter_witness :
    Parser.expressionPri 26 0 (some 0)
        ⟨[⟨.IDENTIFIER, "a", default⟩, ⟨.OPERATOR, "+", default⟩, ⟨.IDENTIFIER, "b", default⟩,
          ⟨.OPERATOR, "*", default⟩, ⟨.IDENTIFIER, "c", default⟩, ⟨.END_OF_FILE, "", default⟩],
         [none]⟩
      = .ok (.BiExpression default (some 0) (.Identifier ⟨default, some 0, "a"⟩) "+"
              (.BiExpression default (some 0) (.Identifier ⟨default, some 0, "b"⟩) "*"
                (.Identifier ⟨default, some 0, "c"⟩)))
          ⟨[⟨.END_OF_FILE, "", default⟩], [none]⟩
    ∧ Parser.expressionPri 26 0 (some 0)
        ⟨[⟨.IDENTIFIER, "a", default⟩, ⟨.OPERATOR, "*", default⟩, ⟨.IDENTIFIER, "b", default⟩,
          ⟨.OPERATOR, "+", default⟩, ⟨.IDENTIFIER, "c", default⟩, ⟨.END_OF_FILE, "", default⟩],
         [none]⟩
      = .ok (.BiExpression default (some 0)
              (.BiExpression default (some 0) (.Identifier ⟨default, some 0, "a"⟩) "*"
                (.Identifier ⟨default, some 0, "b"⟩)) "+"
              (.Identifier ⟨default, some 0, "c"⟩))
          ⟨[⟨.END_OF_FILE, "", default⟩], [none]⟩ :=
  have h := higher_priority_operator_binds_tighter 0 4 4 4 (some 0)
    (.Identifier ⟨default, some 0, "a"⟩) (.Identifier ⟨default, some 0, "b"⟩)
    (.Identifier ⟨default, some 0, "c"⟩) ⟨.OPERATOR, "+", default⟩ ⟨.OPERATOR, "*", default⟩
    ⟨.END_OF_FILE, "", default⟩ 10 11 (by decide) (by decide) (by decide) (by decide)
    (by decide) (by decide)
  ⟨h.1 _ _ _ _ ⟨.IDENTIFIER, "a", default⟩ ⟨.IDENTIFIER, "b", default⟩
      ⟨.IDENTIFIER, "c", default⟩ _ _ _ _ rfl
      (fun f => Parser.expressionPri_name f (some 0) ⟨.IDENTIFIER, "a", default⟩ _ _ [none]
        ⟨rfl, by decide, by decide⟩ (by decide) (by decide) (by decide) (by decide) (by decide))
      rfl
      (fun f => Parser.expressionPri_name f (some 0) ⟨.IDENTIFIER, "b", default⟩ _ _ [none]
        ⟨rfl, by decide, by decide⟩ (by decide) (by decide) (by decide) (by decide) (by decide))
      rfl
      (fun f => Parser.expressionPri_name f (some 0) ⟨.IDENTIFIER, "c", default⟩ _ _ [none]
        ⟨rfl, by decide, by decide⟩ (by decide) (by decide) (by decide) (by decide) (by decide))
      rfl,
   h.2.1 _ _ _ _ ⟨.IDENTIFIER, "a", default⟩ ⟨.IDENTIFIER, "b", default⟩
      ⟨.IDENTIFIER, "c", default⟩ _ _ _ _ rfl
      (fun f => Parser.expressionPri_name f (some 0) ⟨.IDENTIFIER, "a", default⟩ _ _ [none]
        ⟨rfl, by decide, by decide⟩ (by decide) (by decide) (by decide) (by decide) (by decide))
      rfl
      (fun f => Parser.expressionPri_name f (some 0) ⟨.IDENTIFIER, "b", default⟩ _ _ [none]
        ⟨rfl, by decide, by decide⟩ (by decide) (by decide) (by decide) (by decide) (by decide))
      rfl
      (fun f => Parser.expressionPri_name f (some 0) ⟨.IDENTIFIER, "c", default⟩ _ _ [none]
        ⟨rfl, by decide, by decide⟩ (by decide) (by decide) (by decide) (by decide) (by decide))
      rfl⟩

/-- Claim C12: at a `/` whose next character is neither `/` nor `*`, the lexer takes the
regular-expression branch exactly when no token has been emitted yet or the last
emitted token is neither an identifier, number, string, regular-expression or
keyword token nor the lexeme `)`.  For a literal that is closed inside the source
the step then appends one regular-expression token whose lexeme begins with `/`
(and this is the only way to get one); in the other context the step appends one
operator token whose lexeme begins with `/`, whatever follows.  In `(a) / 2` the `/`
is an operator token, `/abc/.toString` begins with the regular-expression token
`/abc/`, and `a /= 2` has the operator token `/=`. -/
theorem slash_starts_regex_iff_last_token_allows (src : List Char) (st : LexState)
    (hcur : st.cur < src.length)
    (hc : src.getD st.cur (Char.ofNat 0) = '/')
    (hn1 : src.getD (st.cur + 1) (Char.ofNat 0) ≠ '/')
    (hn2 : src.getD (st.cur + 1) (Char.ofNat 0) ≠ '*') :
    ((scanQuoted src src.length '/' src.length (st.cur + 1) st.line (st.col + 1)).1 < src.length →
      ((∃ st1 tok, processStep src st = some st1 ∧ st1.tokens_ = st.tokens_ ++ [tok]
          ∧ tok.type_ = .REGULAR ∧ tok.data_.data.head? = some '/')
        ↔ regexContext st.tokens_))
    ∧ (¬ regexContext st.tokens_ →
        ∃ st1 tok, processStep src st = some st1 ∧ st1.tokens_ = st.tokens_ ++ [tok]
          ∧ tok.type_ = .OPERATOR ∧ tok.data_.data.head? = some '/')
    ∧ lexemes "(a) / 2" = some [(.LPAREN, "("), (.IDENTIFIER, "a"), (.RPAREN, ")"),
        (.OPERATOR, "/"), (.NUMBER, "2"), (.END_OF_FILE, "")]
    ∧ lexemes "/abc/.toString" = some [(.REGULAR, "/abc/"), (.DOT, "."),
        (.IDENTIFIER, "toString"), (.END_OF_FILE, "")]
    ∧ lexemes "a /= 2" = some [(.IDENTIFIER, "a"), (.OPERATOR, "/="), (.NUMBER, "2"),
        (.END_OF_FILE, "")] := by
  have hop : ¬ regexContext st.tokens_ →
      ∃ st1 tok, processStep src st = some st1 ∧ st1.tokens_ = st.tokens_ ++ [tok]
        ∧ tok.type_ = .OPERATOR ∧ tok.data_.data.head? = some '/' := by
    intro hno
    have hra : regexAllowed st.tokens_ = false := by
      cases h : regexAllowed st.tokens_ with
      | false => rfl
      | true => exact absurd ((regexAllowed_iff _).1 h) hno
    have hin0 : (mapFind TOKEN_MAP (String.mk (substr src st.cur 1))).isSome = true := by
      have : substr src st.cur 1 = ['/'] := by
        unfold substr
        rw [List.drop_eq_getElem_cons hcur]
        have hg : src[st.cur] = '/' := by
          rw [← hc]; simp [List.getD, List.getElem?_eq_getElem hcur]
        simp [hg]
      rw [this]; decide
    have hge := scanOperator_ge src src.length st.cur src.length (st.cur + 1) (st.col + 1)
    have hin := scanOperator_inMap src src.length st.cur src.length (st.cur + 1)
      (st.col + 1) (by omega) (by simpa using hin0)
    obtain ⟨ty, hty⟩ := Option.isSome_iff_exists.1 hin
    have hhead : (String.mk (substr src st.cur
        ((scanOperator src src.length st.cur src.length (st.cur + 1) (st.col + 1)).1
          - st.cur))).data.head? = some '/' := by
      obtain ⟨k, hk⟩ : ∃ k, (scanOperator src src.length st.cur src.length (st.cur + 1)
          (st.col + 1)).1 - st.cur = k + 1 := ⟨_, (Nat.succ_pred_eq_of_pos (by omega)).symm⟩
      rw [hk]
      show (substr src st.cur (k + 1)).head? = _
      rw [substr_head src st.cur k hcur, hc]
    have htyop := TOKEN_MAP_slash _ _ hty hhead
    subst htyop
    refine ⟨⟨(scanOperator src src.length st.cur src.length (st.cur + 1) (st.col + 1)).1,
        (scanOperator src src.length st.cur src.length (st.cur + 1) (st.col + 1)).1, st.line,
        (scanOperator src src.length st.cur src.length (st.cur + 1) (st.col + 1)).2,
        st.tokens_ ++ [⟨.OPERATOR, String.mk (substr src st.cur
          ((scanOperator src src.length st.cur src.length (st.cur + 1) (st.col + 1)).1 - st.cur)),
          ⟨⟨st.line, st.col⟩, ⟨st.line,
            (scanOperator src src.length st.cur src.length (st.cur + 1) (st.col + 1)).2⟩⟩⟩]⟩,
      _, ?_, rfl, rfl, hhead⟩
    unfold processStep
    simp only [hc, hra]
    have e1 : isIdentifierFirst '/' = false := by decide
    have e2 : isDigit '/' = false := by decide
    simp only [e1, e2, hin0, hty]
    have hn1' := hn1
    have hn2' := hn2
    simp only [List.getD_eq_getElem?_getD] at hn1' hn2'
    simp [hn1', hn2']
  refine ⟨?_, hop, by decide!⟩
  intro hclosed
  constructor
  · rintro ⟨st1, tok, h1, h2, h3, _⟩
    by_contra hno
    obtain ⟨st2, tok2, h1', h2', h3', _⟩ := hop hno
    rw [h1] at h1'
    simp only [Option.some.injEq] at h1'
    subst h1'
    rw [h2] at h2'
    simp only [List.append_cancel_left_eq, List.cons.injEq, and_true] at h2'
    subst h2'
    rw [h3] at h3'
    exact absurd h3' (by decide)
  · intro hctx
    have hra := (regexAllowed_iff _).2 hctx
    obtain ⟨f2, hf2, _⟩ := scanFlags_some src (src.length + 2)
      ((scanQuoted src src.length '/' src.length (st.cur + 1) st.line (st.col + 1)).1 + 1)
      (by omega) (by omega)
    have hge := scanQuoted_ge src src.length '/' src.length (st.cur + 1) st.line (st.col + 1)
    refine ⟨⟨f2, f2,
        (scanQuoted src src.length '/' src.length (st.cur + 1) st.line (st.col + 1)).2.1,
        (scanQuoted src src.length '/' src.length (st.cur + 1) st.line (st.col + 1)).2.2,
        st.tokens_ ++ [⟨.REGULAR, String.mk (substr src st.cur
          ((scanQuoted src src.length '/' src.length (st.cur + 1) st.line (st.col + 1)).1
            - st.cur + 1)),
          ⟨⟨st.line, st.col⟩,
            ⟨(scanQuoted src src.length '/' src.length (st.cur + 1) st.line (st.col + 1)).2.1,
             (scanQuoted src src.length '/' src.length (st.cur + 1) st.line (st.col + 1)).2.2⟩⟩⟩]⟩,
      _, ?_, rfl, rfl, ?_⟩
    · unfold processStep
      simp only [hc, hra]
      have e1 : isIdentifierFirst '/' = false := by decide
      simp only [e1, hf2]
      have hn1' := hn1
      have hn2' := hn2
      simp only [List.getD_eq_getElem?_getD] at hn1' hn2'
      simp [hn1', hn2']
    · show (substr src st.cur _).head? = _
      rw [substr_head src st.cur _ hcur, hc]

/-- Claim C12, witness: at the start of `/abc/.toString` no token has been emitted, the
literal is closed at index 4, and the step appends a regular-expression token. -/
theorem slash_starts_regex_iff_last_token_allows_witness :
    ∃ st1 tok, processStep "/abc/.toString".data ⟨0, 0, 1, 1, []⟩ = some st1
      ∧ st1.tokens_ = [] ++ [tok] ∧ tok.type_ = .REGULAR ∧ tok.data_.data.head? = some '/' :=
  ((slash_starts_regex_iff_last_token_allows "/abc/.toString".data ⟨0, 0, 1, 1, []⟩
    (by decide) (by decide) (by decide) (by decide)).1 (by decide)).2 (Or.inl rfl)

/-- Claim C13, evaluated at the failing inputs: after `e` or `E` the number branch moves one
character on and consumes neither the sign nor the digits of the exponent (the loop
over the digits is entered only when the character is a sign, which is no digit).
`1e5` lexes to the number tokens `1e` and `5`, `1e+5` to `1e`, the operator `+` and
`5`; `var x = 1e5;` binds `x` to 1 and leaves the statement `5`. -/
theorem exponent_is_cut_off_the_number_token :
    lexemes "1e5" = some [(.NUMBER, "1e"), (.NUMBER, "5"), (.END_OF_FILE, "")]
    ∧ lexemes "1e+5"
        = some [(.NUMBER, "1e"), (.OPERATOR, "+"), (.NUMBER, "5"), (.END_OF_FILE, "")]
    ∧ lexemes "12E-34"
        = some [(.NUMBER, "12E"), (.OPERATOR, "-"), (.NUMBER, "34"), (.END_OF_FILE, "")]
    ∧ parseShapes 300 "var x = 1e5;" = some [.other, .leaf "5"]
    ∧ (run 300 "var x = 1e5;").lookup 0 "x" = some (.number (Double.ofInt 1)) := by
  decide!

/-- Claim C14, evaluated at the failing input: `escape` writes the decoded characters to the
front of a buffer of the length of the lexeme and never shortens the buffer, so the
lexeme of a string token keeps its length and every decoded escape sequence moves
the closing quote one place into the payload that `LiteralString` cuts out.  The
literal `"a\nb"` has the 6-character lexeme `"`, a, newline, b, `"`, NUL and the
4-character payload a, newline, b, `"`; a literal without escape sequences keeps
its body. -/
theorem escaped_string_payload_keeps_closing_quote (s : List Char) :
    (escape s).length = s.length
    ∧ lexemes "\"a\\nb\"" = some [(.STRING, "\"a\nb\"\x00"), (.END_OF_FILE, "")]
    ∧ parseShapes 300 "\"a\\nb\"" = some [.leaf "a\nb\""]
    ∧ (run 300 "var s = \"a\\nb\";").lookup 0 "s" = some (.string "a\nb\"")
    ∧ (run 300 "var s = \"ab\";").lookup 0 "s" = some (.string "ab") := by
  refine ⟨escape_length s, by decide!⟩

/-- Claim C15 (amended): the lexeme of a regular-expression token ends at the closing `/`.
In the regular-expression branch with the literal closed at the index `close`, the
step appends a token whose lexeme is the source from the opening `/` through
`close`; the cursor then moves over the run of letters after `close`, which enter no
token. -/
theorem regex_lexeme_ends_at_closing_slash (src : List Char) (st : LexState)
    (hc : src.getD st.cur (Char.ofNat 0) = '/')
    (hn1 : src.getD (st.cur + 1) (Char.ofNat 0) ≠ '/')
    (hn2 : src.getD (st.cur + 1) (Char.ofNat 0) ≠ '*')
    (hctx : regexContext st.tokens_) (close : Nat)
    (hclose : close = (scanQuoted src src.length '/' src.length (st.cur + 1) st.line
      (st.col + 1)).1)
    (hclosed : close < src.length) :
    ∃ st1 tok, processStep src st = some st1 ∧ st1.tokens_ = st.tokens_ ++ [tok]
      ∧ tok.type_ = .REGULAR
      ∧ tok.data_ = String.mk (substr src st.cur (close - st.cur + 1))
      ∧ src.getD close (Char.ofNat 0) = '/'
      ∧ close < st1.cur
      ∧ (∀ i, close < i → i < st1.cur → isLetter (src.getD i (Char.ofNat 0)) = true)
      ∧ isLetter (src.getD st1.cur (Char.ofNat 0)) = false := by
  subst hclose
  have hra := (regexAllowed_iff _).2 hctx
  obtain ⟨f2, hf2, hf2le⟩ := scanFlags_some src (src.length + 2)
    ((scanQuoted src src.length '/' src.length (st.cur + 1) st.line (st.col + 1)).1 + 1)
    (by omega) (by omega)
  have hge2 := scanFlags_ge _ _ _ _ hf2
  obtain ⟨hlet, ch, hch, hnl⟩ := scanFlags_spec _ _ _ _ hf2
  have hstop := scanQuoted_stop src src.length '/' src.length (st.cur + 1) st.line (st.col + 1)
    (by omega) hclosed
  refine ⟨⟨f2, f2,
      (scanQuoted src src.length '/' src.length (st.cur + 1) st.line (st.col + 1)).2.1,
      (scanQuoted src src.length '/' src.length (st.cur + 1) st.line (st.col + 1)).2.2,
      st.tokens_ ++ [⟨.REGULAR, String.mk (substr src st.cur
        ((scanQuoted src src.length '/' src.length (st.cur + 1) st.line (st.col + 1)).1
          - st.cur + 1)),
        ⟨⟨st.line, st.col⟩,
          ⟨(scanQuoted src src.length '/' src.length (st.cur + 1) st.line (st.col + 1)).2.1,
           (scanQuoted src src.length '/' src.length (st.cur + 1) st.line (st.col + 1)).2.2⟩⟩⟩]⟩,
    _, ?_, rfl, rfl, rfl, hstop, by simp only; omega, ?_, ?_⟩
  · unfold processStep
    simp only [hc, hra]
    have e1 : isIdentifierFirst '/' = false := by decide
    simp only [e1, hf2]
    have hn1' := hn1
    have hn2' := hn2
    simp only [List.getD_eq_getElem?_getD] at hn1' hn2'
    simp [hn1', hn2']
  · intro i hi hir
    exact hlet i (by omega) hir
  · simp only
    rcases Nat.lt_or_ge f2 src.length with hlt | hge
    · rw [charAt_lt src f2 hlt] at hch
      simp only [Option.some.injEq] at hch
      rw [hch]; exact hnl
    · have : src.getD f2 (Char.ofNat 0) = Char.ofNat 0 := by
        simp [List.getD, List.getElem?_eq_none hge]
      rw [this]; exact isLetter_nul

/-- Claim C15, witness: in `/abc/gi` the literal is closed at index 4, the lexeme is
`/abc/` and the cursor moves over `gi` to the end of the source. -/
theorem regex_lexeme_ends_at_closing_slash_witness :
    ∃ st1 tok, processStep "/abc/gi".data ⟨0, 0, 1, 1, []⟩ = some st1
      ∧ st1.tokens_ = [] ++ [tok] ∧ tok.type_ = .REGULAR
      ∧ tok.data_ = String.mk (substr "/abc/gi".data 0 (4 - 0 + 1))
      ∧ "/abc/gi".data.getD 4 (Char.ofNat 0) = '/'
      ∧ 4 < st1.cur
      ∧ (∀ i, 4 < i → i < st1.cur → isLetter ("/abc/gi".data.getD i (Char.ofNat 0)) = true)
      ∧ isLetter ("/abc/gi".data.getD st1.cur (Char.ofNat 0)) = false :=
  regex_lexeme_ends_at_closing_slash "/abc/gi".data ⟨0, 0, 1, 1, []⟩
    (by decide) (by decide) (by decide) (Or.inl rfl) 4 (by decide) (by decide)

/-- Claim C15, counterexample: `/abc/gi` lexes to the regular-expression token `/abc/` and
the end-of-file token; no token has the lexeme `/abc/gi`. -/
theorem regex_flags_are_not_in_the_lexeme :
    lexemes "/abc/gi" = some [(.REGULAR, "/abc/"), (.END_OF_FILE, "")]
    ∧ lexemes "/abc/gi" ≠ some [(.REGULAR, "/abc/gi"), (.END_OF_FILE, "")] := by
  decide!

/-- Claim C16: a source that consists of one keyword of `KEYWORDS` lexes to exactly one
token before the end-of-file token, of kind keyword and with the keyword as its
lexeme. -/
theorem keyword_alone_lexes_to_keyword_token (K : String) (hK : K ∈ KEYWORDS) :
    process K = .tokens
      [⟨.KEYWORD, K, ⟨⟨1, 1⟩, ⟨1, K.length + 1⟩⟩⟩,
       ⟨.END_OF_FILE, "", ⟨⟨1, K.length + 1⟩, ⟨1, K.length + 1⟩⟩⟩] := by
  have hall : ∀ K ∈ KEYWORDS,
      K.data.head?.map isIdentifierFirst = some true ∧ K.data.all isIdentifier = true := by
    decide
  obtain ⟨h1, h2⟩ := hall K hK
  cases hd : K.data with
  | nil => rw [hd] at h1; simp at h1
  | cons c0 rest =>
    rw [hd] at h1 h2
    simp only [List.head?_cons, Option.map_some', Option.some.injEq, List.all_cons,
      Bool.and_eq_true, List.all_eq_true] at h1 h2
    have := process_word K c0 rest hd h1 h2.2
    simpa [hK] using this

/-- Claim C16, witness: the keyword `while`. -/
theorem keyword_alone_lexes_to_keyword_token_witness :
    process "while" = .tokens
      [⟨.KEYWORD, "while", ⟨⟨1, 1⟩, ⟨1, "while".length + 1⟩⟩⟩,
       ⟨.END_OF_FILE, "", ⟨⟨1, "while".length + 1⟩, ⟨1, "while".length + 1⟩⟩⟩] :=
  keyword_alone_lexes_to_keyword_token "while" (by decide)

/-- Claim C17: the scan of a source ends without a token list exactly when one of its
iterations starts at a regular-expression literal that is not closed before the end of
the source (there the code reads beyond the terminator).  For every other source, those with
divisions, comments and closed regular-expression literals included, the lexer returns
a token list: some tokens that are not end-of-file followed by one end-of-file token.
The empty source gives exactly the end-of-file token. -/
theorem token_list_ends_in_the_only_eof (source : String) :
    ((∀ s ∈ scanStates source.data source.data.length ⟨0, 0, 1, 1, []⟩,
        unclosedRegexAt source.data s = false) →
      ∃ ts eof, process source = .tokens (ts ++ [eof])
        ∧ eof.type_ = .END_OF_FILE ∧ ∀ t ∈ ts, t.type_ ≠ .END_OF_FILE)
    ∧ (process source = .outOfBounds
        ↔ ∃ s ∈ scanStates source.data source.data.length ⟨0, 0, 1, 1, []⟩,
            unclosedRegexAt source.data s = true)
    ∧ (∀ ts, process source = .tokens ts →
        ∃ ts0 eof, ts = ts0 ++ [eof] ∧ eof.type_ = .END_OF_FILE
          ∧ ∀ t ∈ ts0, t.type_ ≠ .END_OF_FILE)
    ∧ process source ≠ .fuelOut
    ∧ ('/' ∉ source.data → ∀ s ∈ scanStates source.data source.data.length ⟨0, 0, 1, 1, []⟩,
        unclosedRegexAt source.data s = false)
    ∧ process "" = .tokens [⟨.END_OF_FILE, "", ⟨⟨1, 1⟩, ⟨1, 1⟩⟩⟩]
    ∧ ((scanStates "a / 2; // c\n/b/ /* d */".data 23 ⟨0, 0, 1, 1, []⟩).all
          (fun s => !unclosedRegexAt "a / 2; // c\n/b/ /* d */".data s) = true
        ∧ lexemes "a / 2; // c\n/b/ /* d */"
          = some [(.IDENTIFIER, "a"), (.OPERATOR, "/"), (.NUMBER, "2"), (.SEMICOLON, ";"),
              (.REGULAR, "/b/"),
              (.END_OF_FILE, "")]) := by
  have hspec := processLoop_spec source.data source.data.length ⟨0, 0, 1, 1, []⟩
    (by simp) (by simp)
  refine ⟨process_tokens_of_closed source, processLoop_outOfBounds_iff source.data _ _, ?_,
    process_ne_fuelOut source, ?_, by decide, by decide!⟩
  · intro ts hts
    unfold process at hts
    rcases hspec with h | ⟨ts0, eof, h, he, hn⟩
    · rw [h] at hts; cases hts
    · rw [h] at hts
      cases hts
      exact ⟨ts0, eof, rfl, he, hn⟩
  · intro hs s hmem
    cases hu : unclosedRegexAt source.data s with
    | false => rfl
    | true =>
      exfalso
      apply hs
      exact processLoop_outOfBounds _ _ _
        ((processLoop_outOfBounds_iff source.data _ _).2 ⟨s, hmem, hu⟩)

/-- Claim C18 (amended): `new F(args)` succeeds exactly when `F` evaluates to a function
value, the arguments are bound and the body ends without Break or Continue; the
result is then the second of two objects allocated before the arguments are
evaluated, which is written into the entry `this` of the one scope of `F` right
before the body runs, and the body contributes its final state only: a statement
that yields a Return signal ends the body and its payload is dropped.  A property
set through `this.k = v` lands on the object the entry `this` holds at that time.
With `var C = function() { this.x = 9; return 1; }; var o = new C();` the object `o`
has `x` equal to 9. -/
theorem constructor_yields_object_bound_to_this_at_body_start
    (fuel : Nat) (func_ : AST) (args_ : List AST) (st st' : VMState) (r : ValuePtr) :
    (VM.execConstructor (fuel + 1) func_ args_ st = .ok r st' ↔
      ∃ (fv : Nat) (st1 st2 : VMState) (rg : PositionRange) (i : Nat) (name : Option Identifier)
        (fargs : List Identifier) (fstmts : List AST) (attrs : List (String × ValuePtr)),
        VM.exec fuel func_ st = .ok (some fv) st1
        ∧ st1.heap[fv]? = some ⟨.FunctionValue (.Function rg (some i) name fargs fstmts), attrs⟩
        ∧ VM.execArguments fuel (some i) (some st1.heap.length) fargs args_ 0
            { st1 with heap := st1.heap ++ [⟨.ObjectValue, []⟩, ⟨.ObjectValue, []⟩] } = .ok () st2
        ∧ i < st2.scopes.length
        ∧ VM.execConstructorBody fuel fstmts
            { st2 with scopes := (writeVar (writeVar st2.scopes i "arguments" (some st1.heap.length))
                i "this" (some (st1.heap.length + 1))) } = .ok () st'
        ∧ r = some (st1.heap.length + 1))
    ∧ (∀ (stmt : AST) (rest : List AST) (sa sb : VMState) (ret : Nat) (val : ValuePtr)
        (attrs : List (String × ValuePtr)),
        VM.exec fuel stmt sa = .ok (some ret) sb →
        sb.heap[ret]? = some ⟨.Signal .RETURN val, attrs⟩ →
        VM.execConstructorBody (fuel + 1) (stmt :: rest) sa = .ok () sb)
    ∧ (run 300 "var C = function() \x7b this.x = 9; return 1; \x7d; var o = new C(); var r = o.x;").lookup 0 "o" = some .object
    ∧ (run 300 "var C = function() \x7b this.x = 9; return 1; \x7d; var o = new C(); var r = o.x;").lookup 0 "r" = some (.number (Double.ofInt 9)) := by
  refine ⟨?_, ?_, by decide!⟩
  · unfold VM.execConstructor
    simp only [bind, VMM.bind]
    constructor
    · intro h
      cases hF : VM.exec fuel func_ st with
      | ok fvp st1 =>
        rw [hF] at h
        simp only at h
        cases fvp with
        | none => simp [VM.throwExecError] at h
        | some fv =>
          simp only [VMM.bind] at h
          cases hcell : st1.heap[fv]? with
          | none => simp [VM.deref, hcell] at h
          | some cell =>
            obtain ⟨d, attrs⟩ := cell
            simp only [VM.deref, hcell] at h
            cases d with
            | FunctionValue code =>
              cases code with
              | Function rg fscope name fargs fstmts =>
                simp only [VM.alloc, VMM.bind, List.length_append, List.length_singleton,
                  List.append_assoc, List.singleton_append] at h
                cases hA : VM.execArguments fuel fscope (some st1.heap.length) fargs args_ 0
                    { st1 with heap := st1.heap ++ [⟨.ObjectValue, []⟩, ⟨.ObjectValue, []⟩] } with
                | ok u st2 =>
                  rw [hA] at h
                  simp only [VM.setValueMap, VM.derefScope, VM.getState, VM.setState, bind,
                    VMM.bind, pure] at h
                  cases fscope with
                  | none => simp at h
                  | some i =>
                    simp only at h
                    by_cases hi : i < st2.scopes.length
                    · simp only [hi, if_true, length_writeVar] at h
                      cases hB : VM.execConstructorBody fuel fstmts
                          { st2 with scopes := (writeVar (writeVar st2.scopes i "arguments"
                            (some st1.heap.length)) i "this" (some (st1.heap.length + 1))) } with
                      | ok u2 st3 =>
                        rw [hB] at h
                        simp only [ExecResult.ok.injEq] at h
                        obtain ⟨h1, h2⟩ := h
                        subst h2
                        exact ⟨fv, st1, st2, rg, i, name, fargs, fstmts, attrs, rfl, hcell, hA, hi,
                          hB, h1.symm⟩
                      | execError => rw [hB] at h; simp at h
                      | stdException => rw [hB] at h; simp at h
                      | undefinedBehaviour => rw [hB] at h; simp at h
                      | fuelOut => rw [hB] at h; simp at h
                    · simp [hi] at h
                | execError => rw [hA] at h; simp at h
                | stdException => rw [hA] at h; simp at h
                | undefinedBehaviour => rw [hA] at h; simp at h
                | fuelOut => rw [hA] at h; simp at h
              | _ => simp [VM.undefinedBehaviour] at h
            | _ => simp [VM.throwExecError] at h
      | execError => rw [hF] at h; simp at h
      | stdException => rw [hF] at h; simp at h
      | undefinedBehaviour => rw [hF] at h; simp at h
      | fuelOut => rw [hF] at h; simp at h
    · rintro ⟨fv, st1, st2, rg, i, name, fargs, fstmts, attrs, hF, hcell, hA, hi, hB, hr⟩
      subst hr
      rw [hF]
      simp only [VMM.bind, VM.deref, hcell, VM.alloc, List.length_append, List.length_singleton,
        List.append_assoc, List.singleton_append, hA, VM.setValueMap, VM.derefScope, VM.getState,
        VM.setState, bind, pure, hi, if_true, length_writeVar, hB]
  · intro stmt rest sa sb ret val attrs hE hcell
    unfold VM.execConstructorBody
    simp only [bind, VMM.bind, hE, VM.deref, hcell, pure]

/-- Claim C18, counterexample: in
`var C = function(d) { if (d) { new C(0); } this.x = 9; }; var o = new C(1);` the body
of the outer call executes `this.x = 9` after the inner call has overwritten the
entry `this`, and the object `o` the outer call yields has no property `x`. -/
theorem recursive_constructor_loses_this_property :
    (run 300 "var C = function(d) \x7b if (d) \x7b new C(0); \x7d this.x = 9; \x7d; var o = new C(1); var r = o.x;").outcome = .finished
    ∧ (run 300 "var C = function(d) \x7b if (d) \x7b new C(0); \x7d this.x = 9; \x7d; var o = new C(1); var r = o.x;").lookup 0 "o" = some .object
    ∧ (run 300 "var C = function(d) \x7b if (d) \x7b new C(0); \x7d this.x = 9; \x7d; var o = new C(1); var r = o.x;").lookup 0 "r" = some .undefined
    ∧ (run 300 "var C = function(d) \x7b if (d) \x7b new C(0); \x7d this.x = 9; \x7d; var o = new C(1); var r = o.x;").lookup 0 "r" ≠ some (.number (Double.ofInt 9)) := by
  decide!

/-- Claim C19 (amended): for every natural number `n` up to `2^53`, written as a literal that
`std::stoll` reads as `n`, the program `var i = 0; for (i = 0; i < n; i++) {} i`
ends (with fuel `n + 8` or more) and leaves the global `i` holding the number `n`.
Every iteration allocates three cells (the number of the bound, the boolean of the
comparison, the copy postfix `++` returns), the last evaluation of the condition
two, and the empty body none, so the length `3 * n + 10` of the final heap counts
exactly `n` iterations.  The program is given as the statements the parser makes
of it, with any ranges: for the source with `n = 3` the parser returns these
statements and the scopes of the statement, and the run ends with `i = 3`. -/
theorem counting_loop_ends_at_its_bound (rg : Nat → PositionRange) (lexeme : String) (n fuel : Nat)
    (hlex : VM.stoll lexeme = some (n : Int)) (hn : n ≤ 2 ^ 53) :
    (∃ st : VMState,
      VM.execProgram (fuel + n + 8) (.Program (rg 18) (some 0) (countingLoop rg lexeme))
          (initialState [none, some 0, some 1]) = .ok () st
      ∧ st.lookup 0 "i" = some (.number (Double.ofInt (n : Int)))
      ∧ st.heap.length = 3 * n + 10)
    ∧ (∃ rs : Nat → PositionRange,
        parseProgram 300 "var i = 0; for (i = 0; i < 3; i++) \x7b\x7d i"
          = some (.Program (rs 18) (some 0) (countingLoop rs "3"), [none, some 0, some 1]))
    ∧ (run 300 "var i = 0; for (i = 0; i < 3; i++) \x7b\x7d i").outcome = .finished
    ∧ (run 300 "var i = 0; for (i = 0; i < 3; i++) \x7b\x7d i").lookup 0 "i"
        = some (.number (Double.ofInt 3)) := by
  have hlink : ∃ rs : Nat → PositionRange,
      parseProgram 300 "var i = 0; for (i = 0; i < 3; i++) \x7b\x7d i"
        = some (.Program (rs 18) (some 0) (countingLoop rs "3"), [none, some 0, some 1]) := by
    have h : ((parseProgram 300 "var i = 0; for (i = 0; i < 3; i++) \x7b\x7d i").map
        (fun p => ((countingRanges p.1).map (fun q => q.2), p.2)))
        = some (some "3", [none, some 0, some 1]) := by
      decide!
    cases hp : parseProgram 300 "var i = 0; for (i = 0; i < 3; i++) \x7b\x7d i" with
    | none => rw [hp] at h; exact absurd h (by simp)
    | some q =>
      obtain ⟨prog, scopes⟩ := q
      rw [hp] at h
      simp only [Option.map_some', Option.some.injEq, Prod.mk.injEq] at h
      obtain ⟨h1, rfl⟩ := h
      cases hr : countingRanges prog with
      | none => rw [hr] at h1; exact absurd h1 (by simp)
      | some w =>
        obtain ⟨rs, lx⟩ := w
        rw [hr] at h1
        simp only [Option.map_some', Option.some.injEq] at h1
        subst h1
        exact ⟨fun i => rs.getD i default, by rw [countingRanges_sound prog rs _ hr]⟩
  refine ⟨loop_program rg lexeme n fuel hlex hn, hlink, ?_⟩
  obtain ⟨rs, hp⟩ := hlink
  obtain ⟨st, he, hi, _⟩ := loop_program rs "3" 3 289 (by decide) (by decide)
  have hrun := run_of_parseProgram 300 _ _ _ st hp he
  rw [hrun]
  exact ⟨rfl, hi⟩

/-- Claim C19, witness: the bound 3, written `3`. -/
theorem counting_loop_ends_at_its_bound_witness :
    ∃ st : VMState,
      VM.execProgram (0 + 3 + 8) (.Program default (some 0) (countingLoop (fun _ => default) "3"))
          (initialState [none, some 0, some 1]) = .ok () st
      ∧ st.lookup 0 "i" = some (.number (Double.ofInt ((3 : Nat) : Int)))
      ∧ st.heap.length = 3 * 3 + 10 :=
  (counting_loop_ends_at_its_bound (fun _ => default) "3" 3 0 (by decide) (by decide)).1

/-- Claim C19, counterexample: with the bound `9223372036854775808` (`2^63`) the first
evaluation of the condition calls `std::stoll` on the literal, which throws
`std::out_of_range`; the run does not finish and `i` is not left holding the bound. -/
theorem counting_loop_with_huge_bound_throws :
    (run 300 "var i = 0; for (i = 0; i < 9223372036854775808; i++) \x7b\x7d i").outcome
      = .stdException
    ∧ (run 300 "var i = 0; for (i = 0; i < 9223372036854775808; i++) \x7b\x7d i").lookup 0 "i"
      ≠ some (.number (Double.ofInt 9223372036854775808)) := by
  decide!

/-- Claim C20 (amended): prefix `~` on an operand that is no `Number` (a string, boolean,
object, undefined, null, function or the `NotaNumber` singleton) yields a new
`Number` with the value -1, the complement of the default 0; on a `Number` whose
truncation `k` is a 64-bit signed integer it yields the `Number` converted from the
complement `-k - 1`.  `~"x"` and `~("a" - 1)` are -1 and `~5` is -6. -/
theorem complement_of_non_number_is_minus_one
    (fuel : Nat) (s : Option Nat) (expr : AST) (st st1 : VMState) (a : Nat) (cell : Value)
    (hE : VM.exec fuel expr st = .ok (some a) st1) (hcell : st1.heap[a]? = some cell) :
    ((∀ n, cell.data ≠ .Number n) →
      VM.execUniExpression (fuel + 1) s "~" expr true st
        = .ok (some st1.heap.length)
            { st1 with heap := st1.heap ++ [⟨.Number (Double.ofInt (-1)), []⟩] })
    ∧ (∀ n k, cell.data = .Number n → n.toInt64 = some k →
      VM.execUniExpression (fuel + 1) s "~" expr true st
        = .ok (some st1.heap.length)
            { st1 with heap := st1.heap ++ [⟨.Number (Double.ofInt (-k - 1)), []⟩] })
    ∧ (run 300 "var r = ~\"x\";").lookup 0 "r" = some (.number (Double.ofInt (-1)))
    ∧ (run 300 "var r = ~(\"a\" - 1);").lookup 0 "r" = some (.number (Double.ofInt (-1)))
    ∧ (run 300 "var r = ~5;").lookup 0 "r" = some (.number (Double.ofInt (-6))) := by
  have h0 : VM.execUniExpression (fuel + 1) s "~" expr true st =
      (do
        let v ← VM.exec fuel expr
        match (← VM.deref v).data with
        | .Number n =>
          match n.toInt64 with
          | some x => VM.alloc (.Number (Double.ofInt (-x - 1)))
          | none => VM.undefinedBehaviour
        | _ => VM.alloc (.Number (Double.ofInt (-1))) : VMM ValuePtr) st := by
    rfl
  obtain ⟨d, attrs⟩ := cell
  refine ⟨?_, ?_, complement_of_string_run, by decide!⟩
  · intro hn
    rw [h0]
    simp only [bind, VMM.bind, hE, VM.deref, hcell]
    cases d with
    | Number n => exact absurd rfl (hn n)
    | _ => rfl
  · intro n k hd hk
    simp only at hd
    subst hd
    rw [h0]
    simp only [bind, VMM.bind, hE, VM.deref, hcell, hk]
    rfl

/-- Claim C20, witness: the operand is the string `"x"` at address 6. -/
theorem complement_of_non_number_is_minus_one_witness :
    VM.execUniExpression 2 none "~" (.LiteralString default none "x") true witnessState
      = .ok (some 7)
          { witnessState with heap := initialHeap ++ [⟨.StringValue "x", []⟩,
              ⟨.Number (Double.ofInt (-1)), []⟩] } :=
  (complement_of_non_number_is_minus_one 1 none (.LiteralString default none "x") witnessState
    { witnessState with heap := initialHeap ++ [⟨.StringValue "x", []⟩] } 6
    ⟨.StringValue "x", []⟩ (by rfl) (by rfl)).1 (by intro n h; cases h)

/-- Claim C20, counterexample: `~"x"` is the number -1, not the `NotaNumber` singleton. -/
theorem complement_of_string_is_not_nan :
    (run 300 "var r = ~\"x\";").lookup 0 "r" = some (.number (Double.ofInt (-1)))
    ∧ (run 300 "var r = ~\"x\";").lookup 0 "r" ≠ some .nan := by
  refine ⟨complement_of_string_run, ?_⟩
  rw [complement_of_string_run]
  decide!

/-- Claim C21: every loop evaluator returns `Signal::sigNormal()` or a Return signal, never
Break or Continue.  With the body's value `rc`: a Break ends the loop with Normal
in the state the body left (neither condition nor tail is evaluated again), a
Return is returned as it is, and a Continue goes on as every other value does: to
the condition of `while`, to the condition of `do`/`while`, to the tail and then
the condition of the three-clause `for`, and to the next key or byte of `for`-`in`.
The evaluation of a loop node is the evaluation of its loop: `exec` of a `while`, a
`do`/`while`, a `for` (after its initialiser) and a `for`-`in` is the loop function of
that node, and `for`-`in` runs over the bytes of a string and over the keys of every other
value that is no signal. -/
theorem loops_consume_break_and_continue :
    (∀ (fuel : Nat) (rg : PositionRange) (s : Option Nat) (cond stmt : AST) (st st' : VMState)
        (v : ValuePtr),
      VM.exec fuel (.Loop rg s cond stmt) st = .ok v st' → isNormalOrReturn st' v)
    ∧ (∀ (fuel : Nat) (rg : PositionRange) (s : Option Nat) (blk cond : AST) (st st' : VMState)
        (v : ValuePtr),
      VM.exec fuel (.DoLoop rg s blk cond) st = .ok v st' → isNormalOrReturn st' v)
    ∧ (∀ (fuel : Nat) (rg : PositionRange) (s : Option Nat) (init cond iter : Option AST)
        (stmt : AST) (st st' : VMState) (v : ValuePtr),
      VM.exec fuel (.ForLoop rg s init cond iter stmt) st = .ok v st' → isNormalOrReturn st' v)
    ∧ (∀ (fuel : Nat) (rg : PositionRange) (s : Option Nat) (key target stmt : AST)
        (st st' : VMState) (v : ValuePtr),
      VM.exec fuel (.ForInLoop rg s key target stmt) st = .ok v st' → isNormalOrReturn st' v)
    -- `while`
    ∧ (∀ (fuel : Nat) (cond stmt : AST) (st st1 st2 : VMState) (c rv : Nat) (cc rc : Value),
      VM.exec fuel cond st = .ok (some c) st1 → st1.heap[c]? = some cc → cc.toBool = true →
      VM.exec fuel stmt st1 = .ok (some rv) st2 → st2.heap[rv]? = some rc →
      (∀ v, rc.data = .Signal .BREAK v →
        VM.execLoop (fuel + 1) cond stmt st = .ok (some sigNormalAddr) st2)
      ∧ (∀ v, rc.data = .Signal .RETURN v →
        VM.execLoop (fuel + 1) cond stmt st = .ok (some rv) st2)
      ∧ (∀ v, rc.data = .Signal .CONTINUE v →
        VM.execLoop (fuel + 1) cond stmt st = VM.execLoop fuel cond stmt st2))
    -- `do` / `while`
    ∧ (∀ (fuel : Nat) (blk cond : AST) (st st1 : VMState) (rv : Nat) (rc : Value),
      VM.exec fuel blk st = .ok (some rv) st1 → st1.heap[rv]? = some rc →
      (∀ v, rc.data = .Signal .BREAK v →
        VM.execDoLoop (fuel + 1) blk cond st = .ok (some sigNormalAddr) st1)
      ∧ (∀ v, rc.data = .Signal .RETURN v →
        VM.execDoLoop (fuel + 1) blk cond st = .ok (some rv) st1)
      ∧ (∀ v, rc.data = .Signal .CONTINUE v →
        ∀ (c : Nat) (st2 : VMState) (cc : Value),
          VM.exec fuel cond st1 = .ok (some c) st2 → st2.heap[c]? = some cc →
          VM.execDoLoop (fuel + 1) blk cond st
            = if cc.toBool then VM.execDoLoop fuel blk cond st2
              else .ok (some sigNormalAddr) st2))
    -- the three-clause `for`
    ∧ (∀ (fuel : Nat) (cond iter : Option AST) (stmt : AST) (st st1 st2 : VMState) (c rv : Nat)
        (cc rc : Value),
      VM.execNullable fuel cond st = .ok (some c) st1 → st1.heap[c]? = some cc →
      cc.toBool = true →
      VM.exec fuel stmt st1 = .ok (some rv) st2 → st2.heap[rv]? = some rc →
      (∀ v, rc.data = .Signal .BREAK v →
        VM.execForLoop (fuel + 1) cond iter stmt st = .ok (some sigNormalAddr) st2)
      ∧ (∀ v, rc.data = .Signal .RETURN v →
        VM.execForLoop (fuel + 1) cond iter stmt st = .ok (some rv) st2)
      ∧ (∀ v, rc.data = .Signal .CONTINUE v →
        ∀ (t : ValuePtr) (st3 : VMState), VM.execNullable fuel iter st2 = .ok t st3 →
          VM.execForLoop (fuel + 1) cond iter stmt st = VM.execForLoop fuel cond iter stmt st3))
    -- `for`-`in` over the keys of a value
    ∧ (∀ (fuel : Nat) (s : Option Nat) (i key : String) (obj : ValuePtr) (stmt : AST)
        (rest : List String) (st st1 st2 : VMState) (rv : Nat) (rc : Value),
      (do let v ← VM.getAttr obj key; VM.setVar s i v : VMM Unit) st = .ok () st1 →
      VM.exec fuel stmt st1 = .ok (some rv) st2 → st2.heap[rv]? = some rc →
      (∀ v, rc.data = .Signal .BREAK v →
        VM.execForInKeys (fuel + 1) s i obj stmt (key :: rest) st = .ok (some sigNormalAddr) st2)
      ∧ (∀ v, rc.data = .Signal .RETURN v →
        VM.execForInKeys (fuel + 1) s i obj stmt (key :: rest) st = .ok (some rv) st2)
      ∧ (∀ v, rc.data = .Signal .CONTINUE v →
        VM.execForInKeys (fuel + 1) s i obj stmt (key :: rest) st
          = VM.execForInKeys fuel s i obj stmt rest st2))
    -- `for`-`in` over the bytes of a string, one iteration
    ∧ (∀ (fuel : Nat) (s : Option Nat) (i : String) (c : Char) (stmt : AST)
        (rest : List Char) (st st1 st2 : VMState) (rv : Nat) (rc : Value),
      (do let v ← VM.alloc (.StringValue (String.mk [c])); VM.setVar s i v : VMM Unit) st
        = .ok () st1 →
      VM.exec fuel stmt st1 = .ok (some rv) st2 → st2.heap[rv]? = some rc →
      (∀ v, rc.data = .Signal .BREAK v →
        VM.execForInString (fuel + 1) s i stmt (c :: rest) st = .ok (some sigNormalAddr) st2)
      ∧ (∀ v, rc.data = .Signal .RETURN v →
        VM.execForInString (fuel + 1) s i stmt (c :: rest) st = .ok (some rv) st2)
      ∧ (∀ v, rc.data = .Signal .CONTINUE v →
        VM.execForInString (fuel + 1) s i stmt (c :: rest) st
          = VM.execForInString fuel s i stmt rest st2))
    -- the evaluation of a loop node is its loop
    ∧ (∀ (fuel : Nat) (rg : PositionRange) (s : Option Nat) (cond stmt : AST) (st : VMState),
      VM.exec (fuel + 1) (.Loop rg s cond stmt) st = VM.execLoop fuel cond stmt st)
    ∧ (∀ (fuel : Nat) (rg : PositionRange) (s : Option Nat) (blk cond : AST) (st : VMState),
      VM.exec (fuel + 1) (.DoLoop rg s blk cond) st = VM.execDoLoop fuel blk cond st)
    ∧ (∀ (fuel : Nat) (rg : PositionRange) (s : Option Nat) (init cond iter : Option AST)
        (stmt : AST) (st st1 : VMState) (v : ValuePtr),
      VM.execNullable fuel init st = .ok v st1 →
      VM.exec (fuel + 1) (.ForLoop rg s init cond iter stmt) st
        = VM.execForLoop fuel cond iter stmt st1)
    ∧ (∀ (fuel : Nat) (rg : PositionRange) (s : Option Nat) (key target stmt : AST)
        (st : VMState),
      VM.exec (fuel + 1) (.ForInLoop rg s key target stmt) st
        = VM.execForInLoop fuel s key target stmt st)
    -- the head of `for`-`in`: which loop runs, over what
    ∧ (∀ (fuel : Nat) (s : Option Nat) (key target stmt : AST) (id : Identifier)
        (st st1 st2 : VMState) (r : ValuePtr) (o : Nat) (cell : Value),
      (key = .Identifier id
        ∨ ∃ rg0 s0 r1 sc1 init more, key = .Var rg0 s0 (.mk r1 sc1 id init :: more)) →
      VM.exec fuel key st = .ok r st1 →
      VM.exec fuel target st1 = .ok (some o) st2 → st2.heap[o]? = some cell →
      (∀ t v, cell.data = .Signal t v →
        VM.execForInLoop (fuel + 1) s key target stmt st = .execError)
      ∧ (∀ str, cell.data = .StringValue str →
        VM.execForInLoop (fuel + 1) s key target stmt st
          = VM.execForInString fuel s id.name_ stmt (VM.stringBytes str) st2)
      ∧ (cell.type_ ≠ .SIGNAL → cell.type_ ≠ .STRING →
        VM.execForInLoop (fuel + 1) s key target stmt st
          = VM.execForInKeys fuel s id.name_ (some o) stmt cell.getKeys st2))
    -- no key, no byte left: the loop ends with Normal
    ∧ (∀ (fuel : Nat) (s : Option Nat) (i : String) (obj : ValuePtr) (stmt : AST)
        (st : VMState),
      VM.execForInKeys (fuel + 1) s i obj stmt [] st = .ok (some sigNormalAddr) st)
    ∧ (∀ (fuel : Nat) (s : Option Nat) (i : String) (stmt : AST) (st : VMState),
      VM.execForInString (fuel + 1) s i stmt [] st = .ok (some sigNormalAddr) st)
    -- instances
    ∧ (VM.exec 3 (.Loop default none (.LiteralBool default none true) (.Break default none))
        witnessState).obs = some (.signal .NORMAL)
    ∧ (VM.exec 3 (.DoLoop default none (.Continue default none)
        (.LiteralBool default none false)) witnessState).obs = some (.signal .NORMAL)
    ∧ (VM.exec 4 (.Loop default none (.LiteralBool default none true)
        (.Return default none none)) witnessState).obs = some (.signal .RETURN)
    ∧ (run 300 "var n = 0; var i = 0; for (i = 0; i < 9; i++) if (i < 2) continue; else if (i == 4) break; else n++;").lookup 0 "n"
        = some (.number (Double.ofInt 2))
    ∧ (run 300 "var n = 0; var i = 0; for (i = 0; i < 9; i++) if (i < 2) continue; else if (i == 4) break; else n++;").lookup 0 "i"
        = some (.number (Double.ofInt 4))
    -- `for`-`in` over the bytes of a string
    ∧ (VM.exec 5 (forInOver (.LiteralString default none "ab") (.Break default none))
        witnessState).obs = some (.signal .NORMAL)
    ∧ (VM.exec 5 (forInOver (.LiteralString default none "ab") (.Break default none))
        witnessState).lookup 0 "k" = some (.string "a")
    ∧ (VM.exec 5 (forInOver (.LiteralString default none "ab") (.Continue default none))
        witnessState).obs = some (.signal .NORMAL)
    ∧ (VM.exec 5 (forInOver (.LiteralString default none "ab") (.Continue default none))
        witnessState).lookup 0 "k" = some (.string "b")
    ∧ (VM.exec 5 (forInOver (.LiteralString default none "ab") (.Return default none none))
        witnessState).obs = some (.signal .RETURN)
    ∧ (VM.exec 5 (forInOver (.LiteralString default none "ab") (.Return default none none))
        witnessState).lookup 0 "k" = some (.string "a")
    ∧ VM.stringBytes "\u00e9" = [Char.ofNat 195, Char.ofNat 169]
    ∧ (VM.exec 5 (forInOver (.LiteralString default none "\u00e9") (.Break default none))
        witnessState).lookup 0 "k" = some (.string (String.mk [Char.ofNat 195]))
    ∧ (VM.exec 5 (forInOver (.LiteralString default none "\u00e9") (.Continue default none))
        witnessState).lookup 0 "k" = some (.string (String.mk [Char.ofNat 169]))
    -- `for`-`in` over the keys of an object
    ∧ (VM.exec 9 (forInOver pqObject (.Break default none)) witnessState).obs
        = some (.signal .NORMAL)
    ∧ (VM.exec 9 (forInOver pqObject (.Break default none)) witnessState).lookup 0 "k"
        = some (.number (Double.ofInt 1))
    ∧ (VM.exec 9 (forInOver pqObject (.Continue default none)) witnessState).obs
        = some (.signal .NORMAL)
    ∧ (VM.exec 9 (forInOver pqObject (.Continue default none)) witnessState).lookup 0 "k"
        = some (.number (Double.ofInt 2))
    ∧ (VM.exec 9 (forInOver pqObject (.Return default none none)) witnessState).obs
        = some (.signal .RETURN)
    ∧ (VM.exec 9 (forInOver pqObject (.Return default none none)) witnessState).lookup 0 "k"
        = some (.number (Double.ofInt 1)) := by
  refine ⟨?_, ?_, ?_, ?_, ?_, ?_, ?_, ?_, ?_,
    fun _ _ _ _ _ _ => rfl, fun _ _ _ _ _ _ => rfl, ?_, fun _ _ _ _ _ _ _ => rfl, ?_,
    fun _ _ _ _ _ _ => rfl, fun _ _ _ _ _ => rfl,
    by decide!⟩
  · intro fuel rg s cond stmt st st' v h
    cases fuel with
    | zero => cases h
    | succ f =>
      unfold VM.exec at h
      exact execLoop_result _ _ _ _ _ _ h
  · intro fuel rg s blk cond st st' v h
    cases fuel with
    | zero => cases h
    | succ f =>
      unfold VM.exec at h
      exact execDoLoop_result _ _ _ _ _ _ h
  · intro fuel rg s init cond iter stmt st st' v h
    cases fuel with
    | zero => cases h
    | succ f =>
      unfold VM.exec at h
      simp only [bind, VMM.bind_result] at h
      obtain ⟨_, st1, _, h⟩ := h
      exact execForLoop_result _ _ _ _ _ _ _ h
  · intro fuel rg s key target stmt st st' v h
    cases fuel with
    | zero => cases h
    | succ f =>
      unfold VM.exec at h
      exact execForInLoop_result _ _ _ _ _ _ _ _ h
  · intro fuel cond stmt st st1 st2 c rv cc rc hc hcc hb hs hrc
    obtain ⟨d, attrs⟩ := rc
    refine ⟨?_, ?_, ?_⟩ <;> intro v hd <;> simp only at hd <;> subst hd <;>
      conv_lhs => unfold VM.execLoop
    all_goals simp only [bind, VMM.bind, hc, VM.deref, hcc, hb, if_true, hs, hrc, pure]
  · intro fuel blk cond st st1 rv rc hs hrc
    obtain ⟨d, attrs⟩ := rc
    refine ⟨?_, ?_, ?_⟩
    · intro v hd
      simp only at hd
      subst hd
      unfold VM.execDoLoop
      simp only [bind, VMM.bind, hs, VM.deref, hrc, pure]
    · intro v hd
      simp only at hd
      subst hd
      unfold VM.execDoLoop
      simp only [bind, VMM.bind, hs, VM.deref, hrc, pure]
    · intro v hd c st2 cc hc hcc
      simp only at hd
      subst hd
      conv_lhs => unfold VM.execDoLoop
      simp only [bind, VMM.bind, hs, VM.deref, hrc, hc, hcc, pure]
      split <;> rfl
  · intro fuel cond iter stmt st st1 st2 c rv cc rc hc hcc hb hs hrc
    obtain ⟨d, attrs⟩ := rc
    refine ⟨?_, ?_, ?_⟩
    · intro v hd
      simp only at hd
      subst hd
      unfold VM.execForLoop
      simp only [bind, VMM.bind, hc, VM.deref, hcc, hb, if_true, hs, hrc, pure]
    · intro v hd
      simp only at hd
      subst hd
      unfold VM.execForLoop
      simp only [bind, VMM.bind, hc, VM.deref, hcc, hb, if_true, hs, hrc, pure]
    · intro v hd t st3 ht
      simp only at hd
      subst hd
      conv_lhs => unfold VM.execForLoop
      simp only [bind, VMM.bind, hc, VM.deref, hcc, hb, if_true, hs, hrc, ht]
  · intro fuel s i key obj stmt rest st st1 st2 rv rc h1 hs hrc
    obtain ⟨d, attrs⟩ := rc
    simp only [bind, VMM.bind_result] at h1
    obtain ⟨v0, sta, hga, hsv⟩ := h1
    refine ⟨?_, ?_, ?_⟩ <;> intro v hd <;> simp only at hd <;> subst hd <;>
      conv_lhs => unfold VM.execForInKeys
    all_goals simp only [bind, VMM.bind, hga, hsv, hs, VM.deref, hrc, pure]
  · intro fuel s i c stmt rest st st1 st2 rv rc h1 hs hrc
    obtain ⟨d, attrs⟩ := rc
    simp only [bind, VMM.bind_result] at h1
    obtain ⟨v0, sta, hga, hsv⟩ := h1
    refine ⟨?_, ?_, ?_⟩ <;> intro v hd <;> simp only at hd <;> subst hd <;>
      conv_lhs => unfold VM.execForInString
    all_goals simp only [bind, VMM.bind, hga, hsv, hs, VM.deref, hrc, pure]
  · intro fuel rg s init cond iter stmt st st1 v h
    conv_lhs => unfold VM.exec
    simp only [bind, VMM.bind, h]
  · intro fuel s key target stmt id st st1 st2 r o cell hkey hk ht hcell
    obtain ⟨d, attrs⟩ := cell
    have hd : VM.deref (some o) st2 = .ok ⟨d, attrs⟩ st2 := by simp only [VM.deref, hcell]
    rcases hkey with rfl | ⟨rg0, s0, r1, sc1, init, more, rfl⟩
    · refine ⟨?_, ?_, ?_⟩
      · intro t v hdat
        simp only at hdat
        subst hdat
        conv_lhs => unfold VM.execForInLoop
        simp only [bind, VMM.bind, hk, pure, ht, hd]
        rfl
      · intro str hdat
        simp only at hdat
        subst hdat
        conv_lhs => unfold VM.execForInLoop
        simp only [bind, VMM.bind, hk, pure, ht, hd]
      · intro h1 h2
        conv_lhs => unfold VM.execForInLoop
        simp only [bind, VMM.bind, hk, pure, ht, hd]
        cases d <;> first | rfl | exact absurd rfl h1 | exact absurd rfl h2
    · refine ⟨?_, ?_, ?_⟩
      · intro t v hdat
        simp only at hdat
        subst hdat
        conv_lhs => unfold VM.execForInLoop
        simp only [bind, VMM.bind, hk, pure, ht, hd]
        rfl
      · intro str hdat
        simp only at hdat
        subst hdat
        conv_lhs => unfold VM.execForInLoop
        simp only [bind, VMM.bind, hk, pure, ht, hd]
      · intro h1 h2
        conv_lhs => unfold VM.execForInLoop
        simp only [bind, VMM.bind, hk, pure, ht, hd]
        cases d <;> first | rfl | exact absurd rfl h1 | exact absurd rfl h2

/-- Claim C28: given that the base of `base.ident` evaluates to the cell `b`, the member
access throws an `ExecError` when the type of `b` is `UNDEFINED` or `NULLVAL`, and
otherwise returns what `attr_` of `b` holds under the key, or the `Undefined`
singleton when `attr_` has no such key; the state is the one the evaluation of the
base left, so no map is modified.  With `o` holding `1` under `"a"`, `o.a` is 1 and
`o.b` is undefined; `null.a` throws. -/
theorem member_access_reads_property_or_undefined
    (fuel : Nat) (r : PositionRange) (s : Option Nat) (base : AST) (id : Identifier)
    (st st1 : VMState) (b : Nat) (cell : Value)
    (hE : VM.exec fuel base st = .ok (some b) st1) (hcell : st1.heap[b]? = some cell) :
    ((cell.type_ = .UNDEFINED ∨ cell.type_ = .NULLVAL) →
      VM.exec (fuel + 1) (.ObjectMember r s base (.Identifier id)) st = .execError)
    ∧ (¬ (cell.type_ = .UNDEFINED ∨ cell.type_ = .NULLVAL) →
      (∀ v, mapFind cell.attr_ id.name_ = some v →
        VM.exec (fuel + 1) (.ObjectMember r s base (.Identifier id)) st = .ok v st1)
      ∧ (mapFind cell.attr_ id.name_ = none →
        VM.exec (fuel + 1) (.ObjectMember r s base (.Identifier id)) st
          = .ok (some undefinedAddr) st1))
    ∧ (run 300 "var o=\x7b\"a\":1\x7d;var r=o.a;var u=o.b;").lookup 0 "r"
        = some (.number (Double.ofInt 1))
    ∧ (run 300 "var o=\x7b\"a\":1\x7d;var r=o.a;var u=o.b;").lookup 0 "u" = some .undefined
    ∧ (run 300 "null.a;").outcome = .execError := by
  have h0 : VM.exec (fuel + 1) (.ObjectMember r s base (.Identifier id)) st =
      (do
        let ref ← VM.exec fuel base
        let t := (← VM.deref ref).type_
        if t = .UNDEFINED ∨ t = .NULLVAL then VM.throwExecError
        else VM.getAttr ref id.name_ : VMM ValuePtr) st := by
    rfl
  rw [h0]
  simp only [bind, VMM.bind, hE, VM.deref, hcell]
  refine ⟨?_, ?_, by decide!⟩
  · intro h
    simp only [h, if_true, VM.throwExecError]
  · intro h
    simp only [h, if_false, VM.getAttr, bind, VMM.bind, VM.deref, hcell]
    refine ⟨?_, ?_⟩
    · intro v hv
      simp only [hv, pure]
    · intro hv
      simp only [hv, pure]

/-- Claim C22: `L && R` and `L || R` allocate a `Boolean`.  When `toBool` of the left operand
decides the result (`false` for `&&`, `true` for `||`), the right operand is not
evaluated: the state is the one the left operand left, plus the new `Boolean`.
Otherwise the right operand is evaluated once, in the state the left operand left,
and the `Boolean` holds its `toBool`.  In `var x=0;var a=0&&(x=1);var b=1||(x=2);`
neither assignment to `x` happens. -/
theorem logical_operators_short_circuit_to_boolean
    (fuel : Nat) (L R : AST) (st st1 : VMState) (l : Nat) (lc : Value)
    (hL : VM.exec fuel L st = .ok (some l) st1) (hlc : st1.heap[l]? = some lc) :
    (lc.toBool = false →
      VM.execBiExpression (fuel + 1) L "&&" R st
        = .ok (some st1.heap.length)
            { st1 with heap := st1.heap ++ [⟨.Boolean false, []⟩] })
    ∧ (lc.toBool = true → ∀ (r : Nat) (st2 : VMState) (rc : Value),
      VM.exec fuel R st1 = .ok (some r) st2 → st2.heap[r]? = some rc →
      VM.execBiExpression (fuel + 1) L "&&" R st
        = .ok (some st2.heap.length)
            { st2 with heap := st2.heap ++ [⟨.Boolean rc.toBool, []⟩] })
    ∧ (lc.toBool = true →
      VM.execBiExpression (fuel + 1) L "||" R st
        = .ok (some st1.heap.length)
            { st1 with heap := st1.heap ++ [⟨.Boolean true, []⟩] })
    ∧ (lc.toBool = false → ∀ (r : Nat) (st2 : VMState) (rc : Value),
      VM.exec fuel R st1 = .ok (some r) st2 → st2.heap[r]? = some rc →
      VM.execBiExpression (fuel + 1) L "||" R st
        = .ok (some st2.heap.length)
            { st2 with heap := st2.heap ++ [⟨.Boolean rc.toBool, []⟩] })
    ∧ (run 300 "var x=0;var a=0&&(x=1);var b=1||(x=2);").lookup 0 "x"
        = some (.number (Double.ofInt 0))
    ∧ (run 300 "var x=0;var a=0&&(x=1);var b=1||(x=2);").lookup 0 "a" = some (.bool false)
    ∧ (run 300 "var x=0;var a=0&&(x=1);var b=1||(x=2);").lookup 0 "b" = some (.bool true) := by
  have hne : ¬ ("||" = "&&") := by decide
  refine ⟨?_, ?_, ?_, ?_, by decide!⟩
  · intro hb
    unfold VM.execBiExpression
    simp only [if_true, bind, VMM.bind, hL, VM.deref, hlc, hb, Bool.false_eq_true, if_false,
      VM.alloc, Bool.and_false]
  · intro hb r st2 rc hR hrc
    unfold VM.execBiExpression
    simp only [if_true, bind, VMM.bind, hL, VM.deref, hlc, hb, hR, hrc, VM.alloc, Bool.true_and]
  · intro hb
    unfold VM.execBiExpression
    simp only [hne, if_false, if_true, bind, VMM.bind, hL, VM.deref, hlc, hb, VM.alloc,
      Bool.or_false]
  · intro hb r st2 rc hR hrc
    unfold VM.execBiExpression
    simp only [hne, if_false, if_true, bind, VMM.bind, hL, VM.deref, hlc, hb, hR, hrc, VM.alloc,
      Bool.false_eq_true, Bool.false_or]

/-- Claim C28, witness: the base is the literal `null`. -/
theorem member_access_reads_property_or_undefined_witness :
    VM.exec 2 (.ObjectMember default none (.LiteralNull default none)
      (.Identifier ⟨default, none, "a"⟩)) witnessState = .execError :=
  (member_access_reads_property_or_undefined 1 default none (.LiteralNull default none)
    ⟨default, none, "a"⟩ witnessState witnessState 2 ⟨.NullValue, []⟩ (by rfl) (by rfl)).1
    (Or.inr (by rfl))

/-- Claim C22, witness: `false && break` allocates `false` without evaluating the right
operand. -/
theorem logical_operators_short_circuit_to_boolean_witness :
    VM.execBiExpression 2 (.LiteralBool default none false) "&&" (.Break default none)
        witnessState
      = .ok (some 7)
          { witnessState with heap := initialHeap ++ [⟨.Boolean false, []⟩,
              ⟨.Boolean false, []⟩] } :=
  (logical_operators_short_circuit_to_boolean 1 (.LiteralBool default none false)
    (.Break default none) witnessState
    { witnessState with heap := initialHeap ++ [⟨.Boolean false, []⟩] } 6
    ⟨.Boolean false, []⟩ (by rfl) (by rfl)).1 (by rfl)

/-- Claim C23 (amended): for every integer `n` from `-2^53` to `2^53 - 1` and every identifier
bound to a `Number` cell that holds `n`: postfix `++` yields a new `Number` that
holds `n` and leaves `n + 1` in the cell; prefix `++` yields the cell itself, which
then holds `n + 1`; and `++` followed by `--`, each prefix or postfix, leaves `n`
in the cell. -/
theorem increment_then_decrement_restores_small_integers
    (fuel : Nat) (sc : Option Nat) (rg : PositionRange) (s : Nat) (name : String)
    (st : VMState) (a : Nat) (n : Int) (attrs : List (String × ValuePtr))
    (hs : s < st.scopes.length) (hx : Scope.getVar st.scopes s name = some a)
    (hcell : st.heap[a]? = some ⟨.Number (Double.ofInt n), attrs⟩)
    (hlo : -2 ^ 53 ≤ n) (hhi : n < 2 ^ 53) :
    VM.execUniExpression (fuel + 2) sc "++" (.Identifier ⟨rg, some s, name⟩) false st
      = .ok (some st.heap.length)
          { st with heap := ((st.heap ++ [(⟨.Number (Double.ofInt n), []⟩ : Value)]).set a
              ⟨.Number (Double.ofInt (n + 1)), attrs⟩) }
    ∧ VM.execUniExpression (fuel + 2) sc "++" (.Identifier ⟨rg, some s, name⟩) true st
      = .ok (some a)
          { st with heap := st.heap.set a ⟨.Number (Double.ofInt (n + 1)), attrs⟩ }
    ∧ (∀ pre1 pre2 : Bool, ∃ (v1 v2 : ValuePtr) (st1 st2 : VMState),
        VM.execUniExpression (fuel + 2) sc "++" (.Identifier ⟨rg, some s, name⟩) pre1 st
          = .ok v1 st1
        ∧ VM.execUniExpression (fuel + 2) sc "--" (.Identifier ⟨rg, some s, name⟩) pre2 st1
          = .ok v2 st2
        ∧ st2.heap[a]? = some ⟨.Number (Double.ofInt n), attrs⟩)
    ∧ (run 300 "var x = 5; var a = x++; ++x; --x;").lookup 0 "x"
        = some (.number (Double.ofInt 6))
    ∧ (run 300 "var x = 5; var a = x++; ++x; --x;").lookup 0 "a"
        = some (.number (Double.ofInt 5)) := by
  have hadd := Double.add_ofInt_one_int n hlo (by omega)
  have hsub := Double.sub_ofInt_one_int (n + 1) (by omega) (by omega)
  rw [show n + 1 - 1 = n by omega] at hsub
  obtain ⟨p1, p2, _, _⟩ := execUni_step fuel sc rg s name st a _ attrs hs hx hcell
  rw [hadd] at p1 p2
  have halt : a < st.heap.length := by
    rcases Nat.lt_or_ge a st.heap.length with h | h
    · exact h
    · rw [List.getElem?_eq_none h] at hcell; cases hcell
  refine ⟨p1, p2, ?_, by decide!⟩
  intro pre1 pre2
  -- the state after the increment
  have hstep : ∃ (v1 : ValuePtr) (st1 : VMState),
      VM.execUniExpression (fuel + 2) sc "++" (.Identifier ⟨rg, some s, name⟩) pre1 st
        = .ok v1 st1
      ∧ st1.scopes = st.scopes
      ∧ st1.heap[a]? = some ⟨.Number (Double.ofInt (n + 1)), attrs⟩ := by
    cases pre1 with
    | false =>
      refine ⟨_, _, p1, rfl, ?_⟩
      simp only
      rw [List.getElem?_set_self (by rw [List.length_append]; omega)]
    | true =>
      refine ⟨_, _, p2, rfl, ?_⟩
      simp only
      rw [List.getElem?_set_self halt]
  obtain ⟨v1, st1, h1, hsc, hc1⟩ := hstep
  have hs1 : s < st1.scopes.length := by rw [hsc]; exact hs
  have hx1 : Scope.getVar st1.scopes s name = some a := by rw [hsc]; exact hx
  have halt1 : a < st1.heap.length := by
    rcases Nat.lt_or_ge a st1.heap.length with h | h
    · exact h
    · rw [List.getElem?_eq_none h] at hc1; cases hc1
  obtain ⟨_, _, q1, q2⟩ := execUni_step fuel sc rg s name st1 a _ attrs hs1 hx1 hc1
  rw [hsub] at q1 q2
  cases pre2 with
  | false =>
    refine ⟨v1, _, st1, _, h1, q1, ?_⟩
    simp only
    rw [List.getElem?_set_self (by rw [List.length_append]; omega)]
  | true =>
    refine ⟨v1, _, st1, _, h1, q2, ?_⟩
    simp only
    rw [List.getElem?_set_self halt1]

/-- Claim C23, counterexample: with `x` bound to `2^53`, `x++` followed by `x--` leaves
`2^53 - 1` in `x`, since `2^53 + 1` is no `double` and the increment rounds back to
`2^53`. -/
theorem increment_then_decrement_changes_two_pow_53 :
    (run 300 "var x = 9007199254740992; x++; x--;").lookup 0 "x"
      = some (.number (Double.ofInt 9007199254740991))
    ∧ (run 300 "var x = 9007199254740992; x++; x--;").lookup 0 "x"
      ≠ some (.number (Double.ofInt 9007199254740992)) := by
  decide!

/-- Claim C23, witness: `++x` with `x` bound to 5. -/
theorem increment_then_decrement_restores_small_integers_witness :
    VM.execUniExpression 2 none "++" (.Identifier ⟨default, some 0, "x"⟩) true numberState
      = .ok (some 6)
          { numberState with
            heap := numberState.heap.set 6 ⟨.Number (Double.ofInt (5 + 1)), []⟩ } :=
  (increment_then_decrement_restores_small_integers 0 none default 0 "x" numberState 6 5 []
    (by decide) (by rfl) (by rfl) (by norm_num) (by norm_num)).2.1

/-- Claim C26: after `for (`, with `s` the scope of the statement.  When a `var` statement
follows and the token after it is not `;`, that token must be `in` and the `Var`
must have exactly one declaration, otherwise a `ParseError` is thrown; with one
declaration the parser goes to the label `forin:` with the `Var` as the key.  When
the header begins with neither `var` nor `;` and the token after the group that
`forbegin` returns is not `;`, that token must be `in` and the group must be one
`Identifier` node, otherwise a `ParseError` is thrown; with one `Identifier` the
parser goes to `forin:` with that identifier as the key.  Whatever `forin:`
returns is a `ForInLoop` with the key it was given. -/
theorem for_in_header_needs_exactly_one_variable
    (fuel : Nat) (ps : Option Nat) (tfor tpar tn : Token) (rest : List Token)
    (scopes : List (Option Nat)) (hfor : tfor.data_ = "for") (hpar : tpar.data_ = "(") :
    (tn.data_ = "var" → ∀ (init : AST) (st1 : ParserState) (n : Token) (rest1 : List Token),
      Parser.varStatement fuel (some scopes.length) ⟨tn :: rest, scopes ++ [ps]⟩ = .ok init st1 →
      st1.toks = n :: rest1 → n.data_ ≠ ";" →
      (n.data_ ≠ "in" →
        Parser.forStatement (fuel + 1) ps ⟨tfor :: tpar :: tn :: rest, scopes⟩ = .parseError)
      ∧ (n.data_ = "in" → ∃ rg vlist, init = .Var rg (some scopes.length) vlist
        ∧ (vlist.length ≠ 1 →
          Parser.forStatement (fuel + 1) ps ⟨tfor :: tpar :: tn :: rest, scopes⟩ = .parseError)
        ∧ (vlist.length = 1 →
          Parser.forStatement (fuel + 1) ps ⟨tfor :: tpar :: tn :: rest, scopes⟩
            = Parser.forin fuel tfor.range_.begin_ (some scopes.length) init
                ⟨rest1, st1.scopes⟩)))
    ∧ (tn.data_ ≠ "var" → tn.data_ ≠ ";" →
      ∀ (init : AST) (st1 : ParserState) (n : Token) (rest1 : List Token),
      Parser.forbegin fuel (some scopes.length) ⟨tn :: rest, scopes ++ [ps]⟩ = .ok init st1 →
      st1.toks = n :: rest1 → n.data_ ≠ ";" →
      (n.data_ ≠ "in" →
        Parser.forStatement (fuel + 1) ps ⟨tfor :: tpar :: tn :: rest, scopes⟩ = .parseError)
      ∧ (n.data_ = "in" → ∃ rg elist, init = .GroupExpression rg (some scopes.length) elist
        ∧ ((∀ id, elist ≠ [.Identifier id]) →
          Parser.forStatement (fuel + 1) ps ⟨tfor :: tpar :: tn :: rest, scopes⟩ = .parseError)
        ∧ (∀ id, elist = [.Identifier id] →
          Parser.forStatement (fuel + 1) ps ⟨tfor :: tpar :: tn :: rest, scopes⟩
            = Parser.forin fuel tfor.range_.begin_ (some scopes.length) (.Identifier id)
                ⟨rest1, st1.scopes⟩)))
    ∧ (∀ (f : Nat) (begin : Position) (s : Option Nat) (key : AST) (st st' : ParserState)
        (a : AST), Parser.forin f begin s key st = .ok a st' →
        ∃ end_ expr body, a = .ForInLoop ⟨begin, end_⟩ s key expr body)
    ∧ (run 300 "for (var a, b in o) ;").outcome = .parseError
    ∧ (run 300 "for (a, b in o) ;").outcome = .parseError
    ∧ (run 300 "for (a.b in o) ;").outcome = .parseError
    ∧ (parseProgram 300 "for (var a in o) ;").isSome = true
    ∧ (parseProgram 300 "for (a in o) ;").isSome = true := by
  have h0 : Parser.forStatement (fuel + 1) ps ⟨tfor :: tpar :: tn :: rest, scopes⟩
      = (do
          if ← Parser.expectStr "var" then
            let init ← Parser.varStatement fuel (some scopes.length)
            if ← Parser.expectStr ";" then
              let _ ← Parser.matchStr ";"
              Parser.forloop fuel tfor.range_.begin_ (some scopes.length) (some init)
            else
              let _ ← Parser.matchStr "in"
              match init with
              | .Var _ _ vlist =>
                if vlist.length ≠ 1 then Parser.throwParseError
                else Parser.forin fuel tfor.range_.begin_ (some scopes.length) init
              | _ => fun _ => .undefinedBehaviour
          else if ← Parser.expectStr ";" then
            let _ ← Parser.matchStr ";"
            Parser.forloop fuel tfor.range_.begin_ (some scopes.length) none
          else
            let init ← Parser.forbegin fuel (some scopes.length)
            if ← Parser.expectStr ";" then
              let _ ← Parser.matchStr ";"
              Parser.forloop fuel tfor.range_.begin_ (some scopes.length) (some init)
            else
              let _ ← Parser.matchStr "in"
              match init with
              | .GroupExpression _ _ [.Identifier id] =>
                Parser.forin fuel tfor.range_.begin_ (some scopes.length) (.Identifier id)
              | .GroupExpression _ _ _ => Parser.throwParseError
              | _ => fun _ => .undefinedBehaviour : ParserM AST)
          ⟨tn :: rest, scopes ++ [ps]⟩ := by
    unfold Parser.forStatement
    simp only [bind, ParserM.bind, Parser.peekBegin, Parser.peek, pure, Parser.newScope,
      Parser.matchStr, Parser.get, hfor, hpar, ne_eq, not_true_eq_false, if_false]
  refine ⟨?_, ?_, ?_, by decide!⟩
  · intro hv init st1 n rest1 hV htk hsemi
    obtain ⟨rg, vlist, rfl⟩ := Parser.varStatement_isVar _ _ _ _ _ hV
    have hst1 : st1 = ⟨n :: rest1, st1.scopes⟩ := by
      cases st1; simp only at htk; subst htk; rfl
    rw [h0]
    simp only [bind, ParserM.bind, Parser.expectStr, Parser.peek, pure, hv, beq_self_eq_true,
      if_true, hV]
    rw [hst1]
    simp only [hsemi, beq_iff_eq, if_false, Parser.matchStr, Parser.get, bind, ParserM.bind]
    refine ⟨?_, ?_⟩
    · intro hin
      simp only [ne_eq, hin, not_false_eq_true, if_true, Parser.throwParseError]
    · intro hin
      refine ⟨rg, vlist, rfl, ?_, ?_⟩
      · intro hl
        simp only [ne_eq, hin, not_true_eq_false, if_false, pure, hl, not_false_eq_true, if_true,
          Parser.throwParseError]
      · intro hl
        simp only [ne_eq, hin, not_true_eq_false, if_false, pure, hl]
  · intro hv hs init st1 n rest1 hF htk hsemi
    obtain ⟨rg, elist, rfl⟩ := Parser.forbegin_isGroup _ _ _ _ _ hF
    have hst1 : st1 = ⟨n :: rest1, st1.scopes⟩ := by
      cases st1; simp only at htk; subst htk; rfl
    rw [h0]
    simp only [bind, ParserM.bind, Parser.expectStr, Parser.peek, pure, hv, hs, beq_iff_eq,
      if_false, hF]
    rw [hst1]
    simp only [hsemi, beq_iff_eq, if_false, Parser.matchStr, Parser.get, bind, ParserM.bind]
    refine ⟨?_, ?_⟩
    · intro hin
      simp only [ne_eq, hin, not_false_eq_true, if_true, Parser.throwParseError]
    · intro hin
      refine ⟨rg, elist, rfl, ?_, ?_⟩
      · intro hne
        simp only [ne_eq, hin, not_true_eq_false, if_false, pure]
        cases elist with
        | nil => rfl
        | cons e more =>
          cases more with
          | nil =>
            cases e with
            | Identifier id => exact absurd rfl (hne id)
            | _ => rfl
          | cons e2 more2 => cases e <;> rfl
      · intro id hid
        subst hid
        simp only [ne_eq, hin, not_true_eq_false, if_false, pure]
  · intro f begin s key st st' a h
    exact Parser.forin_isForIn _ _ _ _ _ _ _ h

/-- Claim C26, witness: in `for (var a)` the token after the `var` statement is neither `;`
nor `in`. -/
theorem for_in_header_needs_exactly_one_variable_witness :
    Parser.forStatement 21 none
        ⟨[⟨.KEYWORD, "for", ⟨⟨1, 1⟩, ⟨1, 4⟩⟩⟩, ⟨.LPAREN, "(", ⟨⟨1, 5⟩, ⟨1, 6⟩⟩⟩,
          ⟨.KEYWORD, "var", ⟨⟨1, 6⟩, ⟨1, 9⟩⟩⟩, ⟨.IDENTIFIER, "a", ⟨⟨1, 10⟩, ⟨1, 11⟩⟩⟩,
          ⟨.RPAREN, ")", ⟨⟨1, 11⟩, ⟨1, 12⟩⟩⟩], []⟩ = .parseError :=
  ((for_in_header_needs_exactly_one_variable 20 none ⟨.KEYWORD, "for", ⟨⟨1, 1⟩, ⟨1, 4⟩⟩⟩
    ⟨.LPAREN, "(", ⟨⟨1, 5⟩, ⟨1, 6⟩⟩⟩ ⟨.KEYWORD, "var", ⟨⟨1, 6⟩, ⟨1, 9⟩⟩⟩
    [⟨.IDENTIFIER, "a", ⟨⟨1, 10⟩, ⟨1, 11⟩⟩⟩, ⟨.RPAREN, ")", ⟨⟨1, 11⟩, ⟨1, 12⟩⟩⟩] [] rfl rfl).1 rfl
    (.Var ⟨⟨1, 6⟩, ⟨1, 11⟩⟩ (some 0)
      [.mk ⟨⟨1, 10⟩, ⟨1, 11⟩⟩ (some 0) ⟨⟨⟨1, 10⟩, ⟨1, 11⟩⟩, some 0, "a"⟩ none])
    ⟨[⟨.RPAREN, ")", ⟨⟨1, 11⟩, ⟨1, 12⟩⟩⟩], [none]⟩ ⟨.RPAREN, ")", ⟨⟨1, 11⟩, ⟨1, 12⟩⟩⟩ []
    (by rfl) rfl (by decide)).1 (by decide)

/-- Claim C27: after the token `return`, `returnStatement` makes a `Return` without an
expression when the next token is `;` or `\x7d` or begins on a later line than
`return`, leaving the cursor at that token; in every other case it succeeds exactly
when `expression(ps)` succeeds from that token on, and stores the group it returns
as the expression of the `Return`.  The source `return 1` is one statement; with a
line break after `return` it is two, the `Return` and the expression `1`. -/
theorem return_omits_expression_iff_terminator_or_later_line
    (fuel : Nat) (ps : Option Nat) (ret n : Token) (rest : List Token)
    (scopes : List (Option Nat)) (hret : ret.data_ = "return") :
    ((n.data_ = ";" ∨ n.data_ = "\x7d" ∨ n.range_.begin_.line_ > ret.range_.begin_.line_) →
      Parser.returnStatement (fuel + 1) ps ⟨ret :: n :: rest, scopes⟩
        = .ok (.Return ⟨ret.range_.begin_, n.range_.begin_⟩ ps none) ⟨n :: rest, scopes⟩)
    ∧ (¬ (n.data_ = ";" ∨ n.data_ = "\x7d"
          ∨ n.range_.begin_.line_ > ret.range_.begin_.line_) →
      ∀ (node : AST) (st' : ParserState),
        Parser.returnStatement (fuel + 1) ps ⟨ret :: n :: rest, scopes⟩ = .ok node st' ↔
          ∃ (e : AST) (t : Token) (more : List Token),
            Parser.expression fuel ps ⟨n :: rest, scopes⟩ = .ok e st'
            ∧ st'.toks = t :: more
            ∧ node = .Return ⟨ret.range_.begin_, t.range_.begin_⟩ ps (some e))
    ∧ parseShapes 300 "return 1" = some [.other]
    ∧ parseShapes 300 "return\n1" = some [.other, .leaf "1"] := by
  have h0 : Parser.returnStatement (fuel + 1) ps ⟨ret :: n :: rest, scopes⟩ =
      (do
        let begin ← Parser.peekBegin
        let _ ← Parser.matchStr "return"
        if !((← Parser.expectStr ";") || (← Parser.expectStr "\x7d")
            || decide ((← Parser.peekBegin).line_ > begin.line_)) then
          let ret ← Parser.expression fuel ps
          let end_ ← Parser.peekBegin
          pure (.Return ⟨begin, end_⟩ ps (some ret))
        else
          let end_ ← Parser.peekBegin
          pure (.Return ⟨begin, end_⟩ ps none) : ParserM AST) ⟨ret :: n :: rest, scopes⟩ := by
    rfl
  rw [h0]
  simp only [bind, ParserM.bind, Parser.peekBegin, Parser.peek, pure, Parser.matchStr, Parser.get,
    hret, ne_eq, not_true_eq_false, if_false, Parser.expectStr]
  refine ⟨?_, ?_, by decide!⟩
  · intro h
    have hb : ((n.data_ == ";") || (n.data_ == "\x7d")
        || decide (n.range_.begin_.line_ > ret.range_.begin_.line_)) = true := by
      rcases h with h | h | h
      · simp [h]
      · simp [h]
      · simp [h]
    simp only [hb, Bool.not_true, Bool.false_eq_true, if_false, ParserM.bind, Parser.peek]
  · intro h node st'
    have hb : ((n.data_ == ";") || (n.data_ == "\x7d")
        || decide (n.range_.begin_.line_ > ret.range_.begin_.line_)) = false := by
      simp only [not_or] at h
      obtain ⟨h1, h2, h3⟩ := h
      simp [h1, h2, h3]
    simp only [hb, Bool.not_false, if_true, ParserM.bind]
    cases hE : Parser.expression fuel ps ⟨n :: rest, scopes⟩ with
    | ok e st1 =>
      simp only [Parser.peek]
      cases ht : st1.toks with
      | nil =>
        simp only
        constructor
        · intro h; cases h
        · rintro ⟨e', t, more, he, htk, _⟩
          cases he
          rw [ht] at htk
          cases htk
      | cons t more =>
        simp only
        constructor
        · intro h
          cases h
          exact ⟨e, t, more, rfl, ht, rfl⟩
        · rintro ⟨e', t', more', he, htk, hn⟩
          cases he
          rw [ht] at htk
          cases htk
          rw [hn]
    | parseError =>
      constructor
      · intro h; cases h
      · rintro ⟨e', t, more, he, _, _⟩; cases he
    | undefinedBehaviour =>
      constructor
      · intro h; cases h
      · rintro ⟨e', t, more, he, _, _⟩; cases he
    | fuelOut =>
      constructor
      · intro h; cases h
      · rintro ⟨e', t, more, he, _, _⟩; cases he

/-- Claim C27, witness: `return` followed by `;`. -/
theorem return_omits_expression_iff_terminator_or_later_line_witness :
    Parser.returnStatement 1 none
        ⟨[⟨.KEYWORD, "return", ⟨⟨1, 1⟩, ⟨1, 7⟩⟩⟩, ⟨.SEMICOLON, ";", ⟨⟨1, 7⟩, ⟨1, 8⟩⟩⟩], []⟩
      = .ok (.Return ⟨⟨1, 1⟩, ⟨1, 7⟩⟩ none none) ⟨[⟨.SEMICOLON, ";", ⟨⟨1, 7⟩, ⟨1, 8⟩⟩⟩], []⟩ :=
  (return_omits_expression_iff_terminator_or_later_line 0 none
    ⟨.KEYWORD, "return", ⟨⟨1, 1⟩, ⟨1, 7⟩⟩⟩ ⟨.SEMICOLON, ";", ⟨⟨1, 7⟩, ⟨1, 8⟩⟩⟩ [] [] rfl).1
    (Or.inl rfl)

/-- Claim C30: `getKeys` takes a value and returns a list only (the map is read, not
written, so a second call returns the same list).  The keys of a
`std::unordered_map` being pairwise different, the list holds every key of the map
once and no other string, and it is ascending in the order of `std::string`; the
two writers of a map, `m[key] = v` and `m.erase(key)`, keep the keys pairwise
different.  The keys of an array of eleven elements come out with `"10"` between
`"1"` and `"2"`, and a `for`-`in` over such an array literal visits the eleventh element
third. -/
theorem getKeys_lists_each_key_once_in_ascending_order (v : Value)
    (hnd : (v.attr_.map Prod.fst).Nodup) :
    (∀ k : String, v.getKeys.count k = if k ∈ v.attr_.map Prod.fst then 1 else 0)
    ∧ v.getKeys.Pairwise (fun a b => strLt a.data b.data = true)
    ∧ (∀ (k : String) (x : ValuePtr), ((mapSet v.attr_ k x).map Prod.fst).Nodup)
    ∧ (∀ k : String, ((mapErase v.attr_ k).map Prod.fst).Nodup)
    ∧ (∀ (fuel : Nat) (s : Option Nat) (id : Identifier) (target stmt : AST)
        (st st1 st2 : VMState) (r : ValuePtr) (o : Nat) (cell : Value),
        VM.exec fuel (.Identifier id) st = .ok r st1 →
        VM.exec fuel target st1 = .ok (some o) st2 → st2.heap[o]? = some cell →
        cell.type_ ≠ .SIGNAL → cell.type_ ≠ .STRING →
        VM.execForInLoop (fuel + 1) s (.Identifier id) target stmt st
          = VM.execForInKeys fuel s id.name_ (some o) stmt cell.getKeys st2)
    ∧ Value.getKeys ⟨.ObjectValue, [("0", none), ("1", none), ("2", none), ("3", none),
        ("4", none), ("5", none), ("6", none), ("7", none), ("8", none), ("9", none),
        ("10", none)]⟩ = ["0", "1", "10", "2", "3", "4", "5", "6", "7", "8", "9"]
    ∧ (run 300 ("var t=\"\";for(var v in[\"a\",\"b\",\"c\",\"d\",\"e\",\"f\",\"g\",\"h\",\"i\","
          ++ "\"j\",\"k\"])t=t+v;")).lookup 0 "t" = some (.string "abkcdefghij") := by
  have hperm : v.getKeys.Perm (v.attr_.map Prod.fst) := sortKeys_perm _
  refine ⟨?_, sortKeys_sorted _ hnd, fun k x => mapSet_nodup _ k x hnd,
    fun k => mapErase_nodup _ k hnd, ?_, by decide!⟩
  · intro k
    rw [hperm.count_eq]
    split
    · rename_i h
      exact List.count_eq_one_of_mem hnd h
    · rename_i h
      exact List.count_eq_zero_of_not_mem h
  · intro fuel s id target stmt st st1 st2 r o cell hk ht hcell h1 h2
    obtain ⟨d, attrs⟩ := cell
    conv_lhs => unfold VM.execForInLoop
    simp only [bind, VMM.bind, hk, pure, ht, VM.deref, hcell]
    cases d <;> first | rfl | exact absurd rfl h1 | exact absurd rfl h2

/-- Claim C30, witness: a map with the keys `"b"`, `"10"`, `"a"` and `"2"`. -/
theorem getKeys_lists_each_key_once_in_ascending_order_witness :
    (List.map Prod.fst (Value.attr_ ⟨.ObjectValue,
        [("b", none), ("10", none), ("a", none), ("2", none)]⟩)).Nodup
    ∧ (Value.getKeys ⟨.ObjectValue, [("b", none), ("10", none), ("a", none), ("2", none)]⟩).Pairwise
        (fun a b => strLt a.data b.data = true) :=
  ⟨by decide, (getKeys_lists_each_key_once_in_ascending_order
    ⟨.ObjectValue, [("b", none), ("10", none), ("a", none), ("2", none)]⟩ (by decide)).2.1⟩

/-- Claim C24 (amended): for every program the parser accepts, a node of the class `Empty`,
`Break`, `Continue`, `Case`, `Try`, `Array`, `Object` or of a literal class (boolean,
number, string, null, regular expression) has a null `scope_`; every other node has a
`scope_` that is one of the scopes the parser allocated, and the parent pointers
lead from it to the scope of the program, the first one allocated. -/
theorem scoped_nodes_reach_the_root_scope (fuel : Nat) (source : String) (nodes : List Node)
    (scopes : List (Option Nat)) (h : parsedNodes fuel source = some (nodes, scopes)) :
    ∀ n ∈ nodes,
      (n.type_.unscoped = true → n.scope_ = none)
      ∧ (n.type_.unscoped = false →
          ∃ i, n.scope_ = some i ∧ i < scopes.length
            ∧ rootOf scopes scopes.length i = some 0) := by
  obtain ⟨hg, hs⟩ := parsedNodes_good fuel source nodes scopes h
  intro n hn
  obtain ⟨_, h2, h3⟩ := hg n hn
  refine ⟨h2, fun hu => ?_⟩
  obtain ⟨i, hi, hlt⟩ := h3 hu
  exact ⟨i, hi, hlt, rootOf_eq_zero scopes hs scopes.length i hlt hlt⟩

/-- Claim C24, witness: the source `{x}`, whose block has the scope 1 below the scope 0 of
the program. -/
theorem scoped_nodes_reach_the_root_scope_witness :
    parsedNodes 300 "\x7bx\x7d"
        = some ([⟨.PROGRAM, ⟨⟨1, 1⟩, ⟨1, 4⟩⟩, some 0⟩, ⟨.BLOCK, ⟨⟨1, 1⟩, ⟨1, 4⟩⟩, some 1⟩,
            ⟨.IDENTIFIER, ⟨⟨1, 2⟩, ⟨1, 3⟩⟩, some 1⟩], [none, some 0])
    ∧ ∀ n ∈ ([⟨.PROGRAM, ⟨⟨1, 1⟩, ⟨1, 4⟩⟩, some 0⟩, ⟨.BLOCK, ⟨⟨1, 1⟩, ⟨1, 4⟩⟩, some 1⟩,
        ⟨.IDENTIFIER, ⟨⟨1, 2⟩, ⟨1, 3⟩⟩, some 1⟩] : List Node),
      (n.type_.unscoped = true → n.scope_ = none)
      ∧ (n.type_.unscoped = false →
          ∃ i, n.scope_ = some i ∧ i < [none, some 0].length
            ∧ rootOf [none, some 0] [none, some 0].length i = some 0) := by
  have h : parsedNodes 300 "\x7bx\x7d"
      = some ([⟨.PROGRAM, ⟨⟨1, 1⟩, ⟨1, 4⟩⟩, some 0⟩, ⟨.BLOCK, ⟨⟨1, 1⟩, ⟨1, 4⟩⟩, some 1⟩,
          ⟨.IDENTIFIER, ⟨⟨1, 2⟩, ⟨1, 3⟩⟩, some 1⟩], [none, some 0]) := by decide!
  exact ⟨h, scoped_nodes_reach_the_root_scope 300 "\x7bx\x7d" _ _ h⟩

/-- Claim C24, counterexample: in the program
`;try{switch(1){case"a":break;continue}}[true,null,/r/,{}]` the nodes of twelve classes
have a null `scope_`: the empty statement, the `try`, the literals, the `case`, the
`break`, the `continue`, the array and the object. -/
theorem literal_and_jump_nodes_have_no_scope :
    (parsedNodes 300
        ";try\x7bswitch(1)\x7bcase\"a\":break;continue\x7d\x7d[true,null,/r/,\x7b\x7d]").map
      (fun p => (p.1.filter (fun n => n.scope_.isNone)).map Node.type_)
    = some [.EMPTY, .TRY, .LITERAL_NUMBER, .CASE, .LITERAL_STRING, .BREAK, .CONTINUE, .ARRAY,
        .LITERAL_BOOL, .LITERAL_NULL, .LITERAL_REGULAR, .OBJECT] := by
  decide!

/-- Claim C25: for every source the parser accepts, the range of every node has its begin
not after its end, by line and then column.  The tokens of the source have ordered
ranges as well, and their begin positions increase strictly along the token list,
the end-of-file token included. -/
theorem node_ranges_are_ordered (fuel : Nat) (source : String) (nodes : List Node)
    (scopes : List (Option Nat)) (h : parsedNodes fuel source = some (nodes, scopes)) :
    (∀ n ∈ nodes, n.range_.begin_.le n.range_.end_)
    ∧ (∀ ts, Lexer source = .tokens ts →
        (∀ t ∈ ts, t.range_.begin_.le t.range_.end_)
        ∧ ts.Pairwise (fun a b => a.range_.begin_.lt b.range_.begin_)) := by
  refine ⟨fun n hn => ((parsedNodes_good fuel source nodes scopes h).1 n hn).1, ?_⟩
  intro ts hts
  exact Lexer_tokensOk source ts hts

/-- Claim C25, witness: the source `a =` followed by `1` on the next line. -/
theorem node_ranges_are_ordered_witness :
    parsedNodes 300 "a =\n1"
        = some ([⟨.PROGRAM, ⟨⟨1, 1⟩, ⟨2, 2⟩⟩, some 0⟩, ⟨.BIN_EXPR, ⟨⟨1, 1⟩, ⟨2, 2⟩⟩, some 0⟩,
            ⟨.IDENTIFIER, ⟨⟨1, 1⟩, ⟨1, 2⟩⟩, some 0⟩,
            ⟨.LITERAL_NUMBER, ⟨⟨2, 1⟩, ⟨2, 2⟩⟩, none⟩], [none])
    ∧ ∀ n ∈ ([⟨.PROGRAM, ⟨⟨1, 1⟩, ⟨2, 2⟩⟩, some 0⟩, ⟨.BIN_EXPR, ⟨⟨1, 1⟩, ⟨2, 2⟩⟩, some 0⟩,
        ⟨.IDENTIFIER, ⟨⟨1, 1⟩, ⟨1, 2⟩⟩, some 0⟩,
        ⟨.LITERAL_NUMBER, ⟨⟨2, 1⟩, ⟨2, 2⟩⟩, none⟩] : List Node),
      n.range_.begin_.le n.range_.end_ := by
  have h : parsedNodes 300 "a =\n1"
      = some ([⟨.PROGRAM, ⟨⟨1, 1⟩, ⟨2, 2⟩⟩, some 0⟩, ⟨.BIN_EXPR, ⟨⟨1, 1⟩, ⟨2, 2⟩⟩, some 0⟩,
          ⟨.IDENTIFIER, ⟨⟨1, 1⟩, ⟨1, 2⟩⟩, some 0⟩,
          ⟨.LITERAL_NUMBER, ⟨⟨2, 1⟩, ⟨2, 2⟩⟩, none⟩], [none]) := by decide!
  exact ⟨h, (node_ranges_are_ordered 300 "a =\n1" _ _ h).1⟩

/-- Claim C29: a call that reaches the body of its callee has evaluated the callee to a
function value with `n` formals, allocated two objects, and run the loop over the
formals on the `m` actual arguments; that loop evaluates the first `min(n, m)` actual
arguments once each, in their order, and stores the value `vs[i]` of the `(i+1)`-th of
them under the key `"i"` of the first of the two objects.  When the loop is over, that
object has exactly the properties `"0"`, ..., `"k-1"` with `k = min(n, m)`, in this order
and with pairwise different keys, no pointer of the state leads to it (it is fresh), and
the entry `arguments` of the scope of the callee is set to it before the body runs.
The call is made in a state without dangling pointers; the state it returns is again
one, and so is the memory that a fresh `VM` starts on. -/
theorem call_installs_fresh_arguments_object (fuel : Nat) (func_ : AST) (args_ : List AST)
    (st st1 : VMState) (r : ValuePtr) (hinv : PtrInv (fun _ => False) st)
    (h : VM.execCall (fuel + 1) func_ args_ st = .ok r st1) :
    (∃ (fv : Nat) (sa sb : VMState) (rg : PositionRange) (i : Nat) (name : Option Identifier)
      (fargs : List Identifier) (fstmts : List AST) (attrs : List (String × ValuePtr))
      (vs : List ValuePtr),
      VM.exec fuel func_ st = .ok (some fv) sa
      ∧ sa.heap[fv]? = some ⟨.FunctionValue (.Function rg (some i) name fargs fstmts), attrs⟩
      ∧ VM.execArguments fuel (some i) (some sa.heap.length) fargs args_ 0
          { sa with heap := sa.heap ++ [⟨.ObjectValue, []⟩, ⟨.ObjectValue, []⟩] } = .ok () sb
      ∧ VM.execArgumentsValues fuel (some i) (some sa.heap.length) fargs args_ 0
          { sa with heap := sa.heap ++ [⟨.ObjectValue, []⟩, ⟨.ObjectValue, []⟩] } = .ok vs sb
      ∧ vs.length = min fargs.length args_.length
      ∧ sb.heap[sa.heap.length]? = some ⟨.ObjectValue, argumentsMap 0 vs⟩
      ∧ (argumentsMap 0 vs).map Prod.fst
          = (List.range (min fargs.length args_.length)).map VM.intToString
      ∧ ((argumentsMap 0 vs).map Prod.fst).Nodup
      ∧ PtrInv (fun a => a = sa.heap.length) sb
      ∧ scopeEntry (writeVar (writeVar sb.scopes i "arguments" (some sa.heap.length))
          i "this" (some (sa.heap.length + 1))) i "arguments" = some (some sa.heap.length)
      ∧ VM.execCallBody fuel fstmts
          { sb with scopes := (writeVar (writeVar sb.scopes i "arguments" (some sa.heap.length))
              i "this" (some (sa.heap.length + 1))) } = .ok r st1)
    ∧ PtrInv (fun _ => False) st1
    ∧ ∀ scopes, PtrInv (fun _ => False) (initialState scopes) := by
  refine ⟨?_, ((vmSpec (fun _ => False) (fuel + 1)).execCall _ _ _ _ _ hinv
    (validPtr_none _ _) h).inv, initialState_inv⟩
  unfold VM.execCall at h
  simp only [bind, VMM.bind_result] at h
  obtain ⟨fvp, s0, h1, h⟩ := h
  have r1 := (vmSpec (fun _ => False) fuel).exec _ _ _ _ hinv (validPtr_none _ _) h1
  cases fvp with
  | none => cases h
  | some fv =>
    simp only [bind, VMM.bind_result, deref_ok] at h
    obtain ⟨c, sa, ⟨a, ea, ha, rfl⟩, h⟩ := h
    cases ea
    obtain ⟨d, attrs⟩ := c
    cases d with
    | FunctionValue code =>
      cases code with
      | Function rg sc id fargs fstmts =>
        simp only [bind, VMM.bind_result] at h
        obtain ⟨arguments, s3, h3, me, s4, h4, u5, sb, h5, u6, s6, h6, u7, s7, h7, h⟩ := h
        unfold VM.alloc at h3
        cases h3
        unfold VM.alloc at h4
        cases h4
        simp only [List.append_assoc, List.singleton_append, List.length_append,
          List.length_singleton] at h5 h6 h7
        obtain ⟨i, rfl, hi, rfl⟩ := setValueMap_ok _ _ _ _ _ _ h6
        obtain ⟨i2, e2, hi2, rfl⟩ := setValueMap_ok _ _ _ _ _ _ h7
        cases e2
        obtain ⟨vs, hvs⟩ := (execArguments_iff_values _ _ _ _ _ _ _ _).1 h5
        have hcell : ({ sa with heap := sa.heap ++ [(⟨.ObjectValue, []⟩ : Value),
            ⟨.ObjectValue, []⟩] } : VMState).heap[sa.heap.length]? = some ⟨.ObjectValue, []⟩ := by
          show (sa.heap ++ [(⟨.ObjectValue, []⟩ : Value), ⟨.ObjectValue, []⟩])[sa.heap.length]?
            = some ⟨.ObjectValue, []⟩
          rw [List.getElem?_append_right (Nat.le_refl _), Nat.sub_self]
          rfl
        obtain ⟨invb, hA, hlen⟩ := execArgumentsValues_attrs sa.heap.length (some i) fuel
          fargs args_ 0 _ sb vs [] (ptrInv_fresh_pair sa r1.inv) hcell
          (fun kv hkv => (by cases hkv)) hvs
        have hkeys : (argumentsMap 0 vs).map Prod.fst
            = (List.range (min fargs.length args_.length)).map VM.intToString := by
          rw [argumentsMap_keys, hlen, List.range_eq_range']
        refine ⟨fv, sa, sb, rg, i, id, fargs, fstmts, attrs, vs, h1, ha, h5, hvs, hlen,
          by simpa using hA, hkeys, ?_, invb, ?_, h⟩
        · rw [hkeys]
          exact (List.nodup_range _).map (fun a b e => intToString_inj a b e)
        · rw [scopeEntry_writeVar _ _ _ _ _ _ (by rw [length_writeVar]; exact hi),
            scopeEntry_writeVar _ _ _ _ _ _ hi]
          simp
      | _ => cases h
    | _ => cases h

/-- Claim C29, witness: the call `f(7)` of a function with the one formal `a`: the
object at address 7 gets the one property `"0"`, the number at address 9. -/
theorem call_installs_fresh_arguments_object_witness :
    PtrInv (fun _ => False) functionState
    ∧ VM.execCall 4 (.Identifier ⟨default, some 0, "f"⟩) [.LiteralNumber default none "7"]
        functionState
      = .ok (some 2)
          ⟨initialHeap ++ [⟨.FunctionValue
              (.Function default (some 1) none [⟨default, some 1, "a"⟩] []), []⟩,
            ⟨.ObjectValue, [("0", some 9)]⟩, ⟨.ObjectValue, []⟩, ⟨.Number (Double.ofInt 7), []⟩],
          [⟨[("f", some 6)], none⟩,
            ⟨[("a", some 9), ("arguments", some 7), ("this", some 8)], some 0⟩], some 0, none⟩
    ∧ ∃ (sa sb : VMState) (vs : List ValuePtr),
        VM.exec 3 (.Identifier ⟨default, some 0, "f"⟩) functionState = .ok (some 6) sa
        ∧ vs.length = 1
        ∧ sb.heap[sa.heap.length]? = some ⟨.ObjectValue, argumentsMap 0 vs⟩ := by
  have h : VM.execCall 4 (.Identifier ⟨default, some 0, "f"⟩) [.LiteralNumber default none "7"]
        functionState
      = .ok (some 2)
          ⟨initialHeap ++ [⟨.FunctionValue
              (.Function default (some 1) none [⟨default, some 1, "a"⟩] []), []⟩,
            ⟨.ObjectValue, [("0", some 9)]⟩, ⟨.ObjectValue, []⟩, ⟨.Number (Double.ofInt 7), []⟩],
          [⟨[("f", some 6)], none⟩,
            ⟨[("a", some 9), ("arguments", some 7), ("this", some 8)], some 0⟩], some 0, none⟩ :=
    rfl
  obtain ⟨⟨fv, sa, sb, rg, i, name, fargs, fstmts, attrs, vs, h1, ha, _, _, hlen, hA, _⟩, _⟩ :=
    call_installs_fresh_arguments_object 3 _ _ _ _ _ functionState_inv h
  have e1 : VM.exec 3 (.Identifier ⟨default, some 0, "f"⟩) functionState
      = .ok (some 6) functionState := rfl
  rw [e1] at h1
  cases h1
  have ha2 : functionState.heap[6]? = some ⟨.FunctionValue
      (.Function default (some 1) none [⟨default, some 1, "a"⟩] []), []⟩ := rfl
  rw [ha2] at ha
  cases ha
  exact ⟨functionState_inv, h, functionState, sb, vs, e1, hlen, hA⟩

/-- Claim C31 (amended): `exec(GroupExpression*)` evaluates its elements from left to
right and returns the value of the last one, and it throws at the first element whose
value has type `SIGNAL`, whatever the kind of the signal: the Normal signal is fatal like
Break, Continue and Return.  A regular-expression literal has no overload of `exec`, so it
evaluates to the Normal signal, and `if (/a/) {}` ends in an `ExecError`. -/
theorem group_expression_throws_on_normal_signal (fuel : Nat) (i : AST) (rest : List AST)
    (ret0 : ValuePtr) (st st1 : VMState) (v : Nat) (cell : Value)
    (hE : VM.exec fuel i st = .ok (some v) st1) (hcell : st1.heap[v]? = some cell) :
    (∀ t p, cell.data = .Signal t p →
      VM.execGroupExpression (fuel + 1) (i :: rest) ret0 st = .execError)
    ∧ (cell.type_ ≠ .SIGNAL →
      VM.execGroupExpression (fuel + 1) (i :: rest) ret0 st
        = VM.execGroupExpression fuel rest (some v) st1)
    ∧ VM.execGroupExpression (fuel + 1) [] ret0 st = .ok ret0 st
    ∧ (∀ rg sc re s, VM.exec (fuel + 1) (.LiteralRegular rg sc re) s = .ok (some sigNormalAddr) s)
    ∧ (run 300 "if(/a/)\x7b\x7d").outcome = .execError := by
  have h0 : VM.execGroupExpression (fuel + 1) (i :: rest) ret0 st =
      (do
        let ret ← VM.exec fuel i
        if (← VM.deref ret).type_ = .SIGNAL then VM.throwExecError
        else VM.execGroupExpression fuel rest ret : VMM ValuePtr) st := by
    rfl
  refine ⟨?_, ?_, rfl, fun _ _ _ _ => rfl, regex_condition_run⟩
  · intro t p hd
    rw [h0]
    have ht : cell.type_ = .SIGNAL := by simp only [Value.type_, hd]
    simp only [bind, VMM.bind, hE, VM.deref, hcell, ht, if_true, VM.throwExecError]
  · intro ht
    rw [h0]
    simp only [bind, VMM.bind, hE, VM.deref, hcell, ht, if_false]

/-- Claim C31, witness: the group that holds the one regular-expression literal `/a/`. -/
theorem group_expression_throws_on_normal_signal_witness :
    VM.exec 1 (.LiteralRegular default none "/a/") witnessState
        = .ok (some sigNormalAddr) witnessState
    ∧ witnessState.heap[sigNormalAddr]? = some ⟨.Signal .NORMAL none, []⟩
    ∧ VM.execGroupExpression 2 [.LiteralRegular default none "/a/"] none witnessState
        = .execError :=
  ⟨rfl, rfl, (group_expression_throws_on_normal_signal 1 (.LiteralRegular default none "/a/") []
    none witnessState witnessState sigNormalAddr ⟨.Signal .NORMAL none, []⟩ rfl rfl).1
      .NORMAL none rfl⟩

/-- Claim C31, counterexample: the regular-expression literal `/a/` evaluates to the Normal
signal, the group that holds it throws, and the program `if (/a/) {}` ends in an
`ExecError`: the Normal signal of an element is fatal. -/
theorem regex_condition_raises_exec_error :
    (VM.exec 1 (.LiteralRegular default none "/a/") witnessState).obs = some (.signal .NORMAL)
    ∧ VM.execGroupExpression 2 [.LiteralRegular default none "/a/"] none witnessState
        = .execError
    ∧ (run 300 "if(/a/)\x7b\x7d").outcome = .execError
    ∧ (run 300 "if(/a/)\x7b\x7d").outcome ≠ .finished := by
  refine ⟨by decide, rfl, regex_condition_run, ?_⟩
  rw [regex_condition_run]
  decide

/-- Claim C32, evaluated on the code: a three-clause `for` whose condition clause is absent
never runs its body.  The parser leaves `cond_` null, `exec(fl->cond_)` of the null pointer
falls through every cast of the dispatcher and yields the Normal signal, and `toBool()` of a
signal is false: the loop returns Normal in the state the initialiser left, without
evaluating the body or the tail.  After `var n = 0; for (;;) { n = 1; break; }` the binding
`n` still holds 0. -/
theorem for_without_condition_never_runs_its_body (fuel : Nat) (rg : PositionRange)
    (sc : Option Nat) (init iter : Option AST) (stmt : AST) (st s1 : VMState) (v p : ValuePtr)
    (attrs : List (String × ValuePtr))
    (hI : VM.execNullable (fuel + 2) init st = .ok v s1)
    (hN : s1.heap[sigNormalAddr]? = some ⟨.Signal .NORMAL p, attrs⟩) :
    VM.exec (fuel + 3) (.ForLoop rg sc init none iter stmt) st = .ok (some sigNormalAddr) s1
    ∧ VM.execForLoop (fuel + 2) none iter stmt s1 = .ok (some sigNormalAddr) s1
    ∧ (run 300 "var n = 0; for (;;) \x7b n = 1; break; \x7d").lookup 0 "n"
        = some (.number (Double.ofInt 0)) := by
  have h1 : VM.execForLoop (fuel + 2) none iter stmt s1 = .ok (some sigNormalAddr) s1 := by
    have h0 : VM.execForLoop (fuel + 2) none iter stmt s1 =
        (do
          let check ← (pure (some sigNormalAddr) : VMM ValuePtr)
          if (← VM.deref check).toBool then
            let ret ← VM.exec (fuel + 1) stmt
            match (← VM.deref ret).data with
            | .Signal .RETURN _ => pure ret
            | .Signal .BREAK _ => pure (some sigNormalAddr)
            | _ =>
              let _ ← VM.execNullable (fuel + 1) iter
              VM.execForLoop (fuel + 1) none iter stmt
          else pure (some sigNormalAddr) : VMM ValuePtr) s1 := by
      rfl
    rw [h0]
    simp only [bind, VMM.bind, pure, VM.deref, hN, Value.toBool, Bool.false_eq_true, if_false]
  refine ⟨?_, h1, by decide!⟩
  have h0 : VM.exec (fuel + 3) (.ForLoop rg sc init none iter stmt) st =
      (do
        let _ ← VM.execNullable (fuel + 2) init
        VM.execForLoop (fuel + 2) none iter stmt : VMM ValuePtr) st := by
    rfl
  rw [h0]
  simp only [bind, VMM.bind, hI, h1]

/-- Claim C32, witness: `for (;;) break;` in a state that holds the singletons only. -/
theorem for_without_condition_never_runs_its_body_witness :
    VM.execNullable 2 none witnessState = .ok (some sigNormalAddr) witnessState
    ∧ VM.exec 3 (.ForLoop default none none none none (.Break default none)) witnessState
        = .ok (some sigNormalAddr) witnessState :=
  ⟨rfl, (for_without_condition_never_runs_its_body 0 default none none none
    (.Break default none) witnessState witnessState (some sigNormalAddr) none [] rfl rfl).1⟩

/-- Claim C34: an identifier evaluates to the address of the cell it is bound to, not to a
copy, so `var b = a` binds `b` to the cell of `a`; a number literal evaluates to a cell
allocated for this evaluation.  `++` and `--`, prefix or postfix, on an identifier bound to
the `Number` cell `a` leave every scope as it is and write the new payload into the cell
`a`: every binding that holds `a` then shows the new number, and every binding that holds
another cell shows what it showed before.  After `var a = 1; var b = a; var c = 1; a++;`
the binding `b` holds 2 and `c` holds 1. -/
theorem increment_writes_the_cell_that_bindings_share
    (fuel : Nat) (sc : Option Nat) (rg : PositionRange) (s : Nat) (name : String)
    (st : VMState) (a : Nat) (x : Double) (attrs : List (String × ValuePtr))
    (hs : s < st.scopes.length) (hx : Scope.getVar st.scopes s name = some a)
    (hcell : st.heap[a]? = some ⟨.Number x, attrs⟩) :
    VM.exec (fuel + 1) (.Identifier ⟨rg, some s, name⟩) st = .ok (some a) st
    ∧ (∀ (rg1 : PositionRange) (sc1 : Option Nat) (data : String) (v : ValuePtr)
        (st1 : VMState), VM.exec (fuel + 1) (.LiteralNumber rg1 sc1 data) st = .ok v st1 →
        v = some st.heap.length ∧ v ≠ some a)
    ∧ (∀ (pre : Bool) (op : String) (d : Double),
        (op = "++" ∧ d = Double.add x (Double.ofInt 1))
          ∨ (op = "--" ∧ d = Double.sub x (Double.ofInt 1)) →
        ∃ (v : ValuePtr) (st1 : VMState),
          VM.execUniExpression (fuel + 2) sc op (.Identifier ⟨rg, some s, name⟩) pre st
            = .ok v st1
          ∧ st1.scopes = st.scopes
          ∧ st1.heap[a]? = some ⟨.Number d, attrs⟩
          ∧ (∀ c, c ≠ a → c < st.heap.length → st1.heap[c]? = st.heap[c]?)
          ∧ (∀ s2 n2, st.entry s2 n2 = some (some a) → st1.lookup s2 n2 = some (.number d))
          ∧ (∀ s3 n3 c, st.entry s3 n3 = some (some c) → c ≠ a → c < st.heap.length →
              st1.lookup s3 n3 = st.lookup s3 n3))
    ∧ (run 300 "var a = 1; var b = a; var c = 1; a++;").lookup 0 "b"
        = some (.number (Double.ofInt 2))
    ∧ (run 300 "var a = 1; var b = a; var c = 1; a++;").lookup 0 "c"
        = some (.number (Double.ofInt 1)) := by
  have halt : a < st.heap.length := by
    rcases Nat.lt_or_ge a st.heap.length with h | h
    · exact h
    · rw [List.getElem?_eq_none h] at hcell; cases hcell
  refine ⟨exec_identifier_bound fuel rg s name st a hs hx, ?_, ?_, by decide!⟩
  · intro rg1 sc1 data v st1 h
    unfold VM.exec at h
    cases hst : VM.stoll data with
    | none => simp only [hst] at h; cases h
    | some n =>
      simp only [hst, VM.alloc, ExecResult.ok.injEq] at h
      obtain ⟨rfl, _⟩ := h
      refine ⟨rfl, ?_⟩
      intro e
      cases e
      exact Nat.lt_irrefl _ halt
  · intro pre op d hop
    obtain ⟨h1, h2, h3, h4⟩ := execUni_step fuel sc rg s name st a x attrs hs hx hcell
    have post : ∀ (d : Double),
        ((st.heap ++ [(⟨.Number x, []⟩ : Value)]).set a ⟨.Number d, attrs⟩)[a]?
            = some ⟨.Number d, attrs⟩
        ∧ ∀ c, c ≠ a → c < st.heap.length →
            ((st.heap ++ [(⟨.Number x, []⟩ : Value)]).set a ⟨.Number d, attrs⟩)[c]?
              = st.heap[c]? := by
      intro d
      refine ⟨?_, ?_⟩
      · rw [List.getElem?_set_self (by rw [List.length_append]; omega)]
      · intro c hne hlt
        rw [List.getElem?_set_ne (Ne.symm hne), List.getElem?_append_left hlt]
    have pre_ : ∀ (d : Double),
        (st.heap.set a ⟨.Number d, attrs⟩)[a]? = some ⟨.Number d, attrs⟩
        ∧ ∀ c, c ≠ a → c < st.heap.length →
            (st.heap.set a ⟨.Number d, attrs⟩)[c]? = st.heap[c]? := by
      intro d
      refine ⟨?_, ?_⟩
      · rw [List.getElem?_set_self halt]
      · intro c hne hlt
        rw [List.getElem?_set_ne (Ne.symm hne)]
    rcases hop with ⟨rfl, rfl⟩ | ⟨rfl, rfl⟩
    · cases pre with
      | false =>
        exact ⟨_, _, h1, rfl, (post _).1, (post _).2,
          lookup_after_cell_update st _ a _ attrs rfl (post _).1 (post _).2⟩
      | true =>
        exact ⟨_, _, h2, rfl, (pre_ _).1, (pre_ _).2,
          lookup_after_cell_update st _ a _ attrs rfl (pre_ _).1 (pre_ _).2⟩
    · cases pre with
      | false =>
        exact ⟨_, _, h3, rfl, (post _).1, (post _).2,
          lookup_after_cell_update st _ a _ attrs rfl (post _).1 (post _).2⟩
      | true =>
        exact ⟨_, _, h4, rfl, (pre_ _).1, (pre_ _).2,
          lookup_after_cell_update st _ a _ attrs rfl (pre_ _).1 (pre_ _).2⟩

/-- Claim C34, witness: `x++` in a state whose program scope binds `x` to the number 5 at
address 6. -/
theorem increment_writes_the_cell_that_bindings_share_witness :
    Scope.getVar numberState.scopes 0 "x" = some 6
    ∧ numberState.heap[6]? = some ⟨.Number (Double.ofInt 5), []⟩
    ∧ VM.exec 1 (.Identifier ⟨default, some 0, "x"⟩) numberState = .ok (some 6) numberState :=
  ⟨rfl, rfl, (increment_writes_the_cell_that_bindings_share 0 none default 0 "x" numberState 6
    (Double.ofInt 5) [] (by decide) rfl rfl).1⟩

/-- Claim C35 (amended): a numeric literal whose lexeme begins with a run of decimal digits
that denotes an integer `n` below `2^63` evaluates to a new `Number` that holds
`double(n)`, whatever follows the run in the lexeme: a fraction, an exponent or the
letter of a base prefix.  The `Number` holds `n` itself, without rounding, whenever `n` is
a value of a `double`: every integer up to `2^53` is, and so are `2^53 + 2` and `2^60`.
From `2^63` on `std::stoll` throws.  The lexemes `3.7`, `010` and `0x10` are one number
token each and evaluate to 3, 10 and 0. -/
theorem number_literal_holds_its_leading_digits (fuel : Nat) (rg : PositionRange)
    (sc : Option Nat) (data : String) (st : VMState)
    (hne : leadingDigits data ≠ []) (hlt : digitsValue 0 (leadingDigits data) < 2 ^ 63) :
    VM.exec (fuel + 1) (.LiteralNumber rg sc data) st
      = .ok (some st.heap.length)
          { st with heap := st.heap ++
              [⟨.Number (Double.ofInt ((digitsValue 0 (leadingDigits data) : Nat) : Int)), []⟩] }
    ∧ (Double.representable (digitsValue 0 (leadingDigits data)) →
        (Double.ofInt ((digitsValue 0 (leadingDigits data) : Nat) : Int)).isNat
          (digitsValue 0 (leadingDigits data)))
    ∧ (digitsValue 0 (leadingDigits data) ≤ 2 ^ 53 →
        Double.representable (digitsValue 0 (leadingDigits data)))
    ∧ Double.representable (2 ^ 53 + 2) ∧ Double.representable (2 ^ 60)
    ∧ (∀ (f : Nat) (r : PositionRange) (s : Option Nat) (d : String) (s0 : VMState),
        leadingDigits d ≠ [] → 2 ^ 63 ≤ digitsValue 0 (leadingDigits d) →
        VM.exec (f + 1) (.LiteralNumber r s d) s0 = .stdException)
    ∧ lexemes "3.7 010 0x10"
        = some [(.NUMBER, "3.7"), (.NUMBER, "010"), (.NUMBER, "0x10"), (.END_OF_FILE, "")]
    ∧ (run 300 "var a=3.7;var b=010;var c=0x10;").lookup 0 "a" = some (.number (Double.ofInt 3))
    ∧ (run 300 "var a=3.7;var b=010;var c=0x10;").lookup 0 "b" = some (.number (Double.ofInt 10))
    ∧ (run 300 "var a=3.7;var b=010;var c=0x10;").lookup 0 "c" = some (.number (Double.ofInt 0)) := by
  refine ⟨?_, fun hrep => ofInt_isNat_of_representable _ hrep hlt, representable_of_le _,
    ⟨2 ^ 52 + 1, 1, by norm_num, by norm_num⟩, ⟨1, 60, by norm_num, by norm_num⟩, ?_,
    by decide!⟩
  · have he : (leadingDigits data).isEmpty = false := by
      cases h : leadingDigits data with
      | nil => exact absurd h hne
      | cons c r => rfl
    unfold VM.exec
    simp only [stoll_eq, he, Bool.false_eq_true, if_false, hlt, if_true, VM.alloc]
  · intro f r s d s0 hd hge
    have he : (leadingDigits d).isEmpty = false := by
      cases h : leadingDigits d with
      | nil => exact absurd h hd
      | cons c r => rfl
    have hn : ¬ digitsValue 0 (leadingDigits d) < 2 ^ 63 := by omega
    unfold VM.exec
    simp only [stoll_eq, he, Bool.false_eq_true, if_false, hn]

/-- Claim C35, witness: the lexeme `3.7`, whose leading digits denote 3. -/
theorem number_literal_holds_its_leading_digits_witness :
    leadingDigits "3.7" ≠ [] ∧ digitsValue 0 (leadingDigits "3.7") < 2 ^ 63
    ∧ VM.exec 1 (.LiteralNumber default none "3.7") witnessState
      = .ok (some witnessState.heap.length)
          { witnessState with heap := witnessState.heap ++
              [⟨.Number (Double.ofInt ((digitsValue 0 (leadingDigits "3.7") : Nat) : Int)), []⟩] } :=
  ⟨by decide, by decide,
    (number_literal_holds_its_leading_digits 0 default none "3.7" witnessState
      (by decide) (by decide)).1⟩


/-- Claim C35, counterexample: the leading digits of `9007199254740993` denote `2^53 + 1`,
which is no `double`; the literal evaluates to the `Number` `2^53`.  From `2^63` on
`std::stoll` throws `std::out_of_range`. -/
theorem number_literal_above_two_pow_53_is_rounded :
    digitsValue 0 (leadingDigits "9007199254740993") = 2 ^ 53 + 1
    ∧ VM.exec 1 (.LiteralNumber default none "9007199254740993") witnessState
      = .ok (some 6)
          { witnessState with heap := witnessState.heap ++
              [⟨.Number (Double.ofInt 9007199254740992), []⟩] }
    ∧ ¬ (Double.ofInt 9007199254740992).isNat (2 ^ 53 + 1)
    ∧ VM.exec 1 (.LiteralNumber default none "9223372036854775808") witnessState
      = .stdException := by
  refine ⟨by decide, ?_, ?_, ?_⟩
  · have e : Double.ofInt 9007199254740993 = Double.ofInt 9007199254740992 := by decide
    have hs : VM.stoll "9007199254740993" = some 9007199254740993 := by decide
    unfold VM.exec
    simp only [hs, VM.alloc, e]
    rfl
  · have e : Double.ofInt 9007199254740992 = .finite false (2 ^ 52) 1 := by decide
    rw [e]
    rintro ⟨m, t, ⟨h1, _⟩ | ⟨h1, h2⟩⟩
    · simp only [Double.finite.injEq, true_and] at h1
      omega
    · simp only [Double.finite.injEq, true_and] at h1
      obtain ⟨rfl, h3⟩ := h1
      have : t = 1 := by omega
      subst this
      norm_num at h2
  · have hs : VM.stoll "9223372036854775808" = none := by decide
    unfold VM.exec
    simp only [hs]

/-- Claim C36: the scan loop of `Lexer::process` ends on every source.  Every step of the
loop that has a defined result leaves the cursor at least one character further, so the
loop needs at most as many iterations as the source has characters and never more;
every inner loop that tests `forward < end` stops by its own guard within that many
iterations; a character that begins no rule is skipped without a token.  A source whose
scan meets no regular-expression literal that is not closed is scanned to its tokens: an
unterminated string or block comment ends the scan at the end of the source, and a number
with a leading zero is one token.  At a regular-expression literal that is not closed the
scan ends too, at the read beyond the terminator of the source. -/
theorem scan_loop_advances_and_ends_within_the_source :
    (∀ (src : List Char) (st st1 : LexState), processStep src st = some st1 →
        st.cur + 1 ≤ st1.cur)
    ∧ (∀ source : String, process source ≠ .fuelOut)
    ∧ (∀ source : String,
        (∀ s ∈ scanStates source.data source.data.length ⟨0, 0, 1, 1, []⟩,
          unclosedRegexAt source.data s = false) →
        ∃ ts, process source = .tokens ts)
    ∧ (∀ (src : List Char) (fuel : Nat) (st : LexState),
        (scanStates src fuel st).length ≤ fuel)
    ∧ (∀ (src : List Char) (k f l c cur : Nat),
        scanIdentifier src src.length (src.length + k) f c
            = scanIdentifier src src.length src.length f c
        ∧ (∀ q, scanQuoted src src.length q (src.length + k) f l c
            = scanQuoted src src.length q src.length f l c)
        ∧ scanLineComment src src.length (src.length + k) f c
            = scanLineComment src src.length src.length f c
        ∧ scanBlockComment src src.length (src.length + k) f l c
            = scanBlockComment src src.length src.length f l c
        ∧ scanOperator src src.length cur (src.length + k) f c
            = scanOperator src src.length cur src.length f c)
    ∧ (∀ (src : List Char) (st : LexState),
        isIdentifierFirst (src.getD st.cur (Char.ofNat 0)) = false →
        src.getD st.cur (Char.ofNat 0) ≠ '"' → src.getD st.cur (Char.ofNat 0) ≠ '\'' →
        src.getD st.cur (Char.ofNat 0) ≠ '/' →
        isDigit (src.getD st.cur (Char.ofNat 0)) = false →
        src.getD st.cur (Char.ofNat 0) ≠ '\n' →
        mapFind TOKEN_MAP (String.mk (substr src st.cur 1)) = none →
        processStep src st
          = some ⟨st.cur + 1, st.cur + 1, st.line, st.col + 1, st.tokens_⟩)
    ∧ lexemes "\"ab" = some [(.STRING, "\"ab"), (.END_OF_FILE, "")]
    ∧ lexemes "/*ab" = some [(.END_OF_FILE, "")]
    ∧ lexemes "09" = some [(.NUMBER, "09"), (.END_OF_FILE, "")]
    ∧ lexemes " \t#a" = some [(.IDENTIFIER, "a"), (.END_OF_FILE, "")]
    ∧ process "/ab" = .outOfBounds := by
  refine ⟨?_, process_ne_fuelOut, ?_, scanStates_length, ?_, ?_, by decide!⟩
  · intro src st st1 h
    exact (processStep_spec src st st1 h).1
  · intro source hs
    obtain ⟨ts, eof, h, _⟩ := process_tokens_of_closed source hs
    exact ⟨_, h⟩
  · intro src k f l c cur
    exact ⟨scanIdentifier_stable src _ k _ f c (by omega),
      fun q => scanQuoted_stable src _ q k _ f l c (by omega),
      scanLineComment_stable src _ k _ f c (by omega),
      scanBlockComment_stable src _ k _ f l c (by omega),
      scanOperator_stable src _ cur k _ f c (by omega)⟩
  · intro src st h1 h2 h3 h4 h5 h6 h7
    exact processStep_skip src st h1 h2 h3 h4 h5 h6 h7

/-- Claim C37, evaluated on the code: A step of the scan loop reads beyond the terminator exactly
when a regular-expression literal starts at the cursor and is not closed before the end of
the source: the loop over the flags then starts at an index greater than the length of the
source. So the source /a, and a regex that ends with a backslash, have no defined result,
while a string that ends with a backslash and a number that ends with an exponent mark are
scanned within the source and its terminator. -/
theorem flag_loop_of_unclosed_regex_reads_beyond_terminator :
    (∀ (src : List Char) (st : LexState), st.cur < src.length →
        (processStep src st = none ↔
          ((src.getD st.cur (Char.ofNat 0) == '/'
              && src.getD (st.cur + 1) (Char.ofNat 0) != '/'
              && src.getD (st.cur + 1) (Char.ofNat 0) != '*'
              && regexAllowed st.tokens_) = true
            ∧ src.length ≤
              (scanQuoted src src.length '/' src.length (st.cur + 1) st.line (st.col + 1)).1)))
    ∧ (∀ (src : List Char) (st : LexState),
        src.length ≤
            (scanQuoted src src.length '/' src.length (st.cur + 1) st.line (st.col + 1)).1 →
        src.length
            < (scanQuoted src src.length '/' src.length (st.cur + 1) st.line (st.col + 1)).1 + 1
          ∧ charAt src
              ((scanQuoted src src.length '/' src.length (st.cur + 1) st.line (st.col + 1)).1 + 1)
            = none)
    ∧ (∀ source : String, process source = .outOfBounds → '/' ∈ source.data)
    ∧ process "/a" = .outOfBounds
    ∧ charAt "/a".data 2 = some (Char.ofNat 0) ∧ charAt "/a".data 3 = none
    ∧ process "/a\\" = .outOfBounds
    ∧ lexemes "'a\\" = some [(.STRING, "'a\\"), (.END_OF_FILE, "")]
    ∧ lexemes "1e" = some [(.NUMBER, "1e"), (.END_OF_FILE, "")]
    ∧ lexemes "/a/" = some [(.REGULAR, "/a/"), (.END_OF_FILE, "")] := by
  refine ⟨?_, ?_, ?_, by decide!⟩
  · intro src st hcur
    exact processStep_eq_none_iff src st hcur
  · intro src st h
    exact ⟨by omega, charAt_gt src _ (by omega)⟩
  · intro source h
    exact processLoop_outOfBounds _ _ _ h

/-- Claim C38: On two cells that are not both of the class Number (the NaN singleton is not of
that class), the operator == yields a new Boolean that is true exactly when the two values
print alike, and === one that is true exactly when, in addition, their kinds are equal. So
two objects are equal under both, whatever their properties, null equals the empty string
under ==, and NaN equals NaN under both. -/
theorem equality_compares_what_the_values_print (l r : Nat) (st : VMState) (lc rc : Value)
    (hl : st.heap[l]? = some lc) (hr : st.heap[r]? = some rc)
    (hnot : ¬ ∃ a b, lc.data = .Number a ∧ rc.data = .Number b) :
    VM.eq (some l) (some r) st
        = .ok (some st.heap.length)
            { st with heap := st.heap ++ [⟨.Boolean (lc.toString == rc.toString), []⟩] }
    ∧ VM.teq (some l) (some r) st
        = .ok (some st.heap.length)
            { st with heap := st.heap ++
                [⟨.Boolean (decide (lc.type_ = rc.type_) && lc.toString == rc.toString), []⟩] }
    ∧ ((VM.eq (some l) (some r) st).obs = some (.bool true) ↔ lc.toString = rc.toString)
    ∧ ((VM.teq (some l) (some r) st).obs = some (.bool true)
        ↔ lc.type_ = rc.type_ ∧ lc.toString = rc.toString)
    ∧ (lc.data = .ObjectValue → rc.data = .ObjectValue →
        (VM.eq (some l) (some r) st).obs = some (.bool true)
        ∧ (VM.teq (some l) (some r) st).obs = some (.bool true))
    ∧ (lc.data = .NullValue → rc.data = .StringValue "" →
        (VM.eq (some l) (some r) st).obs = some (.bool true))
    ∧ (lc.data = .NotaNumber → rc.data = .NotaNumber →
        (VM.eq (some l) (some r) st).obs = some (.bool true)
        ∧ (VM.teq (some l) (some r) st).obs = some (.bool true)) := by
  have he := compare_of_not_both_numbers Double.eq (fun a b => a == b) l r st lc rc hl hr hnot
  have ht := teq_of_not_both_numbers l r st lc rc hl hr hnot
  have e1 : (VM.eq (some l) (some r) st).obs = some (.bool (lc.toString == rc.toString)) := by
    unfold VM.eq
    rw [he]
    exact obs_of_new_boolean st _
  have e2 : (VM.teq (some l) (some r) st).obs
      = some (.bool (decide (lc.type_ = rc.type_) && lc.toString == rc.toString)) := by
    rw [ht]
    exact obs_of_new_boolean st _
  refine ⟨he, ht, ?_, ?_, ?_, ?_, ?_⟩
  · rw [e1]
    simp
  · rw [e2]
    simp
  · intro h1 h2
    rw [e1, e2]
    simp [Value.toString, Value.type_, h1, h2]
  · intro h1 h2
    rw [e1]
    simp [Value.toString, h1, h2]
  · intro h1 h2
    rw [e1, e2]
    simp [Value.toString, Value.type_, h1, h2]

theorem equality_compares_what_the_values_print_witness :
    equalityState.heap[6]? = some ⟨.ObjectValue, [("x", some 0)]⟩
    ∧ equalityState.heap[7]? = some ⟨.ObjectValue, [("y", some 1)]⟩
    ∧ (VM.eq (some 6) (some 7) equalityState).obs = some (.bool true)
    ∧ (VM.teq (some 6) (some 7) equalityState).obs = some (.bool true) :=
  ⟨rfl, rfl,
    ((equality_compares_what_the_values_print 6 7 equalityState _ _ rfl rfl
      (by rintro ⟨a, b, h, _⟩; cases h)).2.2.2.2.1 rfl rfl).1,
    ((equality_compares_what_the_values_print 6 7 equalityState _ _ rfl rfl
      (by rintro ⟨a, b, h, _⟩; cases h)).2.2.2.2.1 rfl rfl).2⟩

/-- Claim C39, evaluated on the code: On the tokens of i++ the function forbegin consumes the
postfix operator and returns the bare operand, where expression returns the
UniExpression; on the tokens of c ? a : b it builds the TriExpression, drops it and goes
on to parse a right operand, so it throws where expression returns the TriExpression.
Neither token sequence holds the token in. In a program, the increment in the initialiser
of a for header is lost. -/
theorem forbegin_drops_increment_and_ternary :
    (∀ t ∈ tokensOf "i++;" ++ tokensOf "c ? a : b;", t.data_ ≠ "in")
    ∧ (Parser.expression 300 none ⟨tokensOf "i++;", []⟩).shapes
        = some [.uni "++" (.leaf "i") false]
    ∧ (Parser.forbegin 300 none ⟨tokensOf "i++;", []⟩).shapes = some [.leaf "i"]
    ∧ (Parser.expression 300 none ⟨tokensOf "c ? a : b;", []⟩).shapes
        = some [.tri (.leaf "c") (.leaf "a") (.leaf "b")]
    ∧ (Parser.forbegin 300 none ⟨tokensOf "c ? a : b;", []⟩).isParseError = true
    ∧ (run 300 "var i = 0; for (i++; false;) ;").lookup 0 "i"
        = some (.number (Double.ofInt 0)) := by
  constructor
  · decide!
  · decide!

/-- Claim C40, evaluated on the code: On two Numbers whose divisor truncates to the integer zero,
the function mod divides by zero: the remainder of 64-bit integers by zero is undefined,
and so is a program that evaluates 1 % 0; the operator %= calls the same function. With a
divisor that does not truncate
to zero (and not the least integer by -1), mod yields the Number that holds the remainder
of the two truncated operands. -/
theorem mod_divides_by_zero (l r : Nat) (st : VMState) (x y : Double)
    (la ra : List (String × ValuePtr)) (a : Int)
    (hl : st.heap[l]? = some ⟨.Number x, la⟩) (hr : st.heap[r]? = some ⟨.Number y, ra⟩)
    (hx : x.toInt64 = some a) :
    (y.toInt64 = some 0 → VM.mod (some l) (some r) st = .undefinedBehaviour)
    ∧ (∀ b, y.toInt64 = some b → b ≠ 0 → ¬ (a = -(2 : Int) ^ 63 ∧ b = -1) →
        VM.mod (some l) (some r) st
          = .ok (some st.heap.length)
              { st with heap := st.heap ++ [⟨.Number (Double.ofInt (Int.tmod a b)), []⟩] })
    ∧ VM.binaryOperator "%" = some VM.mod
    ∧ VM.compoundOperator "%=" = some VM.mod
    ∧ (run 300 "var r = 1 % 0;").outcome = .undefinedBehaviour := by
  refine ⟨?_, ?_, rfl, rfl, by decide!⟩
  · intro hy
    rw [mod_of_numbers l r st x y la ra a 0 hl hr hx hy, if_pos rfl]
  · intro b hy hb ho
    rw [mod_of_numbers l r st x y la ra a b hl hr hx hy, if_neg hb, if_neg ho]

theorem mod_divides_by_zero_witness :
    zeroDivisorState.heap[6]? = some ⟨.Number (Double.ofInt 1), []⟩
    ∧ zeroDivisorState.heap[7]? = some ⟨.Number (Double.ofInt 0), []⟩
    ∧ (Double.ofInt 1).toInt64 = some 1 ∧ (Double.ofInt 0).toInt64 = some 0
    ∧ VM.mod (some 6) (some 7) zeroDivisorState = .undefinedBehaviour :=
  have h1 : (Double.ofInt 1).toInt64 = some 1 := by decide!
  have h0 : (Double.ofInt 0).toInt64 = some 0 := by decide!
  ⟨rfl, rfl, h1, h0, (mod_divides_by_zero 6 7 zeroDivisorState _ _ [] [] 1 rfl rfl h1).1 h0⟩

end cl
